import Mathlib

/-!
# Scheduler, semaphores and locks: a shallow embedding

The definitions below follow `threads/thread.c`, `threads/synch.c` and
`lib/kernel/list.c` function by function.

* Thread and lock pointers are natural numbers; the thread table `kernel.threads`
  and the lock table `kernel.locks` play the role of memory.
* An intrusive `struct list` that has been through `list_init` is the Lean list of
  its interior elements, front to back.  A `struct list` that was only zero-filled
  is kept apart (`klist.zeroed`), because `list_begin` returns NULL on it.
* Every operation returns `Option kernel`; `none` means that the kernel does not
  complete the operation (a failed ASSERT, an invalid pointer access or a loop
  that never ends).
* An operation runs the calling thread until it returns or until `schedule`
  switches to another thread.  At a switch the pending work of the caller is
  saved in its thread as a list of frames (`thread.cont`), the counterpart of
  the saved `intr_frame`; `resume` runs the saved frames of the thread that was
  switched in.  After an operation returned `some s1`, the caller is still
  executing exactly when `s1.running` is still the caller.
* The interrupt enable flag (`intr_disable` / `intr_set_level`) is not part of
  the state: every function here runs as one atomic step.
-/

namespace Pintos

/-! ## lib/kernel/list.c -/

/-- The loop of list_insert_ordered: walk from the front, stop before the first
element `e` with `less elem e`, and insert `elem` there (at the tail when no
such element exists). -/
def list_insert_ordered {α : Type} (less : α → α → Bool) (elem : α) : List α → List α
  | [] => [elem]
  | e :: rest =>
    if less elem e then elem :: e :: rest
    else e :: list_insert_ordered less elem rest

/-- The function is_sorted of list.c: no element is LESS than its predecessor. -/
def is_sorted {α : Type} (less : α → α → Bool) : List α → Bool
  | [] => true
  | [_] => true
  | a :: b :: rest => !less b a && is_sorted less (b :: rest)

/-- The function find_end_of_run, on the range that starts at element `a` and is
followed by `rest`: returns the run of nondecreasing elements that starts at `a`
and the elements after the run. -/
def find_end_of_run {α : Type} (less : α → α → Bool) : α → List α → List α × List α
  | a, [] => ([a], [])
  | a, b :: rest =>
    if less b a then ([a], b :: rest)
    else ((a :: (find_end_of_run less b rest).1), (find_end_of_run less b rest).2)

/-- The while loop of inplace_merge on the two adjacent runs `as` (A0 to A1B0) and
`bs` (A1B0 to B1).  If the head of `bs` is not LESS than the head of `as`, A0
advances; otherwise the head of `bs` is spliced in front of A0.  The loop ends
when one range is empty.  Every iteration consumes one element, so the first
argument (the number of iterations left) is never the reason to stop when it
starts at the total length. -/
def inplace_merge_loop {α : Type} (less : α → α → Bool) : Nat → List α → List α → List α
  | 0, as, bs => as ++ bs
  | _ + 1, [], bs => bs
  | _ + 1, as, [] => as
  | n + 1, a :: as, b :: bs =>
    if !less b a then a :: inplace_merge_loop less n as (b :: bs)
    else b :: inplace_merge_loop less n (a :: as) bs

/-- The function inplace_merge of list.c. -/
def inplace_merge {α : Type} (less : α → α → Bool) (as bs : List α) : List α :=
  inplace_merge_loop less (as.length + bs.length) as bs

/-- One pass of the do-while body of list_sort (the for loop over A0): returns the
list after the pass and output_run_cnt.  The first argument bounds the number of
iterations of the for loop; every iteration consumes at least one element. -/
def list_sort_pass {α : Type} (less : α → α → Bool) : Nat → List α → List α × Nat
  | _, [] => ([], 0)
  | 0, xs => (xs, 0)
  | n + 1, a :: rest =>
    match (find_end_of_run less a rest).2 with
    | [] => ((find_end_of_run less a rest).1, 1)
    | b :: rest2 =>
      (inplace_merge less (find_end_of_run less a rest).1 (find_end_of_run less b rest2).1
          ++ (list_sort_pass less n (find_end_of_run less b rest2).2).1,
        (list_sort_pass less n (find_end_of_run less b rest2).2).2 + 1)

/-- The do-while loop of list_sort: passes are repeated while output_run_cnt > 1.
The result is `none` when the given number of passes is used up. -/
def list_sort_loop {α : Type} (less : α → α → Bool) : Nat → List α → Option (List α)
  | 0, _ => none
  | n + 1, xs =>
    if (list_sort_pass less xs.length xs).2 > 1 then
      list_sort_loop less n (list_sort_pass less xs.length xs).1
    else some (list_sort_pass less xs.length xs).1

/-- The function list_sort of list.c, with its final ASSERT (is_sorted).  A list of
n elements is given n + 1 passes. -/
def list_sort {α : Type} (less : α → α → Bool) (xs : List α) : Option (List α) :=
  match list_sort_loop less (xs.length + 1) xs with
  | none => none
  | some ys => if is_sorted less ys then some ys else none

/-! ## Data model (threads/thread.h, threads/synch.h) -/

/-- The states of a thread. -/
inductive thread_status
  | THREAD_RUNNING
  | THREAD_READY
  | THREAD_BLOCKED
  | THREAD_DYING
  deriving DecidableEq, Repr

/-- A `struct list` header as the code of lock_release sees it.  `zeroed` is a
header whose bytes are all zero (head.next is NULL): memory that was cleared by
memset but never passed to list_init.  `mk xs` is a list that went through
list_init and holds the interior elements `xs`. -/
inductive klist
  | zeroed
  | mk (elems : List Nat)
  deriving DecidableEq, Repr

/-- The interior elements of a list header (none for a zero-filled header). -/
def klist.elems : klist → List Nat
  | .zeroed => []
  | .mk xs => xs

/-- A semaphore is named either directly or as the semaphore embedded in a lock
(`&lock->semaphore`). -/
inductive sema_ref
  | sema (i : Nat)
  | lock_sema (l : Nat)
  deriving DecidableEq, Repr

/-- Pending work of a thread that was switched out inside a kernel function: what
the function (and its callers) still do once `schedule` returns in that thread. -/
inductive frame
  | sema_down_loop (sema : sema_ref)
  | lock_acquire_tail (lock : Nat)
  | allocate_tid_tail (dst : Nat)
  | thread_create_tail (t : Nat)
  | cond_wait_down (waiter : Nat) (lock : Nat)
  | cond_wait_acquire (lock : Nat)
  | cond_broadcast_loop (cond : Nat) (lock : Nat)
  deriving DecidableEq, Repr

/-- The fields of `struct thread` that the scheduler and the synchronisation code
read or write.  `cont` stands for the saved register frame `tf`. -/
structure thread where
  tid : Nat
  status : thread_status
  priority : Int
  wake_up_time : Int
  initial_priority : Int
  wait_on_lock : Option Nat
  donations : klist
  cont : List frame
  deriving DecidableEq, Repr

/-- Modelled from the spec: the declaration of `struct semaphore` (threads/synch.h)
is not among the sources; the data model of the spec gives a non-negative integer
`value` plus a waiter list. -/
structure semaphore where
  value : Nat
  waiters : List Nat
  deriving DecidableEq, Repr

/-- Modelled from the spec: the declaration of `struct lock` (threads/synch.h) is
not among the sources; the data model of the spec gives one `holder` field (the
owning thread, or none) plus an embedded binary semaphore. -/
structure lock where
  holder : Option Nat
  semaphore : Pintos.semaphore
  deriving DecidableEq, Repr

/-- One element of a condition variable's waiter list (`struct semaphore_elem` of
synch.c): the private semaphore of one waiter, named by its address in the
semaphore memory.  Modelled from the spec: the field `thread`.  The struct of the
source holds a list element and the semaphore only; the comparator that orders
these elements is not among the sources, and the spec has the waiter list store
the semaphores "together with enough thread identity to order them".  Here it is
the thread in whose stack frame of cond_wait the element lives. -/
structure semaphore_elem where
  semaphore : Nat
  thread : Nat
  deriving DecidableEq, Repr

/-- The global state of thread.c and timer.c together with the memory holding
threads, locks and semaphores. -/
structure kernel where
  threads : Nat → thread
  locks : Nat → lock
  semas : Nat → semaphore
  running : Nat
  ready_list : List Nat
  sleep_list : List Nat
  destruction_req : List Nat
  idle_thread : Option Nat
  initial_thread : Option Nat
  next_tid : Nat
  ticks : Int
  thread_ticks : Nat
  intr_context : Bool
  yield_on_return : Bool
  conds : Nat → List semaphore_elem := fun _ => []
  idle_ticks : Nat := 0
  kernel_ticks : Nat := 0

/-- Modelled from the spec: PRI_MIN of threads/thread.h (not among the sources),
the lowest priority, 0. -/
def PRI_MIN : Int := 0

/-- Modelled from the spec: PRI_DEFAULT of threads/thread.h (not among the
sources), 31. -/
def PRI_DEFAULT : Int := 31

/-- Modelled from the spec: PRI_MAX of threads/thread.h (not among the sources),
the highest priority, 63. -/
def PRI_MAX : Int := 63

/-- The constant MAX_DEPTH of synch.c. -/
def MAX_DEPTH : Nat := 8

/-- The address of the global `tid_lock` of thread.c in the lock table. -/
def tid_lock : Nat := 0

/-- Writes one thread structure. -/
def set_thread (s : kernel) (t : Nat) (v : thread) : kernel :=
  { s with threads := fun i => if i = t then v else s.threads i }

/-- Writes one lock structure. -/
def set_lock (s : kernel) (l : Nat) (v : lock) : kernel :=
  { s with locks := fun i => if i = l then v else s.locks i }

/-- Reads a semaphore through its reference. -/
def get_sema (s : kernel) : sema_ref → semaphore
  | .sema i => s.semas i
  | .lock_sema l => (s.locks l).semaphore

/-- Writes a semaphore through its reference. -/
def set_sema (s : kernel) (r : sema_ref) (v : semaphore) : kernel :=
  match r with
  | .sema i => { s with semas := fun j => if j = i then v else s.semas j }
  | .lock_sema l => set_lock s l { s.locks l with semaphore := v }

/-! ## threads/thread.c -/

/-- The comparator sort_priority: true when the thread of `a` has a strictly
higher priority than the thread of `b`. -/
def sort_priority (s : kernel) (a b : Nat) : Bool :=
  decide ((s.threads a).priority > (s.threads b).priority)

/-- The comparator sort_wakeup_time: true when the thread of `a` wakes strictly
earlier than the thread of `b`. -/
def sort_wakeup_time (s : kernel) (a b : Nat) : Bool :=
  decide ((s.threads a).wake_up_time < (s.threads b).wake_up_time)

/-- The function thread_current with its ASSERT that the running thread has status
THREAD_RUNNING. -/
def thread_current (s : kernel) : Option Nat :=
  if (s.threads s.running).status = .THREAD_RUNNING then some s.running else none

/-- What memset (t, 0, sizeof *t) leaves in a thread structure. -/
def thread_zero : thread :=
  { tid := 0, status := .THREAD_RUNNING, priority := 0, wake_up_time := 0,
    initial_priority := 0, wait_on_lock := none, donations := .zeroed, cont := [] }

/-- The function init_thread: ASSERT on the priority range, memset to zero, then
status, priority (name, stack pointer and magic are not modelled).  The fields
initial_priority and donations are left as memset left them. -/
def init_thread (t : Nat) (priority : Int) (s : kernel) : Option kernel :=
  if PRI_MIN ≤ priority ∧ priority ≤ PRI_MAX then
    some (set_thread s t { thread_zero with status := .THREAD_BLOCKED, priority := priority })
  else none

/-- The function next_thread_to_run: the idle thread when the ready list is empty,
otherwise the popped head of the ready list. -/
def next_thread_to_run (s : kernel) : Option Nat × kernel :=
  match s.ready_list with
  | [] => (s.idle_thread, s)
  | t :: rest => (some t, { s with ready_list := rest })

/-- The function thread_launch: saves the context of the running thread (its
pending frames `k`) and continues in thread `next`. -/
def thread_launch (k : List frame) (next : Nat) (s : kernel) : kernel :=
  { set_thread s s.running { s.threads s.running with cont := k } with running := next }

/-- The function schedule. -/
def schedule (k : List frame) (s : kernel) : Option kernel :=
  match next_thread_to_run s with
  | (none, _) => none
  | (some next, s1) =>
    if (s1.threads s1.running).status = .THREAD_RUNNING then none
    else
      let s2 := { set_thread s1 next { s1.threads next with status := .THREAD_RUNNING }
                  with thread_ticks := 0 }
      if s2.running ≠ next then
        if (s2.threads s2.running).status = .THREAD_DYING ∧ some s2.running ≠ s2.initial_thread then
          some (thread_launch k next
            { s2 with destruction_req := s2.destruction_req ++ [s2.running] })
        else some (thread_launch k next s2)
      else some s2

/-- The function do_schedule: frees the pages queued in destruction_req, stores the
new status of the running thread, and calls schedule. -/
def do_schedule (status : thread_status) (k : List frame) (s : kernel) : Option kernel :=
  match thread_current s with
  | none => none
  | some cur =>
    schedule k (set_thread { s with destruction_req := [] } cur
      { s.threads cur with status := status })

/-- The function thread_block. -/
def thread_block (k : List frame) (s : kernel) : Option kernel :=
  if s.intr_context then none
  else
    match thread_current s with
    | none => none
    | some cur => schedule k (set_thread s cur { s.threads cur with status := .THREAD_BLOCKED })

/-- The function thread_unblock: ASSERT that `t` is blocked, ordered insertion into
the ready list by sort_priority, status THREAD_READY. -/
def thread_unblock (t : Nat) (s : kernel) : Option kernel :=
  if (s.threads t).status = .THREAD_BLOCKED then
    some (set_thread
      { s with ready_list := list_insert_ordered (sort_priority s) t s.ready_list }
      t { s.threads t with status := .THREAD_READY })
  else none

/-- The function thread_yield. -/
def thread_yield (k : List frame) (s : kernel) : Option kernel :=
  match thread_current s with
  | none => none
  | some curr =>
    if s.intr_context then none
    else if some curr ≠ s.idle_thread then
      do_schedule .THREAD_READY k
        { s with ready_list := list_insert_ordered (sort_priority s) curr s.ready_list }
    else do_schedule .THREAD_READY k s

/-- The function change_list: the preemption check. -/
def change_list (k : List frame) (s : kernel) : Option kernel :=
  match thread_current s with
  | none => none
  | some cur =>
    match s.ready_list with
    | [] => some s
    | front :: _ =>
      if (s.threads cur).priority < (s.threads front).priority then thread_yield k s
      else some s

/-- The function thread_set_priority. -/
def thread_set_priority (new_priority : Int) (k : List frame) (s : kernel) : Option kernel :=
  match thread_current s with
  | none => none
  | some cur =>
    change_list k (set_thread s cur { s.threads cur with priority := new_priority })

/-- The function thread_get_priority. -/
def thread_get_priority (s : kernel) : Option Int :=
  match thread_current s with
  | none => none
  | some cur => some (s.threads cur).priority

/-! ## threads/synch.c -/

/-- The function sema_init. -/
def sema_init (sema : sema_ref) (value : Nat) (s : kernel) : kernel :=
  set_sema s sema { value := value, waiters := [] }

/-- The while loop of sema_down followed by the decrement, entered at the loop
test.  While the value is 0 the caller inserts itself into the waiters by
sort_priority and calls thread_block; its pending work is this loop again.  When
thread_block comes back without a switch (schedule picked the caller itself) the
value is still 0 and the loop would never end: the result is `none`. -/
def sema_down_loop (sema : sema_ref) (k : List frame) (s : kernel) : Option kernel :=
  if (get_sema s sema).value = 0 then
    match thread_current s with
    | none => none
    | some cur =>
      match thread_block (frame.sema_down_loop sema :: k)
          (set_sema s sema { get_sema s sema with
            waiters := list_insert_ordered (sort_priority s) cur (get_sema s sema).waiters }) with
      | none => none
      | some s2 => if s2.running = cur then none else some s2
  else
    some (set_sema s sema { get_sema s sema with value := (get_sema s sema).value - 1 })

/-- The function sema_down. -/
def sema_down (sema : sema_ref) (k : List frame) (s : kernel) : Option kernel :=
  if s.intr_context then none else sema_down_loop sema k s

/-- The function sema_try_down: the new state and the returned flag. -/
def sema_try_down (sema : sema_ref) (s : kernel) : kernel × Bool :=
  if (get_sema s sema).value > 0 then
    (set_sema s sema { get_sema s sema with value := (get_sema s sema).value - 1 }, true)
  else (s, false)

/-- The function sema_up: sort the waiters by sort_priority, unblock the popped
front if there is one, increment the value, run the preemption check.  The
counter `value` is an unsigned int (sema_init fills it from an unsigned
parameter): `sema->value++` wraps from UINT_MAX = 2 ^ 32 - 1 to 0. -/
def sema_up (sema : sema_ref) (k : List frame) (s : kernel) : Option kernel :=
  match list_sort (sort_priority s) (get_sema s sema).waiters with
  | none => none
  | some [] =>
    change_list k
      (set_sema s sema { value := ((get_sema s sema).value + 1) % 2 ^ 32, waiters := [] })
  | some (t :: rest) =>
    match thread_unblock t (set_sema s sema { get_sema s sema with waiters := rest }) with
    | none => none
    | some s2 =>
      change_list k
        (set_sema s2 sema
          { get_sema s2 sema with value := ((get_sema s2 sema).value + 1) % 2 ^ 32 })

/-- The function lock_init. -/
def lock_init (l : Nat) (s : kernel) : kernel :=
  set_lock s l { holder := none, semaphore := { value := 1, waiters := [] } }

/-- The while loop of donate_priority for donor thread `t`, entered with lock `l`
and with `n` = MAX_DEPTH - depth iterations left. -/
def donate_priority_loop : Nat → Option Nat → Nat → kernel → kernel
  | 0, _, _, s => s
  | _ + 1, none, _, s => s
  | n + 1, some l, t, s =>
    match (s.locks l).holder with
    | none => s
    | some h =>
      if (s.threads h).priority < (s.threads t).priority then
        donate_priority_loop n (s.threads h).wait_on_lock t
          (set_thread s h { s.threads h with priority := (s.threads t).priority })
      else donate_priority_loop n (s.threads h).wait_on_lock t s

/-- The function donate_priority. -/
def donate_priority (s : kernel) : Option kernel :=
  match thread_current s with
  | none => none
  | some t => some (donate_priority_loop MAX_DEPTH (s.threads t).wait_on_lock t s)

/-- The two statements of lock_acquire after sema_down: the running thread becomes
the holder and its wait_on_lock is cleared. -/
def lock_acquire_tail (l : Nat) (s : kernel) : kernel :=
  set_thread (set_lock s l { s.locks l with holder := some s.running }) s.running
    { s.threads s.running with wait_on_lock := none }

/-- The function lock_acquire. -/
def lock_acquire (l : Nat) (k : List frame) (s : kernel) : Option kernel :=
  match thread_current s with
  | none => none
  | some cur =>
    if s.intr_context then none
    else if (s.locks l).holder = some cur then none
    else
      match (if (s.locks l).holder ≠ none then
              donate_priority (set_thread s cur { s.threads cur with wait_on_lock := some l })
            else some (set_thread s cur { s.threads cur with wait_on_lock := some l })) with
      | none => none
      | some s2 =>
        match sema_down (.lock_sema l) (frame.lock_acquire_tail l :: k) s2 with
        | none => none
        | some s3 => if s3.running = cur then some (lock_acquire_tail l s3) else some s3

/-- The function lock_try_acquire: the new state and the returned flag. -/
def lock_try_acquire (l : Nat) (s : kernel) : Option (kernel × Bool) :=
  match thread_current s with
  | none => none
  | some cur =>
    if (s.locks l).holder = some cur then none
    else if (sema_try_down (.lock_sema l) s).2 then
      some (set_lock (sema_try_down (.lock_sema l) s).1 l
        { ((sema_try_down (.lock_sema l) s).1.locks l) with holder := some cur }, true)
    else some ((sema_try_down (.lock_sema l) s).1, false)

/-- Modelled from the spec: the comparator sort_donate_priority is called in
synch.c but defined in none of the sources.  On the donations list the spec takes
the maximum donor priority from the sorted list, so the comparator orders donors
by effective priority, highest first. -/
def sort_donate_priority (s : kernel) (a b : Nat) : Bool :=
  decide ((s.threads a).priority > (s.threads b).priority)

/-- The for loop of lock_release over an initialised donations list: every donor
whose wait_on_lock is the released lock is removed. -/
def remove_donors (s : kernel) (l : Nat) : List Nat → List Nat
  | [] => []
  | e :: rest =>
    if (s.threads e).wait_on_lock = some l then remove_donors s l rest
    else e :: remove_donors s l rest

/-- The function lock_release.  On a zero-filled donations header list_begin
returns NULL, which differs from list_end, so the loop body runs with e = NULL:
it reads through list_entry (NULL) and then list_remove or list_next fails its
ASSERT; the function does not complete. -/
def lock_release (l : Nat) (k : List frame) (s : kernel) : Option kernel :=
  match thread_current s with
  | none => none
  | some cur =>
    if (s.locks l).holder ≠ some cur then none
    else
      match (s.threads cur).donations with
      | .zeroed => none
      | .mk ds =>
        match remove_donors s l ds with
        | [] =>
          sema_up (.lock_sema l) k
            (set_lock (set_thread s cur { s.threads cur with
                donations := .mk [], priority := (s.threads cur).initial_priority })
              l { s.locks l with holder := none })
        | d :: ds1 =>
          match list_sort (sort_donate_priority s) (d :: ds1) with
          | none => none
          | some [] => none
          | some (f :: fs) =>
            sema_up (.lock_sema l) k
              (set_lock (set_thread s cur { s.threads cur with
                  donations := .mk (f :: fs), priority := (s.threads f).priority })
                l { s.locks l with holder := none })

/-- The function lock_held_by_current_thread. -/
def lock_held_by_current_thread (l : Nat) (s : kernel) : Option Bool :=
  match thread_current s with
  | none => none
  | some cur => some (decide ((s.locks l).holder = some cur))

/-! ## Thread creation (threads/thread.c) -/

/-- The statements of allocate_tid after lock_acquire (&tid_lock): take next_tid,
increment it, release the lock.  The returned tid is stored in the thread `dst`
that both callers assign it to (`t->tid = allocate_tid ()`); the store is done
here, before lock_release, where the callers do it after allocate_tid returns. -/
def allocate_tid_tail (dst : Nat) (k : List frame) (s : kernel) : Option kernel :=
  lock_release tid_lock k
    (set_thread { s with next_tid := s.next_tid + 1 } dst { s.threads dst with tid := s.next_tid })

/-- The function allocate_tid, storing its result in the tid field of `dst`. -/
def allocate_tid (dst : Nat) (k : List frame) (s : kernel) : Option kernel :=
  match lock_acquire tid_lock (frame.allocate_tid_tail dst :: k) s with
  | none => none
  | some s1 => if s1.running = s.running then allocate_tid_tail dst k s1 else some s1

/-- The statements of thread_create after allocate_tid: thread_unblock (t) and the
preemption check. -/
def thread_create_tail (t : Nat) (k : List frame) (s : kernel) : Option kernel :=
  match thread_unblock t s with
  | none => none
  | some s1 => change_list k s1

/-- The function thread_create.  `page` is the result of palloc_get_page: the
address of the new thread structure, or none when the allocation fails (the
function then returns TID_ERROR and the state is unchanged). -/
def thread_create (page : Option Nat) (priority : Int) (k : List frame) (s : kernel) :
    Option kernel :=
  match page with
  | none => some s
  | some t =>
    match init_thread t priority s with
    | none => none
    | some s1 =>
      match allocate_tid t (frame.thread_create_tail t :: k) s1 with
      | none => none
      | some s2 => if s2.running = s.running then thread_create_tail t k s2 else some s2

/-- The function thread_init: the global lists and tid_lock are initialised and the
running code becomes the thread "main". -/
def thread_init (s : kernel) : Option kernel :=
  match init_thread s.running PRI_DEFAULT
      { lock_init tid_lock s with
        ready_list := [], destruction_req := [], sleep_list := [],
        initial_thread := some s.running } with
  | none => none
  | some s1 =>
    allocate_tid s.running []
      (set_thread s1 s.running { s1.threads s.running with status := .THREAD_RUNNING })


/-! ## Sleeping threads (threads/thread.c) and the timer (devices/timer.c) -/

/-- The constant TIME_SLICE of thread.c. -/
def TIME_SLICE : Nat := 4

/-- The largest value of an int64_t. -/
def INT64_MAX : Int := 9223372036854775807

/-- The smallest value of an int64_t. -/
def INT64_MIN : Int := -9223372036854775808

/-- The function thread_sleep: unless the caller is the idle thread, it stores the
wake-up tick, inserts the caller into sleep_list by sort_wakeup_time (the
comparator already reads the new wake-up tick of the caller) and blocks. -/
def thread_sleep (tick : Int) (k : List frame) (s : kernel) : Option kernel :=
  match thread_current s with
  | none => none
  | some cur =>
    if some cur ≠ s.idle_thread then
      thread_block k
        { set_thread s cur { s.threads cur with wake_up_time := tick } with
          sleep_list :=
            list_insert_ordered
              (sort_wakeup_time (set_thread s cur { s.threads cur with wake_up_time := tick }))
              cur s.sleep_list }
    else some s

/-- The while loop of thread_wakeup over the sleep list `sl` (the current content
of sleep_list): while the front thread has wake_up_time ≤ tick it is popped
and unblocked; the loop stops at the first thread that wakes later. -/
def thread_wakeup_loop (tick : Int) : List Nat → kernel → Option kernel
  | [], s => some { s with sleep_list := [] }
  | t :: rest, s =>
    if tick ≥ (s.threads t).wake_up_time then
      match thread_unblock t { s with sleep_list := rest } with
      | none => none
      | some s1 => thread_wakeup_loop tick rest s1
    else some { s with sleep_list := t :: rest }

/-- The function thread_wakeup. -/
def thread_wakeup (tick : Int) (s : kernel) : Option kernel :=
  thread_wakeup_loop tick s.sleep_list s

/-- Modelled from the spec: intr_yield_on_return of threads/interrupt.c (not among
the sources): the handler asks for a yield of the interrupted thread when the
interrupt returns. -/
def intr_yield_on_return (s : kernel) : kernel :=
  { s with yield_on_return := true }

/-- The function thread_tick: statistics (the USERPROG branch is not compiled in),
then the time slice.  The counter thread_ticks is an unsigned int. -/
def thread_tick (s : kernel) : Option kernel :=
  match thread_current s with
  | none => none
  | some t =>
    let s1 : kernel :=
      if some t = s.idle_thread then { s with idle_ticks := s.idle_ticks + 1 }
      else { s with kernel_ticks := s.kernel_ticks + 1 }
    let s2 : kernel := { s1 with thread_ticks := (s1.thread_ticks + 1) % 2 ^ 32 }
    if s2.thread_ticks ≥ TIME_SLICE then some (intr_yield_on_return s2) else some s2

/-- The function timer_ticks. -/
def timer_ticks (s : kernel) : Int := s.ticks

/-- The function timer_elapsed. -/
def timer_elapsed (s : kernel) (then_ : Int) : Int := timer_ticks s - then_

/-- The function timer_sleep.  Its ASSERT wants interrupts on; the interrupt level
is modelled as far as this: inside an external interrupt handler they are off.
The sum timer_ticks () + ticks is an int64_t; when it leaves the int64_t range
the C program has no defined result. -/
def timer_sleep (ticks : Int) (k : List frame) (s : kernel) : Option kernel :=
  if s.intr_context then none
  else if timer_ticks s + ticks > INT64_MAX ∨ timer_ticks s + ticks < INT64_MIN then none
  else thread_sleep (timer_ticks s + ticks) k s

/-- The function timer_interrupt, the body of the timer interrupt handler: one more
tick, thread_tick, thread_wakeup at the new tick.  The counter `ticks` is an
int64_t; past INT64_MAX the increment has no defined result. -/
def timer_interrupt (s : kernel) : Option kernel :=
  if s.ticks + 1 > INT64_MAX then none
  else
    match thread_tick { s with ticks := s.ticks + 1 } with
    | none => none
    | some s1 => thread_wakeup s1.ticks s1

/-- Modelled from the spec: the interrupt entry code of threads/interrupt.c is not
among the sources.  An external interrupt arrives while a thread runs with
interrupts on; the handler runs in interrupt context, and on return the
interrupted thread yields when the handler asked for it ("preemption of the
running thread is effected by intr_yield_on_return"). -/
def intr_handler (handler : kernel → Option kernel) (k : List frame) (s : kernel) :
    Option kernel :=
  if s.intr_context then none
  else
    match handler { s with intr_context := true, yield_on_return := false } with
    | none => none
    | some s1 =>
      if s1.yield_on_return then thread_yield k { s1 with intr_context := false }
      else some { s1 with intr_context := false }

/-! ## Condition variables (threads/synch.c) and thread_exit -/

/-- Modelled from the spec: the comparator sort_donate_priority, applied by
cond_wait and cond_signal to the elements of a condition's waiter list, is
defined in none of the sources.  The spec orders these elements "by the waiter
thread's current effective priority", highest first. -/
def sort_donate_priority_sema (s : kernel) (a b : semaphore_elem) : Bool :=
  decide ((s.threads a.thread).priority > (s.threads b.thread).priority)

/-- Writes the waiter list of one condition variable. -/
def set_cond (s : kernel) (c : Nat) (v : List semaphore_elem) : kernel :=
  { s with conds := fun i => if i = c then v else s.conds i }

/-- The function cond_init. -/
def cond_init (c : Nat) (s : kernel) : kernel := set_cond s c []

/-- The statements of cond_wait after lock_release: sema_down on the private
semaphore, then lock_acquire. -/
def cond_wait_down (w l : Nat) (k : List frame) (s : kernel) : Option kernel :=
  match sema_down (.sema w) (frame.cond_wait_acquire l :: k) s with
  | none => none
  | some s1 => if s1.running = s.running then lock_acquire l k s1 else some s1

/-- The function cond_wait.  `w` is the address of the local variable `waiter`;
its semaphore is the semaphore at `w` in the semaphore memory. -/
def cond_wait (c l w : Nat) (k : List frame) (s : kernel) : Option kernel :=
  if s.intr_context then none
  else
    match thread_current s with
    | none => none
    | some cur =>
      if (s.locks l).holder ≠ some cur then none
      else
        match lock_release l (frame.cond_wait_down w l :: k)
            (set_cond (sema_init (.sema w) 0 s) c
              (list_insert_ordered (sort_donate_priority_sema (sema_init (.sema w) 0 s))
                { semaphore := w, thread := cur } ((sema_init (.sema w) 0 s).conds c))) with
        | none => none
        | some s3 => if s3.running = cur then cond_wait_down w l k s3 else some s3

/-- The function cond_signal: with a non-empty waiter list, sort it by
sort_donate_priority, pop the front and sema_up its semaphore. -/
def cond_signal (c l : Nat) (k : List frame) (s : kernel) : Option kernel :=
  if s.intr_context then none
  else
    match thread_current s with
    | none => none
    | some cur =>
      if (s.locks l).holder ≠ some cur then none
      else
        match s.conds c with
        | [] => some s
        | e :: es =>
          match list_sort (sort_donate_priority_sema s) (e :: es) with
          | none => none
          | some [] => none
          | some (f :: fs) => sema_up (.sema f.semaphore) k (set_cond s c fs)

/-- The while loop of cond_broadcast, with a bound on the number of iterations;
`none` when the bound is used up. -/
def cond_broadcast_loop (c l : Nat) (k : List frame) : Nat → kernel → Option kernel
  | 0, _ => none
  | n + 1, s =>
    match s.conds c with
    | [] => some s
    | _ :: _ =>
      match cond_signal c l (frame.cond_broadcast_loop c l :: k) s with
      | none => none
      | some s1 => if s1.running = s.running then cond_broadcast_loop c l k n s1 else some s1

/-- The function cond_broadcast.  Every cond_signal that returns has popped one
waiter, so one iteration per waiter plus the final test is enough. -/
def cond_broadcast (c l : Nat) (k : List frame) (s : kernel) : Option kernel :=
  cond_broadcast_loop c l k ((s.conds c).length + 1) s

/-- The function thread_exit (USERPROG is not compiled in).  NOT_REACHED fails when
do_schedule comes back in the same thread. -/
def thread_exit (k : List frame) (s : kernel) : Option kernel :=
  if s.intr_context then none
  else
    match do_schedule .THREAD_DYING k s with
    | none => none
    | some s1 => if s1.running = s.running then none else some s1


/-! ## Resuming a thread after a switch -/

/-- Runs one saved frame with the frames `k` below it as pending work. -/
def run_frame (f : frame) (k : List frame) (s : kernel) : Option kernel :=
  match f with
  | .sema_down_loop sema => sema_down_loop sema k s
  | .lock_acquire_tail l => some (lock_acquire_tail l s)
  | .allocate_tid_tail dst => allocate_tid_tail dst k s
  | .thread_create_tail t => thread_create_tail t k s
  | .cond_wait_down w l => cond_wait_down w l k s
  | .cond_wait_acquire l => lock_acquire l k s
  | .cond_broadcast_loop c l => cond_broadcast c l k s

/-- Runs saved frames from the top until all are done or the thread is switched
out again. -/
def run_frames : List frame → kernel → Option kernel
  | [], s => some s
  | f :: k, s =>
    match run_frame f k s with
    | none => none
    | some s1 => if s1.running = s.running then run_frames k s1 else some s1

/-- What the thread that schedule switched to does first: it continues its saved
frames. -/
def resume (s : kernel) : Option kernel :=
  run_frames (s.threads s.running).cont
    (set_thread s s.running { s.threads s.running with cont := [] })

/-! ## Runs of public operations -/

/-- The public operations a running thread can call (thread code calls them with
no pending kernel work of its own). -/
inductive call
  | thread_create (page : Option Nat) (priority : Int)
  | thread_yield
  | thread_set_priority (new_priority : Int)
  | sema_down (sema : sema_ref)
  | sema_try_down (sema : sema_ref)
  | sema_up (sema : sema_ref)
  | lock_acquire (l : Nat)
  | lock_try_acquire (l : Nat)
  | lock_release (l : Nat)
  | sema_init (sema : sema_ref) (value : Nat)
  | lock_init (l : Nat)
  | cond_init (c : Nat)
  | cond_wait (c l w : Nat)
  | cond_signal (c l : Nat)
  | cond_broadcast (c l : Nat)
  | timer_sleep (ticks : Int)
  | timer_interrupt
  | thread_exit
  deriving DecidableEq, Repr

/-- The running thread calls one public operation. -/
def do_call (c : call) (s : kernel) : Option kernel :=
  match c with
  | .thread_create page priority => thread_create page priority [] s
  | .thread_yield => thread_yield [] s
  | .thread_set_priority p => thread_set_priority p [] s
  | .sema_down sema => sema_down sema [] s
  | .sema_try_down sema => some (sema_try_down sema s).1
  | .sema_up sema => sema_up sema [] s
  | .lock_acquire l => lock_acquire l [] s
  | .lock_try_acquire l =>
    match lock_try_acquire l s with
    | none => none
    | some r => some r.1
  | .lock_release l => lock_release l [] s
  | .sema_init sema value => some (sema_init sema value s)
  | .lock_init l => some (lock_init l s)
  | .cond_init c => some (cond_init c s)
  | .cond_wait c l w => cond_wait c l w [] s
  | .cond_signal c l => cond_signal c l [] s
  | .cond_broadcast c l => cond_broadcast c l [] s
  | .timer_sleep ticks => timer_sleep ticks [] s
  | .timer_interrupt => intr_handler timer_interrupt [] s
  | .thread_exit => thread_exit [] s

/-- One step of a run: the running thread first finishes the kernel work it was
switched out in (nothing, if it was not), then calls `c`.  When that kernel
work itself ends in a switch to another thread, the step ends there and `c` is
not called. -/
def exec (c : call) (s : kernel) : Option kernel :=
  match resume s with
  | none => none
  | some s1 => if s1.running = s.running then do_call c s1 else some s1

/-- A run: each call is made by whichever thread is running at that point. -/
def run_calls : List call → kernel → Option kernel
  | [], s => some s
  | c :: cs, s =>
    match exec c s with
    | none => none
    | some s1 => run_calls cs s1

/-! ## Sleeping for real-time intervals (devices/timer.c) -/

/-- The while loop of busy_wait, `while (loops-- > 0) barrier ();`, with a bound on
the number of iterations: the number of calls of barrier. -/
def busy_wait_loop : Nat → Int → Nat
  | 0, _ => 0
  | n + 1, loops => if loops > 0 then busy_wait_loop n (loops - 1) + 1 else 0

/-- The function busy_wait: the number of calls of barrier it makes.  The last
evaluation of `loops--` still decrements; below INT64_MIN that has no defined
result. -/
def busy_wait (loops : Int) : Option Nat :=
  if min loops 0 - 1 < INT64_MIN then none
  else some (busy_wait_loop loops.toNat loops)

/-- The function real_time_sleep.  TIMER_FREQ (devices/timer.h, not among the
sources) is the parameter `freq`, the calibrated global loops_per_tick (an
unsigned int) is the parameter `loops_per_tick`.  The arithmetic is that of
int64_t with division truncating toward zero; an overflow or a division by zero
has no defined result.  The ASSERT on the interrupt level is modelled as in
timer_sleep.  The result is the new state and the number of iterations of the
busy-wait loop (0 when timer_sleep is called instead). -/
def real_time_sleep (freq : Int) (loops_per_tick : Nat) (num denom : Int) (k : List frame)
    (s : kernel) : Option (kernel × Nat) :=
  if num * freq > INT64_MAX ∨ num * freq < INT64_MIN ∨ denom = 0 then none
  else if s.intr_context then none
  else if Int.tdiv (num * freq) denom > 0 then
    match timer_sleep (Int.tdiv (num * freq) denom) k s with
    | none => none
    | some s1 => some (s1, 0)
  else if Int.tmod denom 1000 ≠ 0 then none
  else if (loops_per_tick : Int) * num > INT64_MAX ∨ (loops_per_tick : Int) * num < INT64_MIN
      then none
  else if Int.tdiv ((loops_per_tick : Int) * num) 1000 * freq > INT64_MAX
      ∨ Int.tdiv ((loops_per_tick : Int) * num) 1000 * freq < INT64_MIN then none
  else if Int.tdiv denom 1000 = 0 then none
  else
    match busy_wait (Int.tdiv (Int.tdiv ((loops_per_tick : Int) * num) 1000 * freq)
        (Int.tdiv denom 1000)) with
    | none => none
    | some n => some (s, n)

/-- The function timer_msleep. -/
def timer_msleep (freq : Int) (loops_per_tick : Nat) (ms : Int) (k : List frame) (s : kernel) :
    Option (kernel × Nat) :=
  real_time_sleep freq loops_per_tick ms 1000 k s

/-- The function timer_usleep. -/
def timer_usleep (freq : Int) (loops_per_tick : Nat) (us : Int) (k : List frame) (s : kernel) :
    Option (kernel × Nat) :=
  real_time_sleep freq loops_per_tick us (1000 * 1000) k s

/-- The function timer_nsleep. -/
def timer_nsleep (freq : Int) (loops_per_tick : Nat) (ns : Int) (k : List frame) (s : kernel) :
    Option (kernel × Nat) :=
  real_time_sleep freq loops_per_tick ns (1000 * 1000 * 1000) k s

/-! ## Definitions used in the statements and proofs -/

/-- Number of places in a list where an element is LESS than its predecessor
(the number of runs that find_end_of_run finds, minus one). -/
def descents {α : Type} (less : α → α → Bool) : List α → Nat
  | [] => 0
  | [_] => 0
  | a :: b :: rest => (if less b a then 1 else 0) + descents less (b :: rest)

/-- A thread structure as init_thread leaves it (initial_priority 0, donations
zero-filled), with the given status and priority. -/
def mk_thread (st : thread_status) (p : Int) : thread :=
  { thread_zero with status := st, priority := p }

/-- Example state: thread 1 runs at priority 30; threads 2, 3, 4 are ready at
priorities 25, 20, 10; thread 4 holds lock 1; thread 5 is blocked at priority 20;
thread 0 is the idle thread. -/
def ex_ready : kernel :=
  { threads := fun i =>
      match i with
      | 1 => mk_thread .THREAD_RUNNING 30
      | 2 => mk_thread .THREAD_READY 25
      | 3 => mk_thread .THREAD_READY 20
      | 4 => mk_thread .THREAD_READY 10
      | 5 => mk_thread .THREAD_BLOCKED 20
      | _ => mk_thread .THREAD_BLOCKED 0,
    locks := fun i =>
      match i with
      | 1 => { holder := some 4, semaphore := { value := 0, waiters := [] } }
      | _ => { holder := none, semaphore := { value := 1, waiters := [] } },
    semas := fun _ => { value := 0, waiters := [] },
    running := 1, ready_list := [2, 3, 4], sleep_list := [], destruction_req := [],
    idle_thread := some 0, initial_thread := some 1, next_tid := 6, ticks := 0,
    thread_ticks := 0, intr_context := false, yield_on_return := false }

/-- Start state of the donation runs: thread 1 (L) runs at priority 50 and holds
no lock; threads 2 (H, 30), 3 (A, 25) and 4 (M, 20) are ready in that order;
thread 0 is the idle thread; every lock is free; all thread structures are as
init_thread leaves them. -/
def ex_start : kernel :=
  { threads := fun i =>
      match i with
      | 1 => mk_thread .THREAD_RUNNING 50
      | 2 => mk_thread .THREAD_READY 30
      | 3 => mk_thread .THREAD_READY 25
      | 4 => mk_thread .THREAD_READY 20
      | _ => mk_thread .THREAD_BLOCKED 0,
    locks := fun _ => { holder := none, semaphore := { value := 1, waiters := [] } },
    semas := fun _ => { value := 0, waiters := [] },
    running := 1, ready_list := [2, 3, 4], sleep_list := [], destruction_req := [],
    idle_thread := some 0, initial_thread := some 1, next_tid := 5, ticks := 0,
    thread_ticks := 0, intr_context := false, yield_on_return := false }

/-- What the examples read off a state: the running thread, the ready list, and
the priorities of threads 1 to 4. -/
def view (s : kernel) : Nat × List Nat × List Int :=
  (s.running, s.ready_list, [1, 2, 3, 4].map fun t => (s.threads t).priority)

/-- The holders met on the wait chain that starts at lock `l`: the holder of `l`,
the holder of the lock that holder waits on, and so on, at most `n` of them. -/
def wait_chain : Nat → kernel → Option Nat → List Nat
  | 0, _, _ => []
  | _ + 1, _, none => []
  | n + 1, s, some l =>
    match (s.locks l).holder with
    | none => []
    | some h => h :: wait_chain n s (s.threads h).wait_on_lock

/-- The same state after list_init on the donations list of every thread (no code
in the sources does this). -/
def init_lists (s : kernel) : kernel :=
  { s with threads := fun i => { s.threads i with donations := .mk [] } }

/-- Example state for thread creation: thread 1 runs at priority 31, thread 0 is
the idle thread, the ready list is empty, tid_lock is free; the thread structures
are as init_thread leaves them. -/
def ex_main : kernel :=
  { threads := fun i =>
      match i with
      | 1 => mk_thread .THREAD_RUNNING 31
      | _ => mk_thread .THREAD_BLOCKED 0,
    locks := fun _ => { holder := none, semaphore := { value := 1, waiters := [] } },
    semas := fun _ => { value := 0, waiters := [] },
    running := 1, ready_list := [], sleep_list := [], destruction_req := [],
    idle_thread := some 0, initial_thread := some 1, next_tid := 2, ticks := 0,
    thread_ticks := 0, intr_context := false, yield_on_return := false }

/-- The effective priority that the spec requires of thread `t`: the maximum of
its base priority and of the priorities of the donors on its donations list. -/
def spec_priority (s : kernel) (t : Nat) : Int :=
  ((s.threads t).donations.elems.map fun d => (s.threads d).priority).foldl max
    (s.threads t).initial_priority

/-- Example state for the preemption check: thread 1 runs at priority 10 while
thread 2 is ready at priority 20 (as after a timer interrupt woke thread 2);
semaphore 0 has value 0 and no waiters. -/
def ex_preempt : kernel :=
  { threads := fun i =>
      match i with
      | 1 => mk_thread .THREAD_RUNNING 10
      | 2 => mk_thread .THREAD_READY 20
      | _ => mk_thread .THREAD_BLOCKED 0,
    locks := fun _ => { holder := none, semaphore := { value := 1, waiters := [] } },
    semas := fun _ => { value := 0, waiters := [] },
    running := 1, ready_list := [2], sleep_list := [], destruction_req := [],
    idle_thread := some 0, initial_thread := some 1, next_tid := 3, ticks := 0,
    thread_ticks := 0, intr_context := false, yield_on_return := false }

/-- Example state for sema_up: thread 1 runs at priority 20; threads 3 (priority
10) and 4 (priority 30) wait on semaphore 0, thread 3 in front. -/
def ex_sema : kernel :=
  { threads := fun i =>
      match i with
      | 1 => mk_thread .THREAD_RUNNING 20
      | 3 => mk_thread .THREAD_BLOCKED 10
      | 4 => mk_thread .THREAD_BLOCKED 30
      | _ => mk_thread .THREAD_BLOCKED 0,
    locks := fun _ => { holder := none, semaphore := { value := 1, waiters := [] } },
    semas := fun i =>
      match i with
      | 0 => { value := 0, waiters := [3, 4] }
      | _ => { value := 0, waiters := [] },
    running := 1, ready_list := [], sleep_list := [], destruction_req := [],
    idle_thread := some 0, initial_thread := some 1, next_tid := 5, ticks := 0,
    thread_ticks := 0, intr_context := false, yield_on_return := false }

/-- Example state for donate_priority: threads 1 to 9 hold locks 1 to 9, each at
priority 10; thread i (1 to 8) waits on lock i + 1; the running thread 10 has
priority 40 and waits on lock 1.  The wait chain from lock 1 has 9 holders. -/
def ex_chain : kernel :=
  { threads := fun i =>
      if i = 10 then { mk_thread .THREAD_RUNNING 40 with wait_on_lock := some 1 }
      else if 1 ≤ i ∧ i ≤ 8 then { mk_thread .THREAD_BLOCKED 10 with wait_on_lock := some (i + 1) }
      else mk_thread .THREAD_BLOCKED 10,
    locks := fun l =>
      if 1 ≤ l ∧ l ≤ 9 then { holder := some l, semaphore := { value := 0, waiters := [] } }
      else { holder := none, semaphore := { value := 1, waiters := [] } },
    semas := fun _ => { value := 0, waiters := [] },
    running := 10, ready_list := [], sleep_list := [], destruction_req := [],
    idle_thread := some 0, initial_thread := some 10, next_tid := 11, ticks := 0,
    thread_ticks := 0, intr_context := false, yield_on_return := false }

/-! ## Definitions used by the statements on sleeping, semaphores and conditions -/

/-- What schedule picks in state `s`: the head of the ready list, or the idle
thread when the ready list is empty. -/
def next_pick (s : kernel) : Option Nat := (next_thread_to_run s).1

/-- Example state for sema_down: thread 1 runs at priority 20 and thread 2 is ready
at priority 15; semaphore 0 has value 0 and the waiters 4 (priority 30), 3
(priority 20), 5 (priority 10); semaphore 1 has value 2 and no waiters. -/
def ex_wait : kernel :=
  { threads := fun i =>
      match i with
      | 1 => mk_thread .THREAD_RUNNING 20
      | 2 => mk_thread .THREAD_READY 15
      | 3 => mk_thread .THREAD_BLOCKED 20
      | 4 => mk_thread .THREAD_BLOCKED 30
      | 5 => mk_thread .THREAD_BLOCKED 10
      | _ => mk_thread .THREAD_BLOCKED 0,
    locks := fun _ => { holder := none, semaphore := { value := 1, waiters := [] } },
    semas := fun i =>
      match i with
      | 0 => { value := 0, waiters := [4, 3, 5] }
      | 1 => { value := 2, waiters := [] }
      | _ => { value := 0, waiters := [] },
    running := 1, ready_list := [2], sleep_list := [], destruction_req := [],
    idle_thread := some 0, initial_thread := some 1, next_tid := 6, ticks := 0,
    thread_ticks := 0, intr_context := false, yield_on_return := false }

/-- Example state for sema_up in an interrupt handler: the state ex_sema (thread 1
runs at priority 20, threads 3 and 4 with priorities 10 and 30 wait on semaphore
0) while an external interrupt handler executes. -/
def ex_isr : kernel := { ex_sema with intr_context := true }

/-- The calls thread_unblock (t) for the threads of a list, front to back. -/
def unblock_all : List Nat → kernel → Option kernel
  | [], s => some s
  | t :: ts, s =>
    match thread_unblock t s with
    | none => none
    | some s1 => unblock_all ts s1

/-- The sleep queue is in order: sorted by non-decreasing wake_up_time, without
repetition, and all its threads are BLOCKED. -/
def sleep_queue_ok (s : kernel) : Prop :=
  s.sleep_list.Pairwise (fun a b => (s.threads a).wake_up_time ≤ (s.threads b).wake_up_time)
    ∧ s.sleep_list.Nodup
    ∧ ∀ t ∈ s.sleep_list, (s.threads t).status = .THREAD_BLOCKED

/-- Example state for the alarm clock: threads 1, 2, 3 have priority 31, thread 1
runs and threads 2 and 3 are ready; thread 4 with priority 10 is ready behind
them; thread 0 is the idle thread; the tick counter is 0. -/
def ex_sleepers : kernel :=
  { threads := fun i =>
      match i with
      | 1 => mk_thread .THREAD_RUNNING 31
      | 2 => mk_thread .THREAD_READY 31
      | 3 => mk_thread .THREAD_READY 31
      | 4 => mk_thread .THREAD_READY 10
      | _ => mk_thread .THREAD_BLOCKED 0,
    locks := fun _ => { holder := none, semaphore := { value := 1, waiters := [] } },
    semas := fun _ => { value := 0, waiters := [] },
    running := 1, ready_list := [2, 3, 4], sleep_list := [], destruction_req := [],
    idle_thread := some 0, initial_thread := some 1, next_tid := 5, ticks := 0,
    thread_ticks := 0, intr_context := false, yield_on_return := false }

/-- Example state with sleeping threads: thread 4 runs at tick 99; threads 2, 3, 1
sleep until ticks 100, 200, 300 and are on the sleep queue in that order. -/
def ex_asleep : kernel :=
  { threads := fun i =>
      match i with
      | 1 => { mk_thread .THREAD_BLOCKED 31 with wake_up_time := 300 }
      | 2 => { mk_thread .THREAD_BLOCKED 31 with wake_up_time := 100 }
      | 3 => { mk_thread .THREAD_BLOCKED 31 with wake_up_time := 200 }
      | 4 => mk_thread .THREAD_RUNNING 10
      | _ => mk_thread .THREAD_BLOCKED 0,
    locks := fun _ => { holder := none, semaphore := { value := 1, waiters := [] } },
    semas := fun _ => { value := 0, waiters := [] },
    running := 4, ready_list := [], sleep_list := [2, 3, 1], destruction_req := [],
    idle_thread := some 0, initial_thread := some 1, next_tid := 5, ticks := 99,
    thread_ticks := 0, intr_context := false, yield_on_return := false }

/-- The condition of the spec on one semaphore: it does not have both a non-empty
waiter list and a positive value. -/
def sema_quiescent (s : kernel) (r : sema_ref) : Prop :=
  ¬ ((get_sema s r).waiters ≠ [] ∧ (get_sema s r).value > 0)

/-- Example state for sema_up without preemption: thread 1 runs at priority 40;
threads 3 (priority 10) and 4 (priority 30) wait on semaphore 0, whose value is
0. -/
def ex_up : kernel :=
  { threads := fun i =>
      match i with
      | 1 => mk_thread .THREAD_RUNNING 40
      | 3 => mk_thread .THREAD_BLOCKED 10
      | 4 => mk_thread .THREAD_BLOCKED 30
      | _ => mk_thread .THREAD_BLOCKED 0,
    locks := fun _ => { holder := none, semaphore := { value := 1, waiters := [] } },
    semas := fun i =>
      match i with
      | 0 => { value := 0, waiters := [3, 4] }
      | _ => { value := 0, waiters := [] },
    running := 1, ready_list := [], sleep_list := [], destruction_req := [],
    idle_thread := some 0, initial_thread := some 1, next_tid := 5, ticks := 0,
    thread_ticks := 0, intr_context := false, yield_on_return := false }

/-- A thread structure whose donations list went through list_init and whose
initial_priority was set to its priority (no code in the sources does either). -/
def mk_thread_init (st : thread_status) (p : Int) : thread :=
  { thread_zero with status := st, priority := p, initial_priority := p, donations := .mk [] }

/-- Start state of the condition variable runs: thread 2 (A, priority 20) runs,
threads 3 (B, priority 10) and 1 (S, priority 5) are ready, thread 4 (H,
priority 40) waits on semaphore 3; all locks are free; thread 0 is the idle
thread. -/
def ex_cond_start : kernel :=
  { threads := fun i =>
      match i with
      | 1 => mk_thread_init .THREAD_READY 5
      | 2 => mk_thread_init .THREAD_RUNNING 20
      | 3 => mk_thread_init .THREAD_READY 10
      | 4 => mk_thread_init .THREAD_BLOCKED 40
      | _ => mk_thread_init .THREAD_BLOCKED 0,
    locks := fun _ => { holder := none, semaphore := { value := 1, waiters := [] } },
    semas := fun i =>
      match i with
      | 3 => { value := 0, waiters := [4] }
      | _ => { value := 0, waiters := [] },
    running := 2, ready_list := [3, 1], sleep_list := [], destruction_req := [],
    idle_thread := some 0, initial_thread := some 2, next_tid := 5, ticks := 0,
    thread_ticks := 0, intr_context := false, yield_on_return := false }

/-- Example state for cond_signal: thread 1 (priority 5) runs and holds lock 5;
on condition 0 wait thread 2 (A, entered first, now at priority 40) with its
private semaphore 10 and thread 3 (B, priority 10) with its private semaphore
11. -/
def ex_cond : kernel :=
  { threads := fun i =>
      match i with
      | 1 => mk_thread_init .THREAD_RUNNING 5
      | 2 => { mk_thread_init .THREAD_BLOCKED 40 with initial_priority := 20 }
      | 3 => mk_thread_init .THREAD_BLOCKED 10
      | _ => mk_thread_init .THREAD_BLOCKED 0,
    locks := fun i =>
      match i with
      | 5 => { holder := some 1, semaphore := { value := 0, waiters := [] } }
      | _ => { holder := none, semaphore := { value := 1, waiters := [] } },
    semas := fun i =>
      match i with
      | 10 => { value := 0, waiters := [2] }
      | 11 => { value := 0, waiters := [3] }
      | _ => { value := 0, waiters := [] },
    running := 1, ready_list := [], sleep_list := [], destruction_req := [],
    idle_thread := some 0, initial_thread := some 1, next_tid := 5, ticks := 0,
    thread_ticks := 0, intr_context := false, yield_on_return := false,
    conds := fun i =>
      match i with
      | 0 => [{ semaphore := 10, thread := 2 }, { semaphore := 11, thread := 3 }]
      | _ => [] }


/-! ## The invariant of the queues -/

/-- The threads that the frames of `k` are about to unblock: thread_create has
initialised them and has not called thread_unblock yet. -/
def pending : List frame → List Nat
  | [] => []
  | f :: k =>
    match f with
    | .thread_create_tail t => t :: pending k
    | _ => pending k

/-- The lists on which blocked threads wait: the sleep list (`none`) and the waiter
list of each semaphore. -/
def blocked_on (s : kernel) : Option sema_ref → List Nat
  | none => s.sleep_list
  | some r => (get_sema s r).waiters

/-- A thread that is BLOCKED and on none of the lists of blocked threads. -/
def parked (s : kernel) (t : Nat) : Prop :=
  (s.threads t).status = .THREAD_BLOCKED ∧ ∀ c, t ∉ blocked_on s c

/-- A parked thread that is not the idle thread and that no saved frame is about to
unblock. -/
def free_thread (s : kernel) (t : Nat) : Prop :=
  parked s t ∧ some t ≠ s.idle_thread ∧ ∀ x, t ∉ pending (s.threads x).cont

/-- The frames `k` of the running operation unblock distinct free threads. -/
def frames_ok (k : List frame) (s : kernel) : Prop :=
  (pending k).Nodup ∧ ∀ t ∈ pending k, free_thread s t

/-- The invariant of the ready list, the sleep list and the waiter lists: the ready
list holds distinct READY threads; every list of blocked threads holds distinct
BLOCKED threads and no thread is on two of them; the sleep list is sorted by
non-decreasing wake_up_time; the idle thread is on no list of blocked threads
and has no saved frames; the threads that saved frames are about to unblock
are parked, are not the idle thread, and each is named by one frame only. -/
structure queues_inv (s : kernel) : Prop where
  ready_status : ∀ t ∈ s.ready_list, (s.threads t).status = .THREAD_READY
  ready_nodup : s.ready_list.Nodup
  blocked_status : ∀ c, ∀ t ∈ blocked_on s c, (s.threads t).status = .THREAD_BLOCKED
  blocked_nodup : ∀ c, (blocked_on s c).Nodup
  blocked_disjoint : ∀ c c1, c ≠ c1 → ∀ t ∈ blocked_on s c, t ∉ blocked_on s c1
  sleep_sorted : s.sleep_list.Pairwise
    (fun a b => (s.threads a).wake_up_time ≤ (s.threads b).wake_up_time)
  idle_free : ∀ i, s.idle_thread = some i →
    (∀ c, i ∉ blocked_on s c) ∧ (s.threads i).cont = []
  pending_parked : ∀ x, ∀ t ∈ pending (s.threads x).cont, parked s t ∧ some t ≠ s.idle_thread
  pending_nodup : ∀ x, (pending (s.threads x).cont).Nodup
  pending_unique : ∀ x y t,
    t ∈ pending (s.threads x).cont → t ∈ pending (s.threads y).cont → x = y

/-- The invariant between public operations: the invariant of the queues, and the
running thread has status THREAD_RUNNING. -/
def kernel_inv (s : kernel) : Prop :=
  queues_inv s ∧ (s.threads s.running).status = .THREAD_RUNNING

/-- A page that palloc_get_page can return for a new thread: it is not the running
thread or the idle thread, it is on no list, and no saved frame names it. -/
def unused_page (s : kernel) (t : Nat) : Prop :=
  t ≠ s.running ∧ some t ≠ s.idle_thread ∧ t ∉ s.ready_list ∧ (∀ c, t ∉ blocked_on s c)
    ∧ ∀ x, t ∉ pending (s.threads x).cont

/-- The conditions under which thread code makes a call: the idle thread calls no
operation (it only takes timer interrupts), and thread_create gets a page that is
not in use. -/
def call_ok (c : call) (s : kernel) : Prop :=
  match c with
  | .timer_interrupt => True
  | .thread_create (some t) _ => some s.running ≠ s.idle_thread ∧ unused_page s t
  | _ => some s.running ≠ s.idle_thread

/-- What a kernel function that started in state `s` guarantees about the state
`s1` it returns: the invariant between operations holds, the idle thread is the
same, and when the caller is still running every thread that was free is still
free. -/
def step_ok (s s1 : kernel) : Prop :=
  kernel_inv s1 ∧ s1.idle_thread = s.idle_thread
    ∧ (s1.running = s.running → ∀ u, free_thread s u → free_thread s1 u)


/-! ## Definitions used by the statements on list_sort and donation -/

/-- The comparator LESS is a strict weak order: irreflexive, transitive, and with
a transitive incomparability (a and b are incomparable when neither is LESS than
the other). -/
def strict_weak_order {α : Type} (less : α → α → Bool) : Prop :=
  (∀ a, less a a = false)
    ∧ (∀ a b c, less a b = true → less b c = true → less a c = true)
    ∧ (∀ a b c, (less a b = false ∧ less b a = false) → (less b c = false ∧ less c b = false) →
        (less a c = false ∧ less c a = false))

/-- Example state for the end of donation: thread 1 (the donor, priority 30) runs
and waits on lock 1, which thread 2 (A, priority 50) holds; A waits on lock 2,
which thread 3 (B, priority 10) holds. -/
def ex_stop : kernel :=
  { threads := fun i =>
      match i with
      | 1 => { mk_thread .THREAD_RUNNING 30 with wait_on_lock := some 1 }
      | 2 => { mk_thread .THREAD_BLOCKED 50 with wait_on_lock := some 2 }
      | 3 => mk_thread .THREAD_READY 10
      | _ => mk_thread .THREAD_BLOCKED 0,
    locks := fun i =>
      match i with
      | 1 => { holder := some 2, semaphore := { value := 0, waiters := [] } }
      | 2 => { holder := some 3, semaphore := { value := 0, waiters := [2] } }
      | _ => { holder := none, semaphore := { value := 1, waiters := [] } },
    semas := fun _ => { value := 0, waiters := [] },
    running := 1, ready_list := [3], sleep_list := [], destruction_req := [],
    idle_thread := some 0, initial_thread := some 1, next_tid := 4, ticks := 0,
    thread_ticks := 0, intr_context := false, yield_on_return := false }

/-- A run of `n` timer ticks as thread_tick sees them.  Modelled from the spec: the
interrupt entry code (threads/interrupt.c, not among the sources) starts every
external interrupt with the yield-on-return request cleared. -/
def thread_tick_run : Nat → kernel → Option kernel
  | 0, s => some s
  | n + 1, s =>
    match thread_tick { s with yield_on_return := false } with
    | none => none
    | some s1 => thread_tick_run n s1

/-- The value that thread_create returns once it returns in state `s1`: TID_ERROR
when palloc_get_page failed, otherwise the tid stored in the new thread.  The
constant TID_ERROR of threads/thread.h is not among the sources; it is the
parameter `tid_error`. -/
def thread_create_value (tid_error : Int) (page : Option Nat) (s1 : kernel) : Int :=
  match page with
  | none => tid_error
  | some t => (s1.threads t).tid

/-- Example state for FIFO order among equal priorities: the state ex_main (thread
1 = M runs at priority 31, nothing is ready) where the thread structure of M went
through list_init on its donations list and has initial_priority = 31 (no code in
the sources does either). -/
def ex_fifo : kernel :=
  set_thread ex_main 1 (mk_thread_init .THREAD_RUNNING 31)

/-- Spec side of the claim on cond_broadcast: `n` cond_signal steps made one after
the other by the thread that called cond_broadcast, without any test of the
waiter list.  As in the loop of cond_broadcast, a step in which the caller is
switched out leaves the remaining steps to the frame that the caller saved. -/
def cond_signal_times (c l : Nat) (k : List frame) : Nat → kernel → Option kernel
  | 0, s => some s
  | n + 1, s =>
    match cond_signal c l (frame.cond_broadcast_loop c l :: k) s with
    | none => none
    | some s1 => if s1.running = s.running then cond_signal_times c l k n s1 else some s1

/-! ## The running thread and the lists that share a thread's list element -/

/-- No thread other than the running thread has status THREAD_RUNNING. -/
def one_running (s : kernel) : Prop :=
  ∀ t, (s.threads t).status = .THREAD_RUNNING → t = s.running

/-- The invariant of the destruction list: it holds distinct DYING threads, none
of which is on the ready list or is the idle thread. -/
structure dying_inv (s : kernel) : Prop where
  dying_nodup : s.destruction_req.Nodup
  dying_status : ∀ t ∈ s.destruction_req, (s.threads t).status = .THREAD_DYING
  dying_not_ready : ∀ t ∈ s.destruction_req, t ∉ s.ready_list
  dying_not_idle : ∀ t ∈ s.destruction_req, some t ≠ s.idle_thread

/-- What a kernel function that went from state `s` to state `s1` keeps: each of
the two properties one_running and dying_inv holds after it when it held
before. -/
def keeps (s s1 : kernel) : Prop :=
  (one_running s → one_running s1) ∧ (dying_inv s → dying_inv s1)

/-- The lists that hold a thread through its one list element `elem`. -/
inductive queue_ref
  | ready
  | sleep
  | waiters (r : sema_ref)
  | destruction
  deriving DecidableEq, Repr

/-- The threads on a list. -/
def queue_of (s : kernel) : queue_ref → List Nat
  | .ready => s.ready_list
  | .sleep => s.sleep_list
  | .waiters r => (get_sema s r).waiters
  | .destruction => s.destruction_req

/-- The page that thread_create gets from palloc_get_page is not a page that waits
on the destruction list to be freed. -/
def page_free (c : call) (s : kernel) : Prop :=
  match c with
  | .thread_create (some t) _ => t ∉ s.destruction_req
  | _ => True

/-- Example state for thread_exit: the state ex_sleepers (thread 1 runs, threads 2,
3, 4 are ready) with thread 4 as the initial thread, so that thread 1 is a thread
whose page is freed after it exits. -/
def ex_exit : kernel := { ex_sleepers with initial_thread := some 4 }

/-- The two status writes of an operation in which the running thread of state `s`
leaves the CPU with the new status `st` and the pending frames `k`, ending in
state `s1`.  First the caller, which is RUNNING, gets status `st` (state `mid`,
in which no other status differs from `s`).  Then schedule picks `next` in state
`mid` and marks it RUNNING, changing no other status; `next` is READY in `mid`,
or it is the idle thread, picked because the ready list is empty. -/
def leaves_with (st : thread_status) (k : List frame) (s s1 : kernel) : Prop :=
  ∃ mid next,
    (s.threads s.running).status = .THREAD_RUNNING
    ∧ (mid.threads s.running).status = st
    ∧ (∀ u, u ≠ s.running → (mid.threads u).status = (s.threads u).status)
    ∧ schedule k mid = some s1
    ∧ next_pick mid = some next
    ∧ ((mid.threads next).status = .THREAD_READY
        ∨ (mid.ready_list = [] ∧ mid.idle_thread = some next))
    ∧ s1.running = next
    ∧ (s1.threads next).status = .THREAD_RUNNING
    ∧ ∀ u, u ≠ next → (s1.threads u).status = (mid.threads u).status

/-! ## Definitions for the statements on stability, the removal loop and locks -/

/-- The equivalence induced by the comparator LESS: neither element is LESS than
the other. -/
def equiv_under {α : Type} (less : α → α → Bool) (a b : α) : Bool :=
  !less a b && !less b a

/-- Example state for the re-sort in sema_up: thread 1 runs at priority 40; the
threads 3, 4, 5, 6 wait on semaphore 0 in this order, with priorities 20, 30,
20, 30 (their priorities changed after they were inserted). -/
def ex_equal : kernel :=
  { threads := fun i =>
      match i with
      | 1 => mk_thread .THREAD_RUNNING 40
      | 3 => mk_thread .THREAD_BLOCKED 20
      | 4 => mk_thread .THREAD_BLOCKED 30
      | 5 => mk_thread .THREAD_BLOCKED 20
      | 6 => mk_thread .THREAD_BLOCKED 30
      | _ => mk_thread .THREAD_BLOCKED 0,
    locks := fun _ => { holder := none, semaphore := { value := 1, waiters := [] } },
    semas := fun i =>
      match i with
      | 0 => { value := 0, waiters := [3, 4, 5, 6] }
      | _ => { value := 0, waiters := [] },
    running := 1, ready_list := [], sleep_list := [], destruction_req := [],
    idle_thread := some 0, initial_thread := some 1, next_tid := 7, ticks := 0,
    thread_ticks := 0, intr_context := false, yield_on_return := false }

/-! ## The links of one donations list (lib/kernel/list.c at pointer level) -/

/-- The address of a `struct list_elem` of one donations list: the head or the tail
inside the `struct list`, or the donation_elem inside the thread `t`. -/
inductive elem_addr
  | head
  | tail
  | donation_elem (t : Nat)
  deriving DecidableEq, Repr

/-- Modelled from the spec: the declaration of `struct list_elem` (lib/kernel/list.h)
is not among the sources; the spec describes a doubly linked sequence with
sentinel head and tail.  These are the two pointers that list.c reads and
writes, `none` being NULL. -/
structure list_elem where
  prev : Option elem_addr
  next : Option elem_addr
  deriving DecidableEq, Repr

/-- The memory that holds the list elements of one donations list. -/
abbrev list_mem := elem_addr → list_elem

/-- The function is_head of list.c, for a pointer that may be NULL. -/
def is_head (m : list_mem) (elem : Option elem_addr) : Bool :=
  match elem with
  | none => false
  | some e => decide ((m e).prev = none) && decide ((m e).next ≠ none)

/-- The function is_interior of list.c. -/
def is_interior (m : list_mem) (elem : Option elem_addr) : Bool :=
  match elem with
  | none => false
  | some e => decide ((m e).prev ≠ none) && decide ((m e).next ≠ none)

/-- The function list_begin of list.c: `list->head.next`. -/
def list_begin (m : list_mem) : Option elem_addr :=
  (m .head).next

/-- The function list_end of list.c: `&list->tail`. -/
def list_end : Option elem_addr :=
  some .tail

/-- The function list_next of list.c: `none` when its ASSERT fails, otherwise the
pointer `elem->next`. -/
def list_next (m : list_mem) (elem : Option elem_addr) : Option (Option elem_addr) :=
  match elem with
  | none => none
  | some e => if is_head m elem || is_interior m elem then some (m e).next else none

/-- The function list_remove of list.c: `none` when its ASSERT fails, otherwise the
memory after the two writes and the returned pointer.  Each statement reads
`elem->prev` and `elem->next` from memory again; the fields of `elem` itself
are not written. -/
def list_remove (m : list_mem) (elem : Option elem_addr) :
    Option (list_mem × Option elem_addr) :=
  match elem with
  | none => none
  | some e =>
    if is_interior m elem then
      match (m e).prev with
      | none => none
      | some p =>
        let m1 : list_mem := fun i => if i = p then { m i with next := (m e).next } else m i
        match (m1 e).next with
        | none => none
        | some n =>
          let m2 : list_mem := fun i => if i = n then { m1 i with prev := (m1 e).prev } else m1 i
          some (m2, (m2 e).next)
    else none

/-- The for loop of lock_release at pointer level, entered at its test with the
loop variable `e`: while `e` differs from list_end, the thread that holds `e`
is read through list_entry, list_remove (e) is called when that thread waits on
the released lock `l`, and `e` advances by list_next (e), also when `e` has
just been removed.  The result is `none` when list_remove or list_next fails
its ASSERT, when `e` is not the donation_elem of a thread, or when the given
number of iterations is used up. -/
def lock_release_loop (s : kernel) (l : Nat) : Nat → list_mem → Option elem_addr → Option list_mem
  | 0, _, _ => none
  | n + 1, m, e =>
    if e = list_end then some m
    else
      match e with
      | some (.donation_elem f) =>
        if (s.threads f).wait_on_lock = some l then
          match list_remove m e with
          | none => none
          | some (m1, _) =>
            match list_next m1 e with
            | none => none
            | some e1 => lock_release_loop s l n m1 e1
        else
          match list_next m e with
          | none => none
          | some e1 => lock_release_loop s l n m e1
      | _ => none

/-- From `p` on, every element and its successor in the sequence point at each
other: `p->next` is the first element `x` of the sequence and `x->prev` is `p`,
and so on from `x`. -/
def links_ok (m : list_mem) : elem_addr → List elem_addr → Bool
  | _, [] => true
  | p, x :: rest =>
    decide ((m p).next = some x) && decide ((m x).prev = some p) && links_ok m x rest

/-- The memory `m` holds a well-formed list whose interior elements, front to
back, are the donation_elems of the distinct threads `xs`: the head has no
predecessor, the tail has no successor, and from the head to the tail every
element and its successor point at each other. -/
def list_repr (m : list_mem) (xs : List Nat) : Prop :=
  xs.Nodup ∧ (m .head).prev = none ∧ (m .tail).next = none
    ∧ links_ok m .head (xs.map elem_addr.donation_elem ++ [elem_addr.tail]) = true

instance list_repr_decidable (m : list_mem) (xs : List Nat) : Decidable (list_repr m xs) :=
  inferInstanceAs (Decidable (xs.Nodup ∧ (m .head).prev = none ∧ (m .tail).next = none
    ∧ links_ok m .head (xs.map elem_addr.donation_elem ++ [elem_addr.tail]) = true))

/-- Two list elements that point at each other: `u->next` is `v` and `v->prev` is
`u`. -/
def linked (m : list_mem) (u v : elem_addr) : Prop :=
  (m u).next = some v ∧ (m v).prev = some u

/-- Example memory: the donations list with the donors 3, 4, 5, 6 in this order. -/
def ex_donors_mem : list_mem := fun i =>
  match i with
  | .head => { prev := none, next := some (.donation_elem 3) }
  | .donation_elem 3 => { prev := some .head, next := some (.donation_elem 4) }
  | .donation_elem 4 => { prev := some (.donation_elem 3), next := some (.donation_elem 5) }
  | .donation_elem 5 => { prev := some (.donation_elem 4), next := some (.donation_elem 6) }
  | .donation_elem 6 => { prev := some (.donation_elem 5), next := some .tail }
  | .tail => { prev := some (.donation_elem 6), next := none }
  | _ => { prev := none, next := none }

/-- Example state for the removal loop: thread 1 runs and holds lock 1; the donors
3, 4 and 6 wait on lock 1 and the donor 5 waits on lock 2. -/
def ex_donors : kernel :=
  { threads := fun i =>
      match i with
      | 1 => { mk_thread .THREAD_RUNNING 40 with donations := .mk [3, 4, 5, 6] }
      | 3 => { mk_thread .THREAD_BLOCKED 20 with wait_on_lock := some 1 }
      | 4 => { mk_thread .THREAD_BLOCKED 30 with wait_on_lock := some 1 }
      | 5 => { mk_thread .THREAD_BLOCKED 20 with wait_on_lock := some 2 }
      | 6 => { mk_thread .THREAD_BLOCKED 30 with wait_on_lock := some 1 }
      | _ => mk_thread .THREAD_BLOCKED 0,
    locks := fun i =>
      match i with
      | 1 => { holder := some 1, semaphore := { value := 0, waiters := [3, 4, 6] } }
      | _ => { holder := none, semaphore := { value := 1, waiters := [] } },
    semas := fun _ => { value := 0, waiters := [] },
    running := 1, ready_list := [], sleep_list := [], destruction_req := [],
    idle_thread := some 0, initial_thread := some 1, next_tid := 7, ticks := 0,
    thread_ticks := 0, intr_context := false, yield_on_return := false }

/-! ## The semaphore of a lock -/

/-- The semaphore embedded in lock `l` is binary and agrees with the holder: its
value is 0 or 1, and it is 0 whenever the lock has a holder. -/
def lock_ok (s : kernel) (l : Nat) : Prop :=
  (s.locks l).semaphore.value ≤ 1
    ∧ ((s.locks l).holder ≠ none → (s.locks l).semaphore.value = 0)

/-- Saved frames that resume lock_acquire on lock `l` only after its sema_down: a
frame lock_acquire_tail of `l` lies directly under a frame sema_down_loop on the
semaphore of `l`, as lock_acquire pushes them.  The flag `g` tells whether the
frame above the list is such a sema_down_loop frame. -/
def lock_frames (l : Nat) : Bool → List frame → Prop
  | _, [] => True
  | _, .sema_down_loop r :: k => lock_frames l (decide (r = .lock_sema l)) k
  | g, .lock_acquire_tail l1 :: k => (l1 = l → g = true) ∧ lock_frames l false k
  | _, _ :: k => lock_frames l false k

/-- The invariant of lock `l` between operations: its semaphore is binary and
agrees with the holder, and in the saved frames of every thread a frame
lock_acquire_tail of `l` lies directly under the frame of its sema_down. -/
def lock_inv (l : Nat) (s : kernel) : Prop :=
  lock_ok s l ∧ ∀ t, lock_frames l false (s.threads t).cont

/-- What a function that went from state `s` to state `s1` with the pending frames
`k` does to locks and saved frames: no lock is written, and the saved frames of
a thread are as before or are `k`. -/
def saves (k : List frame) (s s1 : kernel) : Prop :=
  s1.locks = s.locks ∧ ∀ t, (s1.threads t).cont = (s.threads t).cont ∨ (s1.threads t).cont = k

/-- The calls that reach the semaphore of lock `l` through the lock operations
only: every public operation except sema_up and sema_init applied directly to
the semaphore embedded in `l`. -/
def lock_call (l : Nat) : call → Prop
  | .sema_up (.lock_sema l1) => l1 ≠ l
  | .sema_init (.lock_sema l1) _ => l1 ≠ l
  | _ => True

/-! ## The whole run of cond_broadcast -/

/-- A state `s2` in which thread `caller`, switched out in state `s1` inside the
loop of cond_broadcast on condition `c` with lock `l`, is running again and
about to continue the loop: the invariant between operations holds, the caller
is not in an interrupt handler and is not the idle thread, its saved frames are
the ones it was switched out with, it still holds the lock, and the waiter list
of the condition is as it left it (cond_wait and cond_signal with lock `l` fail
their ASSERT in every thread that does not hold `l`). -/
def resumes_in (c l caller : Nat) (s1 s2 : kernel) : Prop :=
  kernel_inv s2 ∧ s2.running = caller ∧ some caller ≠ s2.idle_thread
    ∧ s2.intr_context = false
    ∧ (s2.threads caller).cont = (s1.threads caller).cont
    ∧ (s2.locks l).holder = some caller
    ∧ s2.conds c = s1.conds c

/-- The whole run of cond_broadcast on condition `c` with lock `l` and pending
frames `k`, entered by thread `caller` in state `s`, over the switches that
interrupt it: `broadcast_completes c l k caller n s` says that the run makes
exactly `n` cond_signal steps and ends in the caller with an empty waiter list.

* `returns`: cond_broadcast returns in the caller; it made one cond_signal step
  for each element of `done`, the removed elements, which are all the waiters,
  and every semaphore was upped (as an unsigned counter) once for each element
  of `done` that carries it.
* `preempted`: a step woke a thread that preempted the caller.  The steps made
  so far removed the elements of `done`, the caller saved the rest of the loop
  as its top frame, and from every state in which it runs again (the frame is
  continued on the caller with the saved frames cleared, as resume does) the
  rest of the run makes exactly `m` steps, `m` the number of waiters left. -/
inductive broadcast_completes (c l : Nat) (k : List frame) (caller : Nat) :
    Nat → kernel → Prop
  | returns (s s1 : kernel) (done : List semaphore_elem)
      (hb : cond_broadcast c l k s = some s1)
      (hsteps : cond_signal_times c l k done.length s = some s1)
      (hrun : s1.running = caller)
      (hempty : s1.conds c = [])
      (hdone : List.Perm done (s.conds c))
      (hup : ∀ i, (s1.semas i).value
          = (fun v => (v + 1) % 2 ^ 32)^[done.countP (fun e => decide (e.semaphore = i))]
              (s.semas i).value) :
      broadcast_completes c l k caller done.length s
  | preempted (s s1 : kernel) (done : List semaphore_elem) (m : Nat)
      (hb : cond_broadcast c l k s = some s1)
      (hsteps : cond_signal_times c l k done.length s = some s1)
      (hrun : s1.running ≠ caller)
      (hne : done ≠ [])
      (hdone : List.Perm (done ++ s1.conds c) (s.conds c))
      (hup : ∀ i, (s1.semas i).value
          = (fun v => (v + 1) % 2 ^ 32)^[done.countP (fun e => decide (e.semaphore = i))]
              (s.semas i).value)
      (hcont : (s1.threads caller).cont = frame.cond_broadcast_loop c l :: k)
      (hm : (s1.conds c).length = m)
      (hrest : ∀ s2, resumes_in c l caller s1 s2 →
        broadcast_completes c l k caller m
          (set_thread s2 caller { s2.threads caller with cont := [] })) :
      broadcast_completes c l k caller (done.length + m) s

/-! ## Theorems: lib/kernel/list.c -/

section list_lemmas
variable {α : Type} (less : α → α → Bool)

theorem find_end_of_run_cons_true (a b : α) (rest : List α) (h : less b a = true) :
    find_end_of_run less a (b :: rest) = ([a], b :: rest) := by
  simp [find_end_of_run, h]

theorem find_end_of_run_cons_false (a b : α) (rest : List α) (h : less b a = false) :
    find_end_of_run less a (b :: rest)
      = (a :: (find_end_of_run less b rest).1, (find_end_of_run less b rest).2) := by
  simp [find_end_of_run, h]

theorem find_end_of_run_append (a : α) (rest : List α) :
    (find_end_of_run less a rest).1 ++ (find_end_of_run less a rest).2 = a :: rest := by
  induction rest generalizing a with
  | nil => simp [find_end_of_run]
  | cons b rest ih =>
    by_cases h : less b a = true
    · simp [find_end_of_run, h]
    · simp [find_end_of_run, h, ih b]

theorem find_end_of_run_head (a : α) (rest : List α) :
    ∃ r, (find_end_of_run less a rest).1 = a :: r := by
  cases rest with
  | nil => exact ⟨[], by simp [find_end_of_run]⟩
  | cons b rest =>
    by_cases h : less b a = true
    · exact ⟨[], by simp [find_end_of_run, h]⟩
    · exact ⟨(find_end_of_run less b rest).1, by simp [find_end_of_run, h]⟩

theorem find_end_of_run_descents_fst (a : α) (rest : List α) :
    descents less (find_end_of_run less a rest).1 = 0 := by
  induction rest generalizing a with
  | nil => simp [find_end_of_run, descents]
  | cons b rest ih =>
    by_cases h : less b a = true
    · simp [find_end_of_run, h, descents]
    · obtain ⟨r, hr⟩ := find_end_of_run_head less b rest
      have := ih b
      simp [find_end_of_run, h, hr, descents] at this ⊢
      exact this

theorem find_end_of_run_descents (a : α) (rest : List α) :
    descents less (a :: rest) =
      descents less (find_end_of_run less a rest).2
        + (if (find_end_of_run less a rest).2.isEmpty then 0 else 1) := by
  induction rest generalizing a with
  | nil => simp [find_end_of_run, descents]
  | cons b rest ih =>
    by_cases h : less b a = true
    · rw [find_end_of_run_cons_true less a b rest h]
      simp [descents, h]; omega
    · have hb : less b a = false := by simpa using h
      rw [find_end_of_run_cons_false less a b rest hb]
      simp only [descents, hb, Bool.false_eq_true, if_false, Nat.zero_add]
      exact ih b

theorem find_end_of_run_length (a : α) (rest : List α) :
    (find_end_of_run less a rest).2.length ≤ rest.length := by
  have h := congrArg List.length (find_end_of_run_append less a rest)
  obtain ⟨r, hr⟩ := find_end_of_run_head less a rest
  simp [hr] at h
  omega

theorem descents_eq_zero_iff (xs : List α) :
    descents less xs = 0 ↔ is_sorted less xs = true := by
  induction xs with
  | nil => simp [descents, is_sorted]
  | cons a rest ih =>
    cases rest with
    | nil => simp [descents, is_sorted]
    | cons b rest =>
      by_cases h : less b a = true
      · simp [descents, is_sorted, h]
      · simp [descents, is_sorted, h, ih]

theorem descents_append_le (xs ys : List α) :
    descents less (xs ++ ys) ≤ descents less xs + descents less ys + 1 := by
  induction xs with
  | nil => simp [descents]
  | cons a rest ih =>
    cases rest with
    | nil =>
      cases ys with
      | nil => simp [descents]
      | cons y ys => simp [descents]; split <;> omega
    | cons b rest =>
      have e1 : (a :: b :: rest) ++ ys = a :: b :: (rest ++ ys) := rfl
      have e2 : (b :: rest) ++ ys = b :: (rest ++ ys) := rfl
      rw [e1]
      rw [e2] at ih
      simp only [descents] at ih ⊢
      omega

theorem descents_le_length (xs : List α) : descents less xs ≤ xs.length := by
  induction xs with
  | nil => simp [descents]
  | cons a rest ih =>
    cases rest with
    | nil => simp [descents]
    | cons b rest =>
      simp only [descents, List.length_cons] at ih ⊢
      split <;> omega

theorem inplace_merge_loop_perm (n : Nat) (as bs : List α) :
    List.Perm (inplace_merge_loop less n as bs) (as ++ bs) := by
  induction n generalizing as bs with
  | zero => simp [inplace_merge_loop]
  | succ n ih =>
    cases as with
    | nil => simp [inplace_merge_loop]
    | cons a as =>
      cases bs with
      | nil => simp [inplace_merge_loop]
      | cons b bs =>
        by_cases h : less b a = true
        · simp only [inplace_merge_loop, h, Bool.not_true, Bool.false_eq_true, if_false]
          exact ((ih (a :: as) bs).cons b).trans (List.perm_middle.symm)
        · simp only [inplace_merge_loop, h, Bool.not_false, if_true, List.cons_append]
          simp at h
          simp [inplace_merge_loop, h]
          exact ih as (b :: bs)

theorem is_sorted_of_pairwise (xs : List α)
    (h : List.Pairwise (fun a b => less b a = false) xs) : is_sorted less xs = true := by
  induction xs with
  | nil => simp [is_sorted]
  | cons a rest ih =>
    cases rest with
    | nil => simp [is_sorted]
    | cons b rest =>
      rw [List.pairwise_cons] at h
      simp [is_sorted, h.1 b (List.mem_cons_self _ _), ih h.2]

theorem pairwise_of_is_sorted
    (htr : ∀ a b c, less b a = false → less c b = false → less c a = false)
    (xs : List α) (h : is_sorted less xs = true) :
    List.Pairwise (fun a b => less b a = false) xs := by
  induction xs with
  | nil => exact List.Pairwise.nil
  | cons a rest ih =>
    cases rest with
    | nil => simp
    | cons b rest =>
      simp only [is_sorted, Bool.and_eq_true, Bool.not_eq_true'] at h
      have hr := ih h.2
      rw [List.pairwise_cons] at hr ⊢
      refine ⟨?_, ih h.2⟩
      intro x hx
      rcases List.mem_cons.mp hx with rfl | hx
      · exact h.1
      · exact htr a b x h.1 (hr.1 x hx)

theorem inplace_merge_loop_sorted
    (htr : ∀ a b c, less b a = false → less c b = false → less c a = false)
    (htot : ∀ a b, less a b = true → less b a = false)
    (n : Nat) (as bs : List α) (hn : as.length + bs.length ≤ n)
    (ha : List.Pairwise (fun a b => less b a = false) as)
    (hb : List.Pairwise (fun a b => less b a = false) bs) :
    List.Pairwise (fun a b => less b a = false) (inplace_merge_loop less n as bs) := by
  induction n generalizing as bs with
  | zero =>
    have h1 : as = [] := List.eq_nil_of_length_eq_zero (by omega)
    have h2 : bs = [] := List.eq_nil_of_length_eq_zero (by omega)
    subst h1; subst h2
    simp [inplace_merge_loop]
  | succ n ih =>
    cases as with
    | nil => simpa [inplace_merge_loop] using hb
    | cons a as =>
      cases bs with
      | nil => simpa [inplace_merge_loop] using ha
      | cons b bs =>
        simp only [List.length_cons] at hn
        by_cases h : less b a = true
        · have hab : less a b = false := htot b a h
          simp only [inplace_merge_loop, h, Bool.not_true, Bool.false_eq_true, if_false]
          rw [List.pairwise_cons]
          refine ⟨?_, ih (a :: as) bs (by simp only [List.length_cons]; omega) ha
            (List.Pairwise.of_cons hb)⟩
          intro x hx
          have hx2 := (inplace_merge_loop_perm less n (a :: as) bs).subset hx
          rcases List.mem_append.mp hx2 with hx3 | hx3
          · rcases List.mem_cons.mp hx3 with rfl | hx4
            · exact hab
            · exact htr b a x hab ((List.pairwise_cons.mp ha).1 x hx4)
          · exact (List.pairwise_cons.mp hb).1 x hx3
        · have hba : less b a = false := by simpa using h
          simp only [inplace_merge_loop, hba, Bool.not_false, if_true]
          rw [List.pairwise_cons]
          refine ⟨?_, ih as (b :: bs) (by simp only [List.length_cons]; omega)
            (List.Pairwise.of_cons ha) hb⟩
          intro x hx
          have hx2 := (inplace_merge_loop_perm less n as (b :: bs)).subset hx
          rcases List.mem_append.mp hx2 with hx3 | hx3
          · exact (List.pairwise_cons.mp ha).1 x hx3
          · rcases List.mem_cons.mp hx3 with rfl | hx4
            · exact hba
            · exact htr a b x hba ((List.pairwise_cons.mp hb).1 x hx4)

theorem inplace_merge_perm (as bs : List α) :
    List.Perm (inplace_merge less as bs) (as ++ bs) :=
  inplace_merge_loop_perm less _ as bs

theorem inplace_merge_sorted
    (htr : ∀ a b c, less b a = false → less c b = false → less c a = false)
    (htot : ∀ a b, less a b = true → less b a = false)
    (as bs : List α)
    (ha : List.Pairwise (fun a b => less b a = false) as)
    (hb : List.Pairwise (fun a b => less b a = false) bs) :
    List.Pairwise (fun a b => less b a = false) (inplace_merge less as bs) :=
  inplace_merge_loop_sorted less htr htot _ as bs (Nat.le_refl _) ha hb

theorem find_end_of_run_sorted
    (htr : ∀ a b c, less b a = false → less c b = false → less c a = false)
    (a : α) (rest : List α) :
    List.Pairwise (fun a b => less b a = false) (find_end_of_run less a rest).1 :=
  pairwise_of_is_sorted less htr _
    ((descents_eq_zero_iff less _).mp (find_end_of_run_descents_fst less a rest))

theorem list_sort_pass_perm (n : Nat) (xs : List α) (hn : xs.length ≤ n) :
    List.Perm (list_sort_pass less n xs).1 xs := by
  induction n generalizing xs with
  | zero =>
    have h1 : xs = [] := List.eq_nil_of_length_eq_zero (by omega)
    subst h1
    simp [list_sort_pass]
  | succ n ih =>
    cases xs with
    | nil => simp [list_sort_pass]
    | cons a rest =>
      have happ := find_end_of_run_append less a rest
      have hlen := find_end_of_run_length less a rest
      simp only [list_sort_pass]
      cases h2 : (find_end_of_run less a rest).2 with
      | nil =>
        simp only
        rw [h2, List.append_nil] at happ
        rw [happ]
      | cons b rest2 =>
        simp only
        rw [h2] at happ hlen
        have happ2 := find_end_of_run_append less b rest2
        have hlen2 := find_end_of_run_length less b rest2
        simp only [List.length_cons] at hn hlen
        have ih2 := ih (find_end_of_run less b rest2).2 (by omega)
        rw [← happ, ← happ2]
        rw [← List.append_assoc]
        exact (inplace_merge_perm less _ _).append ih2

theorem list_sort_pass_nil (n : Nat) : list_sort_pass less n ([] : List α) = ([], 0) := by
  cases n <;> rfl

theorem list_sort_pass_cnt_pos (n : Nat) (xs : List α) (hn : xs.length ≤ n) (hx : xs ≠ []) :
    1 ≤ (list_sort_pass less n xs).2 := by
  cases n with
  | zero =>
    exact absurd (List.eq_nil_of_length_eq_zero (by omega)) hx
  | succ n =>
    cases xs with
    | nil => exact absurd rfl hx
    | cons a rest =>
      simp only [list_sort_pass]
      cases h2 : (find_end_of_run less a rest).2 with
      | nil => simp
      | cons b rest2 => simp

theorem list_sort_pass_cnt_le (n : Nat) (xs : List α) (hn : xs.length ≤ n) :
    2 * (list_sort_pass less n xs).2 ≤ descents less xs + 2 := by
  induction n generalizing xs with
  | zero =>
    have h1 : xs = [] := List.eq_nil_of_length_eq_zero (by omega)
    subst h1
    simp [list_sort_pass]
  | succ n ih =>
    cases xs with
    | nil => simp [list_sort_pass]
    | cons a rest =>
      have hd := find_end_of_run_descents less a rest
      have hlen := find_end_of_run_length less a rest
      simp only [list_sort_pass]
      cases h2 : (find_end_of_run less a rest).2 with
      | nil => simp
      | cons b rest2 =>
        simp only
        rw [h2] at hd hlen
        have hd2 := find_end_of_run_descents less b rest2
        have hlen2 := find_end_of_run_length less b rest2
        simp only [List.length_cons] at hn hlen
        have ih2 := ih (find_end_of_run less b rest2).2 (by omega)
        simp only [List.isEmpty_cons, Bool.false_eq_true, if_false] at hd
        cases h3 : (find_end_of_run less b rest2).2 with
        | nil =>
          rw [list_sort_pass_nil]
          omega
        | cons c rest3 =>
          rw [h3] at hd2 ih2
          simp only [List.isEmpty_cons, Bool.false_eq_true, if_false] at hd2
          omega

theorem list_sort_pass_descents
    (htr : ∀ a b c, less b a = false → less c b = false → less c a = false)
    (htot : ∀ a b, less a b = true → less b a = false)
    (n : Nat) (xs : List α) (hn : xs.length ≤ n) :
    descents less (list_sort_pass less n xs).1 ≤ (list_sort_pass less n xs).2 - 1 := by
  induction n generalizing xs with
  | zero =>
    have h1 : xs = [] := List.eq_nil_of_length_eq_zero (by omega)
    subst h1
    simp [list_sort_pass, descents]
  | succ n ih =>
    cases xs with
    | nil => simp [list_sort_pass, descents]
    | cons a rest =>
      have hlen := find_end_of_run_length less a rest
      simp only [list_sort_pass]
      cases h2 : (find_end_of_run less a rest).2 with
      | nil =>
        simp only
        rw [find_end_of_run_descents_fst]
      | cons b rest2 =>
        simp only
        rw [h2] at hlen
        have hlen2 := find_end_of_run_length less b rest2
        simp only [List.length_cons] at hn hlen
        have ih2 := ih (find_end_of_run less b rest2).2 (by omega)
        have hm : descents less (inplace_merge less (find_end_of_run less a rest).1
            (find_end_of_run less b rest2).1) = 0 :=
          (descents_eq_zero_iff less _).mpr (is_sorted_of_pairwise less _
            (inplace_merge_sorted less htr htot _ _ (find_end_of_run_sorted less htr a rest)
              (find_end_of_run_sorted less htr b rest2)))
        cases h3 : (find_end_of_run less b rest2).2 with
        | nil =>
          rw [list_sort_pass_nil]
          simp only [List.append_nil]
          omega
        | cons c rest3 =>
          have hpos := list_sort_pass_cnt_pos less n (find_end_of_run less b rest2).2
            (by omega) (by rw [h3]; exact List.cons_ne_nil _ _)
          rw [h3] at ih2 hpos
          have happ := descents_append_le less
            (inplace_merge less (find_end_of_run less a rest).1 (find_end_of_run less b rest2).1)
            (list_sort_pass less n (c :: rest3)).1
          omega

theorem list_sort_loop_spec
    (htr : ∀ a b c, less b a = false → less c b = false → less c a = false)
    (htot : ∀ a b, less a b = true → less b a = false)
    (fuel : Nat) (xs : List α) (hf : descents less xs < fuel) :
    ∃ ys, list_sort_loop less fuel xs = some ys ∧ List.Perm ys xs
      ∧ List.Pairwise (fun a b => less b a = false) ys := by
  induction fuel generalizing xs with
  | zero => omega
  | succ n ih =>
    have hperm := list_sort_pass_perm less xs.length xs (Nat.le_refl _)
    have hcnt := list_sort_pass_cnt_le less xs.length xs (Nat.le_refl _)
    have hdes := list_sort_pass_descents less htr htot xs.length xs (Nat.le_refl _)
    simp only [list_sort_loop]
    by_cases h : (list_sort_pass less xs.length xs).2 > 1
    · rw [if_pos h]
      obtain ⟨ys, h1, h2, h3⟩ := ih (list_sort_pass less xs.length xs).1 (by omega)
      exact ⟨ys, h1, h2.trans hperm, h3⟩
    · rw [if_neg h]
      refine ⟨_, rfl, hperm, ?_⟩
      apply pairwise_of_is_sorted less htr
      apply (descents_eq_zero_iff less _).mp
      omega

theorem list_sort_spec
    (htr : ∀ a b c, less b a = false → less c b = false → less c a = false)
    (htot : ∀ a b, less a b = true → less b a = false)
    (xs : List α) :
    ∃ ys, list_sort less xs = some ys ∧ List.Perm ys xs
      ∧ List.Pairwise (fun a b => less b a = false) ys := by
  obtain ⟨ys, h1, h2, h3⟩ := list_sort_loop_spec less htr htot (xs.length + 1) xs
    (Nat.lt_succ_of_le (descents_le_length less xs))
  refine ⟨ys, ?_, h2, h3⟩
  simp [list_sort, h1, is_sorted_of_pairwise less ys h3]

end list_lemmas

theorem list_insert_ordered_eq {α : Type} (less : α → α → Bool) (e : α) (xs : List α) :
    list_insert_ordered less e xs
      = xs.takeWhile (fun x => !less e x) ++ e :: xs.dropWhile (fun x => !less e x) := by
  induction xs with
  | nil => simp [list_insert_ordered]
  | cons a rest ih =>
    by_cases h : less e a = true
    · simp [list_insert_ordered, h, List.takeWhile, List.dropWhile]
    · have h2 : less e a = false := by simpa using h
      simp [list_insert_ordered, h2, List.takeWhile, List.dropWhile, ih]

theorem list_insert_ordered_perm {α : Type} (less : α → α → Bool) (e : α) (xs : List α) :
    List.Perm (list_insert_ordered less e xs) (e :: xs) := by
  rw [list_insert_ordered_eq]
  have h := List.takeWhile_append_dropWhile (fun x => !less e x) xs
  exact List.perm_middle.trans (List.Perm.cons e (by rw [h]))

/-- Position of an ordered insertion by sort_priority into a list that is sorted by
descending priority: all elements in front have priority at least that of the
new element, all elements behind have a strictly lower priority. -/
theorem list_insert_ordered_priority (s : kernel) (t : Nat) (xs : List Nat)
    (hs : List.Pairwise (fun a b => (s.threads a).priority ≥ (s.threads b).priority) xs) :
    ∃ pre post, xs = pre ++ post
      ∧ list_insert_ordered (sort_priority s) t xs = pre ++ t :: post
      ∧ (∀ x ∈ pre, (s.threads x).priority ≥ (s.threads t).priority)
      ∧ (∀ x ∈ post, (s.threads x).priority < (s.threads t).priority) := by
  induction xs with
  | nil => exact ⟨[], [], rfl, rfl, by simp, by simp⟩
  | cons a rest ih =>
    rw [List.pairwise_cons] at hs
    by_cases h : (s.threads t).priority > (s.threads a).priority
    · refine ⟨[], a :: rest, rfl, ?_, by simp, ?_⟩
      · simp [list_insert_ordered, sort_priority, h]
      · intro x hx
        rcases List.mem_cons.mp hx with rfl | hx
        · exact h
        · have := hs.1 x hx
          omega
    · obtain ⟨pre, post, h1, h2, h3, h4⟩ := ih hs.2
      refine ⟨a :: pre, post, by rw [h1]; rfl, ?_, ?_, h4⟩
      · simp [list_insert_ordered, sort_priority, h, h2]
      · intro x hx
        rcases List.mem_cons.mp hx with rfl | hx
        · omega
        · exact h3 x hx

/-! ## Theorems: thread_unblock -/

/-- C3: thread_unblock (t) on a BLOCKED thread t and a ready queue sorted by
descending priority succeeds, sets the status of t to THREAD_READY, and inserts t
behind every queued thread of priority at least that of t and in front of every
queued thread of strictly lower priority; the other queued threads keep their
order, every other thread structure is unchanged, and the running thread is the
same thread with status THREAD_RUNNING. -/
theorem thread_unblock_ordered (s : kernel) (t : Nat)
    (hb : (s.threads t).status = .THREAD_BLOCKED)
    (hr : (s.threads s.running).status = .THREAD_RUNNING)
    (hs : List.Pairwise (fun a b => (s.threads a).priority ≥ (s.threads b).priority)
      s.ready_list) :
    ∃ s1 pre post, thread_unblock t s = some s1
      ∧ (s1.threads t).status = .THREAD_READY
      ∧ (s1.threads t).priority = (s.threads t).priority
      ∧ s.ready_list = pre ++ post
      ∧ s1.ready_list = pre ++ t :: post
      ∧ (∀ x ∈ pre, (s.threads x).priority ≥ (s.threads t).priority)
      ∧ (∀ x ∈ post, (s.threads x).priority < (s.threads t).priority)
      ∧ (∀ x, x ≠ t → s1.threads x = s.threads x)
      ∧ s1.running = s.running
      ∧ (s1.threads s1.running).status = .THREAD_RUNNING := by
  obtain ⟨pre, post, h1, h2, h3, h4⟩ := list_insert_ordered_priority s t s.ready_list hs
  have hne : s.running ≠ t := by
    intro h
    rw [h, hb] at hr
    exact absurd hr (by decide)
  have he : thread_unblock t s = some (set_thread
      { s with ready_list := list_insert_ordered (sort_priority s) t s.ready_list }
      t { s.threads t with status := .THREAD_READY }) := by
    simp [thread_unblock, hb]
  refine ⟨_, pre, post, he, ?_, ?_, h1, ?_, h3, h4, ?_, rfl, ?_⟩
  · simp [set_thread]
  · simp [set_thread]
  · simpa [set_thread] using h2
  · intro x hx
    simp [set_thread, hx]
  · simp [set_thread, hne, hr]

/-- C3 at a concrete state: thread 5 (priority 20) is unblocked into the ready
queue 2, 3, 4 (priorities 25, 20, 10). -/
theorem thread_unblock_ordered_witness :
    (ex_ready.threads 5).status = .THREAD_BLOCKED
      ∧ ∃ s1 pre post, thread_unblock 5 ex_ready = some s1
        ∧ (s1.threads 5).status = .THREAD_READY
        ∧ (s1.threads 5).priority = (ex_ready.threads 5).priority
        ∧ ex_ready.ready_list = pre ++ post
        ∧ s1.ready_list = pre ++ 5 :: post
        ∧ (∀ x ∈ pre, (ex_ready.threads x).priority ≥ (ex_ready.threads 5).priority)
        ∧ (∀ x ∈ post, (ex_ready.threads x).priority < (ex_ready.threads 5).priority)
        ∧ (∀ x, x ≠ 5 → s1.threads x = ex_ready.threads x)
        ∧ s1.running = ex_ready.running
        ∧ (s1.threads s1.running).status = .THREAD_RUNNING :=
  ⟨by decide, thread_unblock_ordered ex_ready 5 (by decide) (by decide) (by decide)⟩

/-! ## Theorems: scheduler and semaphore helpers -/

theorem thread_current_eq (s : kernel) (hr : (s.threads s.running).status = .THREAD_RUNNING) :
    thread_current s = some s.running := by
  simp [thread_current, hr]

theorem change_list_stay (k : List frame) (s : kernel)
    (hr : (s.threads s.running).status = .THREAD_RUNNING)
    (h : ∀ f rest, s.ready_list = f :: rest →
      ¬ (s.threads s.running).priority < (s.threads f).priority) :
    change_list k s = some s := by
  unfold change_list
  rw [thread_current_eq s hr]
  cases hl : s.ready_list with
  | nil => rfl
  | cons f rest =>
    simp only
    rw [if_neg (h f rest hl)]

theorem change_list_yield (k : List frame) (s : kernel) (f : Nat) (rest : List Nat)
    (hr : (s.threads s.running).status = .THREAD_RUNNING)
    (hi : s.intr_context = false)
    (hl : s.ready_list = f :: rest)
    (hlt : (s.threads s.running).priority < (s.threads f).priority) :
    ∃ s1, change_list k s = some s1
      ∧ s1.running = f
      ∧ (s1.threads f).status = .THREAD_RUNNING
      ∧ (s1.threads s.running).status = .THREAD_READY
      ∧ (s1.threads s.running).cont = k
      ∧ s1.ready_list = (if some s.running ≠ s.idle_thread
          then list_insert_ordered (sort_priority s) s.running rest else rest)
      ∧ (∀ x, x ≠ f → x ≠ s.running → s1.threads x = s.threads x)
      ∧ (∀ x, (s1.threads x).priority = (s.threads x).priority)
      ∧ (∀ x, (s1.threads x).donations = (s.threads x).donations)
      ∧ (∀ x, (s1.threads x).wait_on_lock = (s.threads x).wait_on_lock)
      ∧ s1.locks = s.locks ∧ s1.semas = s.semas ∧ s1.sleep_list = s.sleep_list := by
  have hne : s.running ≠ f := by
    intro h
    rw [h] at hlt
    exact absurd hlt (lt_irrefl _)
  have hnl : sort_priority s s.running f = false := by
    simp [sort_priority]; omega
  unfold change_list
  rw [thread_current_eq s hr]
  simp only [hl, if_pos hlt]
  unfold thread_yield
  rw [thread_current_eq s hr]
  simp only [hi, Bool.false_eq_true, if_false]
  by_cases hidle : some s.running ≠ s.idle_thread
  · simp only [if_pos hidle, hl, list_insert_ordered, hnl, Bool.false_eq_true, if_false]
    simp [do_schedule, thread_current, hr, schedule, next_thread_to_run, set_thread,
      thread_launch, hne, Ne.symm hne]
    refine ⟨fun x hx1 hx2 => by simp [hx1, hx2], fun x => ?_, fun x => ?_, fun x => ?_⟩ <;>
      (split_ifs <;> simp_all)
  · simp only [if_neg hidle]
    simp [do_schedule, thread_current, hr, schedule, next_thread_to_run, set_thread,
      thread_launch, hne, Ne.symm hne, hl]
    refine ⟨fun x hx1 hx2 => by simp [hx1, hx2], fun x => ?_, fun x => ?_, fun x => ?_⟩ <;>
      (split_ifs <;> simp_all)

@[simp] theorem set_sema_threads (s : kernel) (r : sema_ref) (v : semaphore) :
    (set_sema s r v).threads = s.threads := by
  cases r <;> rfl

@[simp] theorem set_sema_running (s : kernel) (r : sema_ref) (v : semaphore) :
    (set_sema s r v).running = s.running := by
  cases r <;> rfl

@[simp] theorem set_sema_ready_list (s : kernel) (r : sema_ref) (v : semaphore) :
    (set_sema s r v).ready_list = s.ready_list := by
  cases r <;> rfl

@[simp] theorem set_sema_intr_context (s : kernel) (r : sema_ref) (v : semaphore) :
    (set_sema s r v).intr_context = s.intr_context := by
  cases r <;> rfl

@[simp] theorem set_sema_idle_thread (s : kernel) (r : sema_ref) (v : semaphore) :
    (set_sema s r v).idle_thread = s.idle_thread := by
  cases r <;> rfl

@[simp] theorem get_sema_set_sema (s : kernel) (r : sema_ref) (v : semaphore) :
    get_sema (set_sema s r v) r = v := by
  cases r <;> simp [get_sema, set_sema, set_lock]

@[simp] theorem set_sema_set_sema (s : kernel) (r : sema_ref) (v w : semaphore) :
    set_sema (set_sema s r v) r w = set_sema s r w := by
  cases r with
  | sema i =>
    simp only [set_sema]
    congr 1
    funext j
    by_cases h : j = i <;> simp [h]
  | lock_sema l =>
    simp only [set_sema, set_lock]
    congr 1
    funext j
    by_cases h : j = l <;> simp [h]

@[simp] theorem get_sema_set_thread (s : kernel) (t : Nat) (v : thread) (r : sema_ref) :
    get_sema (set_thread s t v) r = get_sema s r := by
  cases r <;> rfl

theorem sort_priority_congr (s s1 : kernel)
    (h : ∀ x, (s1.threads x).priority = (s.threads x).priority) :
    sort_priority s1 = sort_priority s := by
  funext a b
  simp [sort_priority, h]

theorem sort_priority_trans (s : kernel) (a b c : Nat)
    (h1 : sort_priority s b a = false) (h2 : sort_priority s c b = false) :
    sort_priority s c a = false := by
  simp [sort_priority] at *
  omega

theorem sort_priority_asymm (s : kernel) (a b : Nat) (h : sort_priority s a b = true) :
    sort_priority s b a = false := by
  simp [sort_priority] at *
  omega

/-- The function list_sort with sort_priority always completes; the result is a
permutation of the input in descending order of priority. -/
theorem list_sort_priority (s : kernel) (xs : List Nat) :
    ∃ ys, list_sort (sort_priority s) xs = some ys ∧ List.Perm ys xs
      ∧ List.Pairwise (fun a b => (s.threads a).priority ≥ (s.threads b).priority) ys := by
  obtain ⟨ys, h1, h2, h3⟩ := list_sort_spec (sort_priority s) (sort_priority_trans s)
    (sort_priority_asymm s) xs
  refine ⟨ys, h1, h2, h3.imp ?_⟩
  intro a b hab
  simp [sort_priority] at hab
  omega

/-- The preemption check: outside an interrupt handler change_list completes; when
the ready list is non-empty and its head has a strictly higher priority than the
running thread, the running thread yields to that head; otherwise the state is
unchanged. -/
theorem change_list_spec (k : List frame) (s : kernel)
    (hr : (s.threads s.running).status = .THREAD_RUNNING)
    (hi : s.intr_context = false) :
    ∃ s1, change_list k s = some s1
      ∧ ((∃ f rest, s.ready_list = f :: rest
            ∧ (s.threads s.running).priority < (s.threads f).priority) →
          s1.running ≠ s.running ∧ some s1.running = s.ready_list.head?
            ∧ (s1.threads s1.running).status = .THREAD_RUNNING
            ∧ (s1.threads s.running).status = .THREAD_READY)
      ∧ (¬ (∃ f rest, s.ready_list = f :: rest
            ∧ (s.threads s.running).priority < (s.threads f).priority) → s1 = s) := by
  by_cases h : ∃ f rest, s.ready_list = f :: rest
      ∧ (s.threads s.running).priority < (s.threads f).priority
  · obtain ⟨f, rest, hl, hlt⟩ := h
    obtain ⟨s1, h1, h2, h3, h4, -⟩ := change_list_yield k s f rest hr hi hl hlt
    refine ⟨s1, h1, fun _ => ⟨?_, ?_, ?_, h4⟩, fun hn => absurd ⟨f, rest, hl, hlt⟩ hn⟩
    · rw [h2]
      intro he
      rw [he] at hlt
      exact absurd hlt (lt_irrefl _)
    · rw [h2, hl]; rfl
    · rw [h2]; exact h3
  · refine ⟨s, change_list_stay k s hr ?_, fun hy => absurd hy h, fun _ => rfl⟩
    intro f rest hl hlt
    exact h ⟨f, rest, hl, hlt⟩

theorem get_sema_congr (s s1 : kernel) (r : sema_ref)
    (h1 : s1.locks = s.locks) (h2 : s1.semas = s.semas) : get_sema s1 r = get_sema s r := by
  cases r <;> simp [get_sema, h1, h2]

theorem change_list_frame (k : List frame) (s : kernel)
    (hr : (s.threads s.running).status = .THREAD_RUNNING)
    (hi : s.intr_context = false) :
    ∃ s1, change_list k s = some s1
      ∧ s1.locks = s.locks ∧ s1.semas = s.semas
      ∧ (s1 = s ∨ ∃ f rest, s.ready_list = f :: rest
          ∧ (s.threads s.running).priority < (s.threads f).priority
          ∧ s1.running = f
          ∧ (s1.threads f).status = .THREAD_RUNNING
          ∧ (s1.threads s.running).status = .THREAD_READY
          ∧ s1.ready_list = (if some s.running ≠ s.idle_thread
              then list_insert_ordered (sort_priority s) s.running rest else rest)
          ∧ (∀ x, x ≠ f → x ≠ s.running → s1.threads x = s.threads x)) := by
  by_cases h : ∃ f rest, s.ready_list = f :: rest
      ∧ (s.threads s.running).priority < (s.threads f).priority
  · obtain ⟨f, rest, hl, hlt⟩ := h
    obtain ⟨s1, h1, h2, h3, h4, -, h6, h7, -, -, -, h11, h12, -⟩ :=
      change_list_yield k s f rest hr hi hl hlt
    exact ⟨s1, h1, h11, h12, Or.inr ⟨f, rest, hl, hlt, h2, h3, h4, h6, h7⟩⟩
  · refine ⟨s, change_list_stay k s hr ?_, rfl, rfl, Or.inl rfl⟩
    intro f rest hl hlt
    exact h ⟨f, rest, hl, hlt⟩

/-! ## Theorems: sema_up -/

/-- The increment of an unsigned int: one more below UINT_MAX = 2 ^ 32 - 1, and 0
at UINT_MAX. -/
theorem unsigned_incr (v : Nat) :
    (v < 2 ^ 32 - 1 → (v + 1) % 2 ^ 32 = v + 1) ∧ (v = 2 ^ 32 - 1 → (v + 1) % 2 ^ 32 = 0) := by
  constructor
  · intro h
    exact Nat.mod_eq_of_lt (by omega)
  · intro h
    rw [h]
    rfl

/-- C5 (amended): sema_up called from a thread.  The value is incremented by one
as the unsigned counter it is: it grows by exactly one when it is below
UINT_MAX = 2 ^ 32 - 1 and wraps to 0 when it is UINT_MAX.  With a non-empty
waiter list exactly one waiter w leaves the list; w has maximal current
priority among the waiters, is no longer blocked (it is on the ready list or
already running), and the other waiters stay queued.  With an empty waiter
list sema_up is the increment followed by the preemption check: the caller
yields when the head of the ready list has a strictly higher priority, nothing
else changes when it has not, and in both cases no thread off the ready list
other than the caller is touched (no thread is unblocked). -/
theorem sema_up_effect (sema : sema_ref) (k : List frame) (s : kernel)
    (hr : (s.threads s.running).status = .THREAD_RUNNING)
    (hi : s.intr_context = false)
    (hw : ∀ w ∈ (get_sema s sema).waiters, (s.threads w).status = .THREAD_BLOCKED) :
    ∃ s1, sema_up sema k s = some s1
      ∧ (get_sema s1 sema).value = ((get_sema s sema).value + 1) % 2 ^ 32
      ∧ ((get_sema s sema).value < 2 ^ 32 - 1 →
          (get_sema s1 sema).value = (get_sema s sema).value + 1)
      ∧ ((get_sema s sema).value = 2 ^ 32 - 1 → (get_sema s1 sema).value = 0)
      ∧ ((get_sema s sema).waiters = [] →
          (get_sema s1 sema).waiters = []
          ∧ change_list k (set_sema s sema
              { value := ((get_sema s sema).value + 1) % 2 ^ 32, waiters := [] }) = some s1
          ∧ ((∃ f rest, s.ready_list = f :: rest
                ∧ (s.threads s.running).priority < (s.threads f).priority) →
              s1.running ≠ s.running ∧ (s1.threads s.running).status = .THREAD_READY)
          ∧ (¬ (∃ f rest, s.ready_list = f :: rest
                ∧ (s.threads s.running).priority < (s.threads f).priority) →
              s1 = set_sema s sema { value := ((get_sema s sema).value + 1) % 2 ^ 32, waiters := [] })
          ∧ (∀ x, x ≠ s.running → x ∉ s.ready_list → s1.threads x = s.threads x))
      ∧ ((get_sema s sema).waiters ≠ [] →
          ∃ w, w ∈ (get_sema s sema).waiters
            ∧ (∀ x ∈ (get_sema s sema).waiters, (s.threads x).priority ≤ (s.threads w).priority)
            ∧ List.Perm (w :: (get_sema s1 sema).waiters) (get_sema s sema).waiters
            ∧ (s1.threads w).status ≠ .THREAD_BLOCKED
            ∧ (w ∈ s1.ready_list ∨ s1.running = w)
            ∧ (∀ x, x ≠ w → x ≠ s.running → x ∉ s.ready_list →
                s1.threads x = s.threads x)) := by
  obtain ⟨ys, hsort, hperm, hpw⟩ := list_sort_priority s (get_sema s sema).waiters
  cases ys with
  | nil =>
    have hnil : (get_sema s sema).waiters = [] := List.Perm.nil_eq hperm |>.symm
    have hs0r : ((set_sema s sema
        { value := ((get_sema s sema).value + 1) % 2 ^ 32, waiters := [] }).threads
        (set_sema s sema { value := ((get_sema s sema).value + 1) % 2 ^ 32, waiters := [] }).running).status
        = .THREAD_RUNNING := by simpa using hr
    obtain ⟨s1, h1, h2, h3⟩ := change_list_spec k
      (set_sema s sema { value := ((get_sema s sema).value + 1) % 2 ^ 32, waiters := [] }) hs0r
      (by simpa using hi)
    obtain ⟨s1', h1', hl, hsm, hcase⟩ := change_list_frame k
      (set_sema s sema { value := ((get_sema s sema).value + 1) % 2 ^ 32, waiters := [] }) hs0r
      (by simpa using hi)
    have hs1 : s1' = s1 := Option.some.inj (h1'.symm.trans h1)
    subst hs1
    have hg : get_sema s1' sema = { value := ((get_sema s sema).value + 1) % 2 ^ 32, waiters := [] } := by
      rw [get_sema_congr _ _ sema hl hsm, get_sema_set_sema]
    refine ⟨s1', by simp only [sema_up, hsort]; exact h1, by rw [hg],
      fun hv => by rw [hg]; exact (unsigned_incr _).1 hv,
      fun hv => by rw [hg]; exact (unsigned_incr _).2 hv,
      fun _ => ⟨by rw [hg], h1, ?_, ?_, ?_⟩, fun hne => absurd hnil hne⟩
    · intro hy
      have := h2 (by simpa using hy)
      simp only [set_sema_running, set_sema_threads] at this
      exact ⟨this.1, this.2.2.2⟩
    · intro hn
      exact h3 (by simpa using hn)
    · intro x hxc hxr
      rcases hcase with rfl | ⟨f, rest3, hl3, -, -, -, -, -, hoth⟩
      · simp
      · have hxf : x ≠ f := by
          intro he
          apply hxr
          rw [he]
          simp only [set_sema_ready_list] at hl3
          rw [hl3]
          exact List.mem_cons_self _ _
        rw [hoth x hxf (by simpa using hxc)]
        simp
  | cons w rest =>
    have hwm : w ∈ (get_sema s sema).waiters := hperm.subset (List.mem_cons_self _ _)
    have hwb := hw w hwm
    have hcw : s.running ≠ w := by
      intro h
      rw [h, hwb] at hr
      exact absurd hr (by decide)
    have hmax : ∀ x ∈ (get_sema s sema).waiters,
        (s.threads x).priority ≤ (s.threads w).priority := by
      intro x hx
      have hx2 := hperm.symm.subset hx
      rcases List.mem_cons.mp hx2 with rfl | hx3
      · exact le_refl _
      · exact (List.pairwise_cons.mp hpw).1 x hx3
    have e3 : ∃ s3, sema_up sema k s = change_list k s3
        ∧ s3.threads = (fun i => if i = w then { s.threads w with status := .THREAD_READY }
            else s.threads i)
        ∧ s3.running = s.running
        ∧ s3.ready_list = list_insert_ordered (sort_priority s) w s.ready_list
        ∧ s3.intr_context = s.intr_context
        ∧ s3.idle_thread = s.idle_thread
        ∧ get_sema s3 sema = { value := ((get_sema s sema).value + 1) % 2 ^ 32, waiters := rest } := by
      refine ⟨set_sema (set_thread
          { set_sema s sema { get_sema s sema with waiters := rest } with
            ready_list := list_insert_ordered (sort_priority s) w s.ready_list }
          w { s.threads w with status := .THREAD_READY }) sema
          { value := ((get_sema s sema).value + 1) % 2 ^ 32, waiters := rest }, ?_, ?_, ?_, ?_, ?_, ?_, ?_⟩
      · simp only [sema_up, hsort, thread_unblock, set_sema_threads, hwb, if_true]
        have e1 : sort_priority (set_sema s sema { get_sema s sema with waiters := rest })
            = sort_priority s := sort_priority_congr _ _ (by simp)
        rw [e1]
        simp only [set_sema_ready_list]
        congr 1
        cases sema <;> simp [get_sema, set_sema, set_lock, set_thread]
      · simp [set_thread]
      · cases sema <;> rfl
      · cases sema <;> rfl
      · cases sema <;> rfl
      · cases sema <;> rfl
      · simp
    obtain ⟨s3, hup, ht3, hr3, hl3, hi3, hid3, hg3⟩ := e3
    have hs3r : (s3.threads s3.running).status = .THREAD_RUNNING := by
      rw [hr3, ht3]
      simp [hcw, hr]
    obtain ⟨s1, h1, hlk, hsm, hcase⟩ := change_list_frame k s3 hs3r (by rw [hi3]; exact hi)
    have hg1 : get_sema s1 sema
        = { value := ((get_sema s sema).value + 1) % 2 ^ 32, waiters := rest } := by
      rw [get_sema_congr _ _ sema hlk hsm, hg3]
    have hw3 : w ∈ s3.ready_list := by
      rw [hl3]
      exact (list_insert_ordered_perm _ w s.ready_list).symm.subset (List.mem_cons_self _ _)
    refine ⟨s1, hup.trans h1, by rw [hg1],
      fun hv => by rw [hg1]; exact (unsigned_incr _).1 hv,
      fun hv => by rw [hg1]; exact (unsigned_incr _).2 hv,
      fun he => ?_, fun _ => ⟨w, hwm, hmax, ?_, ?_, ?_, ?_⟩⟩
    · rw [he] at hwm
      exact absurd hwm (List.not_mem_nil _)
    · rw [hg1]
      exact hperm
    · rcases hcase with rfl | ⟨f, rest3, hl, -, hrun, hfs, -, -, hoth⟩
      · rw [ht3]
        simp
      · by_cases hwf : w = f
        · rw [hwf, hfs]
          decide
        · rw [hoth w hwf (by rw [hr3]; exact Ne.symm hcw), ht3]
          simp
    · rcases hcase with rfl | ⟨f, rest3, hl, -, hrun, -, -, hrl, -⟩
      · exact Or.inl hw3
      · by_cases hwf : w = f
        · exact Or.inr (by rw [hrun, hwf])
        · left
          rw [hl] at hw3
          have hwr : w ∈ rest3 := by
            rcases List.mem_cons.mp hw3 with h | h
            · exact absurd h hwf
            · exact h
          rw [hrl]
          split
          · exact (list_insert_ordered_perm _ _ rest3).symm.subset (List.mem_cons_of_mem _ hwr)
          · exact hwr
    · intro x hxw hxc hxr
      have hx3 : s3.threads x = s.threads x := by
        rw [ht3]
        simp [hxw]
      rcases hcase with rfl | ⟨f, rest3, hl, -, -, -, -, -, hoth⟩
      · exact hx3
      · have hf : f ∈ s3.ready_list := by rw [hl]; exact List.mem_cons_self _ _
        rw [hl3] at hf
        have hf2 := (list_insert_ordered_perm _ w s.ready_list).subset hf
        have hxf : x ≠ f := by
          intro h
          rw [← h] at hf2
          rcases List.mem_cons.mp hf2 with h2 | h2
          · exact hxw h2
          · exact hxr h2
        rw [hoth x hxf (by rw [hr3]; exact hxc), hx3]

/-! ## Theorems: donate_priority -/

theorem wait_chain_congr (n : Nat) (s s1 : kernel) (l : Option Nat)
    (hl : s1.locks = s.locks)
    (hw : ∀ x, (s1.threads x).wait_on_lock = (s.threads x).wait_on_lock) :
    wait_chain n s1 l = wait_chain n s l := by
  induction n generalizing l with
  | zero => rfl
  | succ n ih =>
    cases l with
    | none => rfl
    | some l0 =>
      simp only [wait_chain, hl]
      cases (s.locks l0).holder with
      | none => rfl
      | some h => simp only [hw, ih]

theorem wait_chain_take (m n : Nat) (s : kernel) (l : Option Nat) (hmn : m ≤ n) :
    wait_chain m s l = (wait_chain n s l).take m := by
  induction m generalizing n l with
  | zero => simp [wait_chain]
  | succ m ih =>
    cases n with
    | zero => omega
    | succ n =>
      cases l with
      | none => simp [wait_chain]
      | some l0 =>
        simp only [wait_chain]
        cases (s.locks l0).holder with
        | none => simp
        | some h => simp [ih n _ (by omega)]

theorem donate_priority_loop_spec (m : Nat) (l : Option Nat) (t : Nat) (s : kernel) :
    (donate_priority_loop m l t s).locks = s.locks
      ∧ ∀ x, (donate_priority_loop m l t s).threads x
          = if x ∈ wait_chain m s l ∧ (s.threads x).priority < (s.threads t).priority
            then { s.threads x with priority := (s.threads t).priority }
            else s.threads x := by
  induction m generalizing l s with
  | zero => simp [donate_priority_loop, wait_chain]
  | succ m ih =>
    cases l with
    | none => simp [donate_priority_loop, wait_chain]
    | some l0 =>
      cases hh : (s.locks l0).holder with
      | none => simp [donate_priority_loop, wait_chain, hh]
      | some h =>
        by_cases hlt : (s.threads h).priority < (s.threads t).priority
        · have hht : h ≠ t := by
            intro e
            rw [e] at hlt
            exact absurd hlt (lt_irrefl _)
          simp only [donate_priority_loop, hh, if_pos hlt, wait_chain]
          obtain ⟨i1, i2⟩ := ih (s.threads h).wait_on_lock
            (set_thread s h { s.threads h with priority := (s.threads t).priority })
          have hc := wait_chain_congr m s
            (set_thread s h { s.threads h with priority := (s.threads t).priority })
            (s.threads h).wait_on_lock rfl (by
              intro y
              by_cases hy : y = h <;> simp [set_thread, hy])
          refine ⟨i1, fun x => ?_⟩
          rw [i2 x, hc]
          by_cases hx : x = h
          · subst hx
            simp [set_thread, Ne.symm hht, hlt]
          · simp [set_thread, hx, Ne.symm hht]
        · simp only [donate_priority_loop, hh, if_neg hlt, wait_chain]
          obtain ⟨i1, i2⟩ := ih (s.threads h).wait_on_lock s
          refine ⟨i1, fun x => ?_⟩
          rw [i2 x]
          by_cases hx : x = h
          · subst hx
            simp [hlt]
          · simp [hx]

theorem wait_chain_length_le (n : Nat) (s : kernel) (l : Option Nat) :
    (wait_chain n s l).length ≤ n := by
  induction n generalizing l with
  | zero => simp [wait_chain]
  | succ n ih =>
    cases l with
    | none => simp [wait_chain]
    | some l0 =>
      simp only [wait_chain]
      cases (s.locks l0).holder with
      | none => simp
      | some h =>
        have := ih (s.threads h).wait_on_lock
        simp only [List.length_cons]
        omega

/-- C6: donate_priority, called by the running thread with priority p that waits
on a lock, walks the chain of holders that starts at that lock (the chain is
followed for n hops, n at least MAX_DEPTH = 8).  Every holder on the first 8 hops
ends with priority max (old priority, p); on a chain of distinct holders every
holder beyond hop 8 keeps its priority; no thread off the chain changes, no field
other than priority changes, and the locks are unchanged. -/
theorem donate_priority_chain (s : kernel) (n : Nat) (hn : MAX_DEPTH ≤ n)
    (hr : (s.threads s.running).status = .THREAD_RUNNING)
    (hnd : (wait_chain n s (s.threads s.running).wait_on_lock).Nodup) :
    ∃ s1, donate_priority s = some s1
      ∧ (∀ i (hi : i < (wait_chain n s (s.threads s.running).wait_on_lock).length),
          (s1.threads (wait_chain n s (s.threads s.running).wait_on_lock)[i]).priority
            = if i < MAX_DEPTH then
                max (s.threads (wait_chain n s (s.threads s.running).wait_on_lock)[i]).priority
                  (s.threads s.running).priority
              else (s.threads (wait_chain n s (s.threads s.running).wait_on_lock)[i]).priority)
      ∧ (∀ x, x ∉ wait_chain n s (s.threads s.running).wait_on_lock →
          s1.threads x = s.threads x)
      ∧ (∀ x, { s1.threads x with priority := (s.threads x).priority } = s.threads x)
      ∧ s1.locks = s.locks := by
  obtain ⟨hl, ht⟩ := donate_priority_loop_spec MAX_DEPTH (s.threads s.running).wait_on_lock
    s.running s
  have hd : donate_priority s = some (donate_priority_loop MAX_DEPTH
      (s.threads s.running).wait_on_lock s.running s) := by
    simp [donate_priority, thread_current, hr]
  refine ⟨_, hd, ?_, ?_, ?_, hl⟩
  · intro i hi
    rw [ht]
    by_cases h8 : i < MAX_DEPTH
    · have hmem : (wait_chain n s (s.threads s.running).wait_on_lock)[i]
          ∈ wait_chain MAX_DEPTH s (s.threads s.running).wait_on_lock := by
        rw [wait_chain_take MAX_DEPTH n s _ hn, List.mem_take_iff_getElem]
        exact ⟨i, by omega, rfl⟩
      rw [if_pos h8]
      by_cases hlt : (s.threads (wait_chain n s (s.threads s.running).wait_on_lock)[i]).priority
          < (s.threads s.running).priority
      · rw [if_pos ⟨hmem, hlt⟩, max_eq_right (le_of_lt hlt)]
      · rw [if_neg (fun h => hlt h.2), max_eq_left (not_lt.mp hlt)]
    · rw [if_neg h8]
      have hnm : (wait_chain n s (s.threads s.running).wait_on_lock)[i]
          ∉ wait_chain MAX_DEPTH s (s.threads s.running).wait_on_lock := by
        rw [wait_chain_take MAX_DEPTH n s _ hn, List.mem_take_iff_getElem]
        rintro ⟨j, hj, he⟩
        have hj2 : j < (wait_chain n s (s.threads s.running).wait_on_lock).length := by omega
        have := (@List.Nodup.getElem_inj_iff _ _ hnd j hj2 i hi).mp he
        omega
      rw [if_neg (fun h => hnm h.1)]
  · intro x hx
    rw [ht]
    have hnm : x ∉ wait_chain MAX_DEPTH s (s.threads s.running).wait_on_lock := by
      intro hm
      apply hx
      rw [wait_chain_take MAX_DEPTH n s _ hn] at hm
      exact List.mem_of_mem_take hm
    rw [if_neg (fun h => hnm h.1)]
  · intro x
    rw [ht]
    split <;> rfl

/-! ## Theorems: lock_acquire leaves every donations list alone -/

theorem schedule_donations (k : List frame) (s s1 : kernel) (h : schedule k s = some s1) :
    ∀ x, (s1.threads x).donations = (s.threads x).donations := by
  intro x
  unfold schedule at h
  cases hl : s.ready_list with
  | nil =>
    cases hid : s.idle_thread with
    | none => simp [next_thread_to_run, hl, hid] at h
    | some nx =>
      simp only [next_thread_to_run, hl, hid] at h
      split_ifs at h <;> simp only [Option.some.injEq] at h <;> subst h <;>
        simp only [thread_launch, set_thread] <;> split_ifs <;> simp_all
  | cons nx rest =>
    simp only [next_thread_to_run, hl] at h
    split_ifs at h <;> simp only [Option.some.injEq] at h <;> subst h <;>
      simp only [thread_launch, set_thread] <;> split_ifs <;> simp_all

theorem thread_block_donations (k : List frame) (s s1 : kernel)
    (h : thread_block k s = some s1) :
    ∀ x, (s1.threads x).donations = (s.threads x).donations := by
  intro x
  unfold thread_block at h
  split_ifs at h
  cases hc : thread_current s with
  | none => simp [hc] at h
  | some cur =>
    simp only [hc] at h
    rw [schedule_donations _ _ _ h x]
    simp only [set_thread]
    split_ifs <;> simp_all

theorem sema_down_donations (sema : sema_ref) (k : List frame) (s s1 : kernel)
    (h : sema_down sema k s = some s1) :
    ∀ x, (s1.threads x).donations = (s.threads x).donations := by
  intro x
  unfold sema_down at h
  split_ifs at h
  unfold sema_down_loop at h
  split_ifs at h
  · cases hc : thread_current s with
    | none => simp [hc] at h
    | some cur =>
      simp only [hc] at h
      cases hb : thread_block (frame.sema_down_loop sema :: k)
          (set_sema s sema { get_sema s sema with
            waiters := list_insert_ordered (sort_priority s) cur (get_sema s sema).waiters }) with
      | none => simp [hb] at h
      | some s2 =>
        simp only [hb] at h
        split_ifs at h
        simp only [Option.some.injEq] at h
        subst h
        rw [thread_block_donations _ _ _ hb x]
        simp
  · simp only [Option.some.injEq] at h
    subst h
    simp

/-- The function lock_acquire never changes the donations list of any thread:
whenever it completes or blocks, every donations list is what it was before the
call. -/
theorem lock_acquire_donations (l : Nat) (k : List frame) (s s1 : kernel)
    (h : lock_acquire l k s = some s1) :
    ∀ x, (s1.threads x).donations = (s.threads x).donations := by
  intro x
  unfold lock_acquire at h
  cases hc : thread_current s with
  | none => simp [hc] at h
  | some cur =>
    simp only [hc] at h
    split_ifs at h with h1 h2 h3
    · cases hd : donate_priority (set_thread s cur { s.threads cur with wait_on_lock := some l }) with
      | none => simp [hd] at h
      | some s2 =>
        simp only [hd] at h
        have e2 : (s2.threads x).donations = (s.threads x).donations := by
          unfold donate_priority at hd
          cases hc2 : thread_current (set_thread s cur { s.threads cur with wait_on_lock := some l }) with
          | none => simp [hc2] at hd
          | some t =>
            simp only [hc2, Option.some.injEq] at hd
            subst hd
            rw [(donate_priority_loop_spec _ _ _ _).2 x]
            simp only [set_thread]
            split_ifs <;> simp_all
        cases hs : sema_down (.lock_sema l) (frame.lock_acquire_tail l :: k) s2 with
        | none => simp [hs] at h
        | some s3 =>
          simp only [hs] at h
          have e3 := sema_down_donations _ _ _ _ hs x
          split_ifs at h <;> simp only [Option.some.injEq] at h <;> subst h
          · simp only [lock_acquire_tail, set_thread, set_lock]
            split_ifs <;> simp_all
          · rw [e3, e2]
    · cases hs : sema_down (.lock_sema l) (frame.lock_acquire_tail l :: k)
          (set_thread s cur { s.threads cur with wait_on_lock := some l }) with
      | none => simp [hs] at h
      | some s3 =>
        simp only [hs] at h
        have e3 := sema_down_donations _ _ _ _ hs x
        have e2 : ((set_thread s cur { s.threads cur with wait_on_lock := some l }).threads
            x).donations = (s.threads x).donations := by
          simp only [set_thread]
          split_ifs <;> simp_all
        split_ifs at h <;> simp only [Option.some.injEq] at h <;> subst h
        · simp only [lock_acquire_tail, set_thread, set_lock]
          split_ifs <;> simp_all
        · rw [e3, e2]

/-! ## Theorems: thread_init and thread_create -/

/-- The function thread_init never completes: init_thread zero-fills the structure
of the initial thread and leaves its donations header zero-filled, and the
lock_release (&tid_lock) inside allocate_tid walks that header. -/
theorem thread_init_fails (s : kernel) : thread_init s = none := by
  cases hi : s.intr_context <;>
  simp [thread_init, init_thread, PRI_MIN, PRI_MAX, PRI_DEFAULT, allocate_tid, lock_acquire,
    thread_current, set_thread, lock_init, set_lock, tid_lock, sema_down, sema_down_loop,
    get_sema, set_sema, hi, lock_acquire_tail, allocate_tid_tail, lock_release, thread_zero]

/-- C4: the code at the scenario S1.  Thread 1 (priority 31, a thread structure as
init_thread leaves it) calls thread_create with priority 40.  The call does not
complete: allocate_tid acquires tid_lock and lock_release (&tid_lock) then walks
the zero-filled donations header of the caller.  The new thread 2 is never
unblocked and never runs.  (Had the donations header been through list_init,
thread 2 would run and the caller would be left at priority 0.) -/
theorem thread_create_does_not_complete :
    thread_create (some 2) 40 [] ex_main = none
      ∧ (thread_create (some 2) 40 [] (init_lists ex_main)).map
          (fun s => (s.running, (s.threads 2).status, (s.threads 1).priority))
        = some (2, .THREAD_RUNNING, 0) :=
  ⟨rfl, by decide⟩

/-! ## Theorems: the ready queue under priority donation -/

/-- C1: the code on a run of public operations.  Start: thread 1 (L) runs at
priority 50, the ready queue holds threads 2 (H, 30), 3 (A, 25), 4 (M, 20).  L
acquires lock 7 and lowers its priority to 10, so H runs and the ready queue is
A, M, L.  H calls lock_acquire on lock 7: donate_priority raises L to 30 where it
stands, at the back of the ready queue, H blocks, and the scheduler pops the
head A.  The chosen thread has priority 25 while thread 1 with priority 30 is
left on the ready queue. -/
theorem donation_breaks_scheduler_pick :
    (run_calls [.lock_acquire 7, .thread_set_priority 10] ex_start).map
        (fun s => (s.running, (s.threads s.running).priority, s.ready_list,
          s.ready_list.map fun t => (s.threads t).priority))
      = some (2, 30, [3, 4, 1], [25, 20, 10])
    ∧ (run_calls [.lock_acquire 7, .thread_set_priority 10, .lock_acquire 7] ex_start).map
        (fun s => (s.running, (s.threads s.running).priority, s.ready_list,
          s.ready_list.map fun t => (s.threads t).priority))
      = some (3, 25, [4, 1], [20, 30]) := by
  decide

/-- C2: the code on the same run.  The ready queue is sorted by descending
priority at the start and after the first two operations; after the lock_acquire
with its priority donation it is 4, 1 with priorities 20, 30, and is_sorted
(the check of list.c, with the comparator sort_priority) is false. -/
theorem donation_breaks_ready_order :
    is_sorted (sort_priority ex_start) ex_start.ready_list = true
    ∧ (run_calls [.lock_acquire 7, .thread_set_priority 10] ex_start).map
        (fun s => is_sorted (sort_priority s) s.ready_list) = some true
    ∧ (run_calls [.lock_acquire 7, .thread_set_priority 10, .lock_acquire 7] ex_start).map
        (fun s => (s.ready_list, s.ready_list.map fun t => (s.threads t).priority,
          is_sorted (sort_priority s) s.ready_list))
      = some ([4, 1], [20, 30], false) := by
  decide

/-! ## Theorems: sema_up at concrete states -/

/-- C5, counterexample to the claim as stated: semaphore 0 has an empty waiter
list, the caller (thread 1, priority 10) runs while thread 2 (priority 20) is at
the head of the ready list.  sema_up increments the value and, through
change_list, also makes the caller yield: afterwards thread 2 runs and thread 1
is READY on the ready list, so the result is not the state with only the value
incremented.  And the value is not always one more than before: after
sema_init with UINT_MAX = 4294967295 (in the state ex_up, where nothing is
ready), sema_up leaves the value 0. -/
theorem sema_up_empty_waiters_yields :
    (get_sema ex_preempt (.sema 0)).waiters = []
    ∧ (ex_preempt.running, ex_preempt.ready_list, (ex_preempt.threads 1).status)
        = (1, [2], .THREAD_RUNNING)
    ∧ (sema_up (.sema 0) [] ex_preempt).map (fun s =>
          (s.running, s.ready_list, (s.threads 1).status, (get_sema s (.sema 0)).value))
        = some (2, [1], .THREAD_READY, 1)
    ∧ sema_up (.sema 0) [] ex_preempt
        ≠ some (set_sema ex_preempt (.sema 0) { value := 1, waiters := [] })
    ∧ get_sema (sema_init (.sema 0) 4294967295 ex_up) (.sema 0)
        = { value := 4294967295, waiters := [] }
    ∧ (sema_up (.sema 0) [] (sema_init (.sema 0) 4294967295 ex_up)).map (fun s =>
          (s.running, get_sema s (.sema 0)))
        = some (1, { value := 0, waiters := [] }) := by
  refine ⟨by decide, by decide, by decide, ?_, by decide, by decide⟩
  intro h
  have h2 := congrArg (Option.map kernel.running) h
  revert h2
  decide

/-- C5 (amended) at a concrete state: threads 3 (priority 10) and 4 (priority 30)
wait on semaphore 0, thread 3 in front; the caller has priority 20. -/
theorem sema_up_effect_witness :
    (ex_sema.threads ex_sema.running).status = .THREAD_RUNNING
    ∧ ex_sema.intr_context = false
    ∧ (∀ w ∈ (get_sema ex_sema (.sema 0)).waiters, (ex_sema.threads w).status = .THREAD_BLOCKED)
    ∧ ∃ s1, sema_up (.sema 0) [] ex_sema = some s1
      ∧ (get_sema s1 (.sema 0)).value = ((get_sema ex_sema (.sema 0)).value + 1) % 2 ^ 32
      ∧ ((get_sema ex_sema (.sema 0)).value < 2 ^ 32 - 1 →
          (get_sema s1 (.sema 0)).value = (get_sema ex_sema (.sema 0)).value + 1)
      ∧ ((get_sema ex_sema (.sema 0)).value = 2 ^ 32 - 1 → (get_sema s1 (.sema 0)).value = 0)
      ∧ ((get_sema ex_sema (.sema 0)).waiters = [] →
          (get_sema s1 (.sema 0)).waiters = []
          ∧ change_list [] (set_sema ex_sema (.sema 0)
              { value := ((get_sema ex_sema (.sema 0)).value + 1) % 2 ^ 32, waiters := [] }) = some s1
          ∧ ((∃ f rest, ex_sema.ready_list = f :: rest
                ∧ (ex_sema.threads ex_sema.running).priority < (ex_sema.threads f).priority) →
              s1.running ≠ ex_sema.running
                ∧ (s1.threads ex_sema.running).status = .THREAD_READY)
          ∧ (¬ (∃ f rest, ex_sema.ready_list = f :: rest
                ∧ (ex_sema.threads ex_sema.running).priority < (ex_sema.threads f).priority) →
              s1 = set_sema ex_sema (.sema 0)
                { value := ((get_sema ex_sema (.sema 0)).value + 1) % 2 ^ 32, waiters := [] })
          ∧ (∀ x, x ≠ ex_sema.running → x ∉ ex_sema.ready_list →
              s1.threads x = ex_sema.threads x))
      ∧ ((get_sema ex_sema (.sema 0)).waiters ≠ [] →
          ∃ w, w ∈ (get_sema ex_sema (.sema 0)).waiters
            ∧ (∀ x ∈ (get_sema ex_sema (.sema 0)).waiters,
                (ex_sema.threads x).priority ≤ (ex_sema.threads w).priority)
            ∧ List.Perm (w :: (get_sema s1 (.sema 0)).waiters)
                (get_sema ex_sema (.sema 0)).waiters
            ∧ (s1.threads w).status ≠ .THREAD_BLOCKED
            ∧ (w ∈ s1.ready_list ∨ s1.running = w)
            ∧ (∀ x, x ≠ w → x ≠ ex_sema.running → x ∉ ex_sema.ready_list →
                s1.threads x = ex_sema.threads x)) :=
  ⟨by decide, by decide, by decide,
    sema_up_effect (.sema 0) [] ex_sema (by decide) (by decide) (by decide)⟩

/-- The code at the state of the witness: sema_up wakes thread 4 (priority 30, the
highest among the waiters, although it was queued behind thread 3), leaves
thread 3 queued, sets the value to 1, and the caller yields to thread 4. -/
theorem sema_up_wakes_highest_example :
    (sema_up (.sema 0) [] ex_sema).map (fun s =>
        (s.running, s.ready_list, (s.threads 4).status, (s.threads 3).status,
          get_sema s (.sema 0)))
      = some (4, [1], .THREAD_RUNNING, .THREAD_BLOCKED, { value := 1, waiters := [3] }) := by
  decide

/-! ## Theorems: donate_priority at concrete states -/

/-- C6 at a concrete state: a chain of 9 distinct holders, all at priority 10, and
a donor of priority 40. -/
theorem donate_priority_chain_witness :
    MAX_DEPTH ≤ 10
    ∧ (ex_chain.threads ex_chain.running).status = .THREAD_RUNNING
    ∧ (wait_chain 10 ex_chain (ex_chain.threads ex_chain.running).wait_on_lock).Nodup
    ∧ ∃ s1, donate_priority ex_chain = some s1
      ∧ (∀ i (hi : i < (wait_chain 10 ex_chain
            (ex_chain.threads ex_chain.running).wait_on_lock).length),
          (s1.threads (wait_chain 10 ex_chain
              (ex_chain.threads ex_chain.running).wait_on_lock)[i]).priority
            = if i < MAX_DEPTH then
                max (ex_chain.threads (wait_chain 10 ex_chain
                    (ex_chain.threads ex_chain.running).wait_on_lock)[i]).priority
                  (ex_chain.threads ex_chain.running).priority
              else (ex_chain.threads (wait_chain 10 ex_chain
                  (ex_chain.threads ex_chain.running).wait_on_lock)[i]).priority)
      ∧ (∀ x, x ∉ wait_chain 10 ex_chain (ex_chain.threads ex_chain.running).wait_on_lock →
          s1.threads x = ex_chain.threads x)
      ∧ (∀ x, { s1.threads x with priority := (ex_chain.threads x).priority }
          = ex_chain.threads x)
      ∧ s1.locks = ex_chain.locks :=
  ⟨by decide, by decide, by decide,
    donate_priority_chain ex_chain 10 (by decide) (by decide) (by decide)⟩

/-- The code on the chain of 9 holders: the chain is 1, ..., 9; after
donate_priority the holders 1 to 8 have priority 40 and holder 9 still has 10. -/
theorem donate_priority_nine_example :
    wait_chain 10 ex_chain (some 1) = [1, 2, 3, 4, 5, 6, 7, 8, 9]
    ∧ (donate_priority ex_chain).map
        (fun s => [1, 2, 3, 4, 5, 6, 7, 8, 9].map fun i => (s.threads i).priority)
      = some [40, 40, 40, 40, 40, 40, 40, 40, 10] := by
  decide

/-- The nested case S4 as a run: thread 1 (L, lowered to priority 10) holds lock
1; thread 4 (M, priority 20) acquires lock 2 and then blocks on lock 1, which
raises L to 20; thread 2 (H, priority 30) then blocks on lock 2, which raises
both M and L to 30. -/
theorem nested_donation_example :
    (run_calls [.lock_acquire 1, .thread_set_priority 10, .sema_down (.sema 9),
        .sema_down (.sema 9), .lock_acquire 2, .lock_acquire 1] ex_start).map view
      = some (1, [], [20, 30, 25, 20])
    ∧ (run_calls [.lock_acquire 1, .thread_set_priority 10, .sema_down (.sema 9),
        .sema_down (.sema 9), .lock_acquire 2, .lock_acquire 1, .sema_up (.sema 9),
        .lock_acquire 2] ex_start).map view
      = some (1, [], [30, 30, 25, 30]) := by
  decide

/-! ## Theorems: lock_release and the donation bookkeeping -/

/-- C7: the code at the two cases of the claim.  (a) Thread 1 acquires the free
lock 7 (it becomes the holder, nothing else changes) and releases it with no
donation in between: lock_release does not complete, because the donations
header of the thread is still zero-filled.  (b) The scenario S3: L (thread 1,
base priority 10) holds lock 7, H (30) and M (20) block on it and L runs at
priority 30; lock_release by L does not complete either. -/
theorem lock_release_after_acquire_fails :
    (run_calls [.lock_acquire 7] ex_start).map
        (fun s => ((s.locks 7).holder, (s.threads 1).donations, view s))
      = some (some 1, .zeroed, (1, [2, 3, 4], [50, 30, 25, 20]))
    ∧ (run_calls [.lock_acquire 7, .lock_release 7] ex_start).map view = none
    ∧ (run_calls [.lock_acquire 7, .thread_set_priority 10, .lock_acquire 7,
        .sema_down (.sema 9), .lock_acquire 7] ex_start).map
        (fun s => ((s.locks 7).holder, (s.locks 7).semaphore.waiters, view s))
      = some (some 1, [2, 4], (1, [], [30, 30, 25, 20]))
    ∧ (run_calls [.lock_acquire 7, .thread_set_priority 10, .lock_acquire 7,
        .sema_down (.sema 9), .lock_acquire 7, .lock_release 7] ex_start).map view = none := by
  refine ⟨by decide, by decide, by decide, by decide⟩

/-- The same two runs when every donations header has been through list_init
(which no code in the sources does): lock_release completes and sets the
priority of the releasing thread 1 to initial_priority, which is 0 because nothing
ever writes it; the thread had priority 50 before acquire in (a) and base
priority 10 in (b). -/
theorem lock_release_reverts_to_unset_initial_priority :
    (run_calls [.lock_acquire 7, .lock_release 7] (init_lists ex_start)).map
        (fun s => (s.threads 1).priority) = some 0
    ∧ (run_calls [.lock_acquire 7, .thread_set_priority 10, .lock_acquire 7,
        .sema_down (.sema 9), .lock_acquire 7, .lock_release 7] (init_lists ex_start)).map
        (fun s => (s.threads 1).priority) = some 0 := by
  decide

/-- C8: the code at the example of the claim.  L (thread 1, base priority 10)
holds locks 1 (a) and 2 (b); H (thread 2, priority 30) blocks on b and M (thread
4, priority 20) blocks on a, so L runs at priority 30.  When L releases b,
lock_release does not complete (zero-filled donations header).  With list_init
applied to every donations header first, it completes and L ends at priority 0:
lock_acquire never put M on the donations list of L. -/
theorem lock_release_ignores_remaining_donor :
    (run_calls [.lock_acquire 1, .lock_acquire 2, .thread_set_priority 10, .lock_acquire 2,
        .sema_down (.sema 9), .lock_acquire 1] ex_start).map
        (fun s => ((s.locks 1).holder, (s.locks 2).holder, (s.threads 4).wait_on_lock,
          (s.threads 2).wait_on_lock, view s))
      = some (some 1, some 1, some 1, some 2, (1, [], [30, 30, 25, 20]))
    ∧ (run_calls [.lock_acquire 1, .lock_acquire 2, .thread_set_priority 10, .lock_acquire 2,
        .sema_down (.sema 9), .lock_acquire 1, .lock_release 2] ex_start).map view = none
    ∧ (run_calls [.lock_acquire 1, .lock_acquire 2, .thread_set_priority 10, .lock_acquire 2,
        .sema_down (.sema 9), .lock_acquire 1, .lock_release 2] (init_lists ex_start)).map
        (fun s => ((s.threads 1).priority, (s.threads 1).donations, (s.threads 4).status,
          (s.threads 4).wait_on_lock))
      = some (0, .mk [], .THREAD_BLOCKED, some 1) :=
  ⟨rfl, by decide, by decide⟩

/-- C9: the code at the moment the caller blocks.  Thread 2 calls lock_acquire on
lock 7, held by thread 1, and blocks: it is BLOCKED with wait_on_lock = lock 7
and is on the waiter list of the lock, but it is not a member of the donations
list of the holder, which is untouched (zero-filled, or empty when list_init had
been applied to it). -/
theorem lock_acquire_records_no_donor :
    (run_calls [.lock_acquire 7, .thread_set_priority 10, .lock_acquire 7] ex_start).map
        (fun s => ((s.locks 7).holder, (s.threads 2).status, (s.threads 2).wait_on_lock,
          (s.locks 7).semaphore.waiters, (s.threads 1).donations,
          decide (2 ∈ (s.threads 1).donations.elems)))
      = some (some 1, .THREAD_BLOCKED, some 7, [2], .zeroed, false)
    ∧ (run_calls [.lock_acquire 7, .thread_set_priority 10, .lock_acquire 7]
        (init_lists ex_start)).map
        (fun s => ((s.locks 7).holder, (s.threads 2).wait_on_lock, (s.threads 1).donations,
          decide (2 ∈ (s.threads 1).donations.elems)))
      = some (some 1, some 7, .mk [], false) :=
  ⟨rfl, rfl⟩

/-- C10: the code at thread initialisation and at thread_set_priority.  For every
thread t, init_thread (t, PRI_DEFAULT) leaves priority 31 while the base priority
field initial_priority is 0 and there is no donor, so priority differs from the
maximum of base priority and donor priorities (0).  Likewise after
thread_set_priority (40) the priority is 40 and that maximum is still 0. -/
theorem init_thread_breaks_priority_invariant :
    (∀ (s : kernel) (t : Nat), (init_thread t PRI_DEFAULT s).map
        (fun s1 => ((s1.threads t).priority, (s1.threads t).initial_priority,
          (s1.threads t).donations.elems, spec_priority s1 t))
      = some (31, 0, [], 0))
    ∧ (run_calls [.thread_set_priority 40] ex_main).map
        (fun s => ((s.threads 1).priority, (s.threads 1).initial_priority,
          (s.threads 1).donations.elems, spec_priority s 1))
      = some (40, 0, [], 0) := by
  refine ⟨fun s t => ?_, by decide⟩
  simp [init_thread, PRI_MIN, PRI_MAX, PRI_DEFAULT, set_thread, spec_priority, thread_zero,
    klist.elems]

/-! ## Theorems: blocking the running thread -/



theorem thread_current_set_sema (s : kernel) (r : sema_ref) (v : semaphore) :
    thread_current (set_sema s r v) = thread_current s := by
  simp [thread_current]

/-- What thread_block does when schedule has another thread to run. -/
theorem thread_block_switch (k : List frame) (s : kernel) (next : Nat)
    (hi : s.intr_context = false)
    (hr : (s.threads s.running).status = .THREAD_RUNNING)
    (hn : next_pick s = some next) (hne : next ≠ s.running) :
    thread_block k s = some
      { s with
        threads := fun i =>
          if i = s.running then { s.threads s.running with status := .THREAD_BLOCKED, cont := k }
          else if i = next then { s.threads next with status := .THREAD_RUNNING }
          else s.threads i,
        ready_list := s.ready_list.tail,
        thread_ticks := 0,
        running := next } := by
  unfold thread_block
  rw [thread_current_eq s hr]
  simp only [hi, Bool.false_eq_true, if_false]
  unfold next_pick next_thread_to_run at hn
  unfold schedule next_thread_to_run
  cases hl : s.ready_list with
  | nil =>
    simp only [hl] at hn
    simp [set_thread, hl, hn, thread_launch, hne, Ne.symm hne, hi]
    funext i
    by_cases h1 : i = s.running
    · subst h1; simp [Ne.symm hne]
    · by_cases h2 : i = next <;> simp [h1, h2]
  | cons t rest =>
    simp only [hl] at hn
    cases hn
    simp [set_thread, hl, thread_launch, hne, Ne.symm hne, hi]
    funext i
    by_cases h1 : i = s.running
    · subst h1; simp [Ne.symm hne]
    · by_cases h2 : i = next <;> simp [h1, h2]

theorem next_pick_set_sema (s : kernel) (r : sema_ref) (v : semaphore) :
    next_pick (set_sema s r v) = next_pick s := by
  simp only [next_pick, next_thread_to_run, set_sema_ready_list, set_sema_idle_thread]
  cases s.ready_list <;> rfl



theorem insert_position (s : kernel) (t : Nat) (xs : List Nat) :
    ∃ pre post, xs = pre ++ post
      ∧ list_insert_ordered (sort_priority s) t xs = pre ++ t :: post
      ∧ (∀ x ∈ pre, (s.threads x).priority ≥ (s.threads t).priority)
      ∧ (∀ y, post.head? = some y → (s.threads y).priority < (s.threads t).priority) := by
  refine ⟨xs.takeWhile (fun x => !sort_priority s t x), xs.dropWhile (fun x => !sort_priority s t x),
    (List.takeWhile_append_dropWhile _ xs).symm, list_insert_ordered_eq _ t xs, ?_, ?_⟩
  · intro x hx
    have := List.mem_takeWhile_imp hx
    simp [sort_priority] at this
    omega
  · intro y hy
    have := List.head?_dropWhile_not (fun x => !sort_priority s t x) xs
    rw [hy] at this
    simpa [sort_priority] using this

/-- The effect of thread_block when schedule has another thread to run, field by
field. -/
theorem thread_block_effect (k : List frame) (s : kernel) (next : Nat)
    (hi : s.intr_context = false)
    (hr : (s.threads s.running).status = .THREAD_RUNNING)
    (hn : next_pick s = some next) (hne : next ≠ s.running) :
    ∃ s1, thread_block k s = some s1
      ∧ s1.running = next
      ∧ s1.threads s.running = { s.threads s.running with status := .THREAD_BLOCKED, cont := k }
      ∧ s1.threads next = { s.threads next with status := .THREAD_RUNNING }
      ∧ (∀ x, x ≠ s.running → x ≠ next → s1.threads x = s.threads x)
      ∧ s1.ready_list = s.ready_list.tail
      ∧ s1.locks = s.locks ∧ s1.semas = s.semas ∧ s1.sleep_list = s.sleep_list
      ∧ s1.conds = s.conds ∧ s1.idle_thread = s.idle_thread
      ∧ s1.intr_context = s.intr_context ∧ s1.ticks = s.ticks := by
  refine ⟨_, thread_block_switch k s next hi hr hn hne, rfl, by simp, by simp [hne], ?_,
    rfl, rfl, rfl, rfl, rfl, rfl, rfl, rfl⟩
  intro x h1 h2
  simp [h1, h2]

/-! ## Theorems: what the scheduler functions leave alone -/


/-- The function schedule changes none of the global structures but ready_list,
thread_ticks, destruction_req and the running thread. -/
theorem schedule_globals (k : List frame) (s s1 : kernel) (h : schedule k s = some s1) :
    s1.locks = s.locks ∧ s1.semas = s.semas ∧ s1.sleep_list = s.sleep_list
      ∧ s1.conds = s.conds ∧ s1.idle_thread = s.idle_thread ∧ s1.ticks = s.ticks
      ∧ s1.intr_context = s.intr_context := by
  unfold schedule at h
  cases hl : s.ready_list with
  | nil =>
    cases hid : s.idle_thread with
    | none => simp [next_thread_to_run, hl, hid] at h
    | some nx =>
      simp only [next_thread_to_run, hl, hid] at h
      split_ifs at h <;> simp only [Option.some.injEq] at h <;> subst h <;>
        simp [thread_launch, set_thread, hid]
  | cons nx rest =>
    simp only [next_thread_to_run, hl] at h
    split_ifs at h <;> simp only [Option.some.injEq] at h <;> subst h <;>
      simp [thread_launch, set_thread]

theorem thread_block_globals (k : List frame) (s s1 : kernel) (h : thread_block k s = some s1) :
    s1.locks = s.locks ∧ s1.semas = s.semas ∧ s1.sleep_list = s.sleep_list
      ∧ s1.conds = s.conds ∧ s1.idle_thread = s.idle_thread ∧ s1.ticks = s.ticks
      ∧ s1.intr_context = s.intr_context := by
  unfold thread_block at h
  split_ifs at h
  cases hc : thread_current s with
  | none => simp [hc] at h
  | some cur =>
    simp only [hc] at h
    have g := schedule_globals _ _ _ h
    simpa [set_thread] using g

theorem thread_yield_globals (k : List frame) (s s1 : kernel) (h : thread_yield k s = some s1) :
    s1.locks = s.locks ∧ s1.semas = s.semas ∧ s1.sleep_list = s.sleep_list
      ∧ s1.conds = s.conds ∧ s1.idle_thread = s.idle_thread ∧ s1.ticks = s.ticks
      ∧ s1.intr_context = s.intr_context := by
  unfold thread_yield at h
  cases hc : thread_current s with
  | none => simp [hc] at h
  | some cur =>
    simp only [hc] at h
    split_ifs at h <;> (
      unfold do_schedule at h
      simp only [thread_current] at h hc
      split_ifs at h hc
      simp only at h
      have g := schedule_globals _ _ _ h
      simpa [set_thread] using g)

theorem change_list_globals (k : List frame) (s s1 : kernel) (h : change_list k s = some s1) :
    s1.locks = s.locks ∧ s1.semas = s.semas ∧ s1.sleep_list = s.sleep_list
      ∧ s1.conds = s.conds ∧ s1.idle_thread = s.idle_thread ∧ s1.ticks = s.ticks
      ∧ s1.intr_context = s.intr_context := by
  unfold change_list at h
  cases hc : thread_current s with
  | none => simp [hc] at h
  | some cur =>
    simp only [hc] at h
    cases hl : s.ready_list with
    | nil => simp only [hl, Option.some.injEq] at h; subst h; simp
    | cons f rest =>
      simp only [hl] at h
      split_ifs at h
      · exact thread_yield_globals k s s1 h
      · simp only [Option.some.injEq] at h; subst h; simp

theorem get_sema_set_sema_ne (s : kernel) (r r1 : sema_ref) (v : semaphore) (h : r1 ≠ r) :
    get_sema (set_sema s r v) r1 = get_sema s r1 := by
  cases r with
  | sema i =>
    cases r1 with
    | sema j =>
      have hne : j ≠ i := fun e => h (by rw [e])
      simp [get_sema, set_sema, hne]
    | lock_sema l => simp [get_sema, set_sema]
  | lock_sema l =>
    cases r1 with
    | sema j => simp [get_sema, set_sema, set_lock]
    | lock_sema m =>
      have hne : m ≠ l := fun e => h (by rw [e])
      simp [get_sema, set_sema, set_lock, hne]

/-! ## Theorems: semaphores -/

/-- C17: sema_try_down returns true exactly when value > 0 on entry; value then
drops by exactly one and otherwise stays; the waiter list, every thread
structure (so every status), the running thread and the queues are unchanged. -/
theorem sema_try_down_spec (sema : sema_ref) (s : kernel) :
    (sema_try_down sema s).2 = decide ((get_sema s sema).value > 0)
      ∧ (get_sema (sema_try_down sema s).1 sema).value
          + (if (get_sema s sema).value > 0 then 1 else 0) = (get_sema s sema).value
      ∧ (get_sema (sema_try_down sema s).1 sema).waiters = (get_sema s sema).waiters
      ∧ (sema_try_down sema s).1.threads = s.threads
      ∧ (sema_try_down sema s).1.running = s.running
      ∧ (sema_try_down sema s).1.ready_list = s.ready_list
      ∧ (sema_try_down sema s).1.sleep_list = s.sleep_list := by
  unfold sema_try_down
  by_cases h : (get_sema s sema).value > 0
  · simp only [h, if_true, decide_True, get_sema_set_sema, set_sema_threads, set_sema_running,
      set_sema_ready_list, true_and]
    refine ⟨by omega, ?_⟩
    cases sema <;> rfl
  · simp [h]

/-- C16: sema_down outside an interrupt handler.  With value > 0 it only decrements
value by one: the waiter list, the threads and the running thread stay as they
are.  With value = 0, when schedule has another thread `next` to run, the caller
is inserted into the waiter list behind every waiter of at least its priority
and in front of the first waiter of lower priority, it is blocked with the rest
of sema_down as its pending work, value stays 0, and `next` runs. -/
theorem sema_down_spec (sema : sema_ref) (k : List frame) (s : kernel)
    (hi : s.intr_context = false)
    (hr : (s.threads s.running).status = .THREAD_RUNNING) :
    ((get_sema s sema).value > 0 →
      ∃ s1, sema_down sema k s = some s1
        ∧ (get_sema s1 sema).value + 1 = (get_sema s sema).value
        ∧ (get_sema s1 sema).waiters = (get_sema s sema).waiters
        ∧ s1.threads = s.threads ∧ s1.running = s.running ∧ s1.ready_list = s.ready_list)
    ∧ ((get_sema s sema).value = 0 → ∀ next, next_pick s = some next → next ≠ s.running →
      ∃ s1, sema_down sema k s = some s1
        ∧ (get_sema s1 sema).value = 0
        ∧ (get_sema s1 sema).waiters
            = list_insert_ordered (sort_priority s) s.running (get_sema s sema).waiters
        ∧ (∃ pre post, (get_sema s sema).waiters = pre ++ post
            ∧ (get_sema s1 sema).waiters = pre ++ s.running :: post
            ∧ (∀ x ∈ pre, (s.threads x).priority ≥ (s.threads s.running).priority)
            ∧ (∀ y, post.head? = some y →
                (s.threads y).priority < (s.threads s.running).priority))
        ∧ (s1.threads s.running).status = .THREAD_BLOCKED
        ∧ (s1.threads s.running).cont = frame.sema_down_loop sema :: k
        ∧ s1.running = next) := by
  constructor
  · intro hv
    refine ⟨set_sema s sema { get_sema s sema with value := (get_sema s sema).value - 1 }, ?_, ?_⟩
    · have hne : ¬ (get_sema s sema).value = 0 := by omega
      simp [sema_down, sema_down_loop, hi, hne]
    · simp only [get_sema_set_sema, set_sema_threads, set_sema_running, set_sema_ready_list,
        and_true]
      omega
  · intro hv next hn hne
    obtain ⟨s1, h1, h2, h3, -, -, -, h7, h8, -⟩ := thread_block_effect (frame.sema_down_loop sema :: k)
      (set_sema s sema { get_sema s sema with
        waiters := list_insert_ordered (sort_priority s) s.running (get_sema s sema).waiters })
      next (by simpa using hi) (by simpa using hr)
      (by rw [next_pick_set_sema]; exact hn) (by simpa using hne)
    have hg := get_sema_congr _ s1 sema h7 h8
    rw [get_sema_set_sema] at hg
    simp only [set_sema_threads, set_sema_running] at h3
    refine ⟨s1, ?_, ?_, ?_, ?_, ?_, ?_, h2⟩
    · simp only [sema_down, hi, Bool.false_eq_true, if_false, sema_down_loop]
      rw [if_pos hv, thread_current_eq s hr]
      simp only []
      rw [h1]
      simp [h2, hne]
    · rw [hg]; exact hv
    · rw [hg]
    · rw [hg]; exact insert_position s s.running (get_sema s sema).waiters
    · rw [h3]
    · rw [h3]

/-- C16 at a concrete state: the caller (thread 1, priority 20) calls sema_down on
semaphore 0, which has value 0 and the waiters 4, 3, 5 with priorities 30, 20,
10; thread 2 is ready. -/
theorem sema_down_spec_witness :
    ex_wait.intr_context = false
    ∧ (ex_wait.threads ex_wait.running).status = .THREAD_RUNNING
    ∧ (get_sema ex_wait (.sema 0)).value = 0
    ∧ next_pick ex_wait = some 2
    ∧ ∃ s1, sema_down (.sema 0) [] ex_wait = some s1
        ∧ (get_sema s1 (.sema 0)).value = 0
        ∧ (get_sema s1 (.sema 0)).waiters
            = list_insert_ordered (sort_priority ex_wait) ex_wait.running
                (get_sema ex_wait (.sema 0)).waiters
        ∧ (∃ pre post, (get_sema ex_wait (.sema 0)).waiters = pre ++ post
            ∧ (get_sema s1 (.sema 0)).waiters = pre ++ ex_wait.running :: post
            ∧ (∀ x ∈ pre, (ex_wait.threads x).priority ≥ (ex_wait.threads ex_wait.running).priority)
            ∧ (∀ y, post.head? = some y →
                (ex_wait.threads y).priority < (ex_wait.threads ex_wait.running).priority))
        ∧ (s1.threads ex_wait.running).status = .THREAD_BLOCKED
        ∧ (s1.threads ex_wait.running).cont = frame.sema_down_loop (.sema 0) :: []
        ∧ s1.running = 2 :=
  ⟨by decide, by decide, by decide, by decide,
    (sema_down_spec (.sema 0) [] ex_wait (by decide) (by decide)).2 (by decide) 2 (by decide)
      (by decide)⟩

/-- The code at the state of the witness.  On semaphore 0 (value 0) the caller is
queued behind thread 3 of equal priority and in front of thread 5, is blocked,
and thread 2 runs.  On semaphore 1 (value 2) the value becomes 1 and the caller
keeps running. -/
theorem sema_down_example :
    (sema_down (.sema 0) [] ex_wait).map (fun s =>
        (get_sema s (.sema 0), (s.threads 1).status, s.running, s.ready_list))
      = some ({ value := 0, waiters := [4, 3, 1, 5] }, .THREAD_BLOCKED, 2, [])
    ∧ (sema_down (.sema 1) [] ex_wait).map (fun s =>
        (get_sema s (.sema 1), (s.threads 1).status, s.running, s.ready_list))
      = some ({ value := 1, waiters := [] }, .THREAD_RUNNING, 1, [2]) := by
  decide


theorem list_insert_ordered_head {α : Type} (less : α → α → Bool) (e : α) (xs : List α) :
    ∃ f rest, list_insert_ordered less e xs = f :: rest ∧ (f = e ∨ less e f = false) := by
  cases xs with
  | nil => exact ⟨e, [], rfl, Or.inl rfl⟩
  | cons a rest =>
    by_cases h : less e a = true
    · exact ⟨e, a :: rest, by simp [list_insert_ordered, h], Or.inl rfl⟩
    · have h2 : less e a = false := by simpa using h
      exact ⟨a, list_insert_ordered less e rest, by simp [list_insert_ordered, h2], Or.inr h2⟩

/-- Inside an interrupt handler sema_up does not complete when the waiter it wakes
has a higher priority than the running thread: change_list calls thread_yield,
whose ASSERT (!intr_context ()) fails. -/
theorem sema_up_interrupt_fails (sema : sema_ref) (k : List frame) (s : kernel)
    (t : Nat) (rest : List Nat)
    (hi : s.intr_context = true)
    (hr : (s.threads s.running).status = .THREAD_RUNNING)
    (hs : list_sort (sort_priority s) (get_sema s sema).waiters = some (t :: rest))
    (hb : (s.threads t).status = .THREAD_BLOCKED)
    (hp : (s.threads s.running).priority < (s.threads t).priority) :
    sema_up sema k s = none := by
  have hne : s.running ≠ t := by
    intro h
    rw [h, hb] at hr
    cases hr
  unfold sema_up
  rw [hs]
  simp only [thread_unblock, set_sema_threads, hb, if_true, set_sema_ready_list]
  obtain ⟨f, rest2, hl, hf⟩ := list_insert_ordered_head
    (sort_priority (set_sema s sema { get_sema s sema with waiters := rest })) t s.ready_list
  have hpf : (s.threads s.running).priority < (s.threads f).priority := by
    rcases hf with rfl | hf
    · exact hp
    · simp [sort_priority] at hf
      omega
  have hnf : s.running ≠ f := by
    intro h
    rw [← h] at hpf
    exact absurd hpf (lt_irrefl _)
  unfold change_list
  simp [thread_current, set_thread, hne, hr, hl, hnf, hpf, thread_yield, hi]
  by_cases h2 : f = t
  · subst h2
    simpa using hp
  · simpa [h2] using hpf

/-- C19: the code inside an interrupt handler.  Thread 1 (priority 20) is
interrupted; the handler calls sema_up on semaphore 0, whose waiters are thread
3 (priority 10) and thread 4 (priority 30).  sema_up unblocks thread 4 and then
change_list calls thread_yield, whose ASSERT (!intr_context ()) fails: the
call does not complete.  thread_unblock alone, which leaves preemption to the
return from the interrupt, completes in the same state. -/
theorem sema_up_in_interrupt_handler_fails :
    ex_isr.intr_context = true
    ∧ (ex_isr.threads ex_isr.running).priority = 20
    ∧ list_sort (sort_priority ex_isr) (get_sema ex_isr (.sema 0)).waiters = some [4, 3]
    ∧ (ex_isr.threads 4).priority = 30
    ∧ sema_up (.sema 0) [] ex_isr = none
    ∧ (thread_unblock 4 ex_isr).map (fun s => (s.running, s.ready_list, (s.threads 4).status))
        = some (1, [4], .THREAD_READY) :=
  ⟨by decide, by decide, by decide, by decide, rfl, by decide⟩


theorem sema_down_loop_quiescent (r : sema_ref) (k : List frame) (s s1 : kernel)
    (hq : ∀ r1, sema_quiescent s r1) (h : sema_down_loop r k s = some s1) :
    ∀ r1, sema_quiescent s1 r1 := by
  intro r1
  unfold sema_down_loop at h
  split_ifs at h with hv
  · cases hc : thread_current s with
    | none => simp [hc] at h
    | some cur =>
      simp only [hc] at h
      cases hb : thread_block (frame.sema_down_loop r :: k)
          (set_sema s r { get_sema s r with
            waiters := list_insert_ordered (sort_priority s) cur (get_sema s r).waiters }) with
      | none => simp [hb] at h
      | some s2 =>
        simp only [hb] at h
        split_ifs at h
        simp only [Option.some.injEq] at h
        subst h
        obtain ⟨g1, g2, -⟩ := thread_block_globals _ _ _ hb
        unfold sema_quiescent
        rw [get_sema_congr _ s2 r1 g1 g2]
        by_cases hr1 : r1 = r
        · subst hr1
          rw [get_sema_set_sema]
          simp [hv]
        · rw [get_sema_set_sema_ne _ _ _ _ hr1]
          exact hq r1
  · simp only [Option.some.injEq] at h
    subst h
    unfold sema_quiescent
    by_cases hr1 : r1 = r
    · subst hr1
      rw [get_sema_set_sema]
      have := hq r1
      unfold sema_quiescent at this
      simp only [gt_iff_lt, not_and, not_lt, Nat.le_zero_eq] at this ⊢
      intro hw
      have := this hw
      omega
    · rw [get_sema_set_sema_ne _ _ _ _ hr1]
      exact hq r1

/-- The semaphore that sema_up leaves behind: its value is the unsigned increment
of the value before and its waiter list is one shorter (or still empty); no
other semaphore changes. -/
theorem sema_up_counts (r : sema_ref) (k : List frame) (s s1 : kernel)
    (h : sema_up r k s = some s1) :
    (get_sema s1 r).value = ((get_sema s r).value + 1) % 2 ^ 32
      ∧ (get_sema s1 r).waiters.length = (get_sema s r).waiters.length - 1
      ∧ ∀ r1, r1 ≠ r → get_sema s1 r1 = get_sema s r1 := by
  unfold sema_up at h
  cases hs : list_sort (sort_priority s) (get_sema s r).waiters with
  | none => simp [hs] at h
  | some ys =>
    have hperm : List.Perm ys (get_sema s r).waiters := by
      obtain ⟨zs, h1, h2, -⟩ := list_sort_priority s (get_sema s r).waiters
      rw [hs] at h1
      cases h1
      exact h2
    cases ys with
    | nil =>
      simp only [hs] at h
      obtain ⟨g1, g2, -⟩ := change_list_globals _ _ _ h
      have hl := hperm.length_eq
      simp only [List.length_nil] at hl
      refine ⟨?_, ?_, ?_⟩
      · rw [get_sema_congr _ s1 r g1 g2, get_sema_set_sema]
      · rw [get_sema_congr _ s1 r g1 g2, get_sema_set_sema, ← hl]; rfl
      · intro r1 hr1
        rw [get_sema_congr _ s1 r1 g1 g2, get_sema_set_sema_ne _ _ _ _ hr1]
    | cons t rest =>
      simp only [hs] at h
      cases hu : thread_unblock t (set_sema s r { get_sema s r with waiters := rest }) with
      | none => simp [hu] at h
      | some s2 =>
        simp only [hu] at h
        obtain ⟨g1, g2, -⟩ := change_list_globals _ _ _ h
        have hs2 : ∀ r1, get_sema s2 r1
            = get_sema (set_sema s r { get_sema s r with waiters := rest }) r1 := by
          intro r1
          unfold thread_unblock at hu
          split_ifs at hu
          simp only [Option.some.injEq] at hu
          subst hu
          rw [get_sema_set_thread]
          exact get_sema_congr _ _ r1 rfl rfl
        have hl := hperm.length_eq
        simp only [List.length_cons] at hl
        refine ⟨?_, ?_, ?_⟩
        · rw [get_sema_congr _ s1 r g1 g2, get_sema_set_sema, hs2, get_sema_set_sema]
        · rw [get_sema_congr _ s1 r g1 g2, get_sema_set_sema, hs2, get_sema_set_sema, ← hl]
          simp
        · intro r1 hr1
          rw [get_sema_congr _ s1 r1 g1 g2, get_sema_set_sema_ne _ _ _ _ hr1, hs2,
            get_sema_set_sema_ne _ _ _ _ hr1]


/-- C18, counterexample to the claim as stated: semaphore 0 has value 0 and the
waiters 3 and 4 (priorities 10 and 30); the caller (priority 40) calls sema_up.
sema_up returns in the caller with thread 4 READY, and semaphore 0 then has
value 1 together with the waiter 3. -/
theorem sema_up_leaves_waiters_and_value :
    sema_quiescent ex_up (.sema 0)
    ∧ (sema_up (.sema 0) [] ex_up).map (fun s =>
          (s.running, s.ready_list, (s.threads 4).status, get_sema s (.sema 0)))
        = some (1, [4], .THREAD_READY, { value := 1, waiters := [3] })
    ∧ ∃ s1, sema_up (.sema 0) [] ex_up = some s1 ∧ ¬ sema_quiescent s1 (.sema 0) := by
  refine ⟨by unfold sema_quiescent; decide, by decide, ?_⟩
  have h2 : (sema_up (.sema 0) [] ex_up).map (fun s => get_sema s (.sema 0))
      = some { value := 1, waiters := [3] } := by decide
  cases h : sema_up (.sema 0) [] ex_up with
  | none => rw [h] at h2; cases h2
  | some s1 =>
    refine ⟨s1, rfl, ?_⟩
    rw [h] at h2
    simp only [Option.map_some', Option.some.injEq] at h2
    unfold sema_quiescent
    rw [h2]
    decide

/-- C18 (amended): from a state in which no semaphore has both waiters and a
positive value, sema_init, sema_down (returned or blocked) and sema_try_down
lead to such a state again.  sema_up does not: it removes one waiter only and
increments the value of its semaphore, an unsigned counter, which gives 1 when
the semaphore had waiters (its value was 0 then) and a positive value unless
the counter was at UINT_MAX = 2 ^ 32 - 1 and wrapped to 0; so that semaphore
has waiters and a positive value exactly when it had two or more waiters
before; the other semaphores are as before. -/
theorem sema_quiescent_steps (s : kernel) (hq : ∀ r, sema_quiescent s r) :
    (∀ r v r1, sema_quiescent (sema_init r v s) r1)
      ∧ (∀ r k s1, sema_down r k s = some s1 → ∀ r1, sema_quiescent s1 r1)
      ∧ (∀ r r1, sema_quiescent (sema_try_down r s).1 r1)
      ∧ (∀ r k s1, sema_up r k s = some s1 →
          (get_sema s1 r).value = ((get_sema s r).value + 1) % 2 ^ 32
            ∧ ((get_sema s r).waiters ≠ [] → (get_sema s1 r).value = 1)
            ∧ ((get_sema s r).value < 2 ^ 32 - 1 → (get_sema s1 r).value > 0)
            ∧ ((get_sema s r).value = 2 ^ 32 - 1 → (get_sema s1 r).value = 0)
            ∧ (¬ sema_quiescent s1 r ↔ 2 ≤ (get_sema s r).waiters.length)
            ∧ ∀ r1, r1 ≠ r → sema_quiescent s1 r1) := by
  refine ⟨?_, ?_, ?_, ?_⟩
  · intro r v r1
    unfold sema_quiescent sema_init
    by_cases hr1 : r1 = r
    · subst hr1
      rw [get_sema_set_sema]
      simp
    · rw [get_sema_set_sema_ne _ _ _ _ hr1]
      exact hq r1
  · intro r k s1 h
    unfold sema_down at h
    split_ifs at h
    exact sema_down_loop_quiescent r k s s1 hq h
  · intro r r1
    unfold sema_try_down
    split_ifs with hv
    · unfold sema_quiescent
      by_cases hr1 : r1 = r
      · subst hr1
        rw [get_sema_set_sema]
        have := hq r1
        unfold sema_quiescent at this
        simp only [gt_iff_lt, not_and, not_lt, Nat.le_zero_eq] at this ⊢
        intro hw
        have := this hw
        omega
      · rw [get_sema_set_sema_ne _ _ _ _ hr1]
        exact hq r1
    · exact hq r1
  · intro r k s1 h
    obtain ⟨h1, h2, h3⟩ := sema_up_counts r k s s1 h
    have hone : (get_sema s r).waiters ≠ [] → (get_sema s1 r).value = 1 := by
      intro hw
      have hz : (get_sema s r).value = 0 := by
        have := hq r
        unfold sema_quiescent at this
        by_contra hv
        exact this ⟨hw, Nat.pos_of_ne_zero hv⟩
      rw [h1, hz]
      rfl
    refine ⟨h1, hone, ?_, ?_, ?_, ?_⟩
    · intro hv
      rw [h1, (unsigned_incr _).1 hv]
      exact Nat.succ_pos _
    · intro hv
      rw [h1]
      exact (unsigned_incr _).2 hv
    · unfold sema_quiescent
      rw [not_not]
      constructor
      · intro hw
        have : (get_sema s1 r).waiters.length ≠ 0 := by
          intro h0
          exact hw.1 (List.length_eq_zero.mp h0)
        omega
      · intro hl
        have hne : (get_sema s r).waiters ≠ [] := by
          intro h0
          rw [h0] at hl
          simp only [List.length_nil] at hl
          omega
        refine ⟨?_, by rw [hone hne]; exact Nat.one_pos⟩
        intro h0
        rw [h0] at h2
        simp only [List.length_nil] at h2
        omega
    · intro r1 hr1
      unfold sema_quiescent
      rw [h3 r1 hr1]
      exact hq r1

/-- C18 (amended) at a concrete state: semaphore 0 has value 0 and three waiters,
semaphore 1 has value 2 and none.  With semaphore 1 at UINT_MAX instead, sema_up
wraps its value to 0. -/
theorem sema_quiescent_steps_witness :
    (∀ r, sema_quiescent ex_wait r)
    ∧ (sema_up (.sema 1) [] (sema_init (.sema 1) 4294967295 ex_wait)).map
        (fun s => get_sema s (.sema 1)) = some { value := 0, waiters := [] }
    ∧ (∀ r v r1, sema_quiescent (sema_init r v ex_wait) r1)
    ∧ (∀ r k s1, sema_down r k ex_wait = some s1 → ∀ r1, sema_quiescent s1 r1)
    ∧ (∀ r r1, sema_quiescent (sema_try_down r ex_wait).1 r1)
    ∧ (∀ r k s1, sema_up r k ex_wait = some s1 →
        (get_sema s1 r).value = ((get_sema ex_wait r).value + 1) % 2 ^ 32
          ∧ ((get_sema ex_wait r).waiters ≠ [] → (get_sema s1 r).value = 1)
          ∧ ((get_sema ex_wait r).value < 2 ^ 32 - 1 → (get_sema s1 r).value > 0)
          ∧ ((get_sema ex_wait r).value = 2 ^ 32 - 1 → (get_sema s1 r).value = 0)
          ∧ (¬ sema_quiescent s1 r ↔ 2 ≤ (get_sema ex_wait r).waiters.length)
          ∧ ∀ r1, r1 ≠ r → sema_quiescent s1 r1) :=
  ⟨by intro r; rcases r with (_ | _ | i) | l <;> simp [sema_quiescent, get_sema, ex_wait],
    by decide,
    sema_quiescent_steps ex_wait
      (by intro r; rcases r with (_ | _ | i) | l <;> simp [sema_quiescent, get_sema, ex_wait])⟩

/-! ## Theorems: the sleep queue and the timer -/


theorem unblock_all_sleep_list (l : List Nat) (ts : List Nat) (s : kernel) :
    unblock_all ts { s with sleep_list := l }
      = (unblock_all ts s).map (fun s1 => { s1 with sleep_list := l }) := by
  induction ts generalizing s with
  | nil => rfl
  | cons t ts ih =>
    simp only [unblock_all, thread_unblock]
    by_cases h : (s.threads t).status = .THREAD_BLOCKED
    · simp only [h, if_true]
      exact ih (set_thread
        { s with ready_list := list_insert_ordered (sort_priority s) t s.ready_list }
        t { s.threads t with status := .THREAD_READY })
    · simp [h]

/-- The effect of a sequence of thread_unblock calls on blocked, distinct threads. -/
theorem unblock_all_effect (ts : List Nat) (s : kernel)
    (hb : ∀ t ∈ ts, (s.threads t).status = .THREAD_BLOCKED) (hd : ts.Nodup) :
    ∃ s1, unblock_all ts s = some s1
      ∧ (∀ t ∈ ts, s1.threads t = { s.threads t with status := .THREAD_READY })
      ∧ (∀ t, t ∉ ts → s1.threads t = s.threads t)
      ∧ (∀ x, x ∈ s1.ready_list ↔ x ∈ ts ∨ x ∈ s.ready_list)
      ∧ s1.ready_list
          = ts.foldl (fun rl t => list_insert_ordered (sort_priority s) t rl) s.ready_list
      ∧ s1.running = s.running ∧ s1.sleep_list = s.sleep_list
      ∧ s1.locks = s.locks ∧ s1.semas = s.semas ∧ s1.ticks = s.ticks
      ∧ s1.idle_thread = s.idle_thread ∧ s1.intr_context = s.intr_context
      ∧ s1.yield_on_return = s.yield_on_return ∧ s1.conds = s.conds
      ∧ s1.thread_ticks = s.thread_ticks := by
  induction ts generalizing s with
  | nil => exact ⟨s, rfl, by simp, by simp, by simp, rfl, rfl, rfl, rfl, rfl, rfl, rfl, rfl, rfl, rfl, rfl⟩
  | cons t ts ih =>
    have ht := hb t (List.mem_cons_self _ _)
    rw [List.nodup_cons] at hd
    have hstep : thread_unblock t s = some (set_thread
        { s with ready_list := list_insert_ordered (sort_priority s) t s.ready_list }
        t { s.threads t with status := .THREAD_READY }) := by
      simp [thread_unblock, ht]
    have hsp : sort_priority (set_thread
        { s with ready_list := list_insert_ordered (sort_priority s) t s.ready_list }
        t { s.threads t with status := .THREAD_READY }) = sort_priority s := by
      funext a b
      simp only [sort_priority, set_thread]
      congr 2 <;> (split_ifs with h <;> simp [h])
    obtain ⟨s1, h1, h2, h3, h4, h5, h6⟩ := ih (set_thread
        { s with ready_list := list_insert_ordered (sort_priority s) t s.ready_list }
        t { s.threads t with status := .THREAD_READY })
      (by
        intro x hx
        have hne : x ≠ t := fun h => hd.1 (h ▸ hx)
        simp [set_thread, hne, hb x (List.mem_cons_of_mem _ hx)]) hd.2
    refine ⟨s1, by simp [unblock_all, hstep, h1], ?_, ?_, ?_, ?_, h6⟩
    · intro x hx
      rcases List.mem_cons.mp hx with rfl | hx
      · rw [h3 x hd.1]; simp [set_thread]
      · have hne : x ≠ t := fun h => hd.1 (h ▸ hx)
        rw [h2 x hx]; simp [set_thread, hne]
    · intro x hx
      rw [List.mem_cons, not_or] at hx
      rw [h3 x hx.2]; simp [set_thread, hx.1]
    · intro x
      rw [h4 x]
      simp only [set_thread, List.mem_cons]
      rw [(list_insert_ordered_perm (sort_priority s) t s.ready_list).mem_iff, List.mem_cons]
      tauto
    · rw [h5, hsp]; rfl


theorem thread_unblock_wake (t : Nat) (s s1 : kernel) (h : thread_unblock t s = some s1) (x : Nat) :
    (s1.threads x).wake_up_time = (s.threads x).wake_up_time := by
  unfold thread_unblock at h
  split_ifs at h
  cases h
  simp only [set_thread]
  split_ifs with hx
  · subst hx; rfl
  · rfl

/-- The loop of thread_wakeup unblocks the longest prefix of the sleep list whose
threads have wake_up_time ≤ tick, front to back, and leaves the rest. -/
theorem thread_wakeup_loop_eq (tick : Int) (sl : List Nat) (s : kernel) :
    thread_wakeup_loop tick sl s
      = (unblock_all (sl.takeWhile fun t => decide ((s.threads t).wake_up_time ≤ tick)) s).map
          (fun s1 => { s1 with
            sleep_list := sl.dropWhile fun t => decide ((s.threads t).wake_up_time ≤ tick) }) := by
  induction sl generalizing s with
  | nil => rfl
  | cons t rest ih =>
    by_cases h : (s.threads t).wake_up_time ≤ tick
    · simp only [thread_wakeup_loop, ge_iff_le, h, if_true, List.takeWhile_cons, decide_True,
        List.dropWhile_cons, unblock_all]
      cases hu : thread_unblock t s with
      | none =>
        have : thread_unblock t { s with sleep_list := rest } = none := by
          simp only [thread_unblock] at hu ⊢
          split_ifs at hu ⊢
          rfl
        simp [this]
      | some s1 =>
        have : thread_unblock t { s with sleep_list := rest }
            = some { s1 with sleep_list := rest } := by
          simp only [thread_unblock] at hu ⊢
          split_ifs at hu ⊢
          cases hu
          rfl
        simp only [this]
        rw [ih, unblock_all_sleep_list]
        have hw : ∀ x, (s1.threads x).wake_up_time = (s.threads x).wake_up_time :=
          thread_unblock_wake t s s1 hu
        simp only [hw, Option.map_map]
        rfl
    · simp [thread_wakeup_loop, h]
      rfl

theorem takeWhile_sorted_eq_filter {α : Type} (f : α → Int) (now : Int) (l : List α)
    (hs : l.Pairwise (fun a b => f a ≤ f b)) :
    l.takeWhile (fun t => decide (f t ≤ now)) = l.filter (fun t => decide (f t ≤ now))
      ∧ l.dropWhile (fun t => decide (f t ≤ now)) = l.filter (fun t => decide (now < f t)) := by
  induction l with
  | nil => simp
  | cons a rest ih =>
    rw [List.pairwise_cons] at hs
    by_cases h : f a ≤ now
    · have h2 : ¬ now < f a := by omega
      simp [List.takeWhile_cons, List.dropWhile_cons, List.filter_cons, h, h2, ih hs.2]
    · have h2 : now < f a := by omega
      have h3 : ∀ x ∈ rest, ¬ f x ≤ now := fun x hx => by have := hs.1 x hx; omega
      have h4 : ∀ x ∈ rest, now < f x := fun x hx => by have := hs.1 x hx; omega
      simp only [List.takeWhile_cons, List.dropWhile_cons, List.filter_cons, h, h2,
        decide_False, decide_True, if_true, if_false, Bool.false_eq_true]
      constructor
      · symm
        rw [List.filter_eq_nil_iff]
        intro x hx
        simpa using h3 x hx
      · congr 1
        symm
        rw [List.filter_eq_self]
        intro x hx
        simpa using h4 x hx


/-- C13: thread_wakeup on a sleep queue that is in order (sorted by non-decreasing
wake_up_time, its threads distinct and BLOCKED).  It completes; it calls
thread_unblock for exactly the threads with wake_up_time ≤ now, front to back,
which is in non-decreasing order of wake_up_time; these threads become READY
and join the ready list; the threads with wake_up_time > now stay on the sleep
queue in their previous order and no other thread structure changes. -/
theorem thread_wakeup_spec (now : Int) (s : kernel) (hq : sleep_queue_ok s) :
    ∃ s1, thread_wakeup now s = some s1
      ∧ s1.sleep_list
          = s.sleep_list.filter (fun t => decide (now < (s.threads t).wake_up_time))
      ∧ unblock_all
            (s.sleep_list.filter (fun t => decide ((s.threads t).wake_up_time ≤ now))) s
          = some { s1 with sleep_list := s.sleep_list }
      ∧ (s.sleep_list.filter (fun t => decide ((s.threads t).wake_up_time ≤ now))).Pairwise
          (fun a b => (s.threads a).wake_up_time ≤ (s.threads b).wake_up_time)
      ∧ (∀ t ∈ s.sleep_list, (s.threads t).wake_up_time ≤ now →
          s1.threads t = { s.threads t with status := .THREAD_READY }
            ∧ t ∈ s1.ready_list ∧ t ∉ s1.sleep_list)
      ∧ (∀ t, ¬ (t ∈ s.sleep_list ∧ (s.threads t).wake_up_time ≤ now) →
          s1.threads t = s.threads t)
      ∧ (∀ x, x ∈ s1.ready_list ↔
          (x ∈ s.sleep_list ∧ (s.threads x).wake_up_time ≤ now) ∨ x ∈ s.ready_list)
      ∧ s1.running = s.running ∧ s1.ticks = s.ticks
      ∧ sleep_queue_ok s1 := by
  obtain ⟨hso, hnd, hbl⟩ := hq
  obtain ⟨htw, hdw⟩ := takeWhile_sorted_eq_filter (fun t => (s.threads t).wake_up_time) now
    s.sleep_list hso
  have hsub : ∀ t, t ∈ s.sleep_list.filter (fun t => decide ((s.threads t).wake_up_time ≤ now))
      ↔ t ∈ s.sleep_list ∧ (s.threads t).wake_up_time ≤ now := by
    intro t; simp [List.mem_filter]
  obtain ⟨u, h1, h2, h3, h4, -, h6, h7, -, -, h10, -⟩ := unblock_all_effect
    (s.sleep_list.filter (fun t => decide ((s.threads t).wake_up_time ≤ now))) s
    (fun t ht => hbl t ((hsub t).mp ht).1) (hnd.filter _)
  have he : thread_wakeup now s = some { u with
      sleep_list := s.sleep_list.filter (fun t => decide (now < (s.threads t).wake_up_time)) } := by
    rw [thread_wakeup, thread_wakeup_loop_eq, htw, hdw, h1]
    rfl
  have hth : ∀ t, t ∈ s.sleep_list → now < (s.threads t).wake_up_time →
      u.threads t = s.threads t := by
    intro t _ hlt
    apply h3
    rw [hsub]
    intro hc
    omega
  refine ⟨_, he, rfl, ?_, hso.filter _, ?_, ?_, ?_, h6, h10, ?_, ?_, ?_⟩
  · rw [h1]
    congr 1
    cases u
    simp only at h7
    simp [h7]
  · intro t ht hle
    refine ⟨h2 t ((hsub t).mpr ⟨ht, hle⟩), ?_, ?_⟩
    · exact (h4 t).mpr (Or.inl ((hsub t).mpr ⟨ht, hle⟩))
    · simp only [List.mem_filter, decide_eq_true_eq, not_and]
      intro _
      omega
  · intro t ht
    apply h3
    rw [hsub]
    exact ht
  · intro x
    rw [← hsub]
    exact h4 x
  · show List.Pairwise _ (s.sleep_list.filter _)
    refine (hso.filter _).imp_of_mem ?_
    intro a b ha hb hab
    simp only [List.mem_filter, decide_eq_true_eq] at ha hb
    rw [hth a ha.1 ha.2, hth b hb.1 hb.2]
    exact hab
  · exact hnd.filter _
  · intro t ht
    simp only [List.mem_filter, decide_eq_true_eq] at ht
    show (u.threads t).status = _
    rw [hth t ht.1 ht.2]
    exact hbl t ht.1


theorem list_insert_ordered_sorted {α : Type} (f : α → Int) (e : α) (xs : List α)
    (hs : xs.Pairwise (fun a b => f a ≤ f b)) :
    (list_insert_ordered (fun a b => decide (f a < f b)) e xs).Pairwise (fun a b => f a ≤ f b) := by
  induction xs with
  | nil => simp [list_insert_ordered]
  | cons a rest ih =>
    rw [List.pairwise_cons] at hs
    by_cases h : f e < f a
    · simp only [list_insert_ordered, h, decide_True, if_true]
      refine List.Pairwise.cons ?_ (List.Pairwise.cons hs.1 hs.2)
      intro x hx
      rcases List.mem_cons.mp hx with rfl | hx
      · omega
      · have := hs.1 x hx
        omega
    · simp only [list_insert_ordered, h, decide_False, Bool.false_eq_true, if_false]
      refine List.Pairwise.cons ?_ (ih hs.2)
      intro x hx
      rcases List.mem_cons.mp ((list_insert_ordered_perm _ e rest).mem_iff.mp hx) with rfl | hx
      · omega
      · exact hs.1 x hx

theorem next_pick_congr (s1 s : kernel) (h1 : s1.ready_list = s.ready_list)
    (h2 : s1.idle_thread = s.idle_thread) : next_pick s1 = next_pick s := by
  simp only [next_pick, next_thread_to_run, h1, h2]
  cases s.ready_list <;> rfl

/-- The effect of thread_sleep on a thread other than the idle thread, when
schedule has another thread to run. -/
theorem thread_sleep_effect (tick : Int) (k : List frame) (s : kernel) (next : Nat)
    (hi : s.intr_context = false)
    (hr : (s.threads s.running).status = .THREAD_RUNNING)
    (hidle : some s.running ≠ s.idle_thread)
    (hn : next_pick s = some next) (hne : next ≠ s.running) :
    ∃ s1, thread_sleep tick k s = some s1
      ∧ s1.running = next
      ∧ s1.threads s.running
          = { s.threads s.running with
              wake_up_time := tick, status := .THREAD_BLOCKED, cont := k }
      ∧ s1.threads next = { s.threads next with status := .THREAD_RUNNING }
      ∧ (∀ x, x ≠ s.running → x ≠ next → s1.threads x = s.threads x)
      ∧ s1.ready_list = s.ready_list.tail
      ∧ s1.sleep_list
          = list_insert_ordered
              (sort_wakeup_time (set_thread s s.running
                { s.threads s.running with wake_up_time := tick }))
              s.running s.sleep_list
      ∧ s1.locks = s.locks ∧ s1.semas = s.semas ∧ s1.conds = s.conds
      ∧ s1.idle_thread = s.idle_thread ∧ s1.intr_context = s.intr_context
      ∧ s1.ticks = s.ticks := by
  obtain ⟨s1, h1, h2, h3, h4, h5, h6, h7, h8, h9, h10, h11, h12, h13⟩ := thread_block_effect k
    { set_thread s s.running { s.threads s.running with wake_up_time := tick } with
      sleep_list :=
        list_insert_ordered
          (sort_wakeup_time (set_thread s s.running
            { s.threads s.running with wake_up_time := tick }))
          s.running s.sleep_list }
    next hi (by simp [set_thread, hr])
    (by refine Eq.trans (next_pick_congr _ s ?_ ?_) hn <;> rfl) hne
  refine ⟨s1, ?_, h2, ?_, ?_, ?_, h6, h9, h7, h8, h10, h11, h12, h13⟩
  · unfold thread_sleep
    rw [thread_current_eq s hr]
    simp only []
    rw [if_pos hidle]
    exact h1
  · exact h3.trans (by simp [set_thread])
  · exact h4.trans (by simp [set_thread, hne])
  · intro x hx1 hx2
    exact (h5 x hx1 hx2).trans (by simp [set_thread, hx1])


theorem thread_tick_effect (s : kernel) (hr : (s.threads s.running).status = .THREAD_RUNNING) :
    ∃ s1, thread_tick s = some s1
      ∧ s1.threads = s.threads ∧ s1.sleep_list = s.sleep_list ∧ s1.ready_list = s.ready_list
      ∧ s1.running = s.running ∧ s1.ticks = s.ticks ∧ s1.locks = s.locks ∧ s1.semas = s.semas
      ∧ s1.idle_thread = s.idle_thread ∧ s1.intr_context = s.intr_context
      ∧ s1.conds = s.conds := by
  unfold thread_tick
  rw [thread_current_eq s hr]
  simp only [intr_yield_on_return]
  split_ifs <;> exact ⟨_, rfl, rfl, rfl, rfl, rfl, rfl, rfl, rfl, rfl, rfl, rfl⟩

theorem sleep_queue_ok_congr (s s1 : kernel) (h1 : s1.threads = s.threads)
    (h2 : s1.sleep_list = s.sleep_list) : sleep_queue_ok s1 ↔ sleep_queue_ok s := by
  simp only [sleep_queue_ok, h1, h2]

/-- The timer interrupt handler on a state whose sleep queue is in order: the tick
counter advances by one and exactly the sleeping threads whose wake_up_time
has been reached are unblocked. -/
theorem timer_interrupt_effect (s : kernel)
    (hr : (s.threads s.running).status = .THREAD_RUNNING)
    (hq : sleep_queue_ok s) (hov : s.ticks + 1 ≤ INT64_MAX) :
    ∃ s1, timer_interrupt s = some s1
      ∧ s1.ticks = s.ticks + 1
      ∧ s1.running = s.running
      ∧ s1.sleep_list
          = s.sleep_list.filter (fun t => decide (s.ticks + 1 < (s.threads t).wake_up_time))
      ∧ (∀ t ∈ s.sleep_list, (s.threads t).wake_up_time ≤ s.ticks + 1 →
          s1.threads t = { s.threads t with status := .THREAD_READY }
            ∧ t ∈ s1.ready_list ∧ t ∉ s1.sleep_list)
      ∧ (∀ t, ¬ (t ∈ s.sleep_list ∧ (s.threads t).wake_up_time ≤ s.ticks + 1) →
          s1.threads t = s.threads t)
      ∧ (∀ x, x ∈ s1.ready_list ↔
          (x ∈ s.sleep_list ∧ (s.threads x).wake_up_time ≤ s.ticks + 1) ∨ x ∈ s.ready_list)
      ∧ sleep_queue_ok s1 := by
  obtain ⟨u, h1, h2, h3, h4, h5, h6, -⟩ := thread_tick_effect { s with ticks := s.ticks + 1 } hr
  have hq2 : sleep_queue_ok u := (sleep_queue_ok_congr s u h2 h3).mpr hq
  obtain ⟨s1, g1, g2, -, -, g5, g6, g7, g8, g9, g10⟩ := thread_wakeup_spec u.ticks u hq2
  have hu : u.ticks = s.ticks + 1 := h6
  rw [hu] at g1 g2 g5 g6 g7
  rw [h2, h3] at g2 g5 g6 g7
  rw [h4] at g7
  refine ⟨s1, ?_, g9.trans hu, g8.trans h5, g2, g5, g6, g7, g10⟩
  unfold timer_interrupt
  rw [if_neg (by omega), h1]
  simp only [hu]
  exact g1


/-- What timer_sleep does for every tick count, positive or not, whose sum with the
tick counter is an int64_t: the caller gets wake_up_time = ticks + n, is put on
the sleep queue (which stays in order) and is blocked, and the thread that
schedule picks runs. -/
theorem timer_sleep_effect (n : Int) (k : List frame) (s : kernel) (next : Nat)
    (hi : s.intr_context = false)
    (hr : (s.threads s.running).status = .THREAD_RUNNING)
    (hidle : some s.running ≠ s.idle_thread)
    (hlo : INT64_MIN ≤ s.ticks + n) (hhi : s.ticks + n ≤ INT64_MAX)
    (hn : next_pick s = some next) (hne : next ≠ s.running) (hns : next ∉ s.sleep_list)
    (hq : sleep_queue_ok s) :
    ∃ s1, timer_sleep n k s = some s1
      ∧ s1.running = next
      ∧ (s1.threads next).status = .THREAD_RUNNING
      ∧ (s1.threads s.running).status = .THREAD_BLOCKED
      ∧ (s1.threads s.running).wake_up_time = s.ticks + n
      ∧ s.running ∈ s1.sleep_list
      ∧ List.Perm s1.sleep_list (s.running :: s.sleep_list)
      ∧ s1.ticks = s.ticks
      ∧ sleep_queue_ok s1 := by
  obtain ⟨hso, hnd, hbl⟩ := hq
  have hcs : s.running ∉ s.sleep_list := by
    intro h
    have := hbl _ h
    rw [hr] at this
    cases this
  obtain ⟨s1, h1, h2, h3, h4, h5, -, h7, -, -, -, -, -, h13⟩ :=
    thread_sleep_effect (s.ticks + n) k s next hi hr hidle hn hne
  have hperm : List.Perm s1.sleep_list (s.running :: s.sleep_list) := by
    rw [h7]; exact list_insert_ordered_perm _ _ _
  have hw : ∀ x, x ∈ s.sleep_list → (s1.threads x).wake_up_time = (s.threads x).wake_up_time
      ∧ (s1.threads x).status = .THREAD_BLOCKED := by
    intro x hx
    have hx1 : x ≠ s.running := fun h => hcs (h ▸ hx)
    have hx2 : x ≠ next := fun h => hns (h ▸ hx)
    rw [h5 x hx1 hx2]
    exact ⟨rfl, hbl x hx⟩
  have hw2 : ∀ x, x ∈ s1.sleep_list → (s1.threads x).wake_up_time
      = ((set_thread s s.running { s.threads s.running with wake_up_time := s.ticks + n }).threads
          x).wake_up_time := by
    intro x hx
    rcases List.mem_cons.mp (hperm.mem_iff.mp hx) with rfl | hx
    · rw [h3]; simp [set_thread]
    · have hx1 : x ≠ s.running := fun h => hcs (h ▸ hx)
      rw [(hw x hx).1]; simp [set_thread, hx1]
  refine ⟨s1, ?_, h2, by rw [h4], by rw [h3], by rw [h3], ?_, hperm, h13, ?_, ?_, ?_⟩
  · unfold timer_sleep timer_ticks
    rw [hi]
    simp only [Bool.false_eq_true, if_false]
    rw [if_neg (by omega)]
    exact h1
  · exact hperm.mem_iff.mpr (List.mem_cons_self _ _)
  · have hs2 := list_insert_ordered_sorted
      (fun x => ((set_thread s s.running
        { s.threads s.running with wake_up_time := s.ticks + n }).threads x).wake_up_time)
      s.running s.sleep_list
      (hso.imp_of_mem (by
        intro a b ha hb hab
        have ha1 : a ≠ s.running := fun h => hcs (h ▸ ha)
        have hb1 : b ≠ s.running := fun h => hcs (h ▸ hb)
        simpa [set_thread, ha1, hb1] using hab))
    have hs3 : s1.sleep_list.Pairwise (fun a b =>
        ((set_thread s s.running { s.threads s.running with wake_up_time := s.ticks + n }).threads
          a).wake_up_time
        ≤ ((set_thread s s.running { s.threads s.running with wake_up_time := s.ticks + n }).threads
          b).wake_up_time) := by
      rw [h7]; exact hs2
    refine hs3.imp_of_mem ?_
    intro a b ha hb hab
    rw [hw2 a ha, hw2 b hb]
    exact hab
  · exact hperm.nodup_iff.mpr (List.nodup_cons.mpr ⟨hcs, hnd⟩)
  · intro x hx
    rcases List.mem_cons.mp (hperm.mem_iff.mp hx) with rfl | hx
    · rw [h3]
    · exact (hw x hx).2


/-- C15 (amended): timer_sleep (n) with n ≤ 0 does not return at once.  As for a
positive n the caller gets wake_up_time = t + n, is put on the sleep queue and
blocked, and another thread is scheduled; the next timer interrupt unblocks
it. -/
theorem timer_sleep_nonpositive_blocks (n : Int) (k : List frame) (s : kernel) (next : Nat)
    (hn0 : n ≤ 0)
    (hi : s.intr_context = false)
    (hr : (s.threads s.running).status = .THREAD_RUNNING)
    (hidle : some s.running ≠ s.idle_thread)
    (hlo : INT64_MIN ≤ s.ticks + n) (hhi : s.ticks + 1 ≤ INT64_MAX)
    (hn : next_pick s = some next) (hne : next ≠ s.running) (hns : next ∉ s.sleep_list)
    (hq : sleep_queue_ok s) :
    ∃ s1, timer_sleep n k s = some s1
      ∧ s1.running = next
      ∧ (s1.threads next).status = .THREAD_RUNNING
      ∧ (s1.threads s.running).status = .THREAD_BLOCKED
      ∧ (s1.threads s.running).wake_up_time = s.ticks + n
      ∧ s.running ∈ s1.sleep_list
      ∧ ∃ s3, timer_interrupt s1 = some s3 ∧ s3.ticks = s.ticks + 1
          ∧ (s3.threads s.running).status = .THREAD_READY
          ∧ s.running ∈ s3.ready_list ∧ s.running ∉ s3.sleep_list := by
  obtain ⟨s1, h1, h2, h3, h4, h5, h6, -, h8, h9⟩ := timer_sleep_effect n k s next hi hr hidle
    hlo (by omega) hn hne hns hq
  obtain ⟨s3, g1, g2, -, -, g5, -, -, -⟩ := timer_interrupt_effect s1 (by rw [h2]; exact h3) h9
    (by omega)
  obtain ⟨a, b, c⟩ := g5 _ h6 (by omega)
  exact ⟨s1, h1, h2, h3, h4, h5, h6, s3, g1, by omega, by rw [a], b, c⟩

/-! ## Theorems: the timer at concrete states -/

/-- C13 at a concrete state: threads 2, 3, 1 sleep until ticks 100, 200, 300;
thread_wakeup is called with tick 200. -/
theorem thread_wakeup_spec_witness :
    sleep_queue_ok ex_asleep
    ∧ ∃ s1, thread_wakeup 200 ex_asleep = some s1
      ∧ s1.sleep_list
          = ex_asleep.sleep_list.filter
              (fun t => decide (200 < (ex_asleep.threads t).wake_up_time))
      ∧ unblock_all
            (ex_asleep.sleep_list.filter
              (fun t => decide ((ex_asleep.threads t).wake_up_time ≤ 200))) ex_asleep
          = some { s1 with sleep_list := ex_asleep.sleep_list }
      ∧ (ex_asleep.sleep_list.filter
            (fun t => decide ((ex_asleep.threads t).wake_up_time ≤ 200))).Pairwise
          (fun a b => (ex_asleep.threads a).wake_up_time ≤ (ex_asleep.threads b).wake_up_time)
      ∧ (∀ t ∈ ex_asleep.sleep_list, (ex_asleep.threads t).wake_up_time ≤ 200 →
          s1.threads t = { ex_asleep.threads t with status := .THREAD_READY }
            ∧ t ∈ s1.ready_list ∧ t ∉ s1.sleep_list)
      ∧ (∀ t, ¬ (t ∈ ex_asleep.sleep_list ∧ (ex_asleep.threads t).wake_up_time ≤ 200) →
          s1.threads t = ex_asleep.threads t)
      ∧ (∀ x, x ∈ s1.ready_list ↔
          (x ∈ ex_asleep.sleep_list ∧ (ex_asleep.threads x).wake_up_time ≤ 200)
            ∨ x ∈ ex_asleep.ready_list)
      ∧ s1.running = ex_asleep.running ∧ s1.ticks = ex_asleep.ticks
      ∧ sleep_queue_ok s1 :=
  ⟨by unfold sleep_queue_ok; decide,
    thread_wakeup_spec 200 ex_asleep (by unfold sleep_queue_ok; decide)⟩

/-- The scenario S5 on the code.  Threads 1, 2, 3 call timer_sleep with 300, 100,
200 at tick 0; afterwards the sleep queue holds them in the order 2, 3, 1.
thread_wakeup at tick 99 wakes nobody, at tick 100 thread 2, then at tick 200
thread 3, then at tick 300 thread 1. -/
theorem sleep_order_example :
    (run_calls [.timer_sleep 300, .timer_sleep 100, .timer_sleep 200] ex_sleepers).map
        (fun s => (s.running, s.sleep_list,
          s.sleep_list.map fun t => (s.threads t).wake_up_time,
          s.sleep_list.map fun t => (s.threads t).status))
      = some (4, [2, 3, 1], [100, 200, 300],
          [.THREAD_BLOCKED, .THREAD_BLOCKED, .THREAD_BLOCKED])
    ∧ ((run_calls [.timer_sleep 300, .timer_sleep 100, .timer_sleep 200] ex_sleepers).bind
          (thread_wakeup 99)).map (fun s => (s.ready_list, s.sleep_list))
        = some ([], [2, 3, 1])
    ∧ ((run_calls [.timer_sleep 300, .timer_sleep 100, .timer_sleep 200] ex_sleepers).bind
          (thread_wakeup 100)).map (fun s => (s.ready_list, s.sleep_list))
        = some ([2], [3, 1])
    ∧ (((run_calls [.timer_sleep 300, .timer_sleep 100, .timer_sleep 200] ex_sleepers).bind
          (thread_wakeup 100)).bind (thread_wakeup 200)).map
            (fun s => (s.ready_list, s.sleep_list))
        = some ([2, 3], [1])
    ∧ ((((run_calls [.timer_sleep 300, .timer_sleep 100, .timer_sleep 200] ex_sleepers).bind
          (thread_wakeup 100)).bind (thread_wakeup 200)).bind (thread_wakeup 300)).map
            (fun s => (s.ready_list, s.sleep_list))
        = some ([2, 3, 1], []) :=
  ⟨by decide, by decide, by decide, by decide, by decide⟩

/-- The code on a sleep of 2 ticks: the first timer interrupt leaves the sleeper
(thread 1) blocked on the sleep queue, the second one makes it READY. -/
theorem timer_sleep_two_ticks_example :
    ((timer_sleep 2 [] ex_sleepers).bind timer_interrupt).map
        (fun s => (s.ticks, (s.threads 1).status, s.sleep_list, s.ready_list))
      = some (1, .THREAD_BLOCKED, [1], [3, 4])
    ∧ (((timer_sleep 2 [] ex_sleepers).bind timer_interrupt).bind timer_interrupt).map
        (fun s => (s.ticks, (s.threads 1).status, s.sleep_list, s.ready_list))
      = some (2, .THREAD_READY, [], [3, 1, 4]) :=
  ⟨by decide, by decide⟩

/-- C15, counterexample to the claim as stated: thread 1 calls timer_sleep (0), and
timer_sleep (-5), at tick 0.  The call does not return in thread 1: thread 1 is
BLOCKED on the sleep queue (with wake_up_time 0, or -5) and thread 2 runs. -/
theorem timer_sleep_zero_blocks :
    (ex_sleepers.running, (ex_sleepers.threads 1).status, ex_sleepers.sleep_list)
        = (1, .THREAD_RUNNING, [])
    ∧ (timer_sleep 0 [] ex_sleepers).map
        (fun s => (s.running, (s.threads 1).status, s.sleep_list, (s.threads 1).wake_up_time))
      = some (2, .THREAD_BLOCKED, [1], 0)
    ∧ (timer_sleep (-5) [] ex_sleepers).map
        (fun s => (s.running, (s.threads 1).status, s.sleep_list, (s.threads 1).wake_up_time))
      = some (2, .THREAD_BLOCKED, [1], -5) :=
  ⟨by decide, by decide, by decide⟩

/-- C15 (amended) at a concrete state: thread 1 calls timer_sleep (0) at tick 0. -/
theorem timer_sleep_nonpositive_blocks_witness :
    ex_sleepers.intr_context = false
    ∧ (ex_sleepers.threads ex_sleepers.running).status = .THREAD_RUNNING
    ∧ some ex_sleepers.running ≠ ex_sleepers.idle_thread
    ∧ next_pick ex_sleepers = some 2
    ∧ sleep_queue_ok ex_sleepers
    ∧ ∃ s1, timer_sleep 0 [] ex_sleepers = some s1
      ∧ s1.running = 2
      ∧ (s1.threads 2).status = .THREAD_RUNNING
      ∧ (s1.threads ex_sleepers.running).status = .THREAD_BLOCKED
      ∧ (s1.threads ex_sleepers.running).wake_up_time = ex_sleepers.ticks + 0
      ∧ ex_sleepers.running ∈ s1.sleep_list
      ∧ ∃ s3, timer_interrupt s1 = some s3 ∧ s3.ticks = ex_sleepers.ticks + 1
          ∧ (s3.threads ex_sleepers.running).status = .THREAD_READY
          ∧ ex_sleepers.running ∈ s3.ready_list ∧ ex_sleepers.running ∉ s3.sleep_list :=
  ⟨by decide, by decide, by decide, by decide, by unfold sleep_queue_ok; decide,
    timer_sleep_nonpositive_blocks 0 [] ex_sleepers 2 (by decide) (by decide) (by decide)
      (by decide) (by decide) (by decide) (by decide) (by decide) (by decide)
      (by unfold sleep_queue_ok; decide)⟩

/-! ## Theorems: thread_set_priority -/


/-- The function schedule changes no field of any thread but status and cont. -/
theorem schedule_fields (k : List frame) (s s1 : kernel) (h : schedule k s = some s1) (x : Nat) :
    s1.threads x
      = { s.threads x with status := (s1.threads x).status, cont := (s1.threads x).cont } := by
  unfold schedule at h
  cases hl : s.ready_list with
  | nil =>
    cases hid : s.idle_thread with
    | none => simp [next_thread_to_run, hl, hid] at h
    | some nx =>
      simp only [next_thread_to_run, hl, hid] at h
      split_ifs at h <;> simp only [Option.some.injEq] at h <;> subst h <;>
        simp only [thread_launch, set_thread] <;> split_ifs <;> simp_all
  | cons nx rest =>
    simp only [next_thread_to_run, hl] at h
    split_ifs at h <;> simp only [Option.some.injEq] at h <;> subst h <;>
      simp only [thread_launch, set_thread] <;> split_ifs <;> simp_all

theorem thread_yield_fields (k : List frame) (s s1 : kernel) (h : thread_yield k s = some s1)
    (x : Nat) :
    s1.threads x
      = { s.threads x with status := (s1.threads x).status, cont := (s1.threads x).cont } := by
  unfold thread_yield at h
  cases hc : thread_current s with
  | none => simp [hc] at h
  | some cur =>
    simp only [hc] at h
    split_ifs at h <;> (
      unfold do_schedule at h
      simp only [thread_current] at h hc
      split_ifs at h hc
      simp only at h
      rw [schedule_fields _ _ _ h x]
      simp only [set_thread]
      split_ifs <;> simp_all)

theorem change_list_fields (k : List frame) (s s1 : kernel) (h : change_list k s = some s1)
    (x : Nat) :
    s1.threads x
      = { s.threads x with status := (s1.threads x).status, cont := (s1.threads x).cont } := by
  unfold change_list at h
  cases hc : thread_current s with
  | none => simp [hc] at h
  | some cur =>
    simp only [hc] at h
    cases hl : s.ready_list with
    | nil => simp only [hl, Option.some.injEq] at h; subst h; rfl
    | cons f rest =>
      simp only [hl] at h
      split_ifs at h
      · exact thread_yield_fields k s s1 h x
      · simp only [Option.some.injEq] at h; subst h; rfl

/-- The function thread_set_priority writes the new priority into the priority
field of the caller whatever that field held, and writes no other field but
status and cont (when the caller yields): initial_priority and donations of
every thread are as before. -/
theorem thread_set_priority_writes (p : Int) (k : List frame) (s s1 : kernel)
    (h : thread_set_priority p k s = some s1) :
    (s1.threads s.running).priority = p
      ∧ (∀ x, (s1.threads x).initial_priority = (s.threads x).initial_priority)
      ∧ (∀ x, (s1.threads x).donations = (s.threads x).donations)
      ∧ (∀ x, x ≠ s.running → (s1.threads x).priority = (s.threads x).priority) := by
  unfold thread_set_priority at h
  cases hc : thread_current s with
  | none => simp [hc] at h
  | some cur =>
    simp only [hc] at h
    have hcur : cur = s.running := by
      simp only [thread_current] at hc
      split_ifs at hc
      cases hc
      rfl
    subst hcur
    have hf := change_list_fields k _ s1 h
    refine ⟨?_, ?_, ?_, ?_⟩
    · rw [hf]; simp [set_thread]
    · intro x; rw [hf]; simp only [set_thread]; split_ifs with hx
      · subst hx; rfl
      · rfl
    · intro x; rw [hf]; simp only [set_thread]; split_ifs with hx
      · subst hx; rfl
      · rfl
    · intro x hx; rw [hf]; simp [set_thread, hx]

/-- C11: the code on a run of public operations.  Thread 1 (L, priority 50)
acquires lock 7 and sets its priority to 10; thread 2 (H, priority 30) then
runs, calls lock_acquire on lock 7, donates 30 to L and blocks; threads 3 and 4
block on semaphores, so L runs with priority 30 while H waits on its lock.  Now
L calls thread_set_priority (5): its priority becomes 5, below its donor H that
still waits on lock 7, and its initial_priority (the base priority that
lock_release restores) is still 0, as after every thread_set_priority. -/
theorem thread_set_priority_drops_donation :
    (run_calls [.lock_acquire 7, .thread_set_priority 10, .lock_acquire 7,
        .sema_down (.sema 0), .sema_down (.sema 1)] ex_start).map
      (fun s => (s.running, (s.threads 1).priority, (s.threads 1).initial_priority,
        (s.locks 7).holder, (s.locks 7).semaphore.waiters))
      = some (1, 30, 0, some 1, [2])
    ∧ (run_calls [.lock_acquire 7, .thread_set_priority 10, .lock_acquire 7,
        .sema_down (.sema 0), .sema_down (.sema 1)] ex_start).map
      (fun s => ((s.threads 2).wait_on_lock, (s.threads 2).priority, (s.threads 2).status,
        s.ready_list))
      = some (some 7, 30, .THREAD_BLOCKED, [])
    ∧ (run_calls [.lock_acquire 7, .thread_set_priority 10, .lock_acquire 7,
        .sema_down (.sema 0), .sema_down (.sema 1), .thread_set_priority 5] ex_start).map
      (fun s => (s.running, (s.threads 1).priority, (s.threads 1).initial_priority,
        (s.locks 7).holder, (s.locks 7).semaphore.waiters))
      = some (1, 5, 0, some 1, [2])
    ∧ (run_calls [.thread_set_priority 40] ex_start).map
      (fun s => (s.running, (s.threads 1).priority, (s.threads 1).initial_priority))
      = some (1, 40, 0) :=
  ⟨by decide, by decide, by decide, by decide⟩

/-! ## Theorems: condition variables -/


theorem list_sort_donate_sema (s : kernel) (xs : List semaphore_elem) :
    ∃ ys, list_sort (sort_donate_priority_sema s) xs = some ys ∧ List.Perm ys xs
      ∧ List.Pairwise (fun a b =>
          (s.threads a.thread).priority ≥ (s.threads b.thread).priority) ys := by
  obtain ⟨ys, h1, h2, h3⟩ := list_sort_spec (sort_donate_priority_sema s)
    (by intro a b c; simp [sort_donate_priority_sema]; omega)
    (by intro a b; simp [sort_donate_priority_sema]; omega) xs
  refine ⟨ys, h1, h2, h3.imp ?_⟩
  intro a b hab
  simp [sort_donate_priority_sema] at hab
  omega

/-- The scenario S6 on runs of public operations, from a start state whose thread
structures have initialised donations lists and base priorities.  Thread 2 (A,
priority 20) enters cond_wait first, then thread 3 (B, priority 10); thread 1
(S) takes the lock; thread 4 (H, priority 40) is woken and blocks on lock 6.
In the first run A holds lock 6 and is boosted to 40: cond_signal wakes A, which
runs at once.  In the second run B holds lock 6 and is boosted to 40: the
waiter list still has A in front, and cond_signal wakes B. -/
theorem cond_signal_order_example :
    (run_calls [.lock_acquire 6, .lock_acquire 5, .cond_wait 0 5 10, .lock_acquire 5,
        .cond_wait 0 5 11, .lock_acquire 5, .sema_up (.sema 3), .lock_acquire 6]
        ex_cond_start).map
      (fun s => (s.running, s.conds 0, (s.conds 0).map fun e => (s.threads e.thread).priority,
        (s.locks 5).holder))
      = some (1, [{ semaphore := 10, thread := 2 }, { semaphore := 11, thread := 3 }],
          [40, 10], some 1)
    ∧ (run_calls [.lock_acquire 6, .lock_acquire 5, .cond_wait 0 5 10, .lock_acquire 5,
        .cond_wait 0 5 11, .lock_acquire 5, .sema_up (.sema 3), .lock_acquire 6,
        .cond_signal 0 5] ex_cond_start).map
      (fun s => (s.running, s.conds 0, (s.threads 2).status, (s.threads 3).status,
        s.ready_list))
      = some (2, [{ semaphore := 11, thread := 3 }], .THREAD_RUNNING, .THREAD_BLOCKED, [1])
    ∧ (run_calls [.lock_acquire 5, .cond_wait 0 5 10, .lock_acquire 6, .lock_acquire 5,
        .cond_wait 0 5 11, .lock_acquire 5, .sema_up (.sema 3), .lock_acquire 6]
        ex_cond_start).map
      (fun s => (s.running, s.conds 0, (s.conds 0).map fun e => (s.threads e.thread).priority,
        (s.locks 5).holder))
      = some (1, [{ semaphore := 10, thread := 2 }, { semaphore := 11, thread := 3 }],
          [20, 40], some 1)
    ∧ (run_calls [.lock_acquire 5, .cond_wait 0 5 10, .lock_acquire 6, .lock_acquire 5,
        .cond_wait 0 5 11, .lock_acquire 5, .sema_up (.sema 3), .lock_acquire 6,
        .cond_signal 0 5] ex_cond_start).map
      (fun s => (s.running, s.conds 0, (s.threads 2).status, (s.threads 3).status,
        s.ready_list))
      = some (3, [{ semaphore := 10, thread := 2 }], .THREAD_BLOCKED, .THREAD_RUNNING, [1]) :=
  ⟨by decide!, by decide!, by decide!, by decide!⟩

/-! ## Theorems: the invariant of the queues -/


theorem parked_of_shrink (s s1 : kernel) (u : Nat)
    (hst : ∀ x, (s1.threads x).status = (s.threads x).status)
    (hbl : ∀ c, ∀ t ∈ blocked_on s1 c, t ∈ blocked_on s c)
    (h : parked s u) : parked s1 u :=
  ⟨by rw [hst]; exact h.1, fun c hc => h.2 c (hbl c u hc)⟩

/-- The invariant of the queues survives every change that leaves status and
wake_up_time of all threads alone and only removes elements from the lists and
saved frames. -/
theorem queues_inv_shrink (s s1 : kernel) (h : queues_inv s)
    (hst : ∀ x, (s1.threads x).status = (s.threads x).status)
    (hwk : ∀ x, (s1.threads x).wake_up_time = (s.threads x).wake_up_time)
    (hpd : ∀ x, (pending (s1.threads x).cont).Sublist (pending (s.threads x).cont))
    (hic : ∀ i, s.idle_thread = some i → (s.threads i).cont = [] → (s1.threads i).cont = [])
    (hrd : s1.ready_list.Sublist s.ready_list)
    (hbl : ∀ c, ∀ t ∈ blocked_on s1 c, t ∈ blocked_on s c)
    (hnd : ∀ c, (blocked_on s1 c).Nodup)
    (hsl : s1.sleep_list.Sublist s.sleep_list)
    (hid : s1.idle_thread = s.idle_thread) :
    queues_inv s1 ∧ ∀ u, free_thread s u → free_thread s1 u := by
  refine ⟨⟨?_, ?_, ?_, hnd, ?_, ?_, ?_, ?_, ?_, ?_⟩, ?_⟩
  · intro t ht
    rw [hst]
    exact h.ready_status t (hrd.subset ht)
  · exact h.ready_nodup.sublist hrd
  · intro c t ht
    rw [hst]
    exact h.blocked_status c t (hbl c t ht)
  · intro c c1 hne t ht ht1
    exact h.blocked_disjoint c c1 hne t (hbl c t ht) (hbl c1 t ht1)
  · refine (h.sleep_sorted.sublist hsl).imp ?_
    intro a b hab
    rw [hwk, hwk]
    exact hab
  · intro i hi
    rw [hid] at hi
    obtain ⟨h1, h2⟩ := h.idle_free i hi
    exact ⟨fun c hc => h1 c (hbl c i hc), hic i hi h2⟩
  · intro x t ht
    obtain ⟨h1, h2⟩ := h.pending_parked x t ((hpd x).subset ht)
    exact ⟨parked_of_shrink s s1 t hst hbl h1, by rw [hid]; exact h2⟩
  · intro x
    exact (h.pending_nodup x).sublist (hpd x)
  · intro x y t hx hy
    exact h.pending_unique x y t ((hpd x).subset hx) ((hpd y).subset hy)
  · intro u hu
    exact ⟨parked_of_shrink s s1 u hst hbl hu.1, by rw [hid]; exact hu.2.1,
      fun x hx => hu.2.2 x ((hpd x).subset hx)⟩

/-- The invariant of the queues and the free threads do not depend on the fields
that the invariant does not read. -/
theorem queues_inv_congr (s s1 : kernel) (h : queues_inv s)
    (hst : ∀ x, (s1.threads x).status = (s.threads x).status)
    (hwk : ∀ x, (s1.threads x).wake_up_time = (s.threads x).wake_up_time)
    (hct : ∀ x, (s1.threads x).cont = (s.threads x).cont)
    (hrd : s1.ready_list = s.ready_list)
    (hbl : ∀ c, blocked_on s1 c = blocked_on s c)
    (hid : s1.idle_thread = s.idle_thread) :
    queues_inv s1 ∧ ∀ u, free_thread s u → free_thread s1 u := by
  apply queues_inv_shrink s s1 h hst hwk
  · intro x; rw [hct]
  · intro i _ hi; rw [hct]; exact hi
  · rw [hrd]
  · intro c t ht; rw [hbl] at ht; exact ht
  · intro c; rw [hbl]; exact h.blocked_nodup c
  · have := hbl none
    simp only [blocked_on] at this
    rw [this]
  · exact hid


/-- The invariant of the queues survives a change of one thread `a` that was on no
list and named by no saved frame: `a` may get any status, wake_up_time and fewer
saved frames, and may be put on the ready list with status THREAD_READY, or on
the list `c0` of blocked threads with status THREAD_BLOCKED when it is not the
idle thread. -/
theorem queues_inv_modify (s s1 : kernel) (a : Nat) (c0 : Option sema_ref) (h : queues_inv s)
    (ha_rd : a ∉ s.ready_list) (ha_bl : ∀ c, a ∉ blocked_on s c)
    (ha_pd : ∀ x, a ∉ pending (s.threads x).cont)
    (hst : ∀ x, x ≠ a → (s1.threads x).status = (s.threads x).status)
    (hwk : ∀ x, x ≠ a → (s1.threads x).wake_up_time = (s.threads x).wake_up_time)
    (hct : ∀ x, x ≠ a → (s1.threads x).cont = (s.threads x).cont)
    (hcta : (pending (s1.threads a).cont).Sublist (pending (s.threads a).cont))
    (hica : s.idle_thread = some a → (s.threads a).cont = [] → (s1.threads a).cont = [])
    (hid : s1.idle_thread = s.idle_thread)
    (hrdm : ∀ t, t ∈ s1.ready_list →
      t ∈ s.ready_list ∨ (t = a ∧ (s1.threads a).status = .THREAD_READY))
    (hrdn : s1.ready_list.Nodup)
    (hblm : ∀ c t, t ∈ blocked_on s1 c →
      t ∈ blocked_on s c ∨ (t = a ∧ c = c0 ∧ (s1.threads a).status = .THREAD_BLOCKED
        ∧ some a ≠ s.idle_thread))
    (hbln : ∀ c, (blocked_on s1 c).Nodup)
    (hso : s1.sleep_list.Pairwise
      (fun x y => (s1.threads x).wake_up_time ≤ (s1.threads y).wake_up_time)) :
    queues_inv s1 ∧ ∀ u, u ≠ a → free_thread s u → free_thread s1 u := by
  have hpd : ∀ x t, t ∈ pending (s1.threads x).cont → t ∈ pending (s.threads x).cont := by
    intro x t ht
    by_cases hx : x = a
    · subst hx; exact hcta.subset ht
    · rw [hct x hx] at ht; exact ht
  have hpk : ∀ u, u ≠ a → parked s u → parked s1 u := by
    intro u hu hp
    refine ⟨by rw [hst u hu]; exact hp.1, ?_⟩
    intro c hc
    rcases hblm c u hc with h1 | ⟨h1, -⟩
    · exact hp.2 c h1
    · exact hu h1
  refine ⟨⟨?_, hrdn, ?_, hbln, ?_, hso, ?_, ?_, ?_, ?_⟩, ?_⟩
  · intro t ht
    rcases hrdm t ht with h1 | ⟨h1, h2⟩
    · have hta : t ≠ a := fun e => ha_rd (e ▸ h1)
      rw [hst t hta]
      exact h.ready_status t h1
    · rw [h1]; exact h2
  · intro c t ht
    rcases hblm c t ht with h1 | ⟨h1, -, h2, -⟩
    · have hta : t ≠ a := fun e => ha_bl c (e ▸ h1)
      rw [hst t hta]
      exact h.blocked_status c t h1
    · rw [h1]; exact h2
  · intro c c1 hne t ht ht1
    rcases hblm c t ht with h1 | ⟨h1, h2, -⟩
    · rcases hblm c1 t ht1 with g1 | ⟨g1, -⟩
      · exact h.blocked_disjoint c c1 hne t h1 g1
      · exact ha_bl c (g1 ▸ h1)
    · rcases hblm c1 t ht1 with g1 | ⟨-, g2, -⟩
      · exact ha_bl c1 (h1 ▸ g1)
      · exact hne (h2.trans g2.symm)
  · intro i hi
    rw [hid] at hi
    obtain ⟨h1, h2⟩ := h.idle_free i hi
    refine ⟨?_, ?_⟩
    · intro c hc
      rcases hblm c i hc with g1 | ⟨g1, -, -, g2⟩
      · exact h1 c g1
      · rw [← g1, hi] at g2
        exact g2 rfl
    · by_cases hia : i = a
      · subst hia; exact hica hi h2
      · rw [hct i hia]; exact h2
  · intro x t ht
    obtain ⟨h1, h2⟩ := h.pending_parked x t (hpd x t ht)
    have hta : t ≠ a := fun e => ha_pd x (e ▸ hpd x t ht)
    exact ⟨hpk t hta h1, by rw [hid]; exact h2⟩
  · intro x
    by_cases hx : x = a
    · subst hx; exact (h.pending_nodup x).sublist hcta
    · rw [hct x hx]; exact h.pending_nodup x
  · intro x y t hx hy
    exact h.pending_unique x y t (hpd x t hx) (hpd y t hy)
  · intro u hu hf
    exact ⟨hpk u hu hf.1, by rw [hid]; exact hf.2.1, fun x hx => hf.2.2 x (hpd x u hx)⟩

/-- The invariant of the queues survives saving the frames `k` in thread `a`, when
the threads that `k` is about to unblock are free and `k` is empty in case `a`
is the idle thread. -/
theorem queues_inv_set_cont (s s1 : kernel) (a : Nat) (k : List frame) (h : queues_inv s)
    (hk : frames_ok k s)
    (hik : s.idle_thread = some a → k = [])
    (hst : ∀ x, (s1.threads x).status = (s.threads x).status)
    (hwk : ∀ x, (s1.threads x).wake_up_time = (s.threads x).wake_up_time)
    (hct : ∀ x, x ≠ a → (s1.threads x).cont = (s.threads x).cont)
    (hcta : (s1.threads a).cont = k)
    (hrd : s1.ready_list = s.ready_list)
    (hbl : ∀ c, blocked_on s1 c = blocked_on s c)
    (hid : s1.idle_thread = s.idle_thread) :
    queues_inv s1 := by
  have hpk : ∀ u, parked s u → parked s1 u := by
    intro u hp
    exact ⟨by rw [hst]; exact hp.1, fun c hc => hp.2 c (by rw [hbl] at hc; exact hc)⟩
  have hsl : s1.sleep_list = s.sleep_list := hbl none
  refine ⟨?_, ?_, ?_, ?_, ?_, ?_, ?_, ?_, ?_, ?_⟩
  · intro t ht
    rw [hrd] at ht; rw [hst]
    exact h.ready_status t ht
  · rw [hrd]; exact h.ready_nodup
  · intro c t ht
    rw [hbl] at ht; rw [hst]
    exact h.blocked_status c t ht
  · intro c; rw [hbl]; exact h.blocked_nodup c
  · intro c c1 hne t ht ht1
    rw [hbl] at ht ht1
    exact h.blocked_disjoint c c1 hne t ht ht1
  · rw [hsl]
    refine h.sleep_sorted.imp ?_
    intro x y hxy
    rw [hwk, hwk]; exact hxy
  · intro i hi
    rw [hid] at hi
    obtain ⟨h1, h2⟩ := h.idle_free i hi
    refine ⟨fun c hc => h1 c (by rw [hbl] at hc; exact hc), ?_⟩
    by_cases hia : i = a
    · subst hia; rw [hcta]; exact hik hi
    · rw [hct i hia]; exact h2
  · intro x t ht
    by_cases hx : x = a
    · subst hx
      rw [hcta] at ht
      have hf := hk.2 t ht
      exact ⟨hpk t hf.1, by rw [hid]; exact hf.2.1⟩
    · rw [hct x hx] at ht
      obtain ⟨h1, h2⟩ := h.pending_parked x t ht
      exact ⟨hpk t h1, by rw [hid]; exact h2⟩
  · intro x
    by_cases hx : x = a
    · subst hx; rw [hcta]; exact hk.1
    · rw [hct x hx]; exact h.pending_nodup x
  · intro x y t hx hy
    by_cases hxa : x = a
    · by_cases hya : y = a
      · rw [hxa, hya]
      · subst hxa
        rw [hcta] at hx
        rw [hct y hya] at hy
        exact absurd hy ((hk.2 t hx).2.2 y)
    · by_cases hya : y = a
      · subst hya
        rw [hcta] at hy
        rw [hct x hxa] at hx
        exact absurd hx ((hk.2 t hy).2.2 x)
      · rw [hct x hxa] at hx
        rw [hct y hya] at hy
        exact h.pending_unique x y t hx hy


@[simp] theorem blocked_on_set_thread (s : kernel) (t : Nat) (v : thread) (c : Option sema_ref) :
    blocked_on (set_thread s t v) c = blocked_on s c := by
  cases c with
  | none => rfl
  | some r => simp [blocked_on]

theorem blocked_on_set_sema (s : kernel) (r : sema_ref) (v : semaphore) (c : Option sema_ref) :
    blocked_on (set_sema s r v) c = if c = some r then v.waiters else blocked_on s c := by
  cases c with
  | none =>
    simp only [blocked_on, reduceCtorEq, if_false]
    cases r <;> rfl
  | some r1 =>
    by_cases h : r1 = r
    · subst h; simp [blocked_on]
    · have h2 : ¬ (some r1 = some r) := fun e => h (Option.some.inj e)
      simp only [blocked_on, h2, if_false]
      rw [get_sema_set_sema_ne _ _ _ _ h]

theorem blocked_on_congr (s s1 : kernel) (h1 : s1.locks = s.locks) (h2 : s1.semas = s.semas)
    (h3 : s1.sleep_list = s.sleep_list) (c : Option sema_ref) :
    blocked_on s1 c = blocked_on s c := by
  cases c with
  | none => exact h3
  | some r => simp only [blocked_on]; rw [get_sema_congr _ _ r h1 h2]

/-- The state that schedule returns. -/
theorem schedule_shape (k : List frame) (s s1 : kernel) (hs : schedule k s = some s1) :
    ∃ next dq, next_pick s = some next
      ∧ s1 = if s.running ≠ next then
          thread_launch k next
            { set_thread { s with ready_list := s.ready_list.tail } next
                { s.threads next with status := .THREAD_RUNNING } with
              thread_ticks := 0, destruction_req := dq }
        else
          { set_thread { s with ready_list := s.ready_list.tail } next
              { s.threads next with status := .THREAD_RUNNING } with thread_ticks := 0 } := by
  unfold schedule at hs
  cases hl : s.ready_list with
  | nil =>
    cases hid : s.idle_thread with
    | none => simp [next_thread_to_run, hl, hid] at hs
    | some nx =>
      simp only [next_thread_to_run, hl, hid] at hs
      split_ifs at hs with h1 h2 h3
      · simp only [Option.some.injEq] at hs
        refine ⟨nx, s.destruction_req ++ [s.running], by simp [next_pick, next_thread_to_run, hl, hid], ?_⟩
        rw [if_pos (by simpa [set_thread] using h2), ← hs]
        simp [thread_launch, set_thread, hl, hid]
      · simp only [Option.some.injEq] at hs
        refine ⟨nx, s.destruction_req, by simp [next_pick, next_thread_to_run, hl, hid], ?_⟩
        rw [if_pos (by simpa [set_thread] using h2), ← hs]
        simp [thread_launch, set_thread, hl, hid]
      · simp only [Option.some.injEq] at hs
        refine ⟨nx, s.destruction_req, by simp [next_pick, next_thread_to_run, hl, hid], ?_⟩
        rw [if_neg (by simpa [set_thread] using h2), ← hs]
        simp [thread_launch, set_thread, hl, hid]
  | cons nx rest =>
    simp only [next_thread_to_run, hl] at hs
    split_ifs at hs with h1 h2 h3
    · simp only [Option.some.injEq] at hs
      refine ⟨nx, s.destruction_req ++ [s.running], by simp [next_pick, next_thread_to_run, hl], ?_⟩
      rw [if_pos (by simpa [set_thread] using h2), ← hs]
      simp [thread_launch, set_thread, hl]
    · simp only [Option.some.injEq] at hs
      refine ⟨nx, s.destruction_req, by simp [next_pick, next_thread_to_run, hl], ?_⟩
      rw [if_pos (by simpa [set_thread] using h2), ← hs]
      simp [thread_launch, set_thread, hl]
    · simp only [Option.some.injEq] at hs
      refine ⟨nx, s.destruction_req, by simp [next_pick, next_thread_to_run, hl], ?_⟩
      rw [if_neg (by simpa [set_thread] using h2), ← hs]
      simp [thread_launch, set_thread, hl]


theorem next_pick_cases (s : kernel) (next : Nat) (h : next_pick s = some next) :
    (∃ rest, s.ready_list = next :: rest) ∨ (s.ready_list = [] ∧ s.idle_thread = some next) := by
  unfold next_pick next_thread_to_run at h
  cases hl : s.ready_list with
  | nil => simp only [hl] at h; exact Or.inr ⟨rfl, h⟩
  | cons a rest => simp only [hl, Option.some.injEq] at h; subst h; exact Or.inl ⟨rest, rfl⟩

/-- The function schedule, entered in a state that satisfies the invariant of the
queues, leaves a state that satisfies the invariant between operations. -/
theorem kernel_inv_schedule (k : List frame) (s s1 : kernel) (h : queues_inv s)
    (hk : frames_ok k s) (hik : s.idle_thread = some s.running → k = [])
    (hs : schedule k s = some s1) :
    kernel_inv s1 ∧ s1.idle_thread = s.idle_thread
      ∧ (s1.running = s.running → ∀ u, free_thread s u → free_thread s1 u) := by
  obtain ⟨next, dq, hpick, hs1⟩ := schedule_shape k s s1 hs
  -- what is known about the picked thread
  have hnx : (∀ c, next ∉ blocked_on s c) ∧ (∀ x, next ∉ pending (s.threads x).cont)
      ∧ next ∉ s.ready_list.tail
      ∧ (∀ u, free_thread s u → u ≠ next) := by
    rcases next_pick_cases s next hpick with ⟨rest, hl⟩ | ⟨hl, hid⟩
    · have hm : next ∈ s.ready_list := by rw [hl]; exact List.mem_cons_self _ _
      have hrs := h.ready_status next hm
      refine ⟨?_, ?_, ?_, ?_⟩
      · intro c hc
        have := h.blocked_status c next hc
        rw [hrs] at this; cases this
      · intro x hx
        have := (h.pending_parked x next hx).1.1
        rw [hrs] at this; cases this
      · have := h.ready_nodup
        rw [hl] at this ⊢
        exact (List.nodup_cons.mp this).1
      · intro u hu e
        have := hu.1.1
        rw [e, hrs] at this; cases this
    · refine ⟨(h.idle_free next hid).1, ?_, by rw [hl]; simp, ?_⟩
      · intro x hx
        exact (h.pending_parked x next hx).2 hid.symm
      · intro u hu e
        exact hu.2.1 (by rw [e]; exact hid.symm)
  obtain ⟨hn1, hn2, hn3, hn4⟩ := hnx
  have e1 : ∀ c, blocked_on ({ s with ready_list := s.ready_list.tail } : kernel) c
      = blocked_on s c := fun c => blocked_on_congr _ _ rfl rfl rfl c
  have e2 : ∀ c, blocked_on ({ set_thread { s with ready_list := s.ready_list.tail } next
        { s.threads next with status := .THREAD_RUNNING } with thread_ticks := 0 } : kernel) c
      = blocked_on s c := fun c => blocked_on_congr _ _ rfl rfl rfl c
  -- pop the ready list
  obtain ⟨hA, fA⟩ := queues_inv_shrink s { s with ready_list := s.ready_list.tail } h
    (fun _ => rfl) (fun _ => rfl) (fun _ => List.Sublist.refl _) (fun _ _ hc => hc)
    (List.tail_sublist _) (fun c t ht => by rw [e1] at ht; exact ht)
    (fun c => by rw [e1]; exact h.blocked_nodup c)
    (List.Sublist.refl _) rfl
  -- mark the picked thread RUNNING
  obtain ⟨hB, fB⟩ := queues_inv_modify { s with ready_list := s.ready_list.tail }
    { set_thread { s with ready_list := s.ready_list.tail } next
        { s.threads next with status := .THREAD_RUNNING } with thread_ticks := 0 }
    next none hA hn3
    (fun c hc => hn1 c (by rw [e1] at hc; exact hc))
    hn2
    (fun x hx => by simp [set_thread, hx])
    (fun x hx => by simp [set_thread, hx])
    (fun x hx => by simp [set_thread, hx])
    (by simp [set_thread])
    (fun _ hc => by simpa [set_thread] using hc)
    rfl
    (fun t ht => Or.inl ht)
    hA.ready_nodup
    (fun c t ht => Or.inl (by rw [e2] at ht; rw [e1]; exact ht))
    (fun c => by rw [e2]; exact h.blocked_nodup c)
    (by
      refine hA.sleep_sorted.imp ?_
      intro a b hab
      simp only [set_thread]
      split_ifs <;> simp_all)
  have hBrun : (({ set_thread { s with ready_list := s.ready_list.tail } next
        { s.threads next with status := .THREAD_RUNNING } with thread_ticks := 0 } : kernel).threads
      next).status = .THREAD_RUNNING := by simp [set_thread]
  by_cases hsw : s.running ≠ next
  · rw [if_pos hsw] at hs1
    have hC := queues_inv_set_cont
      { set_thread { s with ready_list := s.ready_list.tail } next
        { s.threads next with status := .THREAD_RUNNING } with thread_ticks := 0 }
      s1 s.running k hB
      ⟨hk.1, fun t ht => fB t (hn4 t (hk.2 t ht)) (fA t (hk.2 t ht))⟩
      hik
      (fun x => by rw [hs1]; simp only [thread_launch, set_thread]; split_ifs <;> simp_all)
      (fun x => by rw [hs1]; simp only [thread_launch, set_thread]; split_ifs <;> simp_all)
      (fun x hx => by rw [hs1]; simp [thread_launch, set_thread, hx])
      (by rw [hs1]; simp [thread_launch, set_thread])
      (by rw [hs1]; rfl)
      (fun c => by rw [hs1]; exact blocked_on_congr _ _ rfl rfl rfl c)
      (by rw [hs1]; rfl)
    refine ⟨⟨hC, ?_⟩, by rw [hs1]; rfl, ?_⟩
    · rw [hs1]
      simp [thread_launch, set_thread, Ne.symm hsw]
    · intro hrun
      rw [hs1] at hrun
      exact absurd hrun.symm hsw
  · rw [if_neg hsw] at hs1
    subst hs1
    refine ⟨⟨hB, ?_⟩, rfl, ?_⟩
    · have e : s.running = next := not_not.mp hsw
      simp [set_thread, e]
    · intro _ u hu
      exact fB u (hn4 u hu) (fA u hu)


theorem step_ok_refl (s : kernel) (h : kernel_inv s) : step_ok s s :=
  ⟨h, rfl, fun _ _ hu => hu⟩

theorem step_ok_trans (s s1 s2 : kernel) (h1 : step_ok s s1) (hr : s1.running = s.running)
    (h2 : step_ok s1 s2) : step_ok s s2 :=
  ⟨h2.1, h2.2.1.trans h1.2.1, fun hr2 u hu => h2.2.2 (hr2.trans hr.symm) u (h1.2.2 hr u hu)⟩

theorem step_ok_frames (s s1 : kernel) (k : List frame) (h1 : step_ok s s1)
    (hr : s1.running = s.running) (hk : frames_ok k s) : frames_ok k s1 :=
  ⟨hk.1, fun t ht => h1.2.2 hr t (hk.2 t ht)⟩

theorem step_ok_nonidle (s s1 : kernel) (h1 : step_ok s s1) (hr : s1.running = s.running)
    (hni : some s.running ≠ s.idle_thread) : some s1.running ≠ s1.idle_thread := by
  rw [hr, h1.2.1]; exact hni

/-- A change that the invariant does not read, made while the caller keeps
running. -/
theorem step_ok_congr (s s1 : kernel) (h : kernel_inv s)
    (hst : ∀ x, (s1.threads x).status = (s.threads x).status)
    (hwk : ∀ x, (s1.threads x).wake_up_time = (s.threads x).wake_up_time)
    (hct : ∀ x, (s1.threads x).cont = (s.threads x).cont)
    (hrd : s1.ready_list = s.ready_list)
    (hbl : ∀ c, blocked_on s1 c = blocked_on s c)
    (hid : s1.idle_thread = s.idle_thread)
    (hrun : s1.running = s.running) : step_ok s s1 := by
  obtain ⟨h1, h2⟩ := queues_inv_congr s s1 h.1 hst hwk hct hrd hbl hid
  exact ⟨⟨h1, by rw [hrun, hst]; exact h.2⟩, hid, fun _ => h2⟩

/-- In a state that satisfies the invariant the running thread is on no list and
no saved frame is about to unblock it. -/
theorem running_off_lists (s : kernel) (h : kernel_inv s) :
    s.running ∉ s.ready_list ∧ (∀ c, s.running ∉ blocked_on s c)
      ∧ (∀ x, s.running ∉ pending (s.threads x).cont)
      ∧ (∀ u, free_thread s u → u ≠ s.running) := by
  refine ⟨?_, ?_, ?_, ?_⟩
  · intro hm
    have := h.1.ready_status _ hm
    rw [h.2] at this; cases this
  · intro c hm
    have := h.1.blocked_status c _ hm
    rw [h.2] at this; cases this
  · intro x hm
    have := (h.1.pending_parked x _ hm).1.1
    rw [h.2] at this; cases this
  · intro u hu e
    have := hu.1.1
    rw [e, h.2] at this; cases this

/-- The function schedule, called after the running thread of a state `s0` that
satisfies the invariant got a new status `st` and was put on the list that fits
it (or on none). -/
theorem leave_inv (st : thread_status) (k : List frame) (s0 s s1 : kernel)
    (c0 : Option sema_ref)
    (h0 : kernel_inv s0) (hk : frames_ok k s0)
    (hik : s0.idle_thread = some s0.running → k = [])
    (hrun : s.running = s0.running)
    (hst : ∀ x, x ≠ s0.running → (s.threads x).status = (s0.threads x).status)
    (hwk : ∀ x, x ≠ s0.running → (s.threads x).wake_up_time = (s0.threads x).wake_up_time)
    (hctx : ∀ x, (s.threads x).cont = (s0.threads x).cont)
    (hstc : (s.threads s0.running).status = st)
    (hid : s.idle_thread = s0.idle_thread)
    (hrdm : ∀ t, t ∈ s.ready_list → t ∈ s0.ready_list ∨ (t = s0.running ∧ st = .THREAD_READY))
    (hrdn : s.ready_list.Nodup)
    (hblm : ∀ c t, t ∈ blocked_on s c →
      t ∈ blocked_on s0 c ∨ (t = s0.running ∧ c = c0 ∧ st = .THREAD_BLOCKED
        ∧ some s0.running ≠ s0.idle_thread))
    (hbln : ∀ c, (blocked_on s c).Nodup)
    (hso : s.sleep_list.Pairwise
      (fun x y => (s.threads x).wake_up_time ≤ (s.threads y).wake_up_time))
    (hs : schedule k s = some s1) : step_ok s0 s1 := by
  obtain ⟨r1, r2, r3, r4⟩ := running_off_lists s0 h0
  obtain ⟨hP, fP⟩ := queues_inv_modify s0 s s0.running c0 h0.1 r1 r2 r3
    hst hwk (fun x _ => hctx x) (by rw [hctx]) (fun _ hc2 => by rw [hctx]; exact hc2) hid
    (fun t ht => by
      rcases hrdm t ht with g | ⟨g1, g2⟩
      · exact Or.inl g
      · exact Or.inr ⟨g1, by rw [hstc, g2]⟩)
    hrdn
    (fun c t ht => by
      rcases hblm c t ht with g | ⟨g1, g2, g3, g4⟩
      · exact Or.inl g
      · exact Or.inr ⟨g1, g2, by rw [hstc, g3], g4⟩)
    hbln hso
  obtain ⟨g1, g2, g3⟩ := kernel_inv_schedule k s s1 hP
    ⟨hk.1, fun t ht => fP t (r4 t (hk.2 t ht)) (hk.2 t ht)⟩
    (by
      intro hi
      apply hik
      rw [← hid, ← hrun]
      exact hi)
    hs
  refine ⟨g1, g2.trans hid, ?_⟩
  intro hr u hu
  exact g3 (hr.trans hrun.symm) u (fP u (r4 u hu) hu)

/-- The function do_schedule, called by the running thread after it was put on
the list that fits the new status (or on none). -/
theorem do_schedule_inv (st : thread_status) (k : List frame) (s0 s s1 : kernel)
    (c0 : Option sema_ref)
    (h0 : kernel_inv s0) (hk : frames_ok k s0)
    (hik : s0.idle_thread = some s0.running → k = [])
    (hrun : s.running = s0.running)
    (hst : ∀ x, x ≠ s0.running → (s.threads x).status = (s0.threads x).status)
    (hwk : ∀ x, (s.threads x).wake_up_time = (s0.threads x).wake_up_time)
    (hctx : ∀ x, (s.threads x).cont = (s0.threads x).cont)
    (hid : s.idle_thread = s0.idle_thread)
    (hrdm : ∀ t, t ∈ s.ready_list → t ∈ s0.ready_list ∨ (t = s0.running ∧ st = .THREAD_READY))
    (hrdn : s.ready_list.Nodup)
    (hblm : ∀ c t, t ∈ blocked_on s c →
      t ∈ blocked_on s0 c ∨ (t = s0.running ∧ c = c0 ∧ st = .THREAD_BLOCKED
        ∧ some s0.running ≠ s0.idle_thread))
    (hbln : ∀ c, (blocked_on s c).Nodup)
    (hso : s.sleep_list.Pairwise
      (fun x y => (s.threads x).wake_up_time ≤ (s.threads y).wake_up_time))
    (hs : do_schedule st k s = some s1) : step_ok s0 s1 := by
  unfold do_schedule at hs
  cases hc : thread_current s with
  | none => simp [hc] at hs
  | some cur =>
    have hcur : cur = s0.running := by
      simp only [thread_current] at hc
      split_ifs at hc
      cases hc
      exact hrun
    subst hcur
    simp only [hc] at hs
    have e1 : ∀ c, blocked_on (set_thread { s with destruction_req := [] } s0.running
        { s.threads s0.running with status := st }) c = blocked_on s c :=
      fun c => blocked_on_congr _ _ rfl rfl rfl c
    refine leave_inv st k s0 (set_thread { s with destruction_req := [] } s0.running
        { s.threads s0.running with status := st }) s1 c0 h0 hk hik hrun ?_ ?_ ?_ ?_ hid hrdm hrdn
        ?_ ?_ ?_ hs
    · intro x hx; simp [set_thread, hx, hst x hx]
    · intro x hx; simp [set_thread, hx, hwk x]
    · intro x
      simp only [set_thread]
      split_ifs with hx
      · subst hx; exact hctx _
      · exact hctx x
    · simp [set_thread]
    · intro c t ht; rw [e1] at ht; exact hblm c t ht
    · intro c; rw [e1]; exact hbln c
    · refine hso.imp ?_
      intro a b hab
      simp only [set_thread]
      split_ifs <;> simp_all

/-- The function thread_block, called by the running thread after it was put on
a list of blocked threads (or on none). -/
theorem thread_block_inv (k : List frame) (s0 s s1 : kernel) (c0 : Option sema_ref)
    (h0 : kernel_inv s0) (hk : frames_ok k s0)
    (hik : s0.idle_thread = some s0.running → k = [])
    (hrun : s.running = s0.running)
    (hst : ∀ x, x ≠ s0.running → (s.threads x).status = (s0.threads x).status)
    (hwk : ∀ x, x ≠ s0.running → (s.threads x).wake_up_time = (s0.threads x).wake_up_time)
    (hctx : ∀ x, (s.threads x).cont = (s0.threads x).cont)
    (hid : s.idle_thread = s0.idle_thread)
    (hrd : s.ready_list = s0.ready_list)
    (hblm : ∀ c t, t ∈ blocked_on s c →
      t ∈ blocked_on s0 c ∨ (t = s0.running ∧ c = c0 ∧ some s0.running ≠ s0.idle_thread))
    (hbln : ∀ c, (blocked_on s c).Nodup)
    (hso : s.sleep_list.Pairwise
      (fun x y => (s.threads x).wake_up_time ≤ (s.threads y).wake_up_time))
    (hs : thread_block k s = some s1) : step_ok s0 s1 := by
  unfold thread_block at hs
  split_ifs at hs
  cases hc : thread_current s with
  | none => simp [hc] at hs
  | some cur =>
    have hcur : cur = s0.running := by
      simp only [thread_current] at hc
      split_ifs at hc
      cases hc
      exact hrun
    subst hcur
    simp only [hc] at hs
    have e1 : ∀ c, blocked_on (set_thread s s0.running
        { s.threads s0.running with status := .THREAD_BLOCKED }) c = blocked_on s c :=
      fun c => blocked_on_congr _ _ rfl rfl rfl c
    refine leave_inv .THREAD_BLOCKED k s0 (set_thread s s0.running
        { s.threads s0.running with status := .THREAD_BLOCKED }) s1 c0 h0 hk hik hrun ?_ ?_ ?_ ?_
        hid ?_ ?_ ?_ ?_ ?_ hs
    · intro x hx; simp [set_thread, hx, hst x hx]
    · intro x hx; simp [set_thread, hx, hwk x hx]
    · intro x
      simp only [set_thread]
      split_ifs with hx
      · subst hx; exact hctx _
      · exact hctx x
    · simp [set_thread]
    · intro t ht
      left
      have : t ∈ s.ready_list := ht
      rw [hrd] at this
      exact this
    · show s.ready_list.Nodup
      rw [hrd]; exact h0.1.ready_nodup
    · intro c t ht
      rw [e1] at ht
      rcases hblm c t ht with g | ⟨g1, g2, g3⟩
      · exact Or.inl g
      · exact Or.inr ⟨g1, g2, rfl, g3⟩
    · intro c; rw [e1]; exact hbln c
    · refine hso.imp ?_
      intro a b hab
      simp only [set_thread]
      split_ifs <;> simp_all

/-! ## Theorems: the kernel functions keep the invariant -/


theorem kernel_inv_current (s : kernel) (h : kernel_inv s) : thread_current s = some s.running :=
  thread_current_eq s h.2

/-- The function thread_unblock on a parked thread that no saved frame names. -/
theorem thread_unblock_inv (t : Nat) (s s1 : kernel) (h : kernel_inv s)
    (hp : ∀ c, t ∉ blocked_on s c) (hf : ∀ x, t ∉ pending (s.threads x).cont)
    (hu : thread_unblock t s = some s1) :
    kernel_inv s1 ∧ s1.idle_thread = s.idle_thread ∧ s1.running = s.running
      ∧ (∀ u, u ≠ t → free_thread s u → free_thread s1 u)
      ∧ (∀ c, blocked_on s1 c = blocked_on s c) := by
  unfold thread_unblock at hu
  split_ifs at hu with hb
  simp only [Option.some.injEq] at hu
  subst hu
  have hne : t ≠ s.running := by
    intro e
    rw [e, h.2] at hb; cases hb
  have hrd : t ∉ s.ready_list := by
    intro hm
    have := h.1.ready_status t hm
    rw [hb] at this; cases this
  have e1 : ∀ c, blocked_on (set_thread
      { s with ready_list := list_insert_ordered (sort_priority s) t s.ready_list }
      t { s.threads t with status := .THREAD_READY }) c = blocked_on s c :=
    fun c => blocked_on_congr _ _ rfl rfl rfl c
  obtain ⟨g1, g2⟩ := queues_inv_modify s (set_thread
      { s with ready_list := list_insert_ordered (sort_priority s) t s.ready_list }
      t { s.threads t with status := .THREAD_READY }) t none h.1 hrd hp hf
    (fun x hx => by simp [set_thread, hx])
    (fun x hx => by simp [set_thread, hx])
    (fun x hx => by simp [set_thread, hx])
    (by simp [set_thread])
    (fun _ hc => by simpa [set_thread] using hc)
    rfl
    (fun x hx => by
      have hx2 : x ∈ list_insert_ordered (sort_priority s) t s.ready_list := hx
      rcases List.mem_cons.mp ((list_insert_ordered_perm _ t s.ready_list).mem_iff.mp hx2)
        with g | g
      · exact Or.inr ⟨g, by simp [set_thread]⟩
      · exact Or.inl g)
    (by
      show (list_insert_ordered (sort_priority s) t s.ready_list).Nodup
      exact (list_insert_ordered_perm _ t s.ready_list).nodup_iff.mpr
        (List.nodup_cons.mpr ⟨hrd, h.1.ready_nodup⟩))
    (fun c x hx => Or.inl (by rw [e1] at hx; exact hx))
    (fun c => by rw [e1]; exact h.1.blocked_nodup c)
    (by
      refine h.1.sleep_sorted.imp ?_
      intro a b hab
      simp only [set_thread]
      split_ifs <;> simp_all)
  refine ⟨⟨g1, ?_⟩, rfl, rfl, g2, e1⟩
  simp [set_thread, Ne.symm hne, h.2]

/-- The function thread_yield. -/
theorem thread_yield_inv (k : List frame) (s s1 : kernel) (h : kernel_inv s)
    (hk : frames_ok k s) (hik : s.idle_thread = some s.running → k = [])
    (hy : thread_yield k s = some s1) : step_ok s s1 := by
  obtain ⟨r1, r2, r3, r4⟩ := running_off_lists s h
  unfold thread_yield at hy
  rw [kernel_inv_current s h] at hy
  simp only at hy
  split_ifs at hy with hi hidle
  · have e1 : ∀ c,
        blocked_on
          ({ s with
            ready_list := list_insert_ordered (sort_priority s) s.running s.ready_list } : kernel) c
        = blocked_on s c := fun c => blocked_on_congr _ _ rfl rfl rfl c
    refine do_schedule_inv .THREAD_READY k s
      { s with ready_list := list_insert_ordered (sort_priority s) s.running s.ready_list }
      s1 none h hk hik rfl (fun _ _ => rfl) (fun _ => rfl) (fun _ => rfl) rfl ?_ ?_ ?_ ?_
      h.1.sleep_sorted hy
    · intro t ht
      have ht2 : t ∈ list_insert_ordered (sort_priority s) s.running s.ready_list := ht
      rcases List.mem_cons.mp ((list_insert_ordered_perm _ _ s.ready_list).mem_iff.mp ht2)
        with g | g
      · exact Or.inr ⟨g, rfl⟩
      · exact Or.inl g
    · show (list_insert_ordered (sort_priority s) s.running s.ready_list).Nodup
      exact (list_insert_ordered_perm _ _ s.ready_list).nodup_iff.mpr
        (List.nodup_cons.mpr ⟨r1, h.1.ready_nodup⟩)
    · intro c t ht; rw [e1] at ht; exact Or.inl ht
    · intro c; rw [e1]; exact h.1.blocked_nodup c
  · exact do_schedule_inv .THREAD_READY k s s s1 none h hk hik rfl (fun _ _ => rfl)
      (fun _ => rfl) (fun _ => rfl) rfl (fun t ht => Or.inl ht) h.1.ready_nodup
      (fun c t ht => Or.inl ht) h.1.blocked_nodup h.1.sleep_sorted hy

/-- The function change_list. -/
theorem change_list_inv (k : List frame) (s s1 : kernel) (h : kernel_inv s)
    (hk : frames_ok k s) (hik : s.idle_thread = some s.running → k = [])
    (hy : change_list k s = some s1) : step_ok s s1 := by
  unfold change_list at hy
  rw [kernel_inv_current s h] at hy
  simp only at hy
  cases hl : s.ready_list with
  | nil =>
    simp only [hl, Option.some.injEq] at hy
    subst hy
    exact step_ok_refl s h
  | cons f rest =>
    simp only [hl] at hy
    split_ifs at hy
    · exact thread_yield_inv k s s1 h hk hik hy
    · simp only [Option.some.injEq] at hy
      subst hy
      exact step_ok_refl s h


@[simp] theorem pending_sema_down_loop (r : sema_ref) (k : List frame) :
    pending (frame.sema_down_loop r :: k) = pending k := rfl

@[simp] theorem pending_lock_acquire_tail (l : Nat) (k : List frame) :
    pending (frame.lock_acquire_tail l :: k) = pending k := rfl

@[simp] theorem pending_allocate_tid_tail (d : Nat) (k : List frame) :
    pending (frame.allocate_tid_tail d :: k) = pending k := rfl

@[simp] theorem pending_thread_create_tail (t : Nat) (k : List frame) :
    pending (frame.thread_create_tail t :: k) = t :: pending k := rfl

@[simp] theorem pending_cond_wait_down (w l : Nat) (k : List frame) :
    pending (frame.cond_wait_down w l :: k) = pending k := rfl

@[simp] theorem pending_cond_wait_acquire (l : Nat) (k : List frame) :
    pending (frame.cond_wait_acquire l :: k) = pending k := rfl

@[simp] theorem pending_cond_broadcast_loop (c l : Nat) (k : List frame) :
    pending (frame.cond_broadcast_loop c l :: k) = pending k := rfl

theorem frames_ok_cons (f : frame) (k : List frame) (s : kernel) (hk : frames_ok k s)
    (hf : pending (f :: k) = pending k) : frames_ok (f :: k) s := by
  unfold frames_ok
  rw [hf]
  exact hk

theorem idle_imp_of_nonidle (s : kernel) (k : List frame)
    (hni : some s.running ≠ s.idle_thread) : s.idle_thread = some s.running → k = [] :=
  fun e => absurd e.symm hni

/-- The loop of sema_down. -/
theorem sema_down_loop_inv (r : sema_ref) (k : List frame) (s s1 : kernel) (h : kernel_inv s)
    (hk : frames_ok k s) (hni : some s.running ≠ s.idle_thread)
    (hd : sema_down_loop r k s = some s1) : step_ok s s1 := by
  obtain ⟨r1, r2, r3, r4⟩ := running_off_lists s h
  unfold sema_down_loop at hd
  split_ifs at hd with hv
  · rw [kernel_inv_current s h] at hd
    simp only at hd
    cases hb : thread_block (frame.sema_down_loop r :: k)
        (set_sema s r { get_sema s r with
          waiters := list_insert_ordered (sort_priority s) s.running (get_sema s r).waiters }) with
    | none => simp [hb] at hd
    | some s2 =>
      simp only [hb] at hd
      split_ifs at hd
      simp only [Option.some.injEq] at hd
      subst hd
      refine thread_block_inv (frame.sema_down_loop r :: k) s
        (set_sema s r { get_sema s r with
          waiters := list_insert_ordered (sort_priority s) s.running (get_sema s r).waiters })
        s2 (some r) h (frames_ok_cons _ k s hk rfl) (idle_imp_of_nonidle s _ hni)
        (by simp) (fun x _ => by simp) (fun x _ => by simp) (fun x => by simp) (by simp) (by simp)
        ?_ ?_ ?_ hb
      · intro c t ht
        rw [blocked_on_set_sema] at ht
        split_ifs at ht with hc
        · have ht2 : t ∈ list_insert_ordered (sort_priority s) s.running (get_sema s r).waiters :=
            ht
          rcases List.mem_cons.mp ((list_insert_ordered_perm _ _ _).mem_iff.mp ht2) with g | g
          · exact Or.inr ⟨g, hc, hni⟩
          · left; rw [hc]; exact g
        · exact Or.inl ht
      · intro c
        rw [blocked_on_set_sema]
        split_ifs with hc
        · show (list_insert_ordered (sort_priority s) s.running (get_sema s r).waiters).Nodup
          exact (list_insert_ordered_perm _ _ _).nodup_iff.mpr
            (List.nodup_cons.mpr ⟨r2 (some r), h.1.blocked_nodup (some r)⟩)
        · exact h.1.blocked_nodup c
      · have e : (set_sema s r { get_sema s r with
            waiters := list_insert_ordered (sort_priority s) s.running
              (get_sema s r).waiters }).sleep_list = s.sleep_list := by
          cases r <;> rfl
        rw [e]
        simpa using h.1.sleep_sorted
  · simp only [Option.some.injEq] at hd
    subst hd
    refine step_ok_congr s _ h (by simp) (by simp) (by simp) (by simp) ?_ (by simp) (by simp)
    intro c
    rw [blocked_on_set_sema]
    split_ifs with hc
    · rw [hc]; rfl
    · rfl

/-- The function sema_down. -/
theorem sema_down_inv (r : sema_ref) (k : List frame) (s s1 : kernel) (h : kernel_inv s)
    (hk : frames_ok k s) (hni : some s.running ≠ s.idle_thread)
    (hd : sema_down r k s = some s1) : step_ok s s1 := by
  unfold sema_down at hd
  split_ifs at hd
  exact sema_down_loop_inv r k s s1 h hk hni hd

/-- The function sema_try_down. -/
theorem sema_try_down_inv (r : sema_ref) (s : kernel) (h : kernel_inv s) :
    step_ok s (sema_try_down r s).1 ∧ (sema_try_down r s).1.running = s.running := by
  unfold sema_try_down
  split_ifs with hv
  · refine ⟨step_ok_congr s _ h (by simp) (by simp) (by simp) (by simp) ?_ (by simp) (by simp),
      by simp⟩
    intro c
    rw [blocked_on_set_sema]
    split_ifs with hc
    · rw [hc]; rfl
    · rfl
  · exact ⟨step_ok_refl s h, rfl⟩


/-- Replacing the waiter list of a semaphore by a list of distinct threads that
were all on it keeps the invariant. -/
theorem set_waiters_inv (r : sema_ref) (v : semaphore) (s : kernel) (h : kernel_inv s)
    (hsub : ∀ t ∈ v.waiters, t ∈ (get_sema s r).waiters) (hnd : v.waiters.Nodup) :
    step_ok s (set_sema s r v) := by
  have hbl : ∀ c, ∀ t ∈ blocked_on (set_sema s r v) c, t ∈ blocked_on s c := by
    intro c t ht
    rw [blocked_on_set_sema] at ht
    split_ifs at ht with hc
    · rw [hc]; exact hsub t ht
    · exact ht
  obtain ⟨g1, g2⟩ := queues_inv_shrink s (set_sema s r v) h.1 (by simp) (by simp)
    (fun x => by simp) (fun i _ hc => by simpa using hc) (by simp) hbl
    (fun c => by
      rw [blocked_on_set_sema]
      split_ifs with hc
      · exact hnd
      · exact h.1.blocked_nodup c)
    (by
      have e : (set_sema s r v).sleep_list = s.sleep_list := by cases r <;> rfl
      rw [e])
    (by simp)
  exact ⟨⟨g1, by simpa using h.2⟩, by simp, fun _ => g2⟩

/-- The function sema_up. -/
theorem sema_up_inv (r : sema_ref) (k : List frame) (s s1 : kernel) (h : kernel_inv s)
    (hk : frames_ok k s) (hni : some s.running ≠ s.idle_thread)
    (hu : sema_up r k s = some s1) : step_ok s s1 := by
  unfold sema_up at hu
  obtain ⟨ys, hsort, hperm, -⟩ := list_sort_priority s (get_sema s r).waiters
  rw [hsort] at hu
  cases ys with
  | nil =>
    simp only at hu
    have hA := set_waiters_inv r { value := ((get_sema s r).value + 1) % 2 ^ 32, waiters := [] } s h
      (by simp) (by simp)
    exact step_ok_trans s _ s1 hA (by simp)
      (change_list_inv k _ s1 hA.1 (step_ok_frames s _ k hA (by simp) hk)
        (idle_imp_of_nonidle _ k (step_ok_nonidle s _ hA (by simp) hni)) hu)
  | cons t rest =>
    simp only at hu
    have hnd : (t :: rest).Nodup := hperm.nodup_iff.mpr (h.1.blocked_nodup (some r))
    have htm : t ∈ blocked_on s (some r) := hperm.subset (List.mem_cons_self _ _)
    have hA := set_waiters_inv r { get_sema s r with waiters := rest } s h
      (fun x hx => hperm.subset (List.mem_cons_of_mem _ hx)) (List.nodup_cons.mp hnd).2
    cases hub : thread_unblock t (set_sema s r { get_sema s r with waiters := rest }) with
    | none => simp [hub] at hu
    | some s2 =>
      simp only [hub] at hu
      obtain ⟨g1, g2, g3, g4, g5⟩ := thread_unblock_inv t _ s2 hA.1
        (by
          intro c hc
          rw [blocked_on_set_sema] at hc
          split_ifs at hc with hcr
          · exact (List.nodup_cons.mp hnd).1 hc
          · exact h.1.blocked_disjoint (some r) c (fun e => hcr e.symm) t htm hc)
        (by
          intro x hx
          have := (h.1.pending_parked x t (by simpa using hx)).1.2 (some r)
          exact this htm)
        hub
      have hB : step_ok s s2 := by
        refine ⟨g1, g2.trans hA.2.1, ?_⟩
        intro _ u hu2
        have hut : u ≠ t := by
          intro e
          exact hu2.1.2 (some r) (e ▸ htm)
        exact g4 u hut (hA.2.2 (by simp) u hu2)
      have hr2 : s2.running = s.running := by rw [g3]; simp
      have hC := set_waiters_inv r { get_sema s2 r with value := ((get_sema s2 r).value + 1) % 2 ^ 32 } s2 g1
        (fun x hx => hx) (g1.1.blocked_nodup (some r))
      have hD : step_ok s (set_sema s2 r
          { get_sema s2 r with value := ((get_sema s2 r).value + 1) % 2 ^ 32 }) :=
        step_ok_trans s s2 _ hB hr2 hC
      exact step_ok_trans s _ s1 hD (by simp [hr2])
        (change_list_inv k _ s1 hD.1 (step_ok_frames s _ k hD (by simp [hr2]) hk)
          (idle_imp_of_nonidle _ k (step_ok_nonidle s _ hD (by simp [hr2]) hni)) hu)


theorem blocked_on_set_lock (s : kernel) (l : Nat) (v : lock)
    (hv : v.semaphore.waiters = (s.locks l).semaphore.waiters) (c : Option sema_ref) :
    blocked_on (set_lock s l v) c = blocked_on s c := by
  cases c with
  | none => rfl
  | some r =>
    cases r with
    | sema i => rfl
    | lock_sema m =>
      simp only [blocked_on, get_sema, set_lock]
      split_ifs with hm
      · rw [hv, hm]
      · rfl

/-- Writing fields of a thread that the invariant does not read. -/
theorem set_thread_data_inv (s : kernel) (t : Nat) (v : thread) (h : kernel_inv s)
    (hst : v.status = (s.threads t).status)
    (hwk : v.wake_up_time = (s.threads t).wake_up_time)
    (hct : v.cont = (s.threads t).cont) : step_ok s (set_thread s t v) := by
  refine step_ok_congr s _ h ?_ ?_ ?_ rfl (fun c => blocked_on_set_thread s t v c) rfl rfl <;>
    (intro x; simp only [set_thread]; split_ifs with hx)
  · rw [hst, hx]
  · rfl
  · rw [hwk, hx]
  · rfl
  · rw [hct, hx]
  · rfl

/-- Writing a lock without touching the waiters of its semaphore. -/
theorem set_lock_data_inv (s : kernel) (l : Nat) (v : lock) (h : kernel_inv s)
    (hv : v.semaphore.waiters = (s.locks l).semaphore.waiters) : step_ok s (set_lock s l v) :=
  step_ok_congr s _ h (fun _ => rfl) (fun _ => rfl) (fun _ => rfl) rfl
    (blocked_on_set_lock s l v hv) rfl rfl

/-- The loop of donate_priority. -/
theorem donate_priority_loop_inv (n : Nat) (l : Option Nat) (t : Nat) (s : kernel)
    (h : kernel_inv s) :
    step_ok s (donate_priority_loop n l t s)
      ∧ (donate_priority_loop n l t s).running = s.running := by
  induction n generalizing l s with
  | zero => exact ⟨step_ok_refl s h, rfl⟩
  | succ n ih =>
    cases l with
    | none => exact ⟨step_ok_refl s h, rfl⟩
    | some l =>
      simp only [donate_priority_loop]
      cases hh : (s.locks l).holder with
      | none => exact ⟨step_ok_refl s h, rfl⟩
      | some hd =>
        simp only
        split_ifs with hp
        · have hA := set_thread_data_inv s hd
            { s.threads hd with priority := (s.threads t).priority } h rfl rfl rfl
          obtain ⟨g1, g2⟩ := ih (s.threads hd).wait_on_lock
            (set_thread s hd { s.threads hd with priority := (s.threads t).priority }) hA.1
          exact ⟨step_ok_trans s _ _ hA rfl g1, g2⟩
        · exact ih _ s h

/-- The part of lock_acquire from sema_down on. -/
theorem lock_acquire_wait_inv (l : Nat) (k : List frame) (s s2 s1 : kernel)
    (hs2 : step_ok s s2) (hr2 : s2.running = s.running)
    (hk : frames_ok k s) (hni : some s.running ≠ s.idle_thread)
    (ha : (match sema_down (.lock_sema l) (frame.lock_acquire_tail l :: k) s2 with
      | none => none
      | some s3 => if s3.running = s.running then some (lock_acquire_tail l s3) else some s3)
        = some s1) : step_ok s s1 := by
  cases hd : sema_down (.lock_sema l) (frame.lock_acquire_tail l :: k) s2 with
  | none => simp [hd] at ha
  | some s3 =>
    simp only [hd] at ha
    have hC := sema_down_inv (.lock_sema l) (frame.lock_acquire_tail l :: k) s2 s3 hs2.1
      (frames_ok_cons _ k s2 (step_ok_frames s s2 k hs2 hr2 hk) rfl)
      (step_ok_nonidle s s2 hs2 hr2 hni) hd
    have hD := step_ok_trans s s2 s3 hs2 hr2 hC
    split_ifs at ha with hr3
    · simp only [Option.some.injEq] at ha
      subst ha
      unfold lock_acquire_tail
      have hE := set_lock_data_inv s3 l { s3.locks l with holder := some s3.running } hD.1 rfl
      have hF := set_thread_data_inv (set_lock s3 l { s3.locks l with holder := some s3.running })
        s3.running { s3.threads s3.running with wait_on_lock := none } hE.1 rfl rfl rfl
      exact step_ok_trans s s3 _ hD hr3 (step_ok_trans s3 _ _ hE rfl hF)
    · simp only [Option.some.injEq] at ha
      subst ha
      exact hD

/-- The function lock_acquire. -/
theorem lock_acquire_inv (l : Nat) (k : List frame) (s s1 : kernel) (h : kernel_inv s)
    (hk : frames_ok k s) (hni : some s.running ≠ s.idle_thread)
    (ha : lock_acquire l k s = some s1) : step_ok s s1 := by
  unfold lock_acquire at ha
  rw [kernel_inv_current s h] at ha
  simp only at ha
  have hA := set_thread_data_inv s s.running
    { s.threads s.running with wait_on_lock := some l } h rfl rfl rfl
  split_ifs at ha with hi hh hn
  · unfold donate_priority at ha
    rw [kernel_inv_current _ hA.1] at ha
    simp only at ha
    obtain ⟨g1, g2⟩ := donate_priority_loop_inv MAX_DEPTH
      ((set_thread s s.running { s.threads s.running with wait_on_lock := some l }).threads
        (set_thread s s.running
          { s.threads s.running with wait_on_lock := some l }).running).wait_on_lock
      (set_thread s s.running { s.threads s.running with wait_on_lock := some l }).running
      _ hA.1
    exact lock_acquire_wait_inv l k s _ s1 (step_ok_trans s _ _ hA rfl g1) g2 hk hni ha
  · exact lock_acquire_wait_inv l k s _ s1 hA rfl hk hni ha

/-- The function lock_try_acquire. -/
theorem lock_try_acquire_inv (l : Nat) (s : kernel) (r : kernel × Bool) (h : kernel_inv s)
    (ha : lock_try_acquire l s = some r) : step_ok s r.1 := by
  unfold lock_try_acquire at ha
  rw [kernel_inv_current s h] at ha
  simp only at ha
  obtain ⟨g1, g2⟩ := sema_try_down_inv (.lock_sema l) s h
  split_ifs at ha with hh hs
  · simp only [Option.some.injEq] at ha
    subst ha
    exact step_ok_trans s _ _ g1 g2 (set_lock_data_inv _ l _ g1.1 rfl)
  · simp only [Option.some.injEq] at ha
    subst ha
    exact g1


/-- The function lock_release. -/
theorem lock_release_inv (l : Nat) (k : List frame) (s s1 : kernel) (h : kernel_inv s)
    (hk : frames_ok k s) (hni : some s.running ≠ s.idle_thread)
    (hr : lock_release l k s = some s1) : step_ok s s1 := by
  unfold lock_release at hr
  rw [kernel_inv_current s h] at hr
  simp only at hr
  split_ifs at hr with hh
  cases hdn : (s.threads s.running).donations with
  | zeroed => simp [hdn] at hr
  | mk ds =>
    simp only [hdn] at hr
    have key : ∀ v : thread,
        sema_up (.lock_sema l) k
          (set_lock (set_thread s s.running v) l { s.locks l with holder := none }) = some s1 →
        v.status = (s.threads s.running).status →
        v.wake_up_time = (s.threads s.running).wake_up_time →
        v.cont = (s.threads s.running).cont →
        step_ok s s1 := by
      intro v hu h1 h2 h3
      have hA := set_thread_data_inv s s.running v h h1 h2 h3
      have hB := set_lock_data_inv (set_thread s s.running v) l
        { s.locks l with holder := none } hA.1 rfl
      have hC := step_ok_trans s _ _ hA rfl hB
      exact step_ok_trans s _ s1 hC rfl
        (sema_up_inv (.lock_sema l) k _ s1 hC.1 (step_ok_frames s _ k hC rfl hk)
          (step_ok_nonidle s _ hC rfl hni) hu)
    cases hrd : remove_donors s l ds with
    | nil =>
      simp only [hrd] at hr
      exact key _ hr rfl rfl rfl
    | cons d ds1 =>
      simp only [hrd] at hr
      cases hso : list_sort (sort_donate_priority s) (d :: ds1) with
      | none => simp [hso] at hr
      | some zs =>
        cases zs with
        | nil => simp [hso] at hr
        | cons f fs =>
          simp only [hso] at hr
          exact key _ hr rfl rfl rfl

/-- The function thread_set_priority. -/
theorem thread_set_priority_inv (p : Int) (k : List frame) (s s1 : kernel) (h : kernel_inv s)
    (hk : frames_ok k s) (hni : some s.running ≠ s.idle_thread)
    (hp : thread_set_priority p k s = some s1) : step_ok s s1 := by
  unfold thread_set_priority at hp
  rw [kernel_inv_current s h] at hp
  simp only at hp
  have hA := set_thread_data_inv s s.running { s.threads s.running with priority := p } h
    rfl rfl rfl
  exact step_ok_trans s _ s1 hA rfl
    (change_list_inv k _ s1 hA.1 (step_ok_frames s _ k hA rfl hk)
      (idle_imp_of_nonidle _ k (step_ok_nonidle s _ hA rfl hni)) hp)

/-- The statements of allocate_tid after lock_acquire. -/
theorem allocate_tid_tail_inv (dst : Nat) (k : List frame) (s s1 : kernel) (h : kernel_inv s)
    (hk : frames_ok k s) (hni : some s.running ≠ s.idle_thread)
    (ha : allocate_tid_tail dst k s = some s1) : step_ok s s1 := by
  unfold allocate_tid_tail at ha
  have hA : step_ok s { s with next_tid := s.next_tid + 1 } :=
    step_ok_congr s _ h (fun _ => rfl) (fun _ => rfl) (fun _ => rfl) rfl
      (fun c => blocked_on_congr _ _ rfl rfl rfl c) rfl rfl
  have hB := set_thread_data_inv { s with next_tid := s.next_tid + 1 } dst
    { s.threads dst with tid := s.next_tid } hA.1 rfl rfl rfl
  have hC := step_ok_trans s _ _ hA rfl hB
  exact step_ok_trans s _ s1 hC rfl
    (lock_release_inv tid_lock k _ s1 hC.1 (step_ok_frames s _ k hC rfl hk)
      (step_ok_nonidle s _ hC rfl hni) ha)

/-- The function allocate_tid. -/
theorem allocate_tid_inv (dst : Nat) (k : List frame) (s s1 : kernel) (h : kernel_inv s)
    (hk : frames_ok k s) (hni : some s.running ≠ s.idle_thread)
    (ha : allocate_tid dst k s = some s1) : step_ok s s1 := by
  unfold allocate_tid at ha
  cases hl : lock_acquire tid_lock (frame.allocate_tid_tail dst :: k) s with
  | none => simp [hl] at ha
  | some s2 =>
    simp only [hl] at ha
    have hA := lock_acquire_inv tid_lock (frame.allocate_tid_tail dst :: k) s s2 h
      (frames_ok_cons _ k s hk rfl) hni hl
    split_ifs at ha with hr
    · exact step_ok_trans s s2 s1 hA hr
        (allocate_tid_tail_inv dst k s2 s1 hA.1 (step_ok_frames s s2 k hA hr hk)
          (step_ok_nonidle s s2 hA hr hni) ha)
    · simp only [Option.some.injEq] at ha
      subst ha
      exact hA


/-- The statements of thread_create after allocate_tid. -/
theorem thread_create_tail_inv (t : Nat) (k : List frame) (s s1 : kernel) (h : kernel_inv s)
    (hk : frames_ok (frame.thread_create_tail t :: k) s)
    (hni : some s.running ≠ s.idle_thread)
    (hc : thread_create_tail t k s = some s1) :
    kernel_inv s1 ∧ s1.idle_thread = s.idle_thread
      ∧ (s1.running = s.running → ∀ u, u ≠ t → free_thread s u → free_thread s1 u) := by
  unfold thread_create_tail at hc
  have hft : free_thread s t := hk.2 t (by simp)
  have hnd : t ∉ pending k := by
    have := hk.1
    simp only [pending_thread_create_tail, List.nodup_cons] at this
    exact this.1
  cases hu : thread_unblock t s with
  | none => simp [hu] at hc
  | some s2 =>
    simp only [hu] at hc
    obtain ⟨g1, g2, g3, g4, -⟩ := thread_unblock_inv t s s2 h hft.1.2 hft.2.2 hu
    have hk2 : frames_ok k s2 := by
      refine ⟨(List.nodup_cons.mp (by simpa using hk.1)).2, ?_⟩
      intro u hu2
      have hut : u ≠ t := fun e => hnd (e ▸ hu2)
      exact g4 u hut (hk.2 u (by simp [hu2]))
    have hC := change_list_inv k s2 s1 g1 hk2
      (idle_imp_of_nonidle _ k (by rw [g3, g2]; exact hni)) hc
    refine ⟨hC.1, hC.2.1.trans g2, ?_⟩
    intro hr u hut hfu
    exact hC.2.2 (hr.trans g3.symm) u (g4 u hut hfu)

/-- The function thread_create, given a page that is not in use. -/
theorem thread_create_inv (page : Option Nat) (p : Int) (k : List frame) (s s1 : kernel)
    (h : kernel_inv s) (hk : frames_ok k s) (hni : some s.running ≠ s.idle_thread)
    (hpg : ∀ t, page = some t → unused_page s t ∧ t ∉ pending k)
    (hc : thread_create page p k s = some s1) :
    kernel_inv s1 ∧ s1.idle_thread = s.idle_thread := by
  unfold thread_create at hc
  cases page with
  | none =>
    simp only [Option.some.injEq] at hc
    subst hc
    exact ⟨h, rfl⟩
  | some t =>
    obtain ⟨⟨u1, u2, u3, u4, u5⟩, u6⟩ := hpg t rfl
    simp only at hc
    unfold init_thread at hc
    split_ifs at hc with hpr
    simp only at hc
    -- the state after init_thread
    have e1 : ∀ c, blocked_on (set_thread s t
        { thread_zero with status := .THREAD_BLOCKED, priority := p }) c = blocked_on s c :=
      fun c => blocked_on_set_thread s t _ c
    obtain ⟨g1, g2⟩ := queues_inv_modify s
      (set_thread s t { thread_zero with status := .THREAD_BLOCKED, priority := p })
      t none h.1 u3 u4 u5
      (fun x hx => by simp [set_thread, hx])
      (fun x hx => by simp [set_thread, hx])
      (fun x hx => by simp [set_thread, hx])
      (by simp [set_thread, thread_zero, pending])
      (fun _ _ => by simp [set_thread, thread_zero])
      rfl
      (fun x hx => Or.inl hx)
      h.1.ready_nodup
      (fun c x hx => Or.inl (by rw [e1] at hx; exact hx))
      (fun c => by rw [e1]; exact h.1.blocked_nodup c)
      (by
        refine h.1.sleep_sorted.imp_of_mem ?_
        intro a b ha hb hab
        have ha1 : a ≠ t := fun e => u4 none (e ▸ ha)
        have hb1 : b ≠ t := fun e => u4 none (e ▸ hb)
        simpa [set_thread, ha1, hb1] using hab)
    have hI : kernel_inv (set_thread s t
        { thread_zero with status := .THREAD_BLOCKED, priority := p }) :=
      ⟨g1, by simpa [set_thread, Ne.symm u1] using h.2⟩
    have hft : free_thread (set_thread s t
        { thread_zero with status := .THREAD_BLOCKED, priority := p }) t := by
      refine ⟨⟨by simp [set_thread], fun c hc2 => u4 c (by rw [e1] at hc2; exact hc2)⟩, u2, ?_⟩
      intro x hx
      simp only [set_thread] at hx
      split_ifs at hx with hxt
      · simp [thread_zero, pending] at hx
      · exact u5 x hx
    have hk1 : frames_ok (frame.thread_create_tail t :: k) (set_thread s t
        { thread_zero with status := .THREAD_BLOCKED, priority := p }) := by
      refine ⟨by simpa using ⟨u6, hk.1⟩, ?_⟩
      intro u hu
      simp only [pending_thread_create_tail, List.mem_cons] at hu
      rcases hu with e | hu
      · rw [e]; exact hft
      · exact g2 u (fun e => u6 (e ▸ hu)) (hk.2 u hu)
    cases ha : allocate_tid t (frame.thread_create_tail t :: k) (set_thread s t
        { thread_zero with status := .THREAD_BLOCKED, priority := p }) with
    | none => simp [ha] at hc
    | some s2 =>
      simp only [ha] at hc
      have hA := allocate_tid_inv t (frame.thread_create_tail t :: k) _ s2 hI hk1 hni ha
      split_ifs at hc with hr
      · obtain ⟨q1, q2, -⟩ := thread_create_tail_inv t k s2 s1 hA.1
          (step_ok_frames _ s2 _ hA hr hk1) (step_ok_nonidle _ s2 hA hr hni) hc
        exact ⟨q1, q2.trans hA.2.1⟩
      · simp only [Option.some.injEq] at hc
        subst hc
        exact ⟨hA.1, hA.2.1⟩


/-- The function thread_sleep. -/
theorem thread_sleep_inv (tick : Int) (k : List frame) (s s1 : kernel) (h : kernel_inv s)
    (hk : frames_ok k s) (hx : thread_sleep tick k s = some s1) : step_ok s s1 := by
  obtain ⟨r1, r2, r3, r4⟩ := running_off_lists s h
  unfold thread_sleep at hx
  rw [kernel_inv_current s h] at hx
  simp only at hx
  split_ifs at hx with hni
  · refine thread_block_inv k s
      { set_thread s s.running { s.threads s.running with wake_up_time := tick } with
        sleep_list := list_insert_ordered (sort_wakeup_time (set_thread s s.running { s.threads s.running with wake_up_time := tick })) s.running s.sleep_list }
      s1 none h hk (idle_imp_of_nonidle s k hni) rfl
      (fun x hx2 => by simp [set_thread, hx2]) (fun x hx2 => by simp [set_thread, hx2])
      (fun x => by simp only [set_thread]; split_ifs with e <;> simp [e]) rfl rfl ?_ ?_ ?_ hx
    · intro c t ht
      cases c with
      | none =>
        have ht2 : t ∈ list_insert_ordered (sort_wakeup_time (set_thread s s.running
            { s.threads s.running with wake_up_time := tick })) s.running s.sleep_list := ht
        rcases List.mem_cons.mp ((list_insert_ordered_perm _ _ _).mem_iff.mp ht2) with g | g
        · exact Or.inr ⟨g, rfl, hni⟩
        · exact Or.inl g
      | some r => exact Or.inl ht
    · intro c
      cases c with
      | none =>
        show (list_insert_ordered (sort_wakeup_time (set_thread s s.running
            { s.threads s.running with wake_up_time := tick })) s.running s.sleep_list).Nodup
        exact (list_insert_ordered_perm _ _ _).nodup_iff.mpr
          (List.nodup_cons.mpr ⟨r2 none, h.1.blocked_nodup none⟩)
      | some r => exact h.1.blocked_nodup (some r)
    · show (list_insert_ordered (sort_wakeup_time (set_thread s s.running
          { s.threads s.running with wake_up_time := tick })) s.running s.sleep_list).Pairwise _
      refine list_insert_ordered_sorted (fun x => ((set_thread s s.running
          { s.threads s.running with wake_up_time := tick }).threads x).wake_up_time)
          s.running s.sleep_list ?_
      refine h.1.sleep_sorted.imp_of_mem ?_
      intro a b ha hb hab
      have ha1 : a ≠ s.running := fun e => r2 none (e ▸ ha)
      have hb1 : b ≠ s.running := fun e => r2 none (e ▸ hb)
      simpa [set_thread, ha1, hb1] using hab
  · simp only [Option.some.injEq] at hx
    subst hx
    exact step_ok_refl s h

/-- The function timer_sleep. -/
theorem timer_sleep_inv (n : Int) (k : List frame) (s s1 : kernel) (h : kernel_inv s)
    (hk : frames_ok k s) (hx : timer_sleep n k s = some s1) : step_ok s s1 := by
  unfold timer_sleep at hx
  split_ifs at hx
  exact thread_sleep_inv _ k s s1 h hk hx

/-- The loop of thread_wakeup. -/
theorem thread_wakeup_loop_inv (tick : Int) (sl : List Nat) (s s1 : kernel) (h : kernel_inv s)
    (hsl : s.sleep_list = sl) (hx : thread_wakeup_loop tick sl s = some s1) :
    step_ok s s1 ∧ s1.running = s.running := by
  induction sl generalizing s with
  | nil =>
    simp only [thread_wakeup_loop, Option.some.injEq] at hx
    subst hx
    exact ⟨step_ok_congr s _ h (fun _ => rfl) (fun _ => rfl) (fun _ => rfl) rfl
      (fun c => by cases c with
        | none => exact hsl.symm
        | some r => rfl) rfl rfl, rfl⟩
  | cons t rest ih =>
    simp only [thread_wakeup_loop] at hx
    split_ifs at hx with hw
    · have hnd : (t :: rest).Nodup := by
        have := h.1.blocked_nodup none
        rw [← hsl]; exact this
      have htm : t ∈ blocked_on s none := by
        show t ∈ s.sleep_list
        rw [hsl]; simp
      obtain ⟨g1, g2⟩ := queues_inv_shrink s { s with sleep_list := rest } h.1
        (fun _ => rfl) (fun _ => rfl) (fun _ => List.Sublist.refl _) (fun _ _ hc => hc)
        (List.Sublist.refl _)
        (fun c x hx2 => by
          cases c with
          | none =>
            show x ∈ s.sleep_list
            rw [hsl]; exact List.mem_cons_of_mem _ hx2
          | some r => exact hx2)
        (fun c => by
          cases c with
          | none => exact (List.nodup_cons.mp hnd).2
          | some r => exact h.1.blocked_nodup (some r))
        (by
          show rest.Sublist s.sleep_list
          rw [hsl]; exact List.sublist_cons_self t rest)
        rfl
      have hI : kernel_inv { s with sleep_list := rest } := ⟨g1, h.2⟩
      cases hu : thread_unblock t { s with sleep_list := rest } with
      | none => simp [hu] at hx
      | some s2 =>
        simp only [hu] at hx
        have hp : ∀ c, t ∉ blocked_on { s with sleep_list := rest } c := by
          intro c hc
          cases c with
          | none => exact (List.nodup_cons.mp hnd).1 hc
          | some r =>
            have hc2 : t ∈ blocked_on s (some r) := hc
            exact h.1.blocked_disjoint none (some r) (by simp) t htm hc2
        have hf : ∀ x, t ∉ pending (s.threads x).cont := by
          intro x hm
          exact (h.1.pending_parked x t hm).1.2 none htm
        obtain ⟨q1, q2, q3, q4, q5⟩ := thread_unblock_inv t _ s2 hI hp hf hu
        obtain ⟨p1, p2⟩ := ih s2 q1 (q5 none) hx
        refine ⟨⟨p1.1, p1.2.1.trans q2, ?_⟩, p2.trans q3⟩
        intro hr u hu2
        have hut : u ≠ t := fun e => hu2.1.2 none (e ▸ htm)
        exact p1.2.2 p2 u (q4 u hut (g2 u hu2))
    · simp only [Option.some.injEq] at hx
      subst hx
      exact ⟨step_ok_congr s _ h (fun _ => rfl) (fun _ => rfl) (fun _ => rfl) rfl
        (fun c => by cases c with
          | none => exact hsl.symm
          | some r => rfl) rfl rfl, rfl⟩

/-- The function thread_wakeup. -/
theorem thread_wakeup_inv (tick : Int) (s s1 : kernel) (h : kernel_inv s)
    (hx : thread_wakeup tick s = some s1) : step_ok s s1 ∧ s1.running = s.running :=
  thread_wakeup_loop_inv tick s.sleep_list s s1 h rfl hx

/-- The function thread_tick. -/
theorem thread_tick_inv (s s1 : kernel) (h : kernel_inv s) (hx : thread_tick s = some s1) :
    step_ok s s1 ∧ s1.running = s.running := by
  obtain ⟨s2, e, e1, e2, e3, e4, -, e6, e7, e8, -, -⟩ := thread_tick_effect s h.2
  rw [e] at hx
  simp only [Option.some.injEq] at hx
  subst hx
  exact ⟨step_ok_congr s s2 h (fun x => by rw [e1]) (fun x => by rw [e1]) (fun x => by rw [e1]) e3
    (fun c => blocked_on_congr s s2 e6 e7 e2 c) e8 e4, e4⟩

/-- The function timer_interrupt. -/
theorem timer_interrupt_inv (s s1 : kernel) (h : kernel_inv s)
    (hx : timer_interrupt s = some s1) : step_ok s s1 ∧ s1.running = s.running := by
  unfold timer_interrupt at hx
  split_ifs at hx
  have h0 : step_ok s { s with ticks := s.ticks + 1 } :=
    step_ok_congr s _ h (fun _ => rfl) (fun _ => rfl) (fun _ => rfl) rfl (fun c => by
      cases c <;> rfl) rfl rfl
  cases ht : thread_tick { s with ticks := s.ticks + 1 } with
  | none => simp [ht] at hx
  | some s2 =>
    simp only [ht] at hx
    obtain ⟨a1, a2⟩ := thread_tick_inv _ s2 h0.1 ht
    obtain ⟨b1, b2⟩ := thread_wakeup_inv _ s2 s1 a1.1 hx
    have a3 : s2.running = s.running := a2
    exact ⟨step_ok_trans s s2 s1 (step_ok_trans s _ s2 h0 rfl a1) a3 b1, b2.trans a3⟩

/-- An external interrupt handler that keeps the invariant, run by intr_handler. -/
theorem intr_handler_inv (handler : kernel → Option kernel) (k : List frame) (s s1 : kernel)
    (hh : ∀ a b, kernel_inv a → handler a = some b → step_ok a b ∧ b.running = a.running)
    (h : kernel_inv s) (hk : frames_ok k s) (hik : s.idle_thread = some s.running → k = [])
    (hx : intr_handler handler k s = some s1) : step_ok s s1 := by
  unfold intr_handler at hx
  split_ifs at hx with hi
  have h0 : step_ok s { s with intr_context := true, yield_on_return := false } :=
    step_ok_congr s _ h (fun _ => rfl) (fun _ => rfl) (fun _ => rfl) rfl (fun c => by
      cases c <;> rfl) rfl rfl
  cases hr : handler { s with intr_context := true, yield_on_return := false } with
  | none => simp [hr] at hx
  | some s2 =>
    simp only [hr] at hx
    obtain ⟨a1, a2⟩ := hh _ s2 h0.1 hr
    have a3 : s2.running = s.running := a2
    have a4 : step_ok s s2 := step_ok_trans s _ s2 h0 rfl a1
    have h3 : step_ok s2 { s2 with intr_context := false } :=
      step_ok_congr s2 _ a1.1 (fun _ => rfl) (fun _ => rfl) (fun _ => rfl) rfl (fun c => by
        cases c <;> rfl) rfl rfl
    have a5 : step_ok s { s2 with intr_context := false } := step_ok_trans s s2 _ a4 a3 h3
    split_ifs at hx with hy
    · refine step_ok_trans s _ s1 a5 a3 (thread_yield_inv k _ s1 a5.1
        (step_ok_frames s _ k a5 a3 hk) ?_ hx)
      intro hidle
      apply hik
      have e1 : s2.idle_thread = s.idle_thread := a4.2.1
      have hidle2 : s2.idle_thread = some s2.running := hidle
      rw [← e1, hidle2, a3]
    · simp only [Option.some.injEq] at hx
      subst hx
      exact a5


/-- The function sema_init. -/
theorem sema_init_inv (r : sema_ref) (v : Nat) (s : kernel) (h : kernel_inv s) :
    step_ok s (sema_init r v s) :=
  set_waiters_inv r { value := v, waiters := [] } s h (by simp) (by simp)

/-- The function lock_init. -/
theorem lock_init_inv (l : Nat) (s : kernel) (h : kernel_inv s) : step_ok s (lock_init l s) := by
  have hbl : ∀ c, ∀ t ∈ blocked_on (lock_init l s) c, t ∈ blocked_on s c := by
    intro c t ht
    cases c with
    | none => exact ht
    | some r =>
      cases r with
      | sema i => exact ht
      | lock_sema m =>
        simp only [blocked_on, get_sema, lock_init, set_lock] at ht ⊢
        split_ifs at ht with hm
        · simp at ht
        · exact ht
  obtain ⟨g1, g2⟩ := queues_inv_shrink s (lock_init l s) h.1 (fun _ => rfl) (fun _ => rfl)
    (fun x => List.Sublist.refl _) (fun i _ hc => hc) (List.Sublist.refl _) hbl
    (fun c => by
      cases c with
      | none => exact h.1.blocked_nodup none
      | some r =>
        cases r with
        | sema i => exact h.1.blocked_nodup (some (.sema i))
        | lock_sema m =>
          have := h.1.blocked_nodup (some (.lock_sema m))
          simp only [blocked_on, get_sema, lock_init, set_lock] at this ⊢
          split_ifs with hm
          · simp
          · exact this)
    (List.Sublist.refl _) rfl
  exact ⟨⟨g1, h.2⟩, rfl, fun _ => g2⟩

/-- Writing the waiter list of a condition variable. -/
theorem set_cond_inv (c : Nat) (v : List semaphore_elem) (s : kernel) (h : kernel_inv s) :
    step_ok s (set_cond s c v) :=
  step_ok_congr s _ h (fun _ => rfl) (fun _ => rfl) (fun _ => rfl) rfl
    (fun c => by cases c <;> rfl) rfl rfl

/-- The function thread_exit. -/
theorem thread_exit_inv (k : List frame) (s s1 : kernel) (h : kernel_inv s)
    (hk : frames_ok k s) (hni : some s.running ≠ s.idle_thread)
    (hx : thread_exit k s = some s1) : step_ok s s1 := by
  unfold thread_exit at hx
  split_ifs at hx with hi
  cases hd : do_schedule .THREAD_DYING k s with
  | none => simp [hd] at hx
  | some s2 =>
    simp only [hd] at hx
    split_ifs at hx with hr
    simp only [Option.some.injEq] at hx
    subst hx
    exact do_schedule_inv .THREAD_DYING k s s s2 none h hk (idle_imp_of_nonidle s k hni) rfl
      (fun _ _ => rfl) (fun _ => rfl) (fun _ => rfl) rfl (fun t ht => Or.inl ht)
      h.1.ready_nodup (fun c t ht => Or.inl ht) h.1.blocked_nodup h.1.sleep_sorted hd

/-- The statements of cond_wait after lock_release. -/
theorem cond_wait_down_inv (w l : Nat) (k : List frame) (s s1 : kernel) (h : kernel_inv s)
    (hk : frames_ok k s) (hni : some s.running ≠ s.idle_thread)
    (hx : cond_wait_down w l k s = some s1) : step_ok s s1 := by
  unfold cond_wait_down at hx
  cases hd : sema_down (.sema w) (frame.cond_wait_acquire l :: k) s with
  | none => simp [hd] at hx
  | some s2 =>
    simp only [hd] at hx
    have hA := sema_down_inv (.sema w) (frame.cond_wait_acquire l :: k) s s2 h
      (frames_ok_cons _ k s hk rfl) hni hd
    split_ifs at hx with hr
    · exact step_ok_trans s s2 s1 hA hr
        (lock_acquire_inv l k s2 s1 hA.1 (step_ok_frames s s2 k hA hr hk)
          (step_ok_nonidle s s2 hA hr hni) hx)
    · simp only [Option.some.injEq] at hx
      subst hx
      exact hA

/-- The function cond_wait. -/
theorem cond_wait_inv (c l w : Nat) (k : List frame) (s s1 : kernel) (h : kernel_inv s)
    (hk : frames_ok k s) (hni : some s.running ≠ s.idle_thread)
    (hx : cond_wait c l w k s = some s1) : step_ok s s1 := by
  unfold cond_wait at hx
  rw [kernel_inv_current s h] at hx
  simp only at hx
  split_ifs at hx with hi hh
  have hA : step_ok s (sema_init (.sema w) 0 s) := sema_init_inv (.sema w) 0 s h
  have hB : step_ok s (set_cond (sema_init (.sema w) 0 s) c
      (list_insert_ordered (sort_donate_priority_sema (sema_init (.sema w) 0 s))
        { semaphore := w, thread := s.running } ((sema_init (.sema w) 0 s).conds c))) :=
    step_ok_trans s _ _ hA rfl (set_cond_inv c _ _ hA.1)
  cases hr : lock_release l (frame.cond_wait_down w l :: k) (set_cond (sema_init (.sema w) 0 s) c
      (list_insert_ordered (sort_donate_priority_sema (sema_init (.sema w) 0 s))
        { semaphore := w, thread := s.running } ((sema_init (.sema w) 0 s).conds c))) with
  | none => simp [hr] at hx
  | some s3 =>
    simp only [hr] at hx
    have hC := lock_release_inv l (frame.cond_wait_down w l :: k) _ s3 hB.1
      (frames_ok_cons _ k _ (step_ok_frames s _ k hB rfl hk) rfl)
      (step_ok_nonidle s _ hB rfl hni) hr
    have hD : step_ok s s3 := step_ok_trans s _ s3 hB rfl hC
    split_ifs at hx with hr3
    · exact step_ok_trans s s3 s1 hD hr3
        (cond_wait_down_inv w l k s3 s1 hD.1 (step_ok_frames s s3 k hD hr3 hk)
          (step_ok_nonidle s s3 hD hr3 hni) hx)
    · simp only [Option.some.injEq] at hx
      subst hx
      exact hD

/-- The function cond_signal. -/
theorem cond_signal_inv (c l : Nat) (k : List frame) (s s1 : kernel) (h : kernel_inv s)
    (hk : frames_ok k s) (hni : some s.running ≠ s.idle_thread)
    (hx : cond_signal c l k s = some s1) : step_ok s s1 := by
  unfold cond_signal at hx
  rw [kernel_inv_current s h] at hx
  simp only at hx
  split_ifs at hx with hi hh
  cases hc : s.conds c with
  | nil =>
    simp only [hc, Option.some.injEq] at hx
    subst hx
    exact step_ok_refl s h
  | cons e es =>
    simp only [hc] at hx
    cases hs : list_sort (sort_donate_priority_sema s) (e :: es) with
    | none => simp [hs] at hx
    | some ys =>
      cases ys with
      | nil => simp [hs] at hx
      | cons f fs =>
        simp only [hs] at hx
        have hA : step_ok s (set_cond s c fs) := set_cond_inv c fs s h
        exact step_ok_trans s _ s1 hA rfl
          (sema_up_inv (.sema f.semaphore) k (set_cond s c fs) s1 hA.1
            (step_ok_frames s _ k hA rfl hk) (step_ok_nonidle s _ hA rfl hni) hx)

/-- The loop of cond_broadcast. -/
theorem cond_broadcast_loop_inv (c l : Nat) (k : List frame) (n : Nat) (s s1 : kernel)
    (h : kernel_inv s) (hk : frames_ok k s) (hni : some s.running ≠ s.idle_thread)
    (hx : cond_broadcast_loop c l k n s = some s1) : step_ok s s1 := by
  induction n generalizing s with
  | zero => simp [cond_broadcast_loop] at hx
  | succ n ih =>
    simp only [cond_broadcast_loop] at hx
    cases hc : s.conds c with
    | nil =>
      simp only [hc, Option.some.injEq] at hx
      subst hx
      exact step_ok_refl s h
    | cons e es =>
      simp only [hc] at hx
      cases hs : cond_signal c l (frame.cond_broadcast_loop c l :: k) s with
      | none => simp [hs] at hx
      | some s2 =>
        simp only [hs] at hx
        have hA := cond_signal_inv c l (frame.cond_broadcast_loop c l :: k) s s2 h
          (frames_ok_cons _ k s hk rfl) hni hs
        split_ifs at hx with hr
        · exact step_ok_trans s s2 s1 hA hr
            (ih s2 hA.1 (step_ok_frames s s2 k hA hr hk) (step_ok_nonidle s s2 hA hr hni) hx)
        · simp only [Option.some.injEq] at hx
          subst hx
          exact hA

/-- The function cond_broadcast. -/
theorem cond_broadcast_inv (c l : Nat) (k : List frame) (s s1 : kernel)
    (h : kernel_inv s) (hk : frames_ok k s) (hni : some s.running ≠ s.idle_thread)
    (hx : cond_broadcast c l k s = some s1) : step_ok s s1 :=
  cond_broadcast_loop_inv c l k _ s s1 h hk hni hx

/-! ## Theorems: runs keep the invariant -/

/-- The two statements of lock_acquire after sema_down. -/
theorem lock_acquire_tail_inv (l : Nat) (s : kernel) (h : kernel_inv s) :
    step_ok s (lock_acquire_tail l s) := by
  unfold lock_acquire_tail
  have hE := set_lock_data_inv s l { s.locks l with holder := some s.running } h rfl
  have hF := set_thread_data_inv (set_lock s l { s.locks l with holder := some s.running })
    s.running { s.threads s.running with wait_on_lock := none } hE.1 rfl rfl rfl
  exact step_ok_trans s _ _ hE rfl hF

/-- One saved frame, run by the thread that owns it. -/
theorem run_frame_inv (f : frame) (k : List frame) (s s1 : kernel) (h : kernel_inv s)
    (hk : frames_ok (f :: k) s) (hni : some s.running ≠ s.idle_thread)
    (hx : run_frame f k s = some s1) :
    kernel_inv s1 ∧ s1.idle_thread = s.idle_thread
      ∧ (s1.running = s.running → frames_ok k s1) := by
  have key : pending (f :: k) = pending k → step_ok s s1 →
      kernel_inv s1 ∧ s1.idle_thread = s.idle_thread
        ∧ (s1.running = s.running → frames_ok k s1) := by
    intro e hs
    have hk2 : frames_ok k s := by
      unfold frames_ok at hk ⊢
      rw [e] at hk
      exact hk
    exact ⟨hs.1, hs.2.1, fun hr => step_ok_frames s s1 k hs hr hk2⟩
  have sub : pending (f :: k) = pending k → frames_ok k s := by
    intro e
    unfold frames_ok at hk ⊢
    rw [e] at hk
    exact hk
  cases f with
  | sema_down_loop r => exact key rfl (sema_down_loop_inv r k s s1 h (sub rfl) hni hx)
  | lock_acquire_tail l =>
    simp only [run_frame, Option.some.injEq] at hx
    subst hx
    exact key rfl (lock_acquire_tail_inv l s h)
  | allocate_tid_tail d => exact key rfl (allocate_tid_tail_inv d k s s1 h (sub rfl) hni hx)
  | thread_create_tail t =>
    obtain ⟨g1, g2, g3⟩ := thread_create_tail_inv t k s s1 h hk hni hx
    refine ⟨g1, g2, fun hr => ⟨(List.nodup_cons.mp (by simpa using hk.1)).2, ?_⟩⟩
    intro u hu
    have hnd : t ∉ pending k := (List.nodup_cons.mp (by simpa using hk.1)).1
    exact g3 hr u (fun e => hnd (e ▸ hu)) (hk.2 u (by simp [hu]))
  | cond_wait_down w l => exact key rfl (cond_wait_down_inv w l k s s1 h (sub rfl) hni hx)
  | cond_wait_acquire l => exact key rfl (lock_acquire_inv l k s s1 h (sub rfl) hni hx)
  | cond_broadcast_loop c l => exact key rfl (cond_broadcast_inv c l k s s1 h (sub rfl) hni hx)

/-- The saved frames of a thread, run by that thread. -/
theorem run_frames_inv (k : List frame) (s s1 : kernel) (h : kernel_inv s)
    (hk : frames_ok k s) (hik : s.idle_thread = some s.running → k = [])
    (hx : run_frames k s = some s1) : kernel_inv s1 ∧ s1.idle_thread = s.idle_thread := by
  induction k generalizing s with
  | nil =>
    simp only [run_frames, Option.some.injEq] at hx
    subst hx
    exact ⟨h, rfl⟩
  | cons f k ih =>
    have hni : some s.running ≠ s.idle_thread := by
      intro e
      have := hik e.symm
      cases this
    simp only [run_frames] at hx
    cases hf : run_frame f k s with
    | none => simp [hf] at hx
    | some s2 =>
      simp only [hf] at hx
      obtain ⟨g1, g2, g3⟩ := run_frame_inv f k s s2 h hk hni hf
      split_ifs at hx with hr
      · obtain ⟨q1, q2⟩ := ih s2 g1 (g3 hr)
          (idle_imp_of_nonidle s2 k (by rw [hr, g2]; exact hni)) hx
        exact ⟨q1, q2.trans g2⟩
      · simp only [Option.some.injEq] at hx
        subst hx
        exact ⟨g1, g2⟩

/-- The function resume: the thread that was switched in finishes its saved
frames. -/
theorem resume_inv (s s1 : kernel) (h : kernel_inv s) (hx : resume s = some s1) :
    kernel_inv s1 ∧ s1.idle_thread = s.idle_thread := by
  unfold resume at hx
  have hst : ∀ x, ((set_thread s s.running { s.threads s.running with cont := [] }).threads x).status
      = (s.threads x).status := by
    intro x
    simp only [set_thread]
    split_ifs with e
    · rw [e]
    · rfl
  obtain ⟨g1, g2⟩ := queues_inv_shrink s
    (set_thread s s.running { s.threads s.running with cont := [] }) h.1 hst
    (fun x => by
      simp only [set_thread]
      split_ifs with e
      · rw [e]
      · rfl)
    (fun x => by
      simp only [set_thread]
      split_ifs with e
      · simp [pending]
      · exact List.Sublist.refl _)
    (fun i _ hc => by
      simp only [set_thread]
      split_ifs with e
      · rfl
      · exact hc)
    (List.Sublist.refl _)
    (fun c t ht => by rw [blocked_on_set_thread] at ht; exact ht)
    (fun c => by rw [blocked_on_set_thread]; exact h.1.blocked_nodup c)
    (List.Sublist.refl _) rfl
  have hI : kernel_inv (set_thread s s.running { s.threads s.running with cont := [] }) :=
    ⟨g1, by rw [hst]; exact h.2⟩
  have hk : frames_ok (s.threads s.running).cont
      (set_thread s s.running { s.threads s.running with cont := [] }) := by
    refine ⟨h.1.pending_nodup _, ?_⟩
    intro t ht
    obtain ⟨p1, p2⟩ := h.1.pending_parked _ t ht
    refine ⟨⟨by rw [hst]; exact p1.1,
      fun c hc => p1.2 c (by rw [blocked_on_set_thread] at hc; exact hc)⟩, p2, ?_⟩
    intro x hm
    simp only [set_thread] at hm
    split_ifs at hm with e
    · simp [pending] at hm
    · exact e (h.1.pending_unique x s.running t hm ht)
  exact run_frames_inv (s.threads s.running).cont
    (set_thread s s.running { s.threads s.running with cont := [] }) s1 hI hk
    (fun e => (h.1.idle_free s.running e).2) hx

/-- One public operation, called by the running thread with no pending work. -/
theorem do_call_inv (c : call) (s s1 : kernel) (h : kernel_inv s) (hok : call_ok c s)
    (hx : do_call c s = some s1) : kernel_inv s1 ∧ s1.idle_thread = s.idle_thread := by
  have hk : frames_ok [] s := ⟨List.nodup_nil, fun t ht => by simp [pending] at ht⟩
  cases c with
  | thread_create page p =>
    cases page with
    | none =>
      exact thread_create_inv none p [] s s1 h hk hok (fun t e => by cases e) hx
    | some t =>
      exact thread_create_inv (some t) p [] s s1 h hk hok.1
        (fun u e => by
          cases e
          exact ⟨hok.2, by simp [pending]⟩) hx
  | thread_yield =>
    have := thread_yield_inv [] s s1 h hk (fun _ => rfl) hx
    exact ⟨this.1, this.2.1⟩
  | thread_set_priority p =>
    have := thread_set_priority_inv p [] s s1 h hk hok hx
    exact ⟨this.1, this.2.1⟩
  | sema_down r =>
    have := sema_down_inv r [] s s1 h hk hok hx
    exact ⟨this.1, this.2.1⟩
  | sema_try_down r =>
    simp only [do_call, Option.some.injEq] at hx
    subst hx
    have := (sema_try_down_inv r s h).1
    exact ⟨this.1, this.2.1⟩
  | sema_up r =>
    have := sema_up_inv r [] s s1 h hk hok hx
    exact ⟨this.1, this.2.1⟩
  | lock_acquire l =>
    have := lock_acquire_inv l [] s s1 h hk hok hx
    exact ⟨this.1, this.2.1⟩
  | lock_try_acquire l =>
    simp only [do_call] at hx
    cases ha : lock_try_acquire l s with
    | none => simp [ha] at hx
    | some r =>
      simp only [ha, Option.some.injEq] at hx
      subst hx
      have := lock_try_acquire_inv l s r h ha
      exact ⟨this.1, this.2.1⟩
  | lock_release l =>
    have := lock_release_inv l [] s s1 h hk hok hx
    exact ⟨this.1, this.2.1⟩
  | sema_init r v =>
    simp only [do_call, Option.some.injEq] at hx
    subst hx
    have := sema_init_inv r v s h
    exact ⟨this.1, this.2.1⟩
  | lock_init l =>
    simp only [do_call, Option.some.injEq] at hx
    subst hx
    have := lock_init_inv l s h
    exact ⟨this.1, this.2.1⟩
  | cond_init c =>
    simp only [do_call, Option.some.injEq] at hx
    subst hx
    have := set_cond_inv c [] s h
    exact ⟨this.1, this.2.1⟩
  | cond_wait c l w =>
    have := cond_wait_inv c l w [] s s1 h hk hok hx
    exact ⟨this.1, this.2.1⟩
  | cond_signal c l =>
    have := cond_signal_inv c l [] s s1 h hk hok hx
    exact ⟨this.1, this.2.1⟩
  | cond_broadcast c l =>
    have := cond_broadcast_inv c l [] s s1 h hk hok hx
    exact ⟨this.1, this.2.1⟩
  | timer_sleep n =>
    have := timer_sleep_inv n [] s s1 h hk hx
    exact ⟨this.1, this.2.1⟩
  | timer_interrupt =>
    have := intr_handler_inv timer_interrupt [] s s1 timer_interrupt_inv h hk (fun _ => rfl) hx
    exact ⟨this.1, this.2.1⟩
  | thread_exit =>
    have := thread_exit_inv [] s s1 h hk hok hx
    exact ⟨this.1, this.2.1⟩

/-- One step of a run. -/
theorem exec_inv (c : call) (s s2 : kernel) (h : kernel_inv s)
    (hok : ∀ s1, resume s = some s1 → s1.running = s.running → call_ok c s1)
    (hx : exec c s = some s2) : kernel_inv s2 ∧ s2.idle_thread = s.idle_thread := by
  unfold exec at hx
  cases hr : resume s with
  | none => simp [hr] at hx
  | some s1 =>
    simp only [hr] at hx
    obtain ⟨g1, g2⟩ := resume_inv s s1 h hr
    split_ifs at hx with hrun
    · obtain ⟨q1, q2⟩ := do_call_inv c s1 s2 g1 (hok s1 hr hrun) hx
      exact ⟨q1, q2.trans g2⟩
    · simp only [Option.some.injEq] at hx
      subst hx
      exact ⟨g1, g2⟩

/-! ## Theorems: the sleep queue between public operations -/

/-- C14: the invariant of the queues is inductive over the steps of a run, and it
contains the claim about the sleep queue.  A step is one public operation
(thread_create, thread_yield, thread_set_priority, the semaphore, lock and
condition variable operations, timer_sleep, the timer interrupt with
thread_tick and thread_wakeup, thread_exit), called by the running thread after
it finished the kernel work it was switched out in.  The caller of an operation
other than the timer interrupt is not the idle thread, and the page that
thread_create gets is not in use.  When the state before the step satisfies the
invariant, the state after the step satisfies it too, its sleep queue is sorted
by non-decreasing wake_up_time, and every thread on it is BLOCKED. -/
theorem sleep_queue_invariant (c : call) (s s2 : kernel) (hinv : kernel_inv s)
    (hok : ∀ s1, resume s = some s1 → s1.running = s.running → call_ok c s1)
    (he : exec c s = some s2) :
    kernel_inv s2
      ∧ s2.sleep_list.Pairwise
          (fun a b => (s2.threads a).wake_up_time ≤ (s2.threads b).wake_up_time)
      ∧ ∀ t ∈ s2.sleep_list, (s2.threads t).status = .THREAD_BLOCKED := by
  have h2 := (exec_inv c s s2 hinv hok he).1
  exact ⟨h2, h2.1.sleep_sorted, fun t ht => h2.1.blocked_status none t ht⟩

/-- C14 at a concrete state: thread 1 calls timer_sleep (5) in the alarm clock
example; afterwards it is the one thread on the sleep queue. -/
theorem sleep_queue_invariant_witness :
    kernel_inv ex_sleepers
    ∧ (∀ s1, resume ex_sleepers = some s1 → s1.running = ex_sleepers.running →
        call_ok (.timer_sleep 5) s1)
    ∧ ∃ s2, exec (.timer_sleep 5) ex_sleepers = some s2
      ∧ s2.sleep_list = [1]
      ∧ kernel_inv s2
      ∧ s2.sleep_list.Pairwise
          (fun a b => (s2.threads a).wake_up_time ≤ (s2.threads b).wake_up_time)
      ∧ ∀ t ∈ s2.sleep_list, (s2.threads t).status = .THREAD_BLOCKED := by
  have hb : ∀ c, blocked_on ex_sleepers c = [] := by
    intro c
    cases c with
    | none => rfl
    | some r => cases r <;> rfl
  have hc : ∀ x, (ex_sleepers.threads x).cont = [] := by
    intro x
    simp only [ex_sleepers]
    split <;> rfl
  have hinv : kernel_inv ex_sleepers := by
    refine ⟨⟨by decide, by decide, ?_, ?_, ?_, ?_, ?_, ?_, ?_, ?_⟩, by decide⟩
    · intro c t ht; rw [hb] at ht; cases ht
    · intro c; rw [hb]; exact List.nodup_nil
    · intro c c1 _ t ht; rw [hb] at ht; cases ht
    · exact List.Pairwise.nil
    · intro i _
      refine ⟨?_, hc i⟩
      intro c hm; rw [hb] at hm; cases hm
    · intro x t ht; rw [hc] at ht; cases ht
    · intro x; rw [hc]; exact List.nodup_nil
    · intro x y t ht; rw [hc] at ht; cases ht
  have hok : ∀ s1, resume ex_sleepers = some s1 → s1.running = ex_sleepers.running →
      call_ok (.timer_sleep 5) s1 := by
    intro s1 h1 hr
    show some s1.running ≠ s1.idle_thread
    rw [hr, (resume_inv ex_sleepers s1 hinv h1).2]
    decide
  have h2 : (exec (.timer_sleep 5) ex_sleepers).map (fun s => s.sleep_list) = some [1] := by
    decide
  cases he : exec (.timer_sleep 5) ex_sleepers with
  | none => rw [he] at h2; cases h2
  | some s2 =>
    rw [he] at h2
    exact ⟨hinv, hok, s2, rfl, Option.some.inj h2,
      sleep_queue_invariant (.timer_sleep 5) ex_sleepers s2 hinv hok he⟩

/-! ## Theorems: list_sort in general, and where donation ends -/

theorem strict_weak_order_neg_trans {α : Type} (less : α → α → Bool)
    (h : strict_weak_order less) (a b c : α)
    (h1 : less b a = false) (h2 : less c b = false) : less c a = false := by
  obtain ⟨hirr, htr, hinc⟩ := h
  by_contra hca
  have hca1 : less c a = true := by simpa using hca
  have hab : less a b = false := by
    by_contra hab
    have hab1 : less a b = true := by simpa using hab
    have := htr c a b hca1 hab1
    rw [h2] at this; cases this
  have hbc : less b c = false := by
    by_contra hbc
    have hbc1 : less b c = true := by simpa using hbc
    have := htr b c a hbc1 hca1
    rw [h1] at this; cases this
  have := (hinc a b c ⟨hab, h1⟩ ⟨hbc, h2⟩).2
  rw [hca1] at this; cases this

theorem strict_weak_order_asymm {α : Type} (less : α → α → Bool)
    (h : strict_weak_order less) (a b : α) (h1 : less a b = true) : less b a = false := by
  obtain ⟨hirr, htr, -⟩ := h
  by_contra hba
  have hba1 : less b a = true := by simpa using hba
  have := htr a b a h1 hba1
  rw [hirr] at this; cases this

theorem sort_priority_strict_weak_order (s : kernel) : strict_weak_order (sort_priority s) := by
  refine ⟨?_, ?_, ?_⟩
  · intro a; simp [sort_priority]
  · intro a b c h1 h2
    simp [sort_priority] at *
    omega
  · intro a b c h1 h2
    simp [sort_priority] at *
    omega

/-- C29: for every list and every comparator LESS that is a strict weak order,
list_sort completes (the passes it is given are enough and its final ASSERT
holds); the result is a permutation of the input in which no element is LESS
than its predecessor, and indeed none is LESS than any element in front of it.
The comparator sort_priority is a strict weak order, and on a non-empty list
of threads the result starts with a thread of maximal priority. -/
theorem list_sort_sorts {α : Type} (less : α → α → Bool) (h : strict_weak_order less)
    (xs : List α) :
    (∃ ys, list_sort less xs = some ys ∧ List.Perm ys xs
      ∧ List.Chain' (fun a b => less b a = false) ys
      ∧ List.Pairwise (fun a b => less b a = false) ys)
    ∧ (∀ s : kernel, strict_weak_order (sort_priority s))
    ∧ (∀ (s : kernel) (ts : List Nat), ts ≠ [] →
        ∃ t rest, list_sort (sort_priority s) ts = some (t :: rest)
          ∧ ∀ x ∈ ts, (s.threads x).priority ≤ (s.threads t).priority) := by
  refine ⟨?_, sort_priority_strict_weak_order, ?_⟩
  · obtain ⟨ys, h1, h2, h3⟩ := list_sort_spec less (strict_weak_order_neg_trans less h)
      (strict_weak_order_asymm less h) xs
    exact ⟨ys, h1, h2, List.Pairwise.chain' h3, h3⟩
  · intro s ts hne
    obtain ⟨ys, h1, h2, h3⟩ := list_sort_priority s ts
    cases ys with
    | nil =>
      have := h2.length_eq
      cases ts with
      | nil => exact absurd rfl hne
      | cons a as => simp at this
    | cons t rest =>
      refine ⟨t, rest, h1, ?_⟩
      intro x hx
      rcases List.mem_cons.mp (h2.mem_iff.mpr hx) with e | hm
      · rw [e]
      · exact (List.pairwise_cons.mp h3).1 x hm

/-- C29 at a concrete comparator and list: the waiters 3, 4, 5 of the example state
ex_wait, compared by sort_priority (priorities 20, 30, 10). -/
theorem list_sort_sorts_witness :
    strict_weak_order (sort_priority ex_wait)
    ∧ list_sort (sort_priority ex_wait) [3, 4, 5] = some [4, 3, 5]
    ∧ ((∃ ys, list_sort (sort_priority ex_wait) [3, 4, 5] = some ys ∧ List.Perm ys [3, 4, 5]
        ∧ List.Chain' (fun a b => sort_priority ex_wait b a = false) ys
        ∧ List.Pairwise (fun a b => sort_priority ex_wait b a = false) ys)
      ∧ (∀ s : kernel, strict_weak_order (sort_priority s))
      ∧ (∀ (s : kernel) (ts : List Nat), ts ≠ [] →
          ∃ t rest, list_sort (sort_priority s) ts = some (t :: rest)
            ∧ ∀ x ∈ ts, (s.threads x).priority ≤ (s.threads t).priority)) :=
  ⟨sort_priority_strict_weak_order ex_wait, by decide,
    list_sort_sorts (sort_priority ex_wait) (sort_priority_strict_weak_order ex_wait) [3, 4, 5]⟩

/-- C30, counterexample to the claim as stated, at the example of the claim: the
donor (thread 1, priority 30) waits on lock 1 held by A (thread 2, priority
50), and A waits on lock 2 held by B (thread 3, priority 10).  The first holder
A already has a priority above the donor, yet donate_priority walks on and
raises B from 10 to 30; the same happens inside lock_acquire (lock 1). -/
theorem donate_priority_passes_higher_holder :
    (ex_stop.threads 2).priority = 50 ∧ (ex_stop.threads 3).priority = 10
    ∧ (donate_priority ex_stop).map (fun s => [2, 3].map fun t => (s.threads t).priority)
        = some [50, 30]
    ∧ (lock_acquire 1 []
          (set_thread ex_stop 1 { ex_stop.threads 1 with wait_on_lock := none })).map
        (fun s => [2, 3].map fun t => (s.threads t).priority) = some [50, 30] := by
  decide

/-- C30 (amended): donate_priority, called by the running donor with priority p,
does not stop at a holder whose priority is already at least p.  Every holder
on the first MAX_DEPTH = 8 hops of the wait chain ends with priority
max (old priority, p): a holder at or above p keeps its priority, and every
holder below p is raised to p, also when it comes after a holder at or above
p. -/
theorem donate_priority_no_early_stop (s : kernel)
    (hr : (s.threads s.running).status = .THREAD_RUNNING) :
    ∃ s1, donate_priority s = some s1
      ∧ (∀ x ∈ wait_chain MAX_DEPTH s (s.threads s.running).wait_on_lock,
          (s1.threads x).priority = max (s.threads x).priority (s.threads s.running).priority)
      ∧ (∀ i j (_ : i < j)
          (hj : j < (wait_chain MAX_DEPTH s (s.threads s.running).wait_on_lock).length),
          (s.threads ((wait_chain MAX_DEPTH s (s.threads s.running).wait_on_lock).get
              ⟨i, by omega⟩)).priority ≥ (s.threads s.running).priority →
          (s.threads ((wait_chain MAX_DEPTH s (s.threads s.running).wait_on_lock).get
              ⟨j, hj⟩)).priority < (s.threads s.running).priority →
          (s1.threads ((wait_chain MAX_DEPTH s (s.threads s.running).wait_on_lock).get
              ⟨j, hj⟩)).priority = (s.threads s.running).priority) := by
  obtain ⟨-, ht⟩ := donate_priority_loop_spec MAX_DEPTH (s.threads s.running).wait_on_lock
    s.running s
  have hd : donate_priority s = some (donate_priority_loop MAX_DEPTH
      (s.threads s.running).wait_on_lock s.running s) := by
    simp [donate_priority, thread_current, hr]
  have key : ∀ x ∈ wait_chain MAX_DEPTH s (s.threads s.running).wait_on_lock,
      ((donate_priority_loop MAX_DEPTH (s.threads s.running).wait_on_lock s.running s).threads
        x).priority = max (s.threads x).priority (s.threads s.running).priority := by
    intro x hx
    rw [ht]
    by_cases hlt : (s.threads x).priority < (s.threads s.running).priority
    · rw [if_pos ⟨hx, hlt⟩, max_eq_right (le_of_lt hlt)]
    · rw [if_neg (fun h => hlt h.2), max_eq_left (not_lt.mp hlt)]
  refine ⟨_, hd, key, ?_⟩
  intro i j _ hj _ hlow
  rw [key _ (List.get_mem _ _ _), max_eq_right (le_of_lt hlow)]

/-- C30 (amended) at the example of the claim. -/
theorem donate_priority_no_early_stop_witness :
    (ex_stop.threads ex_stop.running).status = .THREAD_RUNNING
    ∧ wait_chain MAX_DEPTH ex_stop (ex_stop.threads ex_stop.running).wait_on_lock = [2, 3]
    ∧ ∃ s1, donate_priority ex_stop = some s1
      ∧ (∀ x ∈ wait_chain MAX_DEPTH ex_stop (ex_stop.threads ex_stop.running).wait_on_lock,
          (s1.threads x).priority
            = max (ex_stop.threads x).priority (ex_stop.threads ex_stop.running).priority)
      ∧ (∀ i j (_ : i < j)
          (hj : j < (wait_chain MAX_DEPTH ex_stop
            (ex_stop.threads ex_stop.running).wait_on_lock).length),
          (ex_stop.threads ((wait_chain MAX_DEPTH ex_stop
            (ex_stop.threads ex_stop.running).wait_on_lock).get ⟨i, by omega⟩)).priority
              ≥ (ex_stop.threads ex_stop.running).priority →
          (ex_stop.threads ((wait_chain MAX_DEPTH ex_stop
            (ex_stop.threads ex_stop.running).wait_on_lock).get ⟨j, hj⟩)).priority
              < (ex_stop.threads ex_stop.running).priority →
          (s1.threads ((wait_chain MAX_DEPTH ex_stop
            (ex_stop.threads ex_stop.running).wait_on_lock).get ⟨j, hj⟩)).priority
              = (ex_stop.threads ex_stop.running).priority) :=
  ⟨by decide, by decide, donate_priority_no_early_stop ex_stop (by decide)⟩

/-! ## Theorems: the time slice -/

/-- The state in which schedule returns: the time slice counter is 0 and the
running thread has status THREAD_RUNNING. -/
theorem schedule_new_slice (k : List frame) (s s1 : kernel) (hs : schedule k s = some s1) :
    s1.thread_ticks = 0 ∧ (s1.threads s1.running).status = .THREAD_RUNNING := by
  obtain ⟨next, dq, -, h⟩ := schedule_shape k s s1 hs
  rw [h]
  split_ifs with hn
  · refine ⟨rfl, ?_⟩
    have hn2 : next ≠ s.running := fun e => hn e.symm
    simp [thread_launch, set_thread, hn2]
  · have e : s.running = next := not_not.mp hn
    simp [set_thread, e]

/-- One call of thread_tick: the counter grows by one (as an unsigned int), and the
yield on return is requested exactly when the new counter is at least
TIME_SLICE. -/
theorem thread_tick_counter (s : kernel)
    (hr : (s.threads s.running).status = .THREAD_RUNNING) :
    ∃ s1, thread_tick s = some s1
      ∧ s1.thread_ticks = (s.thread_ticks + 1) % 2 ^ 32
      ∧ s1.yield_on_return
          = (if (s.thread_ticks + 1) % 2 ^ 32 ≥ TIME_SLICE then true else s.yield_on_return)
      ∧ s1.threads = s.threads ∧ s1.running = s.running := by
  unfold thread_tick
  rw [thread_current_eq s hr]
  simp only [intr_yield_on_return]
  split_ifs <;> exact ⟨_, rfl, rfl, by simp_all, rfl, rfl⟩

theorem thread_tick_run_counter (n : Nat) (s : kernel)
    (hr : (s.threads s.running).status = .THREAD_RUNNING)
    (hb : s.thread_ticks + n < 2 ^ 32) :
    ∃ s1, thread_tick_run n s = some s1 ∧ s1.thread_ticks = s.thread_ticks + n
      ∧ s1.threads = s.threads ∧ s1.running = s.running := by
  induction n generalizing s with
  | zero => exact ⟨s, rfl, rfl, rfl, rfl⟩
  | succ n ih =>
    obtain ⟨s1, h1, h2, -, h4, h5⟩ := thread_tick_counter { s with yield_on_return := false } hr
    have h2a : s1.thread_ticks = s.thread_ticks + 1 := by
      rw [h2]
      exact Nat.mod_eq_of_lt (by show s.thread_ticks + 1 < 2 ^ 32; omega)
    obtain ⟨s2, g1, g2, g3, g4⟩ := ih s1 (by rw [h4, h5]; exact hr) (by omega)
    refine ⟨s2, ?_, by omega, g3.trans h4, g4.trans h5⟩
    simp only [thread_tick_run, h1]
    exact g1

/-- C23: schedule returns with thread_ticks = 0.  Counting the timer ticks from
there, the k-th call of thread_tick (k = n + 1, below the range of the unsigned
counter) completes, brings the counter to k, and requests the yield on return
if and only if k ≥ TIME_SLICE, where TIME_SLICE = 4: the first three ticks of a
time slice do not request it and the fourth does. -/
theorem thread_tick_time_slice (k : List frame) (s0 s : kernel) (n : Nat)
    (hs : schedule k s0 = some s) (hb : n + 1 < 2 ^ 32) :
    s.thread_ticks = 0 ∧ TIME_SLICE = 4
      ∧ ∃ s1 s2, thread_tick_run n s = some s1
        ∧ thread_tick { s1 with yield_on_return := false } = some s2
        ∧ s2.thread_ticks = n + 1
        ∧ (s2.yield_on_return = true ↔ n + 1 ≥ TIME_SLICE) := by
  obtain ⟨h0, hr⟩ := schedule_new_slice k s0 s hs
  obtain ⟨s1, g1, g2, g3, g4⟩ := thread_tick_run_counter n s hr (by omega)
  have hr1 : (s1.threads s1.running).status = .THREAD_RUNNING := by rw [g3, g4]; exact hr
  obtain ⟨s2, e1, e2, e3, -, -⟩ := thread_tick_counter { s1 with yield_on_return := false } hr1
  have e2a : s2.thread_ticks = n + 1 := by
    rw [e2]
    show (s1.thread_ticks + 1) % 2 ^ 32 = n + 1
    rw [g2, h0, Nat.mod_eq_of_lt (by omega)]
    omega
  refine ⟨h0, rfl, s1, s2, g1, e1, e2a, ?_⟩
  rw [e3]
  have e4 : ({ s1 with yield_on_return := false } : kernel).thread_ticks = n := by
    show s1.thread_ticks = n
    omega
  rw [e4, Nat.mod_eq_of_lt hb]
  by_cases h4 : n + 1 ≥ TIME_SLICE
  · simp [h4]
  · simp [h4]

/-- C23 at a concrete state: thread 1 blocks in the state ex_wait, schedule starts
the time slice of thread 2, and the fourth tick after that requests the yield;
the first three do not. -/
theorem thread_tick_time_slice_witness :
    (∃ s, schedule []
        (set_thread ex_wait 1 { ex_wait.threads 1 with status := .THREAD_BLOCKED }) = some s
      ∧ ((thread_tick_run 3 s).map fun s1 => s1.yield_on_return) = some false
      ∧ ((thread_tick_run 4 s).map fun s1 => s1.yield_on_return) = some true
      ∧ (s.thread_ticks = 0 ∧ TIME_SLICE = 4
        ∧ ∃ s1 s2, thread_tick_run 3 s = some s1
          ∧ thread_tick { s1 with yield_on_return := false } = some s2
          ∧ s2.thread_ticks = 3 + 1
          ∧ (s2.yield_on_return = true ↔ 3 + 1 ≥ TIME_SLICE))) := by
  have h1 : ((schedule []
      (set_thread ex_wait 1 { ex_wait.threads 1 with status := .THREAD_BLOCKED })).bind
        (thread_tick_run 3)).map (fun s1 => s1.yield_on_return) = some false := by decide
  have h2 : ((schedule []
      (set_thread ex_wait 1 { ex_wait.threads 1 with status := .THREAD_BLOCKED })).bind
        (thread_tick_run 4)).map (fun s1 => s1.yield_on_return) = some true := by decide
  cases hs : schedule []
      (set_thread ex_wait 1 { ex_wait.threads 1 with status := .THREAD_BLOCKED }) with
  | none => rw [hs] at h1; cases h1
  | some s =>
    rw [hs] at h1 h2
    exact ⟨s, rfl, h1, h2,
      thread_tick_time_slice [] _ s 3 hs (by norm_num)⟩

/-! ## Theorems: thread_create without a page, and with equal priorities -/

/-- C27: when palloc_get_page fails, thread_create returns TID_ERROR at once and
the state is the state before the call, whatever the priority argument: no tid
is taken (next_tid is the same), the ready queue, the running thread and the
status and priority of every thread are the same.  A negative TID_ERROR differs
from every tid that a successful thread_create returns. -/
theorem thread_create_alloc_failure (tid_error : Int) (priority : Int) (k : List frame)
    (s : kernel) :
    thread_create none priority k s = some s
      ∧ thread_create_value tid_error none s = tid_error
      ∧ (∀ s1, thread_create none priority k s = some s1 →
          s1.next_tid = s.next_tid ∧ s1.ready_list = s.ready_list ∧ s1.running = s.running
            ∧ (∀ t, (s1.threads t).status = (s.threads t).status
                ∧ (s1.threads t).priority = (s.threads t).priority)
            ∧ s1.threads = s.threads ∧ s1.locks = s.locks ∧ s1.semas = s.semas
            ∧ s1.sleep_list = s.sleep_list ∧ s1.destruction_req = s.destruction_req)
      ∧ (tid_error < 0 → ∀ t s1, thread_create_value tid_error (some t) s1 ≠ tid_error) := by
  refine ⟨rfl, rfl, ?_, ?_⟩
  · intro s1 h
    have e : s1 = s := (Option.some.inj h).symm
    subst e
    exact ⟨rfl, rfl, rfl, fun _ => ⟨rfl, rfl⟩, rfl, rfl, rfl, rfl, rfl⟩
  · intro hneg t s1 he
    simp only [thread_create_value] at he
    omega

/-- C27 at a concrete state: thread 1 calls thread_create in the state ex_main and
palloc_get_page fails; with TID_ERROR = -1 the call returns -1 and the state is
ex_main as before, with next_tid still 2; a call that got page 2 returns the tid
stored there, which is not -1. -/
theorem thread_create_alloc_failure_witness :
    thread_create none 31 [] ex_main = some ex_main
    ∧ thread_create_value (-1) none ex_main = -1
    ∧ (thread_create none 31 [] ex_main).map (fun s => (s.next_tid, s.running, s.ready_list))
        = some (2, 1, [])
    ∧ thread_create_value (-1) (some 2) ex_main ≠ -1 :=
  ⟨(thread_create_alloc_failure (-1) 31 [] ex_main).1,
    (thread_create_alloc_failure (-1) 31 [] ex_main).2.1,
    by rw [(thread_create_alloc_failure (-1) 31 [] ex_main).1]; rfl,
    (thread_create_alloc_failure (-1) 31 [] ex_main).2.2.2 (by decide) 2 ex_main⟩

/-- C22: the code at the scenario of the claim.  Thread 1 = M (priority 31, a
thread structure as init_thread leaves it) runs in the state ex_main and calls
thread_create for A (page 2) with priority 31: the call does not complete,
because lock_release (&tid_lock) in allocate_tid walks the zero-filled donations
list of M.  With the donations list of every thread initialised, the call
completes, but lock_release has reset the priority of M to its initial_priority,
which no code writes (0): the preemption check of thread_create sees A (31)
above M (0), and M is preempted by A in the first thread_create. -/
theorem thread_create_same_priority_preempts :
    do_call (.thread_create (some 2) 31) ex_main = none
    ∧ run_calls [.thread_create (some 2) 31, .thread_create (some 3) 31,
        .thread_create (some 4) 31, .thread_yield] ex_main = none
    ∧ (do_call (.thread_create (some 2) 31) (init_lists ex_main)).map
        (fun s => (s.running, s.ready_list, (s.threads 1).priority, (s.threads 2).priority))
        = some (2, [1], 0, 31) := by
  refine ⟨rfl, rfl, by decide⟩

/-- The scenario of C22 from the state ex_fifo, in which the thread structure of M
has an initialised donations list and initial_priority = 31: none of the three
thread_create calls preempts M, and after M yields the threads run in the order
A, B, C and then M again, each yielding in turn. -/
theorem fifo_same_priority_example :
    (run_calls [.thread_create (some 2) 31] ex_fifo).map
        (fun s => (s.running, s.ready_list)) = some (1, [2])
    ∧ (run_calls [.thread_create (some 2) 31, .thread_create (some 3) 31] ex_fifo).map
        (fun s => (s.running, s.ready_list)) = some (1, [2, 3])
    ∧ (run_calls [.thread_create (some 2) 31, .thread_create (some 3) 31,
        .thread_create (some 4) 31] ex_fifo).map
        (fun s => (s.running, s.ready_list)) = some (1, [2, 3, 4])
    ∧ (run_calls [.thread_create (some 2) 31, .thread_create (some 3) 31,
        .thread_create (some 4) 31, .thread_yield] ex_fifo).map
        (fun s => (s.running, s.ready_list)) = some (2, [3, 4, 1])
    ∧ (run_calls [.thread_create (some 2) 31, .thread_create (some 3) 31,
        .thread_create (some 4) 31, .thread_yield, .thread_yield] ex_fifo).map
        (fun s => (s.running, s.ready_list)) = some (3, [4, 1, 2])
    ∧ (run_calls [.thread_create (some 2) 31, .thread_create (some 3) 31,
        .thread_create (some 4) 31, .thread_yield, .thread_yield, .thread_yield] ex_fifo).map
        (fun s => (s.running, s.ready_list)) = some (4, [1, 2, 3])
    ∧ (run_calls [.thread_create (some 2) 31, .thread_create (some 3) 31,
        .thread_create (some 4) 31, .thread_yield, .thread_yield, .thread_yield,
        .thread_yield] ex_fifo).map
        (fun s => (s.running, s.ready_list)) = some (1, [2, 3, 4]) := by
  refine ⟨by decide!, by decide!, by decide!, by decide!, by decide!, by decide!, by decide!⟩

/-! ## Theorems: real_time_sleep -/

theorem busy_wait_loop_eq (n : Nat) (loops : Int) (h : loops.toNat ≤ n) :
    busy_wait_loop n loops = loops.toNat := by
  induction n generalizing loops with
  | zero =>
    simp only [busy_wait_loop]
    omega
  | succ n ih =>
    simp only [busy_wait_loop]
    split_ifs with hp
    · rw [ih (loops - 1) (by omega)]
      omega
    · omega

theorem busy_wait_eq (loops : Int) (h : 0 ≤ loops) : busy_wait loops = some loops.toNat := by
  unfold busy_wait
  rw [if_neg (by
    have : min loops 0 = 0 := min_eq_right h
    rw [this]
    simp [INT64_MIN])]
  rw [busy_wait_loop_eq _ _ (Nat.le_refl _)]

/-- C28: real_time_sleep for num ≥ 0 and denom one of 1000, 10^6, 10^9, called with
interrupts on, where TIMER_FREQ is in the range that timer.c accepts (19 to
1000), loops_per_tick is an unsigned int and num * TIMER_FREQ is an int64_t.
With ticks = floor (num * TIMER_FREQ / denom): if ticks > 0, the result is that
of timer_sleep (ticks) and the busy-wait loop does not run; otherwise the state
is unchanged (the sleep queue is not touched) and the busy-wait loop makes
loops_per_tick * num / 1000 * TIMER_FREQ / (denom / 1000) iterations, the
divisions being integer divisions done from left to right, and no step of that
computation overflows.  timer_msleep, timer_usleep and timer_nsleep call it with
denom = 1000, 10^6 and 10^9. -/
theorem real_time_sleep_spec (freq : Int) (loops_per_tick : Nat) (num denom : Int)
    (k : List frame) (s : kernel)
    (hf1 : 19 ≤ freq) (hf2 : freq ≤ 1000) (hl : loops_per_tick < 2 ^ 32)
    (hn : 0 ≤ num) (hov : num * freq ≤ INT64_MAX)
    (hd : denom = 1000 ∨ denom = 1000000 ∨ denom = 1000000000)
    (hi : s.intr_context = false) :
    (num * freq / denom * denom ≤ num * freq ∧ num * freq < (num * freq / denom + 1) * denom)
    ∧ (num * freq / denom > 0 →
        real_time_sleep freq loops_per_tick num denom k s
          = (timer_sleep (num * freq / denom) k s).map (fun s1 => (s1, 0)))
    ∧ (¬ num * freq / denom > 0 →
        real_time_sleep freq loops_per_tick num denom k s
          = some (s, ((loops_per_tick : Int) * num / 1000 * freq / (denom / 1000)).toNat)
        ∧ 0 ≤ (loops_per_tick : Int) * num / 1000 * freq / (denom / 1000))
    ∧ (∀ x, timer_msleep freq loops_per_tick x k s = real_time_sleep freq loops_per_tick x 1000 k s)
    ∧ (∀ x, timer_usleep freq loops_per_tick x k s
        = real_time_sleep freq loops_per_tick x 1000000 k s)
    ∧ (∀ x, timer_nsleep freq loops_per_tick x k s
        = real_time_sleep freq loops_per_tick x 1000000000 k s) := by
  have hdpos : 0 < denom := by rcases hd with h | h | h <;> rw [h] <;> norm_num
  have hd9 : denom ≤ 1000000000 := by rcases hd with h | h | h <;> rw [h] <;> norm_num
  have hnf : 0 ≤ num * freq := Int.mul_nonneg hn (by omega)
  have ht : Int.tdiv (num * freq) denom = num * freq / denom :=
    Int.tdiv_eq_ediv hnf (le_of_lt hdpos)
  have hguard : ¬ (num * freq > INT64_MAX ∨ num * freq < INT64_MIN ∨ denom = 0) := by
    simp only [INT64_MIN, INT64_MAX] at hov ⊢
    omega
  refine ⟨⟨Int.ediv_mul_le _ (ne_of_gt hdpos), Int.lt_ediv_add_one_mul_self _ hdpos⟩,
    ?_, ?_, fun _ => rfl, fun _ => rfl, fun _ => rfl⟩
  · intro hpos
    unfold real_time_sleep
    rw [if_neg hguard, hi, ht]
    simp only [Bool.false_eq_true, if_false, if_pos hpos]
    cases timer_sleep (num * freq / denom) k s <;> rfl
  · intro hz
    have hz0 : num * freq / denom = 0 := by
      have := Int.ediv_nonneg hnf (le_of_lt hdpos)
      omega
    have hlt : num * freq < denom := by
      have := Int.lt_ediv_add_one_mul_self (num * freq) hdpos
      rw [hz0] at this
      simpa using this
    have hnum : num < 100000000 := by
      by_contra hc
      have h1 : 100000000 * 19 ≤ num * freq :=
        Int.mul_le_mul (by omega) hf1 (by norm_num) hn
      omega
    have hm : Int.tmod denom 1000 = 0 := by rcases hd with h | h | h <;> rw [h] <;> decide
    have hd1 : Int.tdiv denom 1000 = denom / 1000 :=
      Int.tdiv_eq_ediv (le_of_lt hdpos) (by norm_num)
    have hd1pos : 0 < denom / 1000 := by rcases hd with h | h | h <;> rw [h] <;> norm_num
    have ha0 : 0 ≤ (loops_per_tick : Int) * num := Int.mul_nonneg (by omega) hn
    have ha1 : (loops_per_tick : Int) * num ≤ 4294967296 * 100000000 :=
      Int.mul_le_mul (by
        have : (loops_per_tick : Int) < 4294967296 := by exact_mod_cast hl
        omega) (by omega) hn (by norm_num)
    have hb : Int.tdiv ((loops_per_tick : Int) * num) 1000 = (loops_per_tick : Int) * num / 1000 :=
      Int.tdiv_eq_ediv ha0 (by norm_num)
    have hb0 : 0 ≤ (loops_per_tick : Int) * num / 1000 := Int.ediv_nonneg ha0 (by norm_num)
    have hb1 : (loops_per_tick : Int) * num / 1000 ≤ 429496729600000 := by
      omega
    have hc0 : 0 ≤ (loops_per_tick : Int) * num / 1000 * freq := Int.mul_nonneg hb0 (by omega)
    have hc1 : (loops_per_tick : Int) * num / 1000 * freq ≤ 429496729600000 * 1000 :=
      Int.mul_le_mul hb1 hf2 (by omega) (by norm_num)
    have he : Int.tdiv ((loops_per_tick : Int) * num / 1000 * freq) (denom / 1000)
        = (loops_per_tick : Int) * num / 1000 * freq / (denom / 1000) :=
      Int.tdiv_eq_ediv hc0 (le_of_lt hd1pos)
    have he0 : 0 ≤ (loops_per_tick : Int) * num / 1000 * freq / (denom / 1000) :=
      Int.ediv_nonneg hc0 (le_of_lt hd1pos)
    refine ⟨?_, he0⟩
    unfold real_time_sleep
    rw [if_neg hguard, hi, ht, hb, hd1, he, busy_wait_eq _ he0]
    simp only [Bool.false_eq_true, if_false, if_neg hz, hm, ne_eq, not_true_eq_false]
    rw [if_neg (by simp only [INT64_MIN, INT64_MAX]; omega),
      if_neg (by simp only [INT64_MIN, INT64_MAX]; omega),
      if_neg (ne_of_gt hd1pos)]

/-- C28 at concrete values with TIMER_FREQ = 100 and loops_per_tick = 1024:
timer_msleep (250) calls timer_sleep (25); timer_nsleep (100000) makes 10
iterations of the busy-wait loop and leaves the state as it is. -/
theorem real_time_sleep_spec_witness :
    (timer_msleep 100 1024 250 [] ex_sleepers).map (fun r => (r.1.sleep_list, r.2))
        = (timer_sleep 25 [] ex_sleepers).map (fun s1 => (s1.sleep_list, 0))
    ∧ (timer_nsleep 100 1024 100000 [] ex_sleepers).map (fun r => (r.1.sleep_list, r.2))
        = some ([], 10)
    ∧ (((100000 : Int) * 100 / 1000000000 * 1000000000 ≤ 100000 * 100
          ∧ (100000 : Int) * 100 < (100000 * 100 / 1000000000 + 1) * 1000000000)
      ∧ ((100000 : Int) * 100 / 1000000000 > 0 →
          real_time_sleep 100 1024 100000 1000000000 [] ex_sleepers
            = (timer_sleep (100000 * 100 / 1000000000) [] ex_sleepers).map (fun s1 => (s1, 0)))
      ∧ (¬ (100000 : Int) * 100 / 1000000000 > 0 →
          real_time_sleep 100 1024 100000 1000000000 [] ex_sleepers
            = some (ex_sleepers,
                (((1024 : Nat) : Int) * 100000 / 1000 * 100 / (1000000000 / 1000)).toNat)
          ∧ 0 ≤ ((1024 : Nat) : Int) * 100000 / 1000 * 100 / (1000000000 / 1000))
      ∧ (∀ x, timer_msleep 100 1024 x [] ex_sleepers
          = real_time_sleep 100 1024 x 1000 [] ex_sleepers)
      ∧ (∀ x, timer_usleep 100 1024 x [] ex_sleepers
          = real_time_sleep 100 1024 x 1000000 [] ex_sleepers)
      ∧ (∀ x, timer_nsleep 100 1024 x [] ex_sleepers
          = real_time_sleep 100 1024 x 1000000000 [] ex_sleepers)) :=
  ⟨by decide, by decide,
    real_time_sleep_spec 100 1024 100000 1000000000 [] ex_sleepers (by norm_num) (by norm_num)
      (by norm_num) (by norm_num) (by simp [INT64_MAX]) (Or.inr (Or.inr rfl)) rfl⟩

/-! ## Theorems: cond_broadcast -/

@[simp] theorem set_sema_conds (s : kernel) (r : sema_ref) (v : semaphore) :
    (set_sema s r v).conds = s.conds := by
  cases r <;> rfl

/-- The preemption check saves the pending frames of the caller when it switches
to another thread. -/
theorem change_list_cont (k : List frame) (s s1 : kernel)
    (hr : (s.threads s.running).status = .THREAD_RUNNING)
    (hi : s.intr_context = false)
    (h : change_list k s = some s1) (hsw : s1.running ≠ s.running) :
    (s1.threads s.running).cont = k := by
  by_cases hy : ∃ f rest, s.ready_list = f :: rest
      ∧ (s.threads s.running).priority < (s.threads f).priority
  · obtain ⟨f, rest, hl, hlt⟩ := hy
    obtain ⟨s2, h1, -, -, -, h5, -⟩ := change_list_yield k s f rest hr hi hl hlt
    rw [h] at h1
    cases h1
    exact h5
  · have := change_list_stay k s hr (fun f rest hl hlt => hy ⟨f, rest, hl, hlt⟩)
    rw [h] at this
    cases this
    exact absurd rfl hsw

/-- The state before the preemption check of sema_up. -/
theorem sema_up_shape (r : sema_ref) (k : List frame) (s s1 : kernel)
    (h : sema_up r k s = some s1) :
    ∃ s2, change_list k s2 = some s1 ∧ s2.running = s.running ∧ s2.conds = s.conds
      ∧ s2.intr_context = s.intr_context ∧ s2.idle_thread = s.idle_thread
      ∧ (∀ i, r = .sema i → s2.locks = s.locks)
      ∧ ((s.threads s.running).status = .THREAD_RUNNING →
          (s2.threads s2.running).status = .THREAD_RUNNING) := by
  unfold sema_up at h
  cases hs : list_sort (sort_priority s) (get_sema s r).waiters with
  | none => simp [hs] at h
  | some ys =>
    cases ys with
    | nil =>
      simp only [hs] at h
      refine ⟨_, h, by simp, by simp, by simp, by simp, ?_, by simp⟩
      intro i hi
      subst hi
      rfl
    | cons t rest =>
      simp only [hs] at h
      cases hu : thread_unblock t (set_sema s r { get_sema s r with waiters := rest }) with
      | none => simp [hu] at h
      | some s2 =>
        simp only [hu] at h
        unfold thread_unblock at hu
        split_ifs at hu with hb
        simp only [Option.some.injEq] at hu
        subst hu
        refine ⟨_, h, by simp [set_thread], by simp [set_thread], by simp [set_thread],
          by simp [set_thread], ?_, ?_⟩
        · intro i hi
          subst hi
          rfl
        · intro hr
          have hne : s.running ≠ t := by
            intro e
            rw [set_sema_threads] at hb
            rw [e, hb] at hr
            cases hr
          simp [set_thread, hne, hr]

/-- What sema_up leaves alone. -/
theorem sema_up_globals (r : sema_ref) (k : List frame) (s s1 : kernel)
    (h : sema_up r k s = some s1) :
    s1.conds = s.conds ∧ s1.intr_context = s.intr_context ∧ s1.idle_thread = s.idle_thread
      ∧ (∀ i, r = .sema i → s1.locks = s.locks) := by
  obtain ⟨s2, h1, -, h3, h4, h5, h6, -⟩ := sema_up_shape r k s s1 h
  obtain ⟨g1, -, -, g4, g5, -, g7⟩ := change_list_globals k s2 s1 h1
  exact ⟨g4.trans h3, g7.trans h4, g5.trans h5, fun i hi => g1.trans (h6 i hi)⟩

/-- When sema_up switches to another thread, the pending frames of the caller are
saved in its thread structure. -/
theorem sema_up_cont (r : sema_ref) (k : List frame) (s s1 : kernel)
    (hr : (s.threads s.running).status = .THREAD_RUNNING) (hi : s.intr_context = false)
    (h : sema_up r k s = some s1) (hsw : s1.running ≠ s.running) :
    (s1.threads s.running).cont = k := by
  obtain ⟨s2, h1, h2, -, h4, -, -, h7⟩ := sema_up_shape r k s s1 h
  have := change_list_cont k s2 s1 (h7 hr) (h4.trans hi) h1 (by rw [h2]; exact hsw)
  rw [h2] at this
  exact this

/-- Outside interrupt context sema_up completes in every state that satisfies the
invariant. -/
theorem sema_up_total (r : sema_ref) (k : List frame) (s : kernel) (h : kernel_inv s)
    (hi : s.intr_context = false) : ∃ s1, sema_up r k s = some s1 := by
  unfold sema_up
  obtain ⟨ys, hsort, hperm, -⟩ := list_sort_priority s (get_sema s r).waiters
  rw [hsort]
  cases ys with
  | nil =>
    obtain ⟨s1, h1, -⟩ := change_list_spec k
      (set_sema s r { value := ((get_sema s r).value + 1) % 2 ^ 32, waiters := [] })
      (by simpa using h.2) (by simpa using hi)
    exact ⟨s1, h1⟩
  | cons t rest =>
    have htb : (s.threads t).status = .THREAD_BLOCKED :=
      h.1.blocked_status (some r) t (hperm.subset (List.mem_cons_self _ _))
    have hne : s.running ≠ t := by
      intro e
      have := h.2
      rw [e, htb] at this
      cases this
    have hu : thread_unblock t (set_sema s r { get_sema s r with waiters := rest })
        = some (set_thread
          { set_sema s r { get_sema s r with waiters := rest } with
            ready_list := list_insert_ordered
              (sort_priority (set_sema s r { get_sema s r with waiters := rest })) t
              (set_sema s r { get_sema s r with waiters := rest }).ready_list }
          t { (set_sema s r { get_sema s r with waiters := rest }).threads t with
            status := .THREAD_READY }) := by
      unfold thread_unblock
      rw [if_pos (by simpa using htb)]
    simp only [hu]
    obtain ⟨s1, h1, -⟩ := change_list_spec k
      (set_sema (set_thread
          { set_sema s r { get_sema s r with waiters := rest } with
            ready_list := list_insert_ordered
              (sort_priority (set_sema s r { get_sema s r with waiters := rest })) t
              (set_sema s r { get_sema s r with waiters := rest }).ready_list }
          t { (set_sema s r { get_sema s r with waiters := rest }).threads t with
            status := .THREAD_READY }) r
        { get_sema (set_thread
          { set_sema s r { get_sema s r with waiters := rest } with
            ready_list := list_insert_ordered
              (sort_priority (set_sema s r { get_sema s r with waiters := rest })) t
              (set_sema s r { get_sema s r with waiters := rest }).ready_list }
          t { (set_sema s r { get_sema s r with waiters := rest }).threads t with
            status := .THREAD_READY }) r with
          value := ((get_sema (set_thread
          { set_sema s r { get_sema s r with waiters := rest } with
            ready_list := list_insert_ordered
              (sort_priority (set_sema s r { get_sema s r with waiters := rest })) t
              (set_sema s r { get_sema s r with waiters := rest }).ready_list }
          t { (set_sema s r { get_sema s r with waiters := rest }).threads t with
            status := .THREAD_READY }) r).value + 1) % 2 ^ 32 })
      (by simp [set_thread, hne, h.2]) (by simpa [set_thread] using hi)
    exact ⟨s1, h1⟩

/-- A cond_signal step on a non-empty waiter list: one element is removed and
sema_up is called on its semaphore. -/
theorem cond_signal_step (c l : Nat) (k : List frame) (s s1 : kernel)
    (h : cond_signal c l k s = some s1) (hne : s.conds c ≠ []) :
    ∃ f fs, List.Perm (f :: fs) (s.conds c)
      ∧ sema_up (.sema f.semaphore) k (set_cond s c fs) = some s1 := by
  unfold cond_signal at h
  split_ifs at h with hi
  cases hc : thread_current s with
  | none => simp [hc] at h
  | some cur =>
    simp only [hc] at h
    split_ifs at h with hh
    cases hw : s.conds c with
    | nil => exact absurd hw hne
    | cons e es =>
      simp only [hw] at h
      obtain ⟨ys, hsort, hperm, -⟩ := list_sort_donate_sema s (e :: es)
      rw [hsort] at h
      cases ys with
      | nil => simp at h
      | cons f fs => exact ⟨f, fs, hperm, h⟩

/-- The effect of a cond_signal step on the waiter list, the semaphore values and
the globals. -/
theorem cond_signal_effect (c l : Nat) (k : List frame) (s s1 : kernel)
    (h : cond_signal c l k s = some s1) (hne : s.conds c ≠ []) :
    ∃ f, List.Perm (f :: s1.conds c) (s.conds c)
      ∧ (∀ i, (s1.semas i).value
          = if f.semaphore = i then ((s.semas i).value + 1) % 2 ^ 32 else (s.semas i).value)
      ∧ s1.locks = s.locks ∧ s1.intr_context = s.intr_context
      ∧ (s1.running ≠ s.running → (s.threads s.running).status = .THREAD_RUNNING →
          s.intr_context = false → (s1.threads s.running).cont = k) := by
  obtain ⟨f, fs, hperm, hu⟩ := cond_signal_step c l k s s1 h hne
  obtain ⟨g1, g2, -, g4⟩ := sema_up_globals _ k _ s1 hu
  obtain ⟨c1, -, c3⟩ := sema_up_counts _ k _ s1 hu
  refine ⟨f, ?_, ?_, g4 _ rfl, g2, ?_⟩
  · rw [g1]
    simpa [set_cond] using hperm
  · intro i
    by_cases hfi : f.semaphore = i
    · subst hfi
      rw [if_pos rfl]
      exact c1
    · have := c3 (.sema i) (by
        intro e
        injection e with e1
        exact hfi e1.symm)
      simp only [get_sema, set_cond] at this
      rw [this, if_neg hfi]
  · intro hsw hr hi
    exact sema_up_cont _ k (set_cond s c fs) s1 hr hi hu hsw

/-- Outside interrupt context, called by the holder of the lock, cond_signal
completes in every state that satisfies the invariant. -/
theorem cond_signal_total (c l : Nat) (k : List frame) (s : kernel) (h : kernel_inv s)
    (hi : s.intr_context = false) (hl : (s.locks l).holder = some s.running) :
    ∃ s1, cond_signal c l k s = some s1 := by
  unfold cond_signal
  rw [kernel_inv_current s h]
  simp only [hi, Bool.false_eq_true, if_false, ne_eq, hl, not_true_eq_false]
  cases hw : s.conds c with
  | nil => exact ⟨s, rfl⟩
  | cons e es =>
    simp only
    obtain ⟨ys, hsort, hperm, -⟩ := list_sort_donate_sema s (e :: es)
    rw [hsort]
    cases ys with
    | nil =>
      have := hperm.length_eq
      simp at this
    | cons f fs =>
      exact sema_up_total _ k _ (set_cond_inv c fs s h).1 hi

/-- The loop of cond_broadcast makes as many cond_signal steps as there are
waiters; the bound on its iterations is never used up. -/
theorem cond_broadcast_loop_eq (c l : Nat) (k : List frame) (n fuel : Nat) (s : kernel)
    (hn : (s.conds c).length = n) (hf : n < fuel) :
    cond_broadcast_loop c l k fuel s = cond_signal_times c l k n s := by
  induction n generalizing fuel s with
  | zero =>
    have hc : s.conds c = [] := List.length_eq_zero.mp hn
    cases fuel with
    | zero => omega
    | succ m => simp [cond_broadcast_loop, cond_signal_times, hc]
  | succ n ih =>
    cases fuel with
    | zero => omega
    | succ m =>
      cases hc : s.conds c with
      | nil => rw [hc] at hn; simp at hn
      | cons e es =>
        simp only [cond_broadcast_loop, cond_signal_times, hc]
        cases hs : cond_signal c l (frame.cond_broadcast_loop c l :: k) s with
        | none => rfl
        | some s1 =>
          simp only
          split_ifs with hr
          · obtain ⟨f, hp, -⟩ := cond_signal_effect c l _ s s1 hs (by rw [hc]; simp)
            have hl := hp.length_eq
            simp only [List.length_cons] at hl
            exact ih m s1 (by omega) (by omega)
          · rfl

/-- The cond_signal steps of cond_broadcast, one for each waiter, up to the step
that returns or up to the first step in which the caller is switched out:
`done` lists the removed elements, one for each step made, and the value of
every semaphore has been incremented (as an unsigned counter) once for each
removed element that carries it. -/
theorem cond_signal_times_spec (c l : Nat) (k : List frame) (n : Nat) (s : kernel)
    (hn : (s.conds c).length = n) (h : kernel_inv s) (hk : frames_ok k s)
    (hni : some s.running ≠ s.idle_thread) (hi : s.intr_context = false)
    (hl : (s.locks l).holder = some s.running) :
    ∃ s1 done, cond_signal_times c l k n s = some s1
      ∧ cond_signal_times c l k done.length s = some s1
      ∧ List.Perm (done ++ s1.conds c) (s.conds c)
      ∧ (∀ i, (s1.semas i).value
          = (fun v => (v + 1) % 2 ^ 32)^[done.countP (fun e => decide (e.semaphore = i))]
              (s.semas i).value)
      ∧ (s1.running = s.running → s1.conds c = [] ∧ done.length = n)
      ∧ (s1.running ≠ s.running →
          done ≠ [] ∧ (s1.threads s.running).cont = frame.cond_broadcast_loop c l :: k) := by
  induction n generalizing s with
  | zero =>
    have hc : s.conds c = [] := List.length_eq_zero.mp hn
    exact ⟨s, [], rfl, rfl, by simp, by simp, fun _ => ⟨hc, rfl⟩, fun hx => absurd rfl hx⟩
  | succ n ih =>
    have hne : s.conds c ≠ [] := by
      intro e
      rw [e] at hn
      simp at hn
    obtain ⟨s1, hs⟩ := cond_signal_total c l (frame.cond_broadcast_loop c l :: k) s h hi hl
    obtain ⟨f, hp, hv, hlk, hic, hct⟩ := cond_signal_effect c l _ s s1 hs hne
    have hA := cond_signal_inv c l (frame.cond_broadcast_loop c l :: k) s s1 h
      (frames_ok_cons _ k s hk rfl) hni hs
    by_cases hr : s1.running = s.running
    · have hlen : (s1.conds c).length = n := by
        have := hp.length_eq
        simp only [List.length_cons] at this
        omega
      obtain ⟨s2, done, g1, g0, g2, g3, g4, g5⟩ := ih s1 hlen hA.1
        (step_ok_frames s s1 k hA hr hk)
        (step_ok_nonidle s s1 hA hr hni) (hic.trans hi) (by rw [hlk, hr]; exact hl)
      refine ⟨s2, f :: done, ?_, ?_, ?_, ?_, ?_, ?_⟩
      · simp only [cond_signal_times, hs, if_pos hr]
        exact g1
      · simp only [List.length_cons, cond_signal_times, hs, if_pos hr]
        exact g0
      · exact (List.Perm.cons f g2).trans hp
      · intro i
        rw [g3, hv, List.countP_cons]
        by_cases hfi : f.semaphore = i
        · simp only [hfi, decide_True, if_true, Function.iterate_succ_apply]
        · simp only [hfi, decide_False, if_false, Bool.false_eq_true, Nat.add_zero]
      · intro hr2
        obtain ⟨q1, q2⟩ := g4 (hr2.trans hr.symm)
        exact ⟨q1, by simp [q2]⟩
      · intro hr2
        obtain ⟨-, q2⟩ := g5 (by rw [hr]; exact hr2)
        refine ⟨by simp, ?_⟩
        rw [hr] at q2
        exact q2
    · refine ⟨s1, [f], ?_, ?_, ?_, ?_, fun e => absurd e hr,
        fun _ => ⟨by simp, hct hr h.2 hi⟩⟩
      · simp only [cond_signal_times, hs, if_neg hr]
      · simp only [List.length_singleton, cond_signal_times, hs, if_neg hr]
      · simpa using hp
      · intro i
        rw [hv]
        by_cases hfi : f.semaphore = i <;> simp [hfi]

/-- The ASSERT on the lock in cond_wait and cond_signal: called by a thread that
does not hold lock `l`, both fail, so while the caller of cond_broadcast holds
`l` no other thread gets through cond_wait or cond_signal with `l`. -/
theorem cond_needs_lock (c l w : Nat) (k : List frame) (s : kernel)
    (h : (s.locks l).holder ≠ some s.running) :
    cond_wait c l w k s = none ∧ cond_signal c l k s = none := by
  constructor
  · unfold cond_wait thread_current
    split_ifs <;> simp_all
  · unfold cond_signal thread_current
    split_ifs <;> simp_all

/-- Clearing the saved frames of the running thread, as resume does before it
runs them, keeps the invariant, and the saved frames are pending frames of the
cleared state. -/
theorem resume_start_inv (s : kernel) (h : kernel_inv s) :
    kernel_inv (set_thread s s.running { s.threads s.running with cont := [] })
      ∧ frames_ok (s.threads s.running).cont
          (set_thread s s.running { s.threads s.running with cont := [] }) := by
  have hst : ∀ x, ((set_thread s s.running { s.threads s.running with cont := [] }).threads x).status
      = (s.threads x).status := by
    intro x
    simp only [set_thread]
    split_ifs with e
    · rw [e]
    · rfl
  obtain ⟨g1, g2⟩ := queues_inv_shrink s
    (set_thread s s.running { s.threads s.running with cont := [] }) h.1 hst
    (fun x => by
      simp only [set_thread]
      split_ifs with e
      · rw [e]
      · rfl)
    (fun x => by
      simp only [set_thread]
      split_ifs with e
      · simp [pending]
      · exact List.Sublist.refl _)
    (fun i _ hc => by
      simp only [set_thread]
      split_ifs with e
      · rfl
      · exact hc)
    (List.Sublist.refl _)
    (fun c t ht => by rw [blocked_on_set_thread] at ht; exact ht)
    (fun c => by rw [blocked_on_set_thread]; exact h.1.blocked_nodup c)
    (List.Sublist.refl _) rfl
  refine ⟨⟨g1, by rw [hst]; exact h.2⟩, h.1.pending_nodup _, ?_⟩
  intro t ht
  obtain ⟨p1, p2⟩ := h.1.pending_parked _ t ht
  refine ⟨⟨by rw [hst]; exact p1.1,
    fun c hc => p1.2 c (by rw [blocked_on_set_thread] at hc; exact hc)⟩, p2, ?_⟩
  intro x hm
  simp only [set_thread] at hm
  split_ifs at hm with e
  · simp [pending] at hm
  · exact e (h.1.pending_unique x s.running t hm ht)

/-- The run of cond_broadcast over the switches that interrupt it makes one
cond_signal step for each waiter and ends with an empty waiter list. -/
theorem cond_broadcast_run (c l : Nat) (k : List frame) (n : Nat) :
    ∀ s : kernel, (s.conds c).length = n → kernel_inv s → frames_ok k s →
      some s.running ≠ s.idle_thread → s.intr_context = false →
      (s.locks l).holder = some s.running →
      broadcast_completes c l k s.running n s := by
  induction n using Nat.strong_induction_on with
  | _ n ih =>
    intro s hn h hk hni hi hl
    have e : cond_broadcast c l k s = cond_signal_times c l k (s.conds c).length s :=
      cond_broadcast_loop_eq c l k _ _ s rfl (Nat.lt_succ_self _)
    obtain ⟨s1, done, g1, g0, g2, g3, g4, g5⟩ :=
      cond_signal_times_spec c l k n s hn h hk hni hi hl
    rw [← hn] at g1
    by_cases hr : s1.running = s.running
    · obtain ⟨q1, q2⟩ := g4 hr
      rw [← q2]
      refine broadcast_completes.returns s s1 done (e.trans g1) g0 hr q1 ?_ g3
      rw [q1, List.append_nil] at g2
      exact g2
    · obtain ⟨q1, q2⟩ := g5 hr
      have hlen : n = done.length + (s1.conds c).length := by
        have := g2.length_eq
        rw [List.length_append] at this
        omega
      rw [hlen]
      refine broadcast_completes.preempted s s1 done _ (e.trans g1) g0 hr q1 g2 g3 q2 rfl ?_
      intro s2 hs2
      obtain ⟨i1, i2, i3, i4, i5, i6, i7⟩ := hs2
      have hpos : 0 < done.length := List.length_pos.mpr q1
      obtain ⟨j1, j2⟩ := resume_start_inv s2 i1
      rw [i2] at j1 j2
      rw [i5, q2] at j2
      have key := ih (s1.conds c).length (by omega)
        (set_thread s2 s.running { s2.threads s.running with cont := [] })
        (by show (s2.conds c).length = _; rw [i7]) j1 j2
        (by show some s2.running ≠ s2.idle_thread; rw [i2]; exact i3)
        i4 (by show (s2.locks l).holder = some s2.running; rw [i2]; exact i6)
      have hrun : (set_thread s2 s.running { s2.threads s.running with cont := [] }).running
          = s.running := i2
      rw [hrun] at key
      exact key


/-- C21: cond_broadcast on a condition variable with n waiters, called outside
interrupt context by the holder of the lock (a thread other than the idle thread)
in a state that satisfies the invariant.  It is the same as n cond_signal steps
made one after the other, and it completes.  Each step removes one element from
the waiter list and ups the semaphore of that element: in the resulting state
every semaphore has been incremented, as the unsigned counter it is, once for
each removed element that carries it.  When cond_broadcast returns in the
caller, n elements were removed and the waiter list is empty.  When a step wakes
a thread that preempts the caller, the steps made so far are as described and
the rest of the loop is the frame saved in the caller; resume runs that frame
as cond_broadcast on the state with the saved frames cleared, and over all these
switches the run makes exactly n cond_signal steps and ends in the caller with
an empty waiter list (broadcast_completes), provided that whenever the caller
runs again it still holds the lock and the waiter list and its saved frames are
as it left them (resumes_in). -/
theorem cond_broadcast_spec (c l : Nat) (k : List frame) (s : kernel)
    (h : kernel_inv s) (hk : frames_ok k s)
    (hni : some s.running ≠ s.idle_thread) (hi : s.intr_context = false)
    (hl : (s.locks l).holder = some s.running) :
    cond_broadcast c l k s = cond_signal_times c l k (s.conds c).length s
      ∧ (∃ s1 done, cond_broadcast c l k s = some s1
        ∧ cond_signal_times c l k done.length s = some s1
        ∧ List.Perm (done ++ s1.conds c) (s.conds c)
        ∧ (∀ i, (s1.semas i).value
            = (fun v => (v + 1) % 2 ^ 32)^[done.countP (fun e => decide (e.semaphore = i))]
                (s.semas i).value)
        ∧ (s1.running = s.running → s1.conds c = [] ∧ done.length = (s.conds c).length)
        ∧ (s1.running ≠ s.running →
            done ≠ [] ∧ (s1.threads s.running).cont = frame.cond_broadcast_loop c l :: k))
      ∧ broadcast_completes c l k s.running (s.conds c).length s
      ∧ ∀ s2 : kernel, (s2.threads s2.running).cont = frame.cond_broadcast_loop c l :: k →
          resume s2
            = match cond_broadcast c l k
                (set_thread s2 s2.running { s2.threads s2.running with cont := [] }) with
              | none => none
              | some s3 => if s3.running = s2.running then run_frames k s3 else some s3 := by
  have e : cond_broadcast c l k s = cond_signal_times c l k (s.conds c).length s :=
    cond_broadcast_loop_eq c l k _ _ s rfl (Nat.lt_succ_self _)
  refine ⟨e, ?_, cond_broadcast_run c l k _ s rfl h hk hni hi hl, ?_⟩
  · rw [e]
    exact cond_signal_times_spec c l k _ s rfl h hk hni hi hl
  · intro s2 hc
    unfold resume
    rw [hc]
    rfl


/-- C21 at a concrete state: in ex_cond thread 1 (priority 5) holds lock 5 and
condition 0 has the waiters A (thread 2, priority 40, semaphore 10) and B
(thread 3, priority 10, semaphore 11).  The first cond_signal step wakes A, which
preempts the caller: semaphore 10 was upped, B is still on the waiter list, and
the caller has saved the rest of the loop.  When A blocks (here in a sema_down on
semaphore 50) the caller runs again in a state that satisfies resumes_in, and
its next step continues the loop: it wakes B, which preempts it in turn; when B
blocks too the caller finishes the loop.  At the end of the run both waiters
were signalled, semaphores 10 and 11 were upped once each, the waiter list is
empty and the caller has no saved frame left. -/
theorem cond_broadcast_spec_witness :
    kernel_inv ex_cond ∧ frames_ok [] ex_cond
    ∧ some ex_cond.running ≠ ex_cond.idle_thread ∧ ex_cond.intr_context = false
    ∧ (ex_cond.locks 5).holder = some ex_cond.running
    ∧ (cond_broadcast 0 5 [] ex_cond).map
        (fun s => (s.running, s.conds 0, (s.semas 10).value, (s.semas 11).value,
          (s.threads 1).cont))
        = some (2, [{ semaphore := 11, thread := 3 }], 1, 0, [frame.cond_broadcast_loop 0 5])
    ∧ (∃ s1 s2, cond_broadcast 0 5 [] ex_cond = some s1
        ∧ exec (.sema_down (.sema 50)) s1 = some s2 ∧ resumes_in 0 5 1 s1 s2)
    ∧ (run_calls [.cond_broadcast 0 5, .sema_down (.sema 50), .sema_try_down (.sema 99)]
          ex_cond).map
        (fun s => (s.running, s.conds 0, (s.semas 10).value, (s.semas 11).value,
          (s.threads 1).cont))
        = some (3, [], 1, 1, [frame.cond_broadcast_loop 0 5])
    ∧ (run_calls [.cond_broadcast 0 5, .sema_down (.sema 50), .sema_try_down (.sema 99),
          .sema_down (.sema 51), .sema_try_down (.sema 99)] ex_cond).map
        (fun s => (s.running, s.conds 0, (s.semas 10).value, (s.semas 11).value,
          (s.threads 1).cont))
        = some (1, [], 1, 1, [])
    ∧ (cond_broadcast 0 5 [] ex_cond = cond_signal_times 0 5 [] (ex_cond.conds 0).length ex_cond
      ∧ (∃ s1 done, cond_broadcast 0 5 [] ex_cond = some s1
        ∧ cond_signal_times 0 5 [] done.length ex_cond = some s1
        ∧ List.Perm (done ++ s1.conds 0) (ex_cond.conds 0)
        ∧ (∀ i, (s1.semas i).value
            = (fun v => (v + 1) % 2 ^ 32)^[done.countP (fun e => decide (e.semaphore = i))]
                (ex_cond.semas i).value)
        ∧ (s1.running = ex_cond.running →
            s1.conds 0 = [] ∧ done.length = (ex_cond.conds 0).length)
        ∧ (s1.running ≠ ex_cond.running →
            done ≠ [] ∧ (s1.threads ex_cond.running).cont
              = frame.cond_broadcast_loop 0 5 :: []))
      ∧ broadcast_completes 0 5 [] ex_cond.running (ex_cond.conds 0).length ex_cond
      ∧ ∀ s2 : kernel, (s2.threads s2.running).cont = frame.cond_broadcast_loop 0 5 :: [] →
          resume s2
            = match cond_broadcast 0 5 []
                (set_thread s2 s2.running { s2.threads s2.running with cont := [] }) with
              | none => none
              | some s3 => if s3.running = s2.running then run_frames [] s3 else some s3) := by
  have hb : ∀ c, blocked_on ex_cond c
      = if c = some (.sema 10) then [2] else if c = some (.sema 11) then [3] else [] := by
    intro c
    cases c with
    | none => rfl
    | some r =>
      cases r with
      | sema i =>
        simp only [blocked_on, get_sema, ex_cond]
        split <;> simp_all
      | lock_sema j =>
        simp only [blocked_on, get_sema, ex_cond]
        split <;> simp
  have hc : ∀ x, (ex_cond.threads x).cont = [] := by
    intro x
    simp only [ex_cond]
    split <;> rfl
  have hinv : kernel_inv ex_cond := by
    refine ⟨⟨by decide, by decide, ?_, ?_, ?_, ?_, ?_, ?_, ?_, ?_⟩, by decide⟩
    · intro c t ht
      rw [hb] at ht
      split_ifs at ht
      · rw [List.mem_singleton.mp ht]; decide
      · rw [List.mem_singleton.mp ht]; decide
      · cases ht
    · intro c
      rw [hb]
      split_ifs <;> simp
    · intro c c1 hne t ht ht1
      rw [hb] at ht ht1
      split_ifs at ht ht1 <;> simp_all
    · exact List.Pairwise.nil
    · intro i hi
      have hi0 : i = 0 := by
        have : ex_cond.idle_thread = some 0 := rfl
        rw [this] at hi
        exact (Option.some.inj hi).symm
      refine ⟨?_, hc i⟩
      intro c hm
      rw [hb, hi0] at hm
      split_ifs at hm <;> simp at hm
    · intro x t ht; rw [hc] at ht; cases ht
    · intro x; rw [hc]; exact List.nodup_nil
    · intro x y t ht; rw [hc] at ht; cases ht
  have hk : frames_ok [] ex_cond := ⟨List.nodup_nil, fun t ht => by cases ht⟩
  have hres : ∃ s1 s2, cond_broadcast 0 5 [] ex_cond = some s1
      ∧ exec (.sema_down (.sema 50)) s1 = some s2 ∧ resumes_in 0 5 1 s1 s2 := by
    have a1 : (cond_broadcast 0 5 [] ex_cond).map
        (fun s => (s.running, s.idle_thread, (s.threads 1).cont, s.conds 0))
        = some (2, some 0, [frame.cond_broadcast_loop 0 5],
            [{ semaphore := 11, thread := 3 }]) := by decide!
    have a2 : ((cond_broadcast 0 5 [] ex_cond).bind (exec (.sema_down (.sema 50)))).map
        (fun s => (s.running, s.idle_thread, s.intr_context, (s.locks 5).holder))
        = some (1, some 0, false, some 1) := by decide!
    have a3 : ((cond_broadcast 0 5 [] ex_cond).bind (exec (.sema_down (.sema 50)))).map
        (fun s => ((s.threads 1).cont, s.conds 0))
        = some ([frame.cond_broadcast_loop 0 5], [{ semaphore := 11, thread := 3 }]) := by
      decide!
    cases e1 : cond_broadcast 0 5 [] ex_cond with
    | none => rw [e1] at a1; cases a1
    | some s1 =>
      rw [e1] at a1 a2 a3
      simp only [Option.map_some', Option.some.injEq, Prod.mk.injEq] at a1
      simp only [Option.some_bind] at a2 a3
      obtain ⟨b1, b2, b3, b4⟩ := a1
      have inv1 : kernel_inv s1 :=
        (do_call_inv (.cond_broadcast 0 5) ex_cond s1 hinv
          (by show some ex_cond.running ≠ ex_cond.idle_thread; decide) e1).1
      cases e2 : exec (.sema_down (.sema 50)) s1 with
      | none => rw [e2] at a2; cases a2
      | some s2 =>
        rw [e2] at a2 a3
        simp only [Option.map_some', Option.some.injEq, Prod.mk.injEq] at a2 a3
        obtain ⟨d1, d2, d3, d5⟩ := a2
        obtain ⟨d4, d6⟩ := a3
        have inv2 : kernel_inv s2 :=
          (exec_inv (.sema_down (.sema 50)) s1 s2 inv1
            (fun s3 hr hrun => by
              show some s3.running ≠ s3.idle_thread
              rw [(resume_inv s1 s3 inv1 hr).2, hrun, b1, b2]
              decide) e2).1
        refine ⟨s1, s2, rfl, e2, inv2, d1, ?_, d3, ?_, d5, ?_⟩
        · rw [d2]; decide
        · rw [d4, b3]
        · rw [d6, b4]
  exact ⟨hinv, hk, by decide, rfl, rfl, by decide!, hres, by decide!, by decide!,
    cond_broadcast_spec 0 5 [] ex_cond hinv hk (by decide) rfl rfl⟩

/-- The same broadcast by a caller of priority 50: no waiter preempts it, both
cond_signal steps are made in one go, the waiter list ends empty and each of
the semaphores 10 and 11 was upped once. -/
theorem cond_broadcast_example :
    (cond_broadcast 0 5 [] (set_thread ex_cond 1 (mk_thread_init .THREAD_RUNNING 50))).map
        (fun s => (s.running, s.conds 0, (s.semas 10).value, (s.semas 11).value, s.ready_list))
      = some (1, [], 1, 1, [2, 3]) := by
  decide!

/-! ## Theorems: one running thread, and the destruction list -/

theorem keeps_refl (s : kernel) : keeps s s := ⟨id, id⟩

theorem keeps_trans (s s1 s2 : kernel) (h1 : keeps s s1) (h2 : keeps s1 s2) : keeps s s2 :=
  ⟨fun h => h2.1 (h1.1 h), fun h => h2.2 (h1.2 h)⟩

/-- A change that reads or writes none of the status fields, the running thread,
the ready list, the destruction list and the idle thread. -/
theorem keeps_congr (s s1 : kernel)
    (hst : ∀ x, (s1.threads x).status = (s.threads x).status)
    (hrun : s1.running = s.running)
    (hrd : s1.ready_list = s.ready_list)
    (hdq : s1.destruction_req = s.destruction_req)
    (hid : s1.idle_thread = s.idle_thread) : keeps s s1 := by
  refine ⟨?_, ?_⟩
  · intro h t ht
    rw [hst] at ht
    rw [hrun]
    exact h t ht
  · intro h
    refine ⟨by rw [hdq]; exact h.dying_nodup, ?_, ?_, ?_⟩
    · intro t ht
      rw [hdq] at ht
      rw [hst]
      exact h.dying_status t ht
    · intro t ht
      rw [hdq] at ht
      rw [hrd]
      exact h.dying_not_ready t ht
    · intro t ht
      rw [hdq] at ht
      rw [hid]
      exact h.dying_not_idle t ht

@[simp] theorem set_sema_destruction_req (s : kernel) (r : sema_ref) (v : semaphore) :
    (set_sema s r v).destruction_req = s.destruction_req := by
  cases r <;> rfl

theorem set_sema_keeps (s : kernel) (r : sema_ref) (v : semaphore) : keeps s (set_sema s r v) :=
  keeps_congr s _ (by simp) (by simp) (by simp) (by simp) (by simp)

theorem set_lock_keeps (s : kernel) (l : Nat) (v : lock) : keeps s (set_lock s l v) :=
  keeps_congr s _ (fun _ => rfl) rfl rfl rfl rfl

theorem set_cond_keeps (s : kernel) (c : Nat) (v : List semaphore_elem) :
    keeps s (set_cond s c v) :=
  keeps_congr s _ (fun _ => rfl) rfl rfl rfl rfl

/-- Writing a thread structure without changing its status. -/
theorem set_thread_keeps (s : kernel) (t : Nat) (v : thread)
    (hv : v.status = (s.threads t).status) : keeps s (set_thread s t v) := by
  refine keeps_congr s _ ?_ rfl rfl rfl rfl
  intro x
  simp only [set_thread]
  split_ifs with hx
  · rw [hv, hx]
  · rfl

/-- The function thread_unblock. -/
theorem thread_unblock_keeps (t : Nat) (s s1 : kernel) (hu : thread_unblock t s = some s1) :
    keeps s s1 ∧ s1.running = s.running := by
  unfold thread_unblock at hu
  split_ifs at hu with hb
  simp only [Option.some.injEq] at hu
  subst hu
  refine ⟨⟨?_, ?_⟩, rfl⟩
  · intro h x hx
    by_cases hxt : x = t
    · subst hxt
      simp [set_thread] at hx
    · exact h x (by simpa [set_thread, hxt] using hx)
  · intro h
    have htd : t ∉ s.destruction_req := by
      intro hm
      have := h.dying_status t hm
      rw [hb] at this
      cases this
    refine ⟨h.dying_nodup, ?_, ?_, h.dying_not_idle⟩
    · intro x hx
      have hxt : x ≠ t := fun e => htd (e ▸ hx)
      simpa [set_thread, hxt] using h.dying_status x hx
    · intro x hx hm
      have hxt : x ≠ t := fun e => htd (e ▸ hx)
      have hm2 : x ∈ list_insert_ordered (sort_priority s) t s.ready_list := hm
      rcases List.mem_cons.mp ((list_insert_ordered_perm _ t s.ready_list).mem_iff.mp hm2)
        with g | g
      · exact hxt g
      · exact h.dying_not_ready x hx g

/-- The state that schedule returns, with the destruction list spelled out. -/
theorem schedule_shape_dying (k : List frame) (s s1 : kernel) (hs : schedule k s = some s1) :
    ∃ next, next_pick s = some next
      ∧ (s.threads s.running).status ≠ .THREAD_RUNNING
      ∧ s1 = if s.running ≠ next then
          thread_launch k next
            { set_thread { s with ready_list := s.ready_list.tail } next
                { s.threads next with status := .THREAD_RUNNING } with
              thread_ticks := 0,
              destruction_req :=
                if (s.threads s.running).status = .THREAD_DYING
                    ∧ some s.running ≠ s.initial_thread
                then s.destruction_req ++ [s.running] else s.destruction_req }
        else
          { set_thread { s with ready_list := s.ready_list.tail } next
              { s.threads next with status := .THREAD_RUNNING } with thread_ticks := 0 } := by
  unfold schedule at hs
  cases hl : s.ready_list with
  | nil =>
    cases hid : s.idle_thread with
    | none => simp [next_thread_to_run, hl, hid] at hs
    | some nx =>
      simp only [next_thread_to_run, hl, hid] at hs
      split_ifs at hs with h1 h2 h3
      · simp only [Option.some.injEq] at hs
        have h2a : s.running ≠ nx := by simpa [set_thread] using h2
        have h3a : (s.threads s.running).status = .THREAD_DYING
            ∧ some s.running ≠ s.initial_thread := by simpa [set_thread, h2a] using h3
        refine ⟨nx, by simp [next_pick, next_thread_to_run, hl, hid], h1, ?_⟩
        rw [if_pos h2a, if_pos h3a, ← hs]
        simp [thread_launch, set_thread, hl, hid]
      · simp only [Option.some.injEq] at hs
        have h2a : s.running ≠ nx := by simpa [set_thread] using h2
        have h3a : ¬ ((s.threads s.running).status = .THREAD_DYING
            ∧ some s.running ≠ s.initial_thread) := by simpa [set_thread, h2a] using h3
        refine ⟨nx, by simp [next_pick, next_thread_to_run, hl, hid], h1, ?_⟩
        rw [if_pos h2a, if_neg h3a, ← hs]
        simp [thread_launch, set_thread, hl, hid]
      · simp only [Option.some.injEq] at hs
        refine ⟨nx, by simp [next_pick, next_thread_to_run, hl, hid], h1, ?_⟩
        rw [if_neg (by simpa [set_thread] using h2), ← hs]
        simp [thread_launch, set_thread, hl, hid]
  | cons nx rest =>
    simp only [next_thread_to_run, hl] at hs
    split_ifs at hs with h1 h2 h3
    · simp only [Option.some.injEq] at hs
      have h2a : s.running ≠ nx := by simpa [set_thread] using h2
      have h3a : (s.threads s.running).status = .THREAD_DYING
          ∧ some s.running ≠ s.initial_thread := by simpa [set_thread, h2a] using h3
      refine ⟨nx, by simp [next_pick, next_thread_to_run, hl], h1, ?_⟩
      rw [if_pos h2a, if_pos h3a, ← hs]
      simp [thread_launch, set_thread, hl]
    · simp only [Option.some.injEq] at hs
      have h2a : s.running ≠ nx := by simpa [set_thread] using h2
      have h3a : ¬ ((s.threads s.running).status = .THREAD_DYING
          ∧ some s.running ≠ s.initial_thread) := by simpa [set_thread, h2a] using h3
      refine ⟨nx, by simp [next_pick, next_thread_to_run, hl], h1, ?_⟩
      rw [if_pos h2a, if_neg h3a, ← hs]
      simp [thread_launch, set_thread, hl]
    · simp only [Option.some.injEq] at hs
      refine ⟨nx, by simp [next_pick, next_thread_to_run, hl], h1, ?_⟩
      rw [if_neg (by simpa [set_thread] using h2), ← hs]
      simp [thread_launch, set_thread, hl]

/-- What schedule does to the status fields and the lists. -/
theorem schedule_effect (k : List frame) (s s1 : kernel) (hs : schedule k s = some s1) :
    ∃ next, next_pick s = some next
      ∧ (s.threads s.running).status ≠ .THREAD_RUNNING
      ∧ s1.running = next
      ∧ (s1.threads next).status = .THREAD_RUNNING
      ∧ (∀ t, t ≠ next → (s1.threads t).status = (s.threads t).status)
      ∧ s1.ready_list = s.ready_list.tail
      ∧ s1.idle_thread = s.idle_thread
      ∧ s1.destruction_req
          = (if s.running ≠ next ∧ (s.threads s.running).status = .THREAD_DYING
                ∧ some s.running ≠ s.initial_thread
             then s.destruction_req ++ [s.running] else s.destruction_req) := by
  obtain ⟨next, h1, h2, h3⟩ := schedule_shape_dying k s s1 hs
  refine ⟨next, h1, h2, ?_⟩
  by_cases hn : s.running ≠ next
  · rw [if_pos hn] at h3
    have hn2 : next ≠ s.running := fun e => hn e.symm
    subst h3
    refine ⟨rfl, by simp [thread_launch, set_thread, hn2], ?_, rfl, rfl, ?_⟩
    · intro t ht
      simp only [thread_launch, set_thread]
      split_ifs <;> simp_all
    · simp only [thread_launch, set_thread]
      split_ifs <;> simp_all
  · rw [if_neg hn] at h3
    have e : s.running = next := not_not.mp hn
    subst h3
    refine ⟨e, by simp [set_thread], ?_, rfl, rfl, ?_⟩
    · intro t ht
      simp [set_thread, ht]
    · show s.destruction_req = _
      rw [if_neg (fun h => hn h.1)]

/-- The function schedule.  When the thread that leaves is DYING, it is not yet on
the destruction list, it is off the ready list and it is not the idle thread. -/
theorem schedule_keeps (k : List frame) (s s1 : kernel) (hs : schedule k s = some s1)
    (hd : (s.threads s.running).status = .THREAD_DYING →
      s.running ∉ s.destruction_req ∧ s.running ∉ s.ready_list
        ∧ some s.running ≠ s.idle_thread) : keeps s s1 := by
  obtain ⟨next, hp, hnr, e1, e2, e3, e4, e5, e6⟩ := schedule_effect k s s1 hs
  refine ⟨?_, ?_⟩
  · intro h t ht
    rw [e1]
    by_contra hne
    rw [e3 t hne] at ht
    have := h t ht
    rw [this] at ht
    exact hnr ht
  · intro h
    have hnd : next ∉ s.destruction_req := by
      intro hm
      rcases next_pick_cases s next hp with ⟨rest, hl⟩ | ⟨-, hid⟩
      · exact h.dying_not_ready next hm (by rw [hl]; exact List.mem_cons_self _ _)
      · exact h.dying_not_idle next hm hid.symm
    have hmem : ∀ t, t ∈ s1.destruction_req →
        t ∈ s.destruction_req ∨ (t = s.running ∧ s.running ≠ next
          ∧ (s.threads s.running).status = .THREAD_DYING) := by
      intro t ht
      rw [e6] at ht
      split_ifs at ht with hc
      · rcases List.mem_append.mp ht with g | g
        · exact Or.inl g
        · exact Or.inr ⟨List.mem_singleton.mp g, hc.1, hc.2.1⟩
      · exact Or.inl ht
    refine ⟨?_, ?_, ?_, ?_⟩
    · rw [e6]
      split_ifs with hc
      · refine List.Nodup.append h.dying_nodup (List.nodup_singleton _) ?_
        intro x hx hx2
        rw [List.mem_singleton.mp hx2] at hx
        exact (hd hc.2.1).1 hx
      · exact h.dying_nodup
    · intro t ht
      rcases hmem t ht with g | ⟨g1, g2, g3⟩
      · rw [e3 t (fun e => hnd (e ▸ g))]
        exact h.dying_status t g
      · rw [g1, e3 _ g2]
        exact g3
    · intro t ht hm
      rw [e4] at hm
      have hm2 := List.mem_of_mem_tail hm
      rcases hmem t ht with g | ⟨g1, -, g3⟩
      · exact h.dying_not_ready t g hm2
      · rw [g1] at hm2
        exact (hd g3).2.1 hm2
    · intro t ht
      rw [e5]
      rcases hmem t ht with g | ⟨g1, -, g3⟩
      · exact h.dying_not_idle t g
      · rw [g1]
        exact (hd g3).2.2

/-- Giving the running thread a status other than THREAD_RUNNING and
THREAD_DYING. -/
theorem leave_status_keeps (s : kernel) (st : thread_status)
    (hr : (s.threads s.running).status = .THREAD_RUNNING) (hst : st ≠ .THREAD_RUNNING) :
    keeps s (set_thread s s.running { s.threads s.running with status := st }) := by
  refine ⟨?_, ?_⟩
  · intro h t ht
    by_cases htr : t = s.running
    · subst htr
      simp [set_thread] at ht
      exact absurd ht hst
    · exact h t (by simpa [set_thread, htr] using ht)
  · intro h
    have hrd : s.running ∉ s.destruction_req := by
      intro hm
      have := h.dying_status _ hm
      rw [hr] at this
      cases this
    refine ⟨h.dying_nodup, ?_, h.dying_not_ready, h.dying_not_idle⟩
    intro t ht
    have htr : t ≠ s.running := fun e => hrd (e ▸ ht)
    simpa [set_thread, htr] using h.dying_status t ht

/-- The function thread_block. -/
theorem thread_block_keeps (k : List frame) (s s1 : kernel) (hx : thread_block k s = some s1) :
    keeps s s1 := by
  unfold thread_block at hx
  split_ifs at hx
  unfold thread_current at hx
  split_ifs at hx with hr
  simp only at hx
  refine keeps_trans s _ s1 (leave_status_keeps s .THREAD_BLOCKED hr (by decide))
    (schedule_keeps k _ s1 hx ?_)
  intro hd
  simp [set_thread] at hd

/-- The function do_schedule.  When the new status is THREAD_DYING, the caller is
off the ready list and is not the idle thread. -/
theorem do_schedule_keeps (st : thread_status) (k : List frame) (s s1 : kernel)
    (hx : do_schedule st k s = some s1)
    (hd : st = .THREAD_DYING → s.running ∉ s.ready_list ∧ some s.running ≠ s.idle_thread) :
    keeps s s1 := by
  unfold do_schedule at hx
  unfold thread_current at hx
  split_ifs at hx with hr
  simp only at hx
  have hA : keeps s (set_thread { s with destruction_req := [] } s.running
      { s.threads s.running with status := st }) := by
    refine ⟨?_, ?_⟩
    · intro h t ht
      by_cases htr : t = s.running
      · exact htr
      · exact h t (by simpa [set_thread, htr] using ht)
    · intro _
      exact ⟨List.nodup_nil, fun t ht => absurd ht (List.not_mem_nil t),
        fun t ht => absurd ht (List.not_mem_nil t), fun t ht => absurd ht (List.not_mem_nil t)⟩
  refine keeps_trans s _ s1 hA (schedule_keeps k _ s1 hx ?_)
  intro h2
  have hst : st = .THREAD_DYING := by simpa [set_thread] using h2
  exact ⟨List.not_mem_nil _, (hd hst).1, (hd hst).2⟩

/-- The function thread_yield. -/
theorem thread_yield_keeps (k : List frame) (s s1 : kernel) (hx : thread_yield k s = some s1) :
    keeps s s1 := by
  unfold thread_yield at hx
  cases hc : thread_current s with
  | none => simp [hc] at hx
  | some cur =>
  unfold thread_current at hc
  split_ifs at hc with hr
  cases hc
  simp only [thread_current, hr, if_true] at hx
  split_ifs at hx with hi hidle
  · have hA : keeps s
        { s with ready_list := list_insert_ordered (sort_priority s) s.running s.ready_list } := by
      refine ⟨fun h => h, ?_⟩
      intro h
      have hrd : s.running ∉ s.destruction_req := by
        intro hm
        have := h.dying_status _ hm
        rw [hr] at this
        cases this
      refine ⟨h.dying_nodup, h.dying_status, ?_, h.dying_not_idle⟩
      intro t ht hm
      have hm2 : t ∈ list_insert_ordered (sort_priority s) s.running s.ready_list := hm
      rcases List.mem_cons.mp ((list_insert_ordered_perm _ _ _).mem_iff.mp hm2) with g | g
      · exact hrd (g ▸ ht)
      · exact h.dying_not_ready t ht g
    exact keeps_trans s _ s1 hA (do_schedule_keeps .THREAD_READY k _ s1 hx (by intro e; cases e))
  · exact do_schedule_keeps .THREAD_READY k s s1 hx (by intro e; cases e)

/-- The function change_list. -/
theorem change_list_keeps (k : List frame) (s s1 : kernel) (hx : change_list k s = some s1) :
    keeps s s1 := by
  unfold change_list at hx
  cases hc : thread_current s with
  | none => simp [hc] at hx
  | some cur =>
    simp only [hc] at hx
    cases hl : s.ready_list with
    | nil =>
      simp only [hl, Option.some.injEq] at hx
      subst hx
      exact keeps_refl s
    | cons f rest =>
      simp only [hl] at hx
      split_ifs at hx
      · exact thread_yield_keeps k s s1 hx
      · simp only [Option.some.injEq] at hx
        subst hx
        exact keeps_refl s

/-- The loop of sema_down. -/
theorem sema_down_loop_keeps (r : sema_ref) (k : List frame) (s s1 : kernel)
    (hx : sema_down_loop r k s = some s1) : keeps s s1 := by
  unfold sema_down_loop at hx
  split_ifs at hx with hv
  · cases hc : thread_current s with
    | none => simp [hc] at hx
    | some cur =>
      simp only [hc] at hx
      cases hb : thread_block (frame.sema_down_loop r :: k)
          (set_sema s r { get_sema s r with
            waiters := list_insert_ordered (sort_priority s) cur (get_sema s r).waiters }) with
      | none => simp [hb] at hx
      | some s2 =>
        simp only [hb] at hx
        split_ifs at hx
        simp only [Option.some.injEq] at hx
        subst hx
        exact keeps_trans s _ s2 (set_sema_keeps s r _) (thread_block_keeps _ _ s2 hb)
  · simp only [Option.some.injEq] at hx
    subst hx
    exact set_sema_keeps s r _

/-- The function sema_down. -/
theorem sema_down_keeps (r : sema_ref) (k : List frame) (s s1 : kernel)
    (hx : sema_down r k s = some s1) : keeps s s1 := by
  unfold sema_down at hx
  split_ifs at hx
  exact sema_down_loop_keeps r k s s1 hx

/-- The function sema_try_down. -/
theorem sema_try_down_keeps (r : sema_ref) (s : kernel) : keeps s (sema_try_down r s).1 := by
  unfold sema_try_down
  split_ifs
  · exact set_sema_keeps s r _
  · exact keeps_refl s

/-- The function sema_up. -/
theorem sema_up_keeps (r : sema_ref) (k : List frame) (s s1 : kernel)
    (hx : sema_up r k s = some s1) : keeps s s1 := by
  unfold sema_up at hx
  cases hs : list_sort (sort_priority s) (get_sema s r).waiters with
  | none => simp [hs] at hx
  | some ys =>
    cases ys with
    | nil =>
      simp only [hs] at hx
      exact keeps_trans s _ s1 (set_sema_keeps s r _) (change_list_keeps k _ s1 hx)
    | cons t rest =>
      simp only [hs] at hx
      cases hu : thread_unblock t (set_sema s r { get_sema s r with waiters := rest }) with
      | none => simp [hu] at hx
      | some s2 =>
        simp only [hu] at hx
        exact keeps_trans s _ s1 (set_sema_keeps s r _)
          (keeps_trans _ s2 s1 (thread_unblock_keeps t _ s2 hu).1
            (keeps_trans s2 _ s1 (set_sema_keeps s2 r _) (change_list_keeps k _ s1 hx)))

/-- The loop of donate_priority. -/
theorem donate_priority_loop_keeps (n : Nat) (l : Option Nat) (t : Nat) (s : kernel) :
    keeps s (donate_priority_loop n l t s) := by
  induction n generalizing l s with
  | zero => exact keeps_refl s
  | succ n ih =>
    cases l with
    | none => exact keeps_refl s
    | some l0 =>
      simp only [donate_priority_loop]
      cases hh : (s.locks l0).holder with
      | none => exact keeps_refl s
      | some h =>
        simp only
        split_ifs
        · refine keeps_trans s _ _ ?_ (ih _ _)
          exact set_thread_keeps s h _ rfl
        · exact ih _ s

/-- The two statements of lock_acquire after sema_down. -/
theorem lock_acquire_tail_keeps (l : Nat) (s : kernel) : keeps s (lock_acquire_tail l s) := by
  unfold lock_acquire_tail
  refine keeps_trans s (set_lock s l { s.locks l with holder := some s.running }) _
    (set_lock_keeps s l _) ?_
  exact set_thread_keeps (set_lock s l { s.locks l with holder := some s.running }) s.running _
    rfl

/-- The function lock_acquire. -/
theorem lock_acquire_keeps (l : Nat) (k : List frame) (s s1 : kernel)
    (hx : lock_acquire l k s = some s1) : keeps s s1 := by
  unfold lock_acquire at hx
  cases hc : thread_current s with
  | none => simp [hc] at hx
  | some cur =>
    simp only [hc] at hx
    split_ifs at hx with hi hh hn
    · -- the holder is another thread: donate_priority
      cases hd : donate_priority (set_thread s cur { s.threads cur with wait_on_lock := some l })
        with
      | none => simp [hd] at hx
      | some s2 =>
        simp only [hd] at hx
        have hA : keeps s s2 := by
          unfold donate_priority at hd
          cases hc2 : thread_current
              (set_thread s cur { s.threads cur with wait_on_lock := some l }) with
          | none => simp [hc2] at hd
          | some t =>
            simp only [hc2, Option.some.injEq] at hd
            subst hd
            refine keeps_trans s _ _ ?_ (donate_priority_loop_keeps _ _ _ _)
            exact set_thread_keeps s cur _ rfl
        cases hsd : sema_down (.lock_sema l) (frame.lock_acquire_tail l :: k) s2 with
        | none => simp [hsd] at hx
        | some s3 =>
          simp only [hsd] at hx
          have hB := keeps_trans s s2 s3 hA (sema_down_keeps _ _ s2 s3 hsd)
          split_ifs at hx
          · simp only [Option.some.injEq] at hx
            subst hx
            exact keeps_trans s s3 _ hB (lock_acquire_tail_keeps l s3)
          · simp only [Option.some.injEq] at hx
            subst hx
            exact hB
    · simp only at hx
      cases hsd : sema_down (.lock_sema l) (frame.lock_acquire_tail l :: k)
          (set_thread s cur { s.threads cur with wait_on_lock := some l }) with
      | none => simp [hsd] at hx
      | some s3 =>
        simp only [hsd] at hx
        have hB : keeps s s3 := by
          refine keeps_trans s _ s3 ?_ (sema_down_keeps _ _ _ s3 hsd)
          exact set_thread_keeps s cur _ rfl
        split_ifs at hx
        · simp only [Option.some.injEq] at hx
          subst hx
          exact keeps_trans s s3 _ hB (lock_acquire_tail_keeps l s3)
        · simp only [Option.some.injEq] at hx
          subst hx
          exact hB

/-- The function lock_try_acquire. -/
theorem lock_try_acquire_keeps (l : Nat) (s : kernel) (r : kernel × Bool)
    (hx : lock_try_acquire l s = some r) : keeps s r.1 := by
  unfold lock_try_acquire at hx
  cases hc : thread_current s with
  | none => simp [hc] at hx
  | some cur =>
    simp only [hc] at hx
    split_ifs at hx
    · simp only [Option.some.injEq] at hx
      subst hx
      exact keeps_trans s _ _ (sema_try_down_keeps (.lock_sema l) s) (set_lock_keeps _ l _)
    · simp only [Option.some.injEq] at hx
      subst hx
      exact sema_try_down_keeps (.lock_sema l) s

/-- The function lock_release. -/
theorem lock_release_keeps (l : Nat) (k : List frame) (s s1 : kernel)
    (hx : lock_release l k s = some s1) : keeps s s1 := by
  unfold lock_release at hx
  cases hc : thread_current s with
  | none => simp [hc] at hx
  | some cur =>
    simp only [hc] at hx
    split_ifs at hx with hh
    cases hd : (s.threads cur).donations with
    | zeroed => simp [hd] at hx
    | mk ds =>
      simp only [hd] at hx
      cases hrm : remove_donors s l ds with
      | nil =>
        simp only [hrm] at hx
        refine keeps_trans s _ s1 ?_ (sema_up_keeps _ k _ s1 hx)
        refine keeps_trans s _ _ ?_ (set_lock_keeps _ l _)
        exact set_thread_keeps s cur _ rfl
      | cons d ds1 =>
        simp only [hrm] at hx
        cases hs : list_sort (sort_donate_priority s) (d :: ds1) with
        | none => simp [hs] at hx
        | some ys =>
          cases ys with
          | nil => simp [hs] at hx
          | cons f fs =>
            simp only [hs] at hx
            refine keeps_trans s _ s1 ?_ (sema_up_keeps _ k _ s1 hx)
            refine keeps_trans s _ _ ?_ (set_lock_keeps _ l _)
            exact set_thread_keeps s cur _ rfl

/-- The function thread_set_priority. -/
theorem thread_set_priority_keeps (p : Int) (k : List frame) (s s1 : kernel)
    (hx : thread_set_priority p k s = some s1) : keeps s s1 := by
  unfold thread_set_priority at hx
  cases hc : thread_current s with
  | none => simp [hc] at hx
  | some cur =>
    simp only [hc] at hx
    refine keeps_trans s _ s1 ?_ (change_list_keeps k _ s1 hx)
    exact set_thread_keeps s cur _ rfl

/-- The statements of allocate_tid after lock_acquire. -/
theorem allocate_tid_tail_keeps (dst : Nat) (k : List frame) (s s1 : kernel)
    (hx : allocate_tid_tail dst k s = some s1) : keeps s s1 := by
  unfold allocate_tid_tail at hx
  refine keeps_trans s _ s1 ?_ (lock_release_keeps tid_lock k _ s1 hx)
  refine keeps_congr s _ ?_ rfl rfl rfl rfl
  intro x
  simp only [set_thread]
  split_ifs with hxd
  · rw [hxd]
  · rfl

/-- The function allocate_tid. -/
theorem allocate_tid_keeps (dst : Nat) (k : List frame) (s s1 : kernel)
    (hx : allocate_tid dst k s = some s1) : keeps s s1 := by
  unfold allocate_tid at hx
  cases ha : lock_acquire tid_lock (frame.allocate_tid_tail dst :: k) s with
  | none => simp [ha] at hx
  | some s2 =>
    simp only [ha] at hx
    have hA := lock_acquire_keeps _ _ s s2 ha
    split_ifs at hx
    · exact keeps_trans s s2 s1 hA (allocate_tid_tail_keeps dst k s2 s1 hx)
    · simp only [Option.some.injEq] at hx
      subst hx
      exact hA

/-- The statements of thread_create after allocate_tid. -/
theorem thread_create_tail_keeps (t : Nat) (k : List frame) (s s1 : kernel)
    (hx : thread_create_tail t k s = some s1) : keeps s s1 := by
  unfold thread_create_tail at hx
  cases hu : thread_unblock t s with
  | none => simp [hu] at hx
  | some s2 =>
    simp only [hu] at hx
    exact keeps_trans s s2 s1 (thread_unblock_keeps t s s2 hu).1 (change_list_keeps k s2 s1 hx)

/-- The function init_thread on a page that is not waiting on the destruction
list. -/
theorem init_thread_keeps (t : Nat) (p : Int) (s s1 : kernel)
    (hx : init_thread t p s = some s1) :
    (one_running s → one_running s1)
      ∧ (dying_inv s → t ∉ s.destruction_req → dying_inv s1) := by
  unfold init_thread at hx
  split_ifs at hx
  simp only [Option.some.injEq] at hx
  subst hx
  refine ⟨?_, ?_⟩
  · intro h x hx2
    by_cases hxt : x = t
    · subst hxt
      simp [set_thread] at hx2
    · exact h x (by simpa [set_thread, hxt] using hx2)
  · intro h ht
    refine ⟨h.dying_nodup, ?_, h.dying_not_ready, h.dying_not_idle⟩
    intro x hx2
    have hxt : x ≠ t := fun e => ht (e ▸ hx2)
    simpa [set_thread, hxt] using h.dying_status x hx2

/-- The function thread_create with a page that is not waiting on the destruction
list. -/
theorem thread_create_keeps (page : Option Nat) (p : Int) (k : List frame) (s s1 : kernel)
    (hx : thread_create page p k s = some s1) :
    (one_running s → one_running s1)
      ∧ (dying_inv s → (∀ t, page = some t → t ∉ s.destruction_req) → dying_inv s1) := by
  unfold thread_create at hx
  cases page with
  | none =>
    simp only [Option.some.injEq] at hx
    subst hx
    exact ⟨id, fun h _ => h⟩
  | some t =>
    simp only at hx
    cases hi : init_thread t p s with
    | none => simp [hi] at hx
    | some s2 =>
      simp only [hi] at hx
      obtain ⟨a1, a2⟩ := init_thread_keeps t p s s2 hi
      cases ha : allocate_tid t (frame.thread_create_tail t :: k) s2 with
      | none => simp [ha] at hx
      | some s3 =>
        simp only [ha] at hx
        have hB := allocate_tid_keeps t _ s2 s3 ha
        have hC : keeps s2 s1 := by
          split_ifs at hx
          · exact keeps_trans s2 s3 s1 hB (thread_create_tail_keeps t k s3 s1 hx)
          · simp only [Option.some.injEq] at hx
            subst hx
            exact hB
        exact ⟨fun h => hC.1 (a1 h), fun h hp => hC.2 (a2 h (hp t rfl))⟩

/-- The function thread_sleep. -/
theorem thread_sleep_keeps (tick : Int) (k : List frame) (s s1 : kernel)
    (hx : thread_sleep tick k s = some s1) : keeps s s1 := by
  unfold thread_sleep at hx
  cases hc : thread_current s with
  | none => simp [hc] at hx
  | some cur =>
    simp only [hc] at hx
    split_ifs at hx
    · refine keeps_trans s _ s1 ?_ (thread_block_keeps k _ s1 hx)
      refine keeps_congr s _ ?_ rfl rfl rfl rfl
      intro x
      simp only [set_thread]
      split_ifs with hxc
      · rw [hxc]
      · rfl
    · simp only [Option.some.injEq] at hx
      subst hx
      exact keeps_refl s

/-- The function timer_sleep. -/
theorem timer_sleep_keeps (n : Int) (k : List frame) (s s1 : kernel)
    (hx : timer_sleep n k s = some s1) : keeps s s1 := by
  unfold timer_sleep at hx
  split_ifs at hx
  exact thread_sleep_keeps _ k s s1 hx

/-- The loop of thread_wakeup. -/
theorem thread_wakeup_loop_keeps (tick : Int) (sl : List Nat) (s s1 : kernel)
    (hx : thread_wakeup_loop tick sl s = some s1) : keeps s s1 := by
  induction sl generalizing s with
  | nil =>
    simp only [thread_wakeup_loop, Option.some.injEq] at hx
    subst hx
    exact keeps_congr s _ (fun _ => rfl) rfl rfl rfl rfl
  | cons t rest ih =>
    simp only [thread_wakeup_loop] at hx
    split_ifs at hx
    · cases hu : thread_unblock t { s with sleep_list := rest } with
      | none => simp [hu] at hx
      | some s2 =>
        simp only [hu] at hx
        refine keeps_trans s _ s1 ?_
          (keeps_trans _ s2 s1 (thread_unblock_keeps t _ s2 hu).1 (ih s2 hx))
        exact keeps_congr s _ (fun _ => rfl) rfl rfl rfl rfl
    · simp only [Option.some.injEq] at hx
      subst hx
      exact keeps_congr s _ (fun _ => rfl) rfl rfl rfl rfl

/-- The function thread_wakeup. -/
theorem thread_wakeup_keeps (tick : Int) (s s1 : kernel)
    (hx : thread_wakeup tick s = some s1) : keeps s s1 :=
  thread_wakeup_loop_keeps tick s.sleep_list s s1 hx

/-- The function thread_tick. -/
theorem thread_tick_keeps (s s1 : kernel) (hx : thread_tick s = some s1) : keeps s s1 := by
  unfold thread_tick at hx
  cases hc : thread_current s with
  | none => simp [hc] at hx
  | some cur =>
    simp only [hc, intr_yield_on_return] at hx
    split_ifs at hx <;> simp only [Option.some.injEq] at hx <;> subst hx <;>
      exact keeps_congr s _ (fun _ => rfl) rfl rfl rfl rfl

/-- The function timer_interrupt. -/
theorem timer_interrupt_keeps (s s1 : kernel) (hx : timer_interrupt s = some s1) :
    keeps s s1 := by
  unfold timer_interrupt at hx
  split_ifs at hx
  cases ht : thread_tick { s with ticks := s.ticks + 1 } with
  | none => simp [ht] at hx
  | some s2 =>
    simp only [ht] at hx
    refine keeps_trans s _ s1 ?_
      (keeps_trans _ s2 s1 (thread_tick_keeps _ s2 ht) (thread_wakeup_keeps _ s2 s1 hx))
    exact keeps_congr s _ (fun _ => rfl) rfl rfl rfl rfl

/-- An external interrupt handler, run by intr_handler. -/
theorem intr_handler_keeps (handler : kernel → Option kernel) (k : List frame) (s s1 : kernel)
    (hh : ∀ a b, handler a = some b → keeps a b)
    (hx : intr_handler handler k s = some s1) : keeps s s1 := by
  unfold intr_handler at hx
  split_ifs at hx
  cases hr : handler { s with intr_context := true, yield_on_return := false } with
  | none => simp [hr] at hx
  | some s2 =>
    simp only [hr] at hx
    have hA : keeps s s2 := by
      refine keeps_trans s _ s2 ?_ (hh _ s2 hr)
      exact keeps_congr s _ (fun _ => rfl) rfl rfl rfl rfl
    have hB : keeps s { s2 with intr_context := false } :=
      keeps_trans s s2 _ hA (keeps_congr s2 _ (fun _ => rfl) rfl rfl rfl rfl)
    split_ifs at hx
    · exact keeps_trans s _ s1 hB (thread_yield_keeps k _ s1 hx)
    · simp only [Option.some.injEq] at hx
      subst hx
      exact hB

/-- The function sema_init. -/
theorem sema_init_keeps (r : sema_ref) (v : Nat) (s : kernel) : keeps s (sema_init r v s) :=
  set_sema_keeps s r _

/-- The function lock_init. -/
theorem lock_init_keeps (l : Nat) (s : kernel) : keeps s (lock_init l s) :=
  set_lock_keeps s l _

/-- The function thread_exit, called by a thread that is off the ready list and
is not the idle thread. -/
theorem thread_exit_keeps (k : List frame) (s s1 : kernel)
    (hd : s.running ∉ s.ready_list ∧ some s.running ≠ s.idle_thread)
    (hx : thread_exit k s = some s1) : keeps s s1 := by
  unfold thread_exit at hx
  split_ifs at hx
  cases hs : do_schedule .THREAD_DYING k s with
  | none => simp [hs] at hx
  | some s2 =>
    simp only [hs] at hx
    split_ifs at hx
    simp only [Option.some.injEq] at hx
    subst hx
    exact do_schedule_keeps .THREAD_DYING k s s2 hs (fun _ => hd)

/-- The statements of cond_wait after lock_release. -/
theorem cond_wait_down_keeps (w l : Nat) (k : List frame) (s s1 : kernel)
    (hx : cond_wait_down w l k s = some s1) : keeps s s1 := by
  unfold cond_wait_down at hx
  cases hd : sema_down (.sema w) (frame.cond_wait_acquire l :: k) s with
  | none => simp [hd] at hx
  | some s2 =>
    simp only [hd] at hx
    have hA := sema_down_keeps _ _ s s2 hd
    split_ifs at hx
    · exact keeps_trans s s2 s1 hA (lock_acquire_keeps l k s2 s1 hx)
    · simp only [Option.some.injEq] at hx
      subst hx
      exact hA

/-- The function cond_wait. -/
theorem cond_wait_keeps (c l w : Nat) (k : List frame) (s s1 : kernel)
    (hx : cond_wait c l w k s = some s1) : keeps s s1 := by
  unfold cond_wait at hx
  split_ifs at hx
  cases hc : thread_current s with
  | none => simp [hc] at hx
  | some cur =>
    simp only [hc] at hx
    split_ifs at hx
    cases hr : lock_release l (frame.cond_wait_down w l :: k)
        (set_cond (sema_init (.sema w) 0 s) c
          (list_insert_ordered (sort_donate_priority_sema (sema_init (.sema w) 0 s))
            { semaphore := w, thread := cur } ((sema_init (.sema w) 0 s).conds c))) with
    | none => simp [hr] at hx
    | some s3 =>
      simp only [hr] at hx
      have hA : keeps s s3 :=
        keeps_trans s _ s3
          (keeps_trans s _ _ (sema_init_keeps (.sema w) 0 s) (set_cond_keeps _ c _))
          (lock_release_keeps l _ _ s3 hr)
      split_ifs at hx
      · exact keeps_trans s s3 s1 hA (cond_wait_down_keeps w l k s3 s1 hx)
      · simp only [Option.some.injEq] at hx
        subst hx
        exact hA

/-- The function cond_signal. -/
theorem cond_signal_keeps (c l : Nat) (k : List frame) (s s1 : kernel)
    (hx : cond_signal c l k s = some s1) : keeps s s1 := by
  by_cases hne : s.conds c = []
  · unfold cond_signal at hx
    split_ifs at hx
    cases hc : thread_current s with
    | none => simp [hc] at hx
    | some cur =>
      simp only [hc] at hx
      split_ifs at hx
      simp only [hne, Option.some.injEq] at hx
      subst hx
      exact keeps_refl s
  · obtain ⟨f, fs, -, hu⟩ := cond_signal_step c l k s s1 hx hne
    exact keeps_trans s _ s1 (set_cond_keeps s c fs) (sema_up_keeps _ k _ s1 hu)

/-- The loop of cond_broadcast. -/
theorem cond_broadcast_loop_keeps (c l : Nat) (k : List frame) (n : Nat) (s s1 : kernel)
    (hx : cond_broadcast_loop c l k n s = some s1) : keeps s s1 := by
  induction n generalizing s with
  | zero => simp [cond_broadcast_loop] at hx
  | succ n ih =>
    simp only [cond_broadcast_loop] at hx
    cases hc : s.conds c with
    | nil =>
      simp only [hc, Option.some.injEq] at hx
      subst hx
      exact keeps_refl s
    | cons e es =>
      simp only [hc] at hx
      cases hs : cond_signal c l (frame.cond_broadcast_loop c l :: k) s with
      | none => simp [hs] at hx
      | some s2 =>
        simp only [hs] at hx
        have hA := cond_signal_keeps c l _ s s2 hs
        split_ifs at hx
        · exact keeps_trans s s2 s1 hA (ih s2 hx)
        · simp only [Option.some.injEq] at hx
          subst hx
          exact hA

/-- The function cond_broadcast. -/
theorem cond_broadcast_keeps (c l : Nat) (k : List frame) (s s1 : kernel)
    (hx : cond_broadcast c l k s = some s1) : keeps s s1 :=
  cond_broadcast_loop_keeps c l k _ s s1 hx

/-- One saved frame. -/
theorem run_frame_keeps (f : frame) (k : List frame) (s s1 : kernel)
    (hx : run_frame f k s = some s1) : keeps s s1 := by
  cases f with
  | sema_down_loop r => exact sema_down_loop_keeps r k s s1 hx
  | lock_acquire_tail l =>
    simp only [run_frame, Option.some.injEq] at hx
    subst hx
    exact lock_acquire_tail_keeps l s
  | allocate_tid_tail d => exact allocate_tid_tail_keeps d k s s1 hx
  | thread_create_tail t => exact thread_create_tail_keeps t k s s1 hx
  | cond_wait_down w l => exact cond_wait_down_keeps w l k s s1 hx
  | cond_wait_acquire l => exact lock_acquire_keeps l k s s1 hx
  | cond_broadcast_loop c l => exact cond_broadcast_keeps c l k s s1 hx

/-- The saved frames of a thread. -/
theorem run_frames_keeps (k : List frame) (s s1 : kernel)
    (hx : run_frames k s = some s1) : keeps s s1 := by
  induction k generalizing s with
  | nil =>
    simp only [run_frames, Option.some.injEq] at hx
    subst hx
    exact keeps_refl s
  | cons f k ih =>
    simp only [run_frames] at hx
    cases hf : run_frame f k s with
    | none => simp [hf] at hx
    | some s2 =>
      simp only [hf] at hx
      have hA := run_frame_keeps f k s s2 hf
      split_ifs at hx
      · exact keeps_trans s s2 s1 hA (ih s2 hx)
      · simp only [Option.some.injEq] at hx
        subst hx
        exact hA

/-- The function resume. -/
theorem resume_keeps (s s1 : kernel) (hx : resume s = some s1) : keeps s s1 := by
  unfold resume at hx
  refine keeps_trans s _ s1 ?_ (run_frames_keeps _ _ s1 hx)
  exact set_thread_keeps s s.running _ rfl

/-- One public operation, called in a state that satisfies the invariant of the
queues by a thread that may call it. -/
theorem do_call_keeps (c : call) (s s1 : kernel) (h : kernel_inv s) (hok : call_ok c s)
    (hx : do_call c s = some s1) :
    (one_running s → one_running s1) ∧ (dying_inv s → page_free c s → dying_inv s1) := by
  have key : keeps s s1 →
      (one_running s → one_running s1) ∧ (dying_inv s → page_free c s → dying_inv s1) :=
    fun hk => ⟨hk.1, fun hd _ => hk.2 hd⟩
  cases c with
  | thread_create page p =>
    obtain ⟨a1, a2⟩ := thread_create_keeps page p [] s s1 hx
    refine ⟨a1, fun hd hp => a2 hd ?_⟩
    intro t ht
    subst ht
    exact hp
  | thread_yield => exact key (thread_yield_keeps [] s s1 hx)
  | thread_set_priority p => exact key (thread_set_priority_keeps p [] s s1 hx)
  | sema_down r => exact key (sema_down_keeps r [] s s1 hx)
  | sema_try_down r =>
    simp only [do_call, Option.some.injEq] at hx
    subst hx
    exact key (sema_try_down_keeps r s)
  | sema_up r => exact key (sema_up_keeps r [] s s1 hx)
  | lock_acquire l => exact key (lock_acquire_keeps l [] s s1 hx)
  | lock_try_acquire l =>
    simp only [do_call] at hx
    cases ha : lock_try_acquire l s with
    | none => simp [ha] at hx
    | some r =>
      simp only [ha, Option.some.injEq] at hx
      subst hx
      exact key (lock_try_acquire_keeps l s r ha)
  | lock_release l => exact key (lock_release_keeps l [] s s1 hx)
  | sema_init r v =>
    simp only [do_call, Option.some.injEq] at hx
    subst hx
    exact key (sema_init_keeps r v s)
  | lock_init l =>
    simp only [do_call, Option.some.injEq] at hx
    subst hx
    exact key (lock_init_keeps l s)
  | cond_init c =>
    simp only [do_call, Option.some.injEq] at hx
    subst hx
    exact key (set_cond_keeps s c [])
  | cond_wait c l w => exact key (cond_wait_keeps c l w [] s s1 hx)
  | cond_signal c l => exact key (cond_signal_keeps c l [] s s1 hx)
  | cond_broadcast c l => exact key (cond_broadcast_keeps c l [] s s1 hx)
  | timer_sleep n => exact key (timer_sleep_keeps n [] s s1 hx)
  | timer_interrupt =>
    exact key (intr_handler_keeps timer_interrupt [] s s1 timer_interrupt_keeps hx)
  | thread_exit =>
    exact key (thread_exit_keeps [] s s1 ⟨(running_off_lists s h).1, hok⟩ hx)

/-- One step of a run. -/
theorem exec_keeps (c : call) (s s2 : kernel) (h : kernel_inv s)
    (hok : ∀ s1, resume s = some s1 → s1.running = s.running → call_ok c s1)
    (hx : exec c s = some s2) :
    (one_running s → one_running s2)
      ∧ (dying_inv s →
          (∀ s1, resume s = some s1 → s1.running = s.running → page_free c s1) →
          dying_inv s2) := by
  unfold exec at hx
  cases hr : resume s with
  | none => simp [hr] at hx
  | some s1 =>
    simp only [hr] at hx
    have hA := resume_keeps s s1 hr
    obtain ⟨g1, -⟩ := resume_inv s s1 h hr
    split_ifs at hx with hrun
    · obtain ⟨q1, q2⟩ := do_call_keeps c s1 s2 g1 (hok s1 hr hrun) hx
      exact ⟨fun hu => q1 (hA.1 hu), fun hd hp => q2 (hA.2 hd) (hp s1 rfl hrun)⟩
    · simp only [Option.some.injEq] at hx
      subst hx
      exact ⟨hA.1, fun hd _ => hA.2 hd⟩

theorem kernel_inv_ex_exit : kernel_inv ex_exit := by
  have hb : ∀ c, blocked_on ex_exit c = [] := by
    intro c
    cases c with
    | none => rfl
    | some r => cases r <;> rfl
  have hc : ∀ x, (ex_exit.threads x).cont = [] := by
    intro x
    simp only [ex_exit, ex_sleepers]
    split <;> rfl
  refine ⟨⟨by decide, by decide, ?_, ?_, ?_, ?_, ?_, ?_, ?_, ?_⟩, by decide⟩
  · intro c t ht; rw [hb] at ht; cases ht
  · intro c; rw [hb]; exact List.nodup_nil
  · intro c c1 _ t ht; rw [hb] at ht; cases ht
  · exact List.Pairwise.nil
  · intro i _
    refine ⟨?_, hc i⟩
    intro c hm; rw [hb] at hm; cases hm
  · intro x t ht; rw [hc] at ht; cases ht
  · intro x; rw [hc]; exact List.nodup_nil
  · intro x y t ht; rw [hc] at ht; cases ht

theorem one_running_ex_exit : one_running ex_exit := by
  intro t ht
  simp only [ex_exit, ex_sleepers] at ht ⊢
  split at ht <;> simp_all [mk_thread]

theorem dying_inv_ex_exit : dying_inv ex_exit :=
  ⟨List.nodup_nil, fun t ht => absurd ht (List.not_mem_nil t),
    fun t ht => absurd ht (List.not_mem_nil t), fun t ht => absurd ht (List.not_mem_nil t)⟩

/-! ## Theorems: one running thread and one list per thread, between operations -/

/-- C24: the invariant of the queues together with "no thread other than the
running thread is RUNNING" is inductive over the steps of a run (one public
operation: thread_create, thread_yield, thread_set_priority, the semaphore, lock
and condition variable operations with their calls of thread_block and
thread_unblock, timer_sleep, the timer interrupt, thread_exit, called by the
running thread after it finished the kernel work it was switched out in).  In
the state after the step, whether the operation returned or the caller was
blocked or switched out, exactly one thread has status THREAD_RUNNING: the
thread `running`, and it is not on the ready list.  The same holds after a
direct call of thread_block by the running thread and after a direct call of
thread_unblock. -/
theorem one_running_invariant (c : call) (s s2 : kernel) (hinv : kernel_inv s)
    (hone : one_running s)
    (hok : ∀ s1, resume s = some s1 → s1.running = s.running → call_ok c s1)
    (he : exec c s = some s2) :
    (kernel_inv s2 ∧ one_running s2
      ∧ (∃! t, (s2.threads t).status = .THREAD_RUNNING)
      ∧ (s2.threads s2.running).status = .THREAD_RUNNING
      ∧ s2.running ∉ s2.ready_list)
    ∧ (∀ s1, thread_block [] s = some s1 →
        (∃! t, (s1.threads t).status = .THREAD_RUNNING)
          ∧ (s1.threads s1.running).status = .THREAD_RUNNING
          ∧ s1.running ∉ s1.ready_list)
    ∧ (∀ t s1, thread_unblock t s = some s1 →
        (∃! t, (s1.threads t).status = .THREAD_RUNNING)
          ∧ (s1.threads s1.running).status = .THREAD_RUNNING
          ∧ s1.running ∉ s1.ready_list) := by
  have h2 := (exec_inv c s s2 hinv hok he).1
  have h3 := (exec_keeps c s s2 hinv hok he).1 hone
  refine ⟨⟨h2, h3, ⟨s2.running, h2.2, fun t ht => h3 t ht⟩, h2.2, (running_off_lists s2 h2).1⟩,
    ?_, ?_⟩
  · intro s1 hb
    have hA : step_ok s s1 :=
      thread_block_inv [] s s s1 none hinv
        ⟨List.nodup_nil, fun t ht => absurd ht (List.not_mem_nil t)⟩ (fun _ => rfl) rfl
        (fun _ _ => rfl) (fun _ _ => rfl) (fun _ => rfl) rfl rfl (fun c t ht => Or.inl ht)
        hinv.1.blocked_nodup hinv.1.sleep_sorted hb
    have hB := (thread_block_keeps [] s s1 hb).1 hone
    exact ⟨⟨s1.running, hA.1.2, fun t ht => hB t ht⟩, hA.1.2, (running_off_lists s1 hA.1).1⟩
  · intro t s1 hu
    obtain ⟨hB, hr⟩ := thread_unblock_keeps t s s1 hu
    have hB1 := hB.1 hone
    unfold thread_unblock at hu
    split_ifs at hu with hb
    simp only [Option.some.injEq] at hu
    subst hu
    have hne : s.running ≠ t := by
      intro e
      have := hinv.2
      rw [e, hb] at this
      cases this
    have hst : ((set_thread
        { s with ready_list := list_insert_ordered (sort_priority s) t s.ready_list } t
        { s.threads t with status := .THREAD_READY }).threads s.running).status
          = .THREAD_RUNNING := by
      simp [set_thread, hne, hinv.2]
    refine ⟨⟨s.running, hst, fun x hx => hB1 x hx⟩, hst, ?_⟩
    intro hm
    have hm2 : s.running ∈ list_insert_ordered (sort_priority s) t s.ready_list := hm
    rcases List.mem_cons.mp ((list_insert_ordered_perm _ _ _).mem_iff.mp hm2) with g | g
    · exact hne g
    · exact (running_off_lists s hinv).1 g

/-- C24 at a concrete state: thread 1 calls thread_yield in the state ex_exit;
thread 2 is then the one RUNNING thread and thread 1 is READY at the back of the
threads of its priority. -/
theorem one_running_invariant_witness :
    kernel_inv ex_exit ∧ one_running ex_exit
    ∧ (∀ s1, resume ex_exit = some s1 → s1.running = ex_exit.running →
        call_ok .thread_yield s1)
    ∧ ∃ s2, exec .thread_yield ex_exit = some s2
      ∧ (s2.running, s2.ready_list, [1, 2, 3, 4].map fun t => (s2.threads t).status)
          = (2, [3, 1, 4], [.THREAD_READY, .THREAD_RUNNING, .THREAD_READY, .THREAD_READY])
      ∧ ((kernel_inv s2 ∧ one_running s2
          ∧ (∃! t, (s2.threads t).status = .THREAD_RUNNING)
          ∧ (s2.threads s2.running).status = .THREAD_RUNNING
          ∧ s2.running ∉ s2.ready_list)
        ∧ (∀ s1, thread_block [] ex_exit = some s1 →
            (∃! t, (s1.threads t).status = .THREAD_RUNNING)
              ∧ (s1.threads s1.running).status = .THREAD_RUNNING
              ∧ s1.running ∉ s1.ready_list)
        ∧ (∀ t s1, thread_unblock t ex_exit = some s1 →
            (∃! t, (s1.threads t).status = .THREAD_RUNNING)
              ∧ (s1.threads s1.running).status = .THREAD_RUNNING
              ∧ s1.running ∉ s1.ready_list)) := by
  have hok : ∀ s1, resume ex_exit = some s1 → s1.running = ex_exit.running →
      call_ok .thread_yield s1 := by
    intro s1 h1 hr
    show some s1.running ≠ s1.idle_thread
    rw [hr, (resume_inv ex_exit s1 kernel_inv_ex_exit h1).2]
    decide
  have h2 : (exec .thread_yield ex_exit).map
      (fun s => (s.running, s.ready_list, [1, 2, 3, 4].map fun t => (s.threads t).status))
      = some (2, [3, 1, 4],
          [.THREAD_READY, .THREAD_RUNNING, .THREAD_READY, .THREAD_READY]) := by
    decide
  cases he : exec .thread_yield ex_exit with
  | none => rw [he] at h2; cases h2
  | some s2 =>
    rw [he] at h2
    exact ⟨kernel_inv_ex_exit, one_running_ex_exit, hok, s2, rfl, Option.some.inj h2,
      one_running_invariant .thread_yield ex_exit s2 kernel_inv_ex_exit one_running_ex_exit
        hok he⟩

/-- In a state that satisfies the invariant of the queues and the invariant of the
destruction list, no thread is on two of the lists that share its list element,
and none is twice on one of them. -/
theorem queues_disjoint (s : kernel) (h : kernel_inv s) (hd : dying_inv s) :
    (∀ q q1 t, t ∈ queue_of s q → t ∈ queue_of s q1 → q = q1)
      ∧ ∀ q, (queue_of s q).Nodup := by
  have hst : ∀ q t, t ∈ queue_of s q →
      (s.threads t).status = (match q with
        | .ready => .THREAD_READY
        | .sleep => .THREAD_BLOCKED
        | .waiters _ => .THREAD_BLOCKED
        | .destruction => .THREAD_DYING) := by
    intro q t ht
    cases q with
    | ready => exact h.1.ready_status t ht
    | sleep => exact h.1.blocked_status none t ht
    | waiters r => exact h.1.blocked_status (some r) t ht
    | destruction => exact hd.dying_status t ht
  refine ⟨?_, ?_⟩
  · intro q q1 t h1 h2
    have e1 := hst q t h1
    have e2 := hst q1 t h2
    cases q with
    | ready => cases q1 <;> simp_all
    | destruction => cases q1 <;> simp_all
    | sleep =>
      cases q1 with
      | ready => simp_all
      | destruction => simp_all
      | sleep => rfl
      | waiters r =>
        exact absurd h2 (h.1.blocked_disjoint none (some r) (by simp) t h1)
    | waiters r =>
      cases q1 with
      | ready => simp_all
      | destruction => simp_all
      | sleep =>
        exact absurd h2 (h.1.blocked_disjoint (some r) none (by simp) t h1)
      | waiters r1 =>
        by_cases hr : r = r1
        · rw [hr]
        · exact absurd h2 (h.1.blocked_disjoint (some r) (some r1)
            (fun e => hr (Option.some.inj e)) t h1)
  · intro q
    cases q with
    | ready => exact h.1.ready_nodup
    | sleep => exact h.1.blocked_nodup none
    | waiters r => exact h.1.blocked_nodup (some r)
    | destruction => exact hd.dying_nodup

/-- C25: the invariant of the queues together with the invariant of the destruction
list is inductive over the steps of a run (one public operation, called by the
running thread after it finished the kernel work it was switched out in; the
page that thread_create gets is not in use and not waiting on the destruction
list).  In the state after the step every thread is on at most one of the ready
list, the sleep list, the waiter lists of the semaphores (those embedded in locks
included) and the destruction list, and at most once on it. -/
theorem one_list_invariant (c : call) (s s2 : kernel) (hinv : kernel_inv s)
    (hd : dying_inv s)
    (hok : ∀ s1, resume s = some s1 → s1.running = s.running → call_ok c s1)
    (hpf : ∀ s1, resume s = some s1 → s1.running = s.running → page_free c s1)
    (he : exec c s = some s2) :
    kernel_inv s2 ∧ dying_inv s2
      ∧ (∀ q q1 t, t ∈ queue_of s2 q → t ∈ queue_of s2 q1 → q = q1)
      ∧ ∀ q, (queue_of s2 q).Nodup := by
  have h2 := (exec_inv c s s2 hinv hok he).1
  have h3 := (exec_keeps c s s2 hinv hok he).2 hd hpf
  exact ⟨h2, h3, queues_disjoint s2 h2 h3⟩

/-- C25 at a concrete state: thread 1 calls thread_exit in the state ex_exit;
afterwards it is on the destruction list and on no other list, and thread 2
runs. -/
theorem one_list_invariant_witness :
    kernel_inv ex_exit ∧ dying_inv ex_exit
    ∧ (∀ s1, resume ex_exit = some s1 → s1.running = ex_exit.running →
        call_ok .thread_exit s1)
    ∧ (∀ s1, resume ex_exit = some s1 → s1.running = ex_exit.running →
        page_free .thread_exit s1)
    ∧ ∃ s2, exec .thread_exit ex_exit = some s2
      ∧ (s2.running, s2.ready_list, s2.sleep_list, s2.destruction_req, (s2.threads 1).status)
          = (2, [3, 4], [], [1], .THREAD_DYING)
      ∧ (kernel_inv s2 ∧ dying_inv s2
        ∧ (∀ q q1 t, t ∈ queue_of s2 q → t ∈ queue_of s2 q1 → q = q1)
        ∧ ∀ q, (queue_of s2 q).Nodup) := by
  have hok : ∀ s1, resume ex_exit = some s1 → s1.running = ex_exit.running →
      call_ok .thread_exit s1 := by
    intro s1 h1 hr
    show some s1.running ≠ s1.idle_thread
    rw [hr, (resume_inv ex_exit s1 kernel_inv_ex_exit h1).2]
    decide
  have hpf : ∀ s1, resume ex_exit = some s1 → s1.running = ex_exit.running →
      page_free .thread_exit s1 := fun _ _ _ => trivial
  have h2 : (exec .thread_exit ex_exit).map
      (fun s => (s.running, s.ready_list, s.sleep_list, s.destruction_req,
        (s.threads 1).status))
      = some (2, [3, 4], [], [1], .THREAD_DYING) := by
    decide
  cases he : exec .thread_exit ex_exit with
  | none => rw [he] at h2; cases h2
  | some s2 =>
    rw [he] at h2
    exact ⟨kernel_inv_ex_exit, dying_inv_ex_exit, hok, hpf, s2, rfl, Option.some.inj h2,
      one_list_invariant .thread_exit ex_exit s2 kernel_inv_ex_exit dying_inv_ex_exit
        hok hpf he⟩

/-! ## Theorems: the status transitions -/

/-- The running thread gets a new status and schedule is called: the two status
writes are as leaves_with describes them. -/
theorem leaves_with_intro (st : thread_status) (k : List frame) (s mid s1 : kernel)
    (hr : (s.threads s.running).status = .THREAD_RUNNING)
    (hrd : ∀ t ∈ s.ready_list, (s.threads t).status = .THREAD_READY)
    (hm1 : (mid.threads s.running).status = st)
    (hm2 : ∀ u, u ≠ s.running → (mid.threads u).status = (s.threads u).status)
    (hm3 : ∀ t ∈ mid.ready_list, t ∈ s.ready_list ∨ (t = s.running ∧ st = .THREAD_READY))
    (hs : schedule k mid = some s1) : leaves_with st k s s1 := by
  obtain ⟨next, hp, -, e1, e2, e3, -⟩ := schedule_effect k mid s1 hs
  refine ⟨mid, next, hr, hm1, hm2, hs, hp, ?_, e1, e2, e3⟩
  rcases next_pick_cases mid next hp with ⟨rest, hl⟩ | ⟨hl, hid⟩
  · left
    rcases hm3 next (by rw [hl]; exact List.mem_cons_self _ _) with g | ⟨g1, g2⟩
    · have hne : next ≠ s.running := by
        intro e
        have := hrd next g
        rw [e, hr] at this
        cases this
      rw [hm2 next hne]
      exact hrd next g
    · rw [g1, hm1, g2]
  · exact Or.inr ⟨hl, hid⟩

/-- C26 (amended): the status writes of the scheduler operations, in a state whose
ready list holds READY threads.  init_thread makes the new thread BLOCKED;
thread_unblock takes a BLOCKED thread to READY; neither touches another status.
thread_yield, thread_block and thread_exit take the caller from RUNNING to
READY, BLOCKED and DYING, and then schedule marks one thread RUNNING and
changes no other status: that thread was READY immediately before (the head of
the ready list, which is the caller itself when thread_yield put it there), or
it is the idle thread, picked because the ready list is empty, whatever its
status. -/
theorem status_transitions (k : List frame) (s : kernel)
    (hrd : ∀ t ∈ s.ready_list, (s.threads t).status = .THREAD_READY) :
    (∀ t p s1, init_thread t p s = some s1 →
        (s1.threads t).status = .THREAD_BLOCKED
          ∧ ∀ u, u ≠ t → (s1.threads u).status = (s.threads u).status)
    ∧ (∀ t s1, thread_unblock t s = some s1 →
        (s.threads t).status = .THREAD_BLOCKED ∧ (s1.threads t).status = .THREAD_READY
          ∧ ∀ u, u ≠ t → (s1.threads u).status = (s.threads u).status)
    ∧ (∀ s1, thread_yield k s = some s1 → leaves_with .THREAD_READY k s s1)
    ∧ (∀ s1, thread_block k s = some s1 → leaves_with .THREAD_BLOCKED k s s1)
    ∧ (∀ s1, thread_exit k s = some s1 → leaves_with .THREAD_DYING k s s1) := by
  refine ⟨?_, ?_, ?_, ?_, ?_⟩
  · intro t p s1 hx
    unfold init_thread at hx
    split_ifs at hx
    simp only [Option.some.injEq] at hx
    subst hx
    exact ⟨by simp [set_thread], fun u hu => by simp [set_thread, hu]⟩
  · intro t s1 hx
    unfold thread_unblock at hx
    split_ifs at hx with hb
    simp only [Option.some.injEq] at hx
    subst hx
    exact ⟨hb, by simp [set_thread], fun u hu => by simp [set_thread, hu]⟩
  · intro s1 hx
    unfold thread_yield at hx
    cases hc : thread_current s with
    | none => simp [hc] at hx
    | some cur =>
      unfold thread_current at hc
      split_ifs at hc with hr
      cases hc
      simp only [thread_current, hr, if_true] at hx
      split_ifs at hx with hi hidle
      · simp only [do_schedule, thread_current, hr, if_true] at hx
        refine leaves_with_intro .THREAD_READY k s _ s1 hr hrd ?_ ?_ ?_ hx
        · simp [set_thread]
        · intro u hu
          simp [set_thread, hu]
        · intro t ht
          have ht2 : t ∈ list_insert_ordered (sort_priority s) s.running s.ready_list := ht
          rcases List.mem_cons.mp ((list_insert_ordered_perm _ _ _).mem_iff.mp ht2) with g | g
          · exact Or.inr ⟨g, rfl⟩
          · exact Or.inl g
      · simp only [do_schedule, thread_current, hr, if_true] at hx
        refine leaves_with_intro .THREAD_READY k s _ s1 hr hrd ?_ ?_ ?_ hx
        · simp [set_thread]
        · intro u hu
          simp [set_thread, hu]
        · intro t ht
          exact Or.inl ht
  · intro s1 hx
    unfold thread_block at hx
    split_ifs at hx
    unfold thread_current at hx
    split_ifs at hx with hr
    simp only at hx
    refine leaves_with_intro .THREAD_BLOCKED k s _ s1 hr hrd ?_ ?_ ?_ hx
    · simp [set_thread]
    · intro u hu
      simp [set_thread, hu]
    · intro t ht
      exact Or.inl ht
  · intro s1 hx
    unfold thread_exit at hx
    split_ifs at hx
    cases hs : do_schedule .THREAD_DYING k s with
    | none => simp [hs] at hx
    | some s2 =>
      simp only [hs] at hx
      split_ifs at hx
      simp only [Option.some.injEq] at hx
      subst hx
      unfold do_schedule at hs
      unfold thread_current at hs
      split_ifs at hs with hr
      simp only at hs
      refine leaves_with_intro .THREAD_DYING k s _ s2 hr hrd ?_ ?_ ?_ hs
      · simp [set_thread]
      · intro u hu
        simp [set_thread, hu]
      · intro t ht
        exact Or.inl ht

/-- C26, counterexample to the claim as stated: in the state ex_sema thread 1 runs,
the ready list is empty and the idle thread 0 is BLOCKED.  Thread 1 calls
sema_down on semaphore 0 (value 0) and blocks; schedule marks the idle thread
RUNNING.  That thread was BLOCKED, not READY, immediately before, and it is
not the caller. -/
theorem schedule_runs_blocked_idle_thread :
    ex_sema.running = 1 ∧ ex_sema.idle_thread = some 0 ∧ ex_sema.ready_list = []
    ∧ (ex_sema.threads 0).status = .THREAD_BLOCKED
    ∧ (sema_down (.sema 0) [] ex_sema).map
        (fun s => (s.running, (s.threads 0).status, (s.threads 1).status))
        = some (0, .THREAD_RUNNING, .THREAD_BLOCKED)
    ∧ ((set_thread ex_sema 1 { ex_sema.threads 1 with status := .THREAD_BLOCKED }).threads
        0).status = .THREAD_BLOCKED
    ∧ (schedule []
          (set_thread ex_sema 1 { ex_sema.threads 1 with status := .THREAD_BLOCKED })).map
        (fun s => (s.running, (s.threads 0).status))
        = some (0, .THREAD_RUNNING) := by
  decide

/-- C26 (amended) at a concrete state: the state ex_wait, whose ready list holds
the READY thread 2; thread 1 blocks there and thread 2 runs. -/
theorem status_transitions_witness :
    (∀ t ∈ ex_wait.ready_list, (ex_wait.threads t).status = .THREAD_READY)
    ∧ (thread_block [] ex_wait).map
        (fun s => (s.running, (s.threads 1).status, (s.threads 2).status))
        = some (2, .THREAD_BLOCKED, .THREAD_RUNNING)
    ∧ ((∀ t p s1, init_thread t p ex_wait = some s1 →
          (s1.threads t).status = .THREAD_BLOCKED
            ∧ ∀ u, u ≠ t → (s1.threads u).status = (ex_wait.threads u).status)
      ∧ (∀ t s1, thread_unblock t ex_wait = some s1 →
          (ex_wait.threads t).status = .THREAD_BLOCKED
            ∧ (s1.threads t).status = .THREAD_READY
            ∧ ∀ u, u ≠ t → (s1.threads u).status = (ex_wait.threads u).status)
      ∧ (∀ s1, thread_yield [] ex_wait = some s1 → leaves_with .THREAD_READY [] ex_wait s1)
      ∧ (∀ s1, thread_block [] ex_wait = some s1 → leaves_with .THREAD_BLOCKED [] ex_wait s1)
      ∧ (∀ s1, thread_exit [] ex_wait = some s1 → leaves_with .THREAD_DYING [] ex_wait s1)) :=
  ⟨by decide, by decide, status_transitions [] ex_wait (by decide)⟩

/-! ## Theorems: list_sort is stable -/

theorem equiv_under_false_of_run {α : Type} (less : α → α → Bool)
    (h : strict_weak_order less) (x a b : α) (as : List α)
    (hba : less b a = true)
    (ha : List.Pairwise (fun a b => less b a = false) (a :: as))
    (hx : equiv_under less x b = true) :
    ∀ y ∈ a :: as, equiv_under less x y = false := by
  intro y hy
  by_contra hc
  have hxy : equiv_under less x y = true := by simpa using hc
  simp only [equiv_under, Bool.and_eq_true, Bool.not_eq_true'] at hx hxy
  have hyb := h.2.2 y x b ⟨hxy.2, hxy.1⟩ hx
  rcases List.mem_cons.mp hy with rfl | hm
  · rw [hyb.2] at hba; cases hba
  · have h1 : less y a = false := (List.pairwise_cons.mp ha).1 y hm
    have := strict_weak_order_neg_trans less h a y b h1 hyb.2
    rw [this] at hba; cases hba

theorem inplace_merge_loop_stable {α : Type} (less : α → α → Bool)
    (h : strict_weak_order less) (x : α) (n : Nat) (as bs : List α)
    (hn : as.length + bs.length ≤ n)
    (ha : List.Pairwise (fun a b => less b a = false) as) :
    (inplace_merge_loop less n as bs).filter (equiv_under less x)
      = as.filter (equiv_under less x) ++ bs.filter (equiv_under less x) := by
  induction n generalizing as bs with
  | zero => simp [inplace_merge_loop]
  | succ n ih =>
    cases as with
    | nil => simp [inplace_merge_loop]
    | cons a as =>
      cases bs with
      | nil => simp [inplace_merge_loop]
      | cons b bs =>
        simp only [List.length_cons] at hn
        by_cases hba : less b a = true
        · simp only [inplace_merge_loop, hba, Bool.not_true, Bool.false_eq_true, if_false]
          have ih1 := ih (a :: as) bs (by simp only [List.length_cons]; omega) ha
          by_cases hx : equiv_under less x b = true
          · have hnone := equiv_under_false_of_run less h x a b as hba ha hx
            have hnil : (a :: as).filter (equiv_under less x) = [] := by
              rw [List.filter_eq_nil_iff]
              intro y hy
              rw [hnone y hy]
              simp
            rw [List.filter_cons_of_pos hx, ih1, hnil, List.filter_cons_of_pos hx]
            rfl
          · rw [List.filter_cons_of_neg hx, ih1, List.filter_cons_of_neg hx]
        · have hba1 : less b a = false := by simpa using hba
          simp only [inplace_merge_loop, hba1, Bool.not_false, if_true]
          have ih1 := ih as (b :: bs) (by simp only [List.length_cons]; omega)
            (List.Pairwise.of_cons ha)
          by_cases hx : equiv_under less x a = true
          · rw [List.filter_cons_of_pos hx, ih1, List.filter_cons_of_pos hx]
            rfl
          · rw [List.filter_cons_of_neg hx, ih1, List.filter_cons_of_neg hx]

theorem list_sort_pass_stable {α : Type} (less : α → α → Bool)
    (h : strict_weak_order less) (x : α) (n : Nat) (xs : List α) (hn : xs.length ≤ n) :
    (list_sort_pass less n xs).1.filter (equiv_under less x)
      = xs.filter (equiv_under less x) := by
  induction n generalizing xs with
  | zero =>
    have h1 : xs = [] := List.eq_nil_of_length_eq_zero (by omega)
    subst h1
    simp [list_sort_pass]
  | succ n ih =>
    cases xs with
    | nil => simp [list_sort_pass]
    | cons a rest =>
      have happ := find_end_of_run_append less a rest
      have hlen := find_end_of_run_length less a rest
      simp only [list_sort_pass]
      cases h2 : (find_end_of_run less a rest).2 with
      | nil =>
        simp only
        rw [h2, List.append_nil] at happ
        rw [happ]
      | cons b rest2 =>
        simp only
        rw [h2] at happ hlen
        have happ2 := find_end_of_run_append less b rest2
        have hlen2 := find_end_of_run_length less b rest2
        simp only [List.length_cons] at hn hlen
        have ih2 := ih (find_end_of_run less b rest2).2 (by omega)
        have hm := inplace_merge_loop_stable less h x
          ((find_end_of_run less a rest).1.length + (find_end_of_run less b rest2).1.length)
          (find_end_of_run less a rest).1 (find_end_of_run less b rest2).1 (Nat.le_refl _)
          (find_end_of_run_sorted less (strict_weak_order_neg_trans less h) a rest)
        rw [List.filter_append, ih2]
        unfold inplace_merge
        rw [hm, ← happ, ← happ2]
        simp only [List.filter_append, List.append_assoc]

theorem list_sort_loop_stable {α : Type} (less : α → α → Bool)
    (h : strict_weak_order less) (x : α) (fuel : Nat) (xs ys : List α)
    (hs : list_sort_loop less fuel xs = some ys) :
    ys.filter (equiv_under less x) = xs.filter (equiv_under less x) := by
  induction fuel generalizing xs with
  | zero => simp [list_sort_loop] at hs
  | succ n ih =>
    have hp := list_sort_pass_stable less h x xs.length xs (Nat.le_refl _)
    simp only [list_sort_loop] at hs
    split_ifs at hs with hc
    · rw [ih _ hs, hp]
    · cases hs
      exact hp

theorem list_sort_keeps_classes {α : Type} (less : α → α → Bool)
    (h : strict_weak_order less) (x : α) (xs ys : List α)
    (hs : list_sort less xs = some ys) :
    ys.filter (equiv_under less x) = xs.filter (equiv_under less x) := by
  unfold list_sort at hs
  cases hl : list_sort_loop less (xs.length + 1) xs with
  | none => simp [hl] at hs
  | some zs =>
    simp only [hl] at hs
    split_ifs at hs
    cases hs
    exact list_sort_loop_stable less h x _ xs ys hl

theorem filter_pair_sublist {α : Type} (p : α → Bool) (a b : α) (xs ys : List α)
    (ha : p a = true) (hb : p b = true) (he : ys.filter p = xs.filter p)
    (h : List.Sublist [a, b] xs) : List.Sublist [a, b] ys := by
  have h1 : List.Sublist ([a, b].filter p) (xs.filter p) := h.filter p
  have h2 : [a, b].filter p = [a, b] := by simp [List.filter, ha, hb]
  rw [h2, ← he] at h1
  exact h1.trans (List.filter_sublist ys)

theorem equiv_under_sort_priority (s : kernel) (a b : Nat) :
    equiv_under (sort_priority s) a b = true
      ↔ (s.threads a).priority = (s.threads b).priority := by
  simp only [equiv_under, sort_priority, Bool.and_eq_true, Bool.not_eq_true', decide_eq_false_iff_not]
  omega

/-- The waiter list that sema_up leaves: the sorted list without its front. -/
theorem sema_up_waiters (r : sema_ref) (k : List frame) (s s1 : kernel)
    (h : sema_up r k s = some s1) :
    ∃ ys, list_sort (sort_priority s) (get_sema s r).waiters = some ys
      ∧ (get_sema s1 r).waiters = ys.tail := by
  unfold sema_up at h
  cases hs : list_sort (sort_priority s) (get_sema s r).waiters with
  | none => simp [hs] at h
  | some ys =>
    refine ⟨ys, rfl, ?_⟩
    cases ys with
    | nil =>
      simp only [hs] at h
      obtain ⟨g1, g2, -⟩ := change_list_globals _ _ _ h
      rw [get_sema_congr _ s1 r g1 g2, get_sema_set_sema]
      rfl
    | cons t rest =>
      simp only [hs] at h
      cases hu : thread_unblock t (set_sema s r { get_sema s r with waiters := rest }) with
      | none => simp [hu] at h
      | some s2 =>
        simp only [hu] at h
        obtain ⟨g1, g2, -⟩ := change_list_globals _ _ _ h
        have hs2 : ∀ r1, get_sema s2 r1
            = get_sema (set_sema s r { get_sema s r with waiters := rest }) r1 := by
          intro r1
          unfold thread_unblock at hu
          split_ifs at hu
          simp only [Option.some.injEq] at hu
          subst hu
          rw [get_sema_set_thread]
          exact get_sema_congr _ _ r1 rfl rfl
        rw [get_sema_congr _ s1 r g1 g2, get_sema_set_sema, hs2, get_sema_set_sema]
        rfl

/-- C34: list_sort is stable.  For every list and every comparator LESS that is a
strict weak order, list_sort completes, and for every element x the elements
equivalent to x (neither LESS than the other) appear in the output in exactly
their input order; in particular two equivalent elements a, b with a in front
of b in the input have a in front of b in the output.  For the re-sort in
sema_up: the waiters of each priority keep their order, two waiters of equal
priority keep their relative order, and the list that sema_up leaves is the
sorted list without its front, the woken thread. -/
theorem list_sort_stable {α : Type} (less : α → α → Bool) (h : strict_weak_order less)
    (xs : List α) :
    (∃ ys, list_sort less xs = some ys
      ∧ (∀ x, ys.filter (equiv_under less x) = xs.filter (equiv_under less x))
      ∧ (∀ a b, equiv_under less a b = true → List.Sublist [a, b] xs → List.Sublist [a, b] ys))
    ∧ (∀ (s s1 : kernel) (r : sema_ref) (k : List frame), sema_up r k s = some s1 →
        ∃ ys, list_sort (sort_priority s) (get_sema s r).waiters = some ys
          ∧ (get_sema s1 r).waiters = ys.tail
          ∧ (∀ p : Int, ys.filter (fun t => decide ((s.threads t).priority = p))
              = (get_sema s r).waiters.filter (fun t => decide ((s.threads t).priority = p)))
          ∧ (∀ a b, (s.threads a).priority = (s.threads b).priority →
              List.Sublist [a, b] (get_sema s r).waiters → List.Sublist [a, b] ys)) := by
  have key : ∀ {β : Type} (lt : β → β → Bool), strict_weak_order lt → ∀ zs : List β,
      ∃ ys, list_sort lt zs = some ys
        ∧ (∀ x, ys.filter (equiv_under lt x) = zs.filter (equiv_under lt x))
        ∧ (∀ a b, equiv_under lt a b = true → List.Sublist [a, b] zs → List.Sublist [a, b] ys) := by
    intro β lt hlt zs
    obtain ⟨ys, h1, -, -⟩ := list_sort_spec lt (strict_weak_order_neg_trans lt hlt)
      (strict_weak_order_asymm lt hlt) zs
    have hf := fun x => list_sort_keeps_classes lt hlt x zs ys h1
    refine ⟨ys, h1, hf, ?_⟩
    intro a b hab hsub
    have haa : equiv_under lt a a = true := by simp [equiv_under, hlt.1 a]
    exact filter_pair_sublist (equiv_under lt a) a b zs ys haa hab (hf a) hsub
  refine ⟨key less h xs, ?_⟩
  intro s s1 r k hup
  obtain ⟨ys, h1, h2⟩ := sema_up_waiters r k s s1 hup
  obtain ⟨zs, g1, g2, g3⟩ := key (sort_priority s) (sort_priority_strict_weak_order s)
    (get_sema s r).waiters
  rw [h1] at g1
  cases g1
  refine ⟨ys, h1, h2, ?_, ?_⟩
  · intro p
    by_cases hex : ∃ x ∈ (get_sema s r).waiters, (s.threads x).priority = p
    · obtain ⟨x, -, hx⟩ := hex
      have e : (fun t => decide ((s.threads t).priority = p)) = equiv_under (sort_priority s) x := by
        funext t
        rw [Bool.eq_iff_iff, equiv_under_sort_priority, decide_eq_true_iff, hx]
        exact eq_comm
      rw [e]
      exact g2 x
    · have hperm : List.Perm ys (get_sema s r).waiters := by
        obtain ⟨zs, z1, z2, -⟩ := list_sort_priority s (get_sema s r).waiters
        rw [h1] at z1
        cases z1
        exact z2
      have n1 : (get_sema s r).waiters.filter (fun t => decide ((s.threads t).priority = p)) = [] := by
        rw [List.filter_eq_nil_iff]
        intro y hy hp
        exact hex ⟨y, hy, by simpa using hp⟩
      have n2 : ys.filter (fun t => decide ((s.threads t).priority = p)) = [] := by
        rw [List.filter_eq_nil_iff]
        intro y hy hp
        exact hex ⟨y, hperm.mem_iff.mp hy, by simpa using hp⟩
      rw [n1, n2]
  · intro a b hab hsub
    exact g3 a b ((equiv_under_sort_priority s a b).mpr hab) hsub

/-- C34 at a concrete comparator and list: the waiters 3, 4, 5, 6 of the example
state ex_equal (priorities 20, 30, 20, 30), compared by sort_priority.  The
sorted list is 4, 6, 3, 5, and sema_up wakes thread 4 and leaves 6, 3, 5. -/
theorem list_sort_stable_witness :
    strict_weak_order (sort_priority ex_equal)
    ∧ list_sort (sort_priority ex_equal) [3, 4, 5, 6] = some [4, 6, 3, 5]
    ∧ (sema_up (.sema 0) [] ex_equal).map (fun s => ((s.semas 0).waiters, s.ready_list))
        = some ([6, 3, 5], [4])
    ∧ ((∃ ys, list_sort (sort_priority ex_equal) [3, 4, 5, 6] = some ys
        ∧ (∀ x, ys.filter (equiv_under (sort_priority ex_equal) x)
            = [3, 4, 5, 6].filter (equiv_under (sort_priority ex_equal) x))
        ∧ (∀ a b, equiv_under (sort_priority ex_equal) a b = true →
            List.Sublist [a, b] [3, 4, 5, 6] → List.Sublist [a, b] ys))
      ∧ (∀ (s s1 : kernel) (r : sema_ref) (k : List frame), sema_up r k s = some s1 →
          ∃ ys, list_sort (sort_priority s) (get_sema s r).waiters = some ys
            ∧ (get_sema s1 r).waiters = ys.tail
            ∧ (∀ p : Int, ys.filter (fun t => decide ((s.threads t).priority = p))
                = (get_sema s r).waiters.filter (fun t => decide ((s.threads t).priority = p)))
            ∧ (∀ a b, (s.threads a).priority = (s.threads b).priority →
                List.Sublist [a, b] (get_sema s r).waiters → List.Sublist [a, b] ys))) :=
  ⟨sort_priority_strict_weak_order ex_equal, by decide, by decide,
    list_sort_stable (sort_priority ex_equal) (sort_priority_strict_weak_order ex_equal)
      [3, 4, 5, 6]⟩

/-! ## Theorems: the removal loop of lock_release at pointer level -/

theorem remove_donors_eq_filter (s : kernel) (l : Nat) (ds : List Nat) :
    remove_donors s l ds
      = ds.filter (fun e => decide ((s.threads e).wait_on_lock ≠ some l)) := by
  induction ds with
  | nil => rfl
  | cons e rest ih =>
    by_cases h : (s.threads e).wait_on_lock = some l
    · simp [remove_donors, h, ih]
    · simp [remove_donors, h, ih]

theorem links_ok_iff_chain (m : list_mem) (p : elem_addr) (L : List elem_addr) :
    links_ok m p L = true ↔ List.Chain (linked m) p L := by
  induction L generalizing p with
  | nil => simp [links_ok]
  | cons x rest ih =>
    simp only [links_ok, Bool.and_eq_true, decide_eq_true_eq, List.chain_cons, linked, ih,
      and_assoc]

theorem list_repr_iff (m : list_mem) (xs : List Nat) :
    list_repr m xs ↔ xs.Nodup ∧ (m .head).prev = none ∧ (m .tail).next = none
      ∧ List.Chain (linked m) .head (xs.map elem_addr.donation_elem ++ [elem_addr.tail]) := by
  unfold list_repr
  rw [links_ok_iff_chain]

theorem chain_linked_congr (m m1 : list_mem) (p : elem_addr) (L : List elem_addr)
    (h : List.Chain (linked m) p L)
    (hn : ∀ u ∈ p :: L, (m1 u).next = (m u).next)
    (hp : ∀ u ∈ L, (m1 u).prev = (m u).prev) :
    List.Chain (linked m1) p L := by
  induction L generalizing p with
  | nil => exact List.Chain.nil
  | cons x rest ih =>
    rw [List.chain_cons] at h ⊢
    refine ⟨⟨?_, ?_⟩, ih x h.2 (fun u hu => hn u (List.mem_cons_of_mem _ hu))
      (fun u hu => hp u (List.mem_cons_of_mem _ hu))⟩
    · rw [hn p (List.mem_cons_self _ _)]; exact h.1.1
    · rw [hp x (List.mem_cons_self _ _)]; exact h.1.2

/-- In a chain through `x`, the element in front of `x` and `x` point at each
other. -/
theorem chain_linked_at (m : list_mem) (x : elem_addr) (rest : List elem_addr) :
    ∀ (L1 : List elem_addr) (p0 : elem_addr),
      List.Chain (linked m) p0 (L1 ++ x :: rest) →
      ∃ p, (p0 :: L1).getLast? = some p ∧ linked m p x ∧ List.Chain (linked m) x rest := by
  intro L1
  induction L1 with
  | nil =>
    intro p0 h
    rw [List.nil_append, List.chain_cons] at h
    exact ⟨p0, rfl, h.1, h.2⟩
  | cons y L1 ih =>
    intro p0 h
    rw [List.cons_append, List.chain_cons] at h
    obtain ⟨p, h1, h2, h3⟩ := ih y h.2
    exact ⟨p, by rw [List.getLast?_cons_cons]; exact h1, h2, h3⟩

/-- Unlinking `x`: when `p->next` becomes `n` and `n->prev` becomes `p`, for the
neighbours `p` and `n` of `x`, and no other pointer of the list changes, the
chain without `x` is linked. -/
theorem chain_linked_remove (m m1 : list_mem) (x n p : elem_addr) (L2 : List elem_addr)
    (h1 : (m1 p).next = some n) (h2 : (m1 n).prev = some p)
    (h3 : ∀ u, u ≠ p → (m1 u).next = (m u).next)
    (h4 : ∀ u, u ≠ n → (m1 u).prev = (m u).prev) :
    ∀ (L1 : List elem_addr) (p0 : elem_addr),
      (p0 :: L1 ++ x :: n :: L2).Nodup → (p0 :: L1).getLast? = some p →
      List.Chain (linked m) p0 (L1 ++ x :: n :: L2) →
      List.Chain (linked m1) p0 (L1 ++ n :: L2) := by
  intro L1
  induction L1 with
  | nil =>
    intro p0 hnd hl hc
    simp only [List.getLast?_singleton, Option.some.injEq] at hl
    subst hl
    simp only [List.nil_append, List.cons_append, List.nodup_cons, List.mem_cons, not_or] at hnd
    rw [List.nil_append, List.chain_cons, List.chain_cons] at hc
    rw [List.nil_append, List.chain_cons]
    refine ⟨⟨h1, h2⟩, chain_linked_congr m m1 n L2 hc.2.2 ?_ ?_⟩
    · intro u hu
      apply h3
      rintro rfl
      rcases List.mem_cons.mp hu with e | hm
      · exact hnd.1.2.1 e
      · exact hnd.1.2.2 hm
    · intro u hu
      apply h4
      rintro rfl
      exact hnd.2.2.1 hu
  | cons y L1 ih =>
    intro p0 hnd hl hc
    rw [List.getLast?_cons_cons] at hl
    rw [List.cons_append, List.chain_cons] at hc
    have hnd0 := hnd
    simp only [List.cons_append, List.nodup_cons] at hnd
    have hc1 := ih y (by simpa only [List.cons_append, List.nodup_cons] using hnd.2) hl hc.2
    rw [List.cons_append, List.chain_cons]
    refine ⟨⟨?_, ?_⟩, hc1⟩
    · rw [h3]
      · exact hc.1.1
      · rintro rfl
        have : p0 ∈ y :: L1 := List.mem_of_mem_getLast? hl
        exact hnd.1 (by
          rcases List.mem_cons.mp this with e | hm
          · exact List.mem_cons.mpr (Or.inl e)
          · exact List.mem_cons_of_mem _ (List.mem_append_left _ hm))
    · rw [h4]
      · exact hc.1.2
      · rintro rfl
        exact hnd.2.1 (List.mem_append_right _ (List.mem_cons_of_mem _ (List.mem_cons_self _ _)))

/-- The function list_remove on an element whose two pointers are not NULL: it
completes, returns the successor, and writes `p->next` and `n->prev` only. -/
theorem list_remove_spec (m : list_mem) (e p n : elem_addr)
    (hp : (m e).prev = some p) (hn : (m e).next = some n) (hep : e ≠ p) :
    ∃ m1, list_remove m (some e) = some (m1, some n)
      ∧ (m1 p).next = some n ∧ (m1 n).prev = some p
      ∧ (∀ u, u ≠ p → (m1 u).next = (m u).next)
      ∧ (∀ u, u ≠ n → (m1 u).prev = (m u).prev) := by
  have hi : is_interior m (some e) = true := by simp [is_interior, hp, hn]
  refine ⟨fun i => if i = n then
      { (if i = p then { m i with next := some n } else m i) with prev := some p }
    else (if i = p then { m i with next := some n } else m i), ?_, ?_, ?_, ?_, ?_⟩
  · simp only [list_remove, hi, if_true, hp, hn, if_neg hep]
    congr 1
    by_cases hen : e = n
    · subst hen
      simp [hep, hn]
    · simp [hen, hep, hn]
  · by_cases hpn : p = n
    · simp [hpn]
    · simp [hpn]
  · by_cases hpn : n = p
    · simp [hpn]
    · simp [hpn]
  · intro u hu
    by_cases hun : u = n
    · subst hun
      simp [hu]
    · simp [hun, hu]
  · intro u hu
    by_cases hup : u = p
    · subst hup
      simp [hu]
    · simp [hup, hu]

theorem elem_addr_nodup (xs : List Nat) (h : xs.Nodup) :
    (elem_addr.head :: (xs.map elem_addr.donation_elem ++ [elem_addr.tail])).Nodup := by
  rw [List.nodup_cons]
  refine ⟨by simp, ?_⟩
  rw [List.nodup_append]
  refine ⟨h.map (fun a b hab => by cases hab; rfl), List.nodup_singleton _, ?_⟩
  intro a ha hb
  simp at ha hb
  obtain ⟨t, -, rfl⟩ := ha
  cases hb

/-- What a well-formed list says about its interior element `x`: it has a
predecessor `p` and a successor `n`, both in the list. -/
theorem list_repr_at (m : list_mem) (a b : List Nat) (x : Nat) (h : list_repr m (a ++ x :: b)) :
    ∃ p n L2, (elem_addr.head :: a.map elem_addr.donation_elem).getLast? = some p
      ∧ b.map elem_addr.donation_elem ++ [elem_addr.tail] = n :: L2
      ∧ (m (.donation_elem x)).prev = some p ∧ (m (.donation_elem x)).next = some n
      ∧ (elem_addr.head :: a.map elem_addr.donation_elem
          ++ elem_addr.donation_elem x :: n :: L2).Nodup
      ∧ List.Chain (linked m) .head
          (a.map elem_addr.donation_elem ++ elem_addr.donation_elem x :: n :: L2) := by
  obtain ⟨hnd, -, -, hc⟩ := (list_repr_iff m _).mp h
  have hnd1 := elem_addr_nodup _ hnd
  have e1 : (a ++ x :: b).map elem_addr.donation_elem ++ [elem_addr.tail]
      = a.map elem_addr.donation_elem
        ++ elem_addr.donation_elem x :: (b.map elem_addr.donation_elem ++ [elem_addr.tail]) := by
    simp
  rw [e1] at hc hnd1
  obtain ⟨n, L2, e2⟩ : ∃ n L2, b.map elem_addr.donation_elem ++ [elem_addr.tail] = n :: L2 := by
    cases b with
    | nil => exact ⟨_, _, rfl⟩
    | cons y b => exact ⟨_, _, rfl⟩
  rw [e2] at hc hnd1
  obtain ⟨p, g1, g2, g3⟩ := chain_linked_at m _ _ _ _ hc
  rw [List.chain_cons] at g3
  exact ⟨p, n, L2, g1, e2, g2.2, g3.1.1, hnd1, hc⟩

/-- The function list_remove on an interior element of a well-formed list: it
completes, the list without the element is well formed, and the two pointers of
the removed element still name its old neighbours. -/
theorem list_repr_remove (m : list_mem) (a b : List Nat) (x : Nat)
    (h : list_repr m (a ++ x :: b)) :
    ∃ m1 n r, list_remove m (some (.donation_elem x)) = some (m1, r)
      ∧ (b.map elem_addr.donation_elem ++ [elem_addr.tail]).head? = some n
      ∧ list_repr m1 (a ++ b)
      ∧ (m1 (.donation_elem x)).prev ≠ none ∧ (m1 (.donation_elem x)).next = some n := by
  obtain ⟨p, n, L2, g1, g2, g3, g4, g5, g6⟩ := list_repr_at m a b x h
  have hpm : p ∈ elem_addr.head :: a.map elem_addr.donation_elem := List.mem_of_mem_getLast? g1
  have hxp : elem_addr.donation_elem x ≠ p := by
    rintro rfl
    rw [List.cons_append, List.nodup_cons] at g5
    have := (List.nodup_append.mp g5.2).2.2
    rcases List.mem_cons.mp hpm with e | hm
    · cases e
    · exact this hm (List.mem_cons_self _ _) 
  have hxn : elem_addr.donation_elem x ≠ n := by
    rintro e
    rw [List.cons_append, List.nodup_cons] at g5
    have := ((List.nodup_cons.mp (List.nodup_append.mp g5.2).2.1).1)
    exact this (by rw [← e]; exact List.mem_cons_self _ _)
  obtain ⟨m1, r1, r2, r3, r4, r5⟩ := list_remove_spec m _ p n g3 g4 hxp
  refine ⟨m1, n, some n, r1, by rw [g2]; rfl, ?_, ?_, ?_⟩
  · obtain ⟨hnd, hh, ht, -⟩ := h
    refine (list_repr_iff m1 _).mpr ⟨?_, ?_, ?_, ?_⟩
    · exact hnd.sublist (List.Sublist.append_left (List.sublist_cons_self x b) a)
    · rw [r5 _ ?_]
      · exact hh
      · rintro rfl
        rw [List.cons_append, List.nodup_cons] at g5
        exact g5.1 (List.mem_append_right _ (List.mem_cons_of_mem _ (List.mem_cons_self _ _)))
    · rw [r4 _ ?_]
      · exact ht
      · rintro rfl
        have : elem_addr.tail ∈ b.map elem_addr.donation_elem ++ [elem_addr.tail] := by simp
        rw [g2] at this
        rw [List.cons_append, List.nodup_cons] at g5
        have hd := (List.nodup_append.mp g5.2).2.2
        rcases List.mem_cons.mp hpm with e | hm
        · cases e
        · exact hd hm (List.mem_cons_of_mem _ this)
    · have := chain_linked_remove m m1 _ n p L2 r2 r3 r4 r5 _ _ g5 g1 g6
      rw [← g2] at this
      simpa using this
  · rw [r5 _ hxn, g3]
    simp
  · rw [r4 _ hxp, g4]

/-- The loop of lock_release from an element of a well-formed list on: it
completes within one iteration per remaining element plus the final test, and
leaves a well-formed list from which the remaining donors that wait on `l`
are gone. -/
theorem lock_release_loop_spec (s : kernel) (l : Nat) :
    ∀ (rest kept : List Nat) (m : list_mem) (fuel : Nat),
      list_repr m (kept ++ rest) → rest.length < fuel →
      ∃ m1, lock_release_loop s l fuel m
          (rest.map elem_addr.donation_elem ++ [elem_addr.tail]).head? = some m1
        ∧ list_repr m1 (kept ++ remove_donors s l rest) := by
  intro rest
  induction rest with
  | nil =>
    intro kept m fuel h hf
    cases fuel with
    | zero => omega
    | succ n => exact ⟨m, by simp [lock_release_loop, list_end], h⟩
  | cons x rest ih =>
    intro kept m fuel h hf
    cases fuel with
    | zero => omega
    | succ n =>
      simp only [List.length_cons] at hf
      have hne : (some (elem_addr.donation_elem x) : Option elem_addr) ≠ list_end := by
        simp [list_end]
      simp only [List.map_cons, List.cons_append, List.head?_cons, lock_release_loop, if_neg hne]
      by_cases hw : (s.threads x).wait_on_lock = some l
      · obtain ⟨m1, nx, r, h1, h2, h3, h4, h5⟩ := list_repr_remove m kept rest x h
        have hnext : list_next m1 (some (.donation_elem x)) = some (some nx) := by
          have : is_interior m1 (some (.donation_elem x)) = true := by
            simp [is_interior, h4, h5]
          simp [list_next, this, h5]
        obtain ⟨m2, k1, k2⟩ := ih kept m1 n h3 (by omega)
        rw [h2] at k1
        refine ⟨m2, ?_, ?_⟩
        · simp only [hw, if_true, h1, hnext]
          exact k1
        · simpa [remove_donors, hw] using k2
      · obtain ⟨p, nx, L2, g1, g2, g3, g4, -, -⟩ := list_repr_at m kept rest x h
        have hnext : list_next m (some (.donation_elem x)) = some (some nx) := by
          have : is_interior m (some (.donation_elem x)) = true := by
            simp [is_interior, g3, g4]
          simp [list_next, this, g4]
        have h3 : list_repr m ((kept ++ [x]) ++ rest) := by simpa using h
        obtain ⟨m2, k1, k2⟩ := ih (kept ++ [x]) m n h3 (by omega)
        rw [g2] at k1
        refine ⟨m2, ?_, ?_⟩
        · simp only [hw, if_false, hnext]
          exact k1
        · simpa [remove_donors, hw] using k2

/-- A memory is a well-formed list of at most one sequence of threads. -/
theorem list_repr_unique (m : list_mem) (ys zs : List Nat)
    (hy : list_repr m ys) (hz : list_repr m zs) : ys = zs := by
  have key : ∀ (ys zs : List Nat) (p : elem_addr),
      List.Chain (linked m) p (ys.map elem_addr.donation_elem ++ [elem_addr.tail]) →
      List.Chain (linked m) p (zs.map elem_addr.donation_elem ++ [elem_addr.tail]) →
      (m .tail).next = none → ys = zs := by
    intro ys
    induction ys with
    | nil =>
      intro zs p h1 h2 ht
      cases zs with
      | nil => rfl
      | cons z zs =>
        simp only [List.map_nil, List.nil_append, List.chain_cons, List.map_cons,
          List.cons_append] at h1 h2
        have := h1.1.1.symm.trans h2.1.1
        cases this
    | cons y ys ih =>
      intro zs p h1 h2 ht
      cases zs with
      | nil =>
        simp only [List.map_nil, List.nil_append, List.chain_cons, List.map_cons,
          List.cons_append] at h1 h2
        have := h1.1.1.symm.trans h2.1.1
        cases this
      | cons z zs =>
        simp only [List.map_cons, List.cons_append, List.chain_cons] at h1 h2
        have := h1.1.1.symm.trans h2.1.1
        cases this
        rw [ih zs _ h1.2 h2.2 ht]
  exact key ys zs .head ((list_repr_iff m ys).mp hy).2.2.2 ((list_repr_iff m zs).mp hz).2.2.2
    hy.2.2.1

/-- C31: the removal loop of lock_release, which calls list_remove (e) and then
advances with list_next (e) on the element it has just removed.  On every
well-formed donations list (the donation_elems of distinct threads `ds` between
head and tail) and for every lock `l`, the loop completes, so neither
list_remove nor list_next fails its ASSERT, after one iteration per donor; the
memory it leaves is a well-formed list of exactly the donors whose wait_on_lock
is not `l`, in their previous order, and of no other sequence.  This is the
result of remove_donors, the list-level form of the loop. -/
theorem lock_release_removal_loop (s : kernel) (l : Nat) (m : list_mem) (ds : List Nat)
    (h : list_repr m ds) (fuel : Nat) (hf : ds.length < fuel) :
    ∃ m1, lock_release_loop s l fuel m (list_begin m) = some m1
      ∧ list_repr m1 (ds.filter (fun e => decide ((s.threads e).wait_on_lock ≠ some l)))
      ∧ (∀ ys, list_repr m1 ys →
          ys = ds.filter (fun e => decide ((s.threads e).wait_on_lock ≠ some l)))
      ∧ remove_donors s l ds
          = ds.filter (fun e => decide ((s.threads e).wait_on_lock ≠ some l)) := by
  have hb : list_begin m = (ds.map elem_addr.donation_elem ++ [elem_addr.tail]).head? := by
    have hc := ((list_repr_iff m ds).mp h).2.2.2
    cases ds with
    | nil =>
      simp only [List.map_nil, List.nil_append, List.chain_cons] at hc
      exact hc.1.1
    | cons d ds =>
      simp only [List.map_cons, List.cons_append, List.chain_cons] at hc
      exact hc.1.1
  obtain ⟨m1, h1, h2⟩ := lock_release_loop_spec s l ds [] m fuel (by simpa using h) hf
  rw [List.nil_append, remove_donors_eq_filter] at h2
  rw [← hb] at h1
  exact ⟨m1, h1, h2, fun ys hy => list_repr_unique m1 ys _ hy h2, remove_donors_eq_filter s l ds⟩

/-- C31 at a concrete list: the donors 3, 4, 5, 6 of the example, of which 3 and 4
(consecutive) and 6 (the last) wait on the released lock 1.  The loop completes
and leaves head, 5, tail; lock_release in that state leaves the donations list
with the donor 5 alone. -/
theorem lock_release_removal_loop_witness :
    list_repr ex_donors_mem [3, 4, 5, 6]
    ∧ [3, 4, 5, 6].filter (fun e => decide ((ex_donors.threads e).wait_on_lock ≠ some 1)) = [5]
    ∧ (lock_release 1 [] ex_donors).map (fun s => (s.threads 1).donations) = some (.mk [5])
    ∧ (lock_release_loop ex_donors 1 5 ex_donors_mem (list_begin ex_donors_mem)).map
        (fun m => (m .head, m (.donation_elem 5), m .tail))
      = some ({ prev := none, next := some (.donation_elem 5) },
          { prev := some .head, next := some .tail },
          { prev := some (.donation_elem 5), next := none })
    ∧ ∃ m1, lock_release_loop ex_donors 1 5 ex_donors_mem (list_begin ex_donors_mem) = some m1
      ∧ list_repr m1
          ([3, 4, 5, 6].filter (fun e => decide ((ex_donors.threads e).wait_on_lock ≠ some 1)))
      ∧ (∀ ys, list_repr m1 ys →
          ys = [3, 4, 5, 6].filter
            (fun e => decide ((ex_donors.threads e).wait_on_lock ≠ some 1)))
      ∧ remove_donors ex_donors 1 [3, 4, 5, 6]
          = [3, 4, 5, 6].filter (fun e => decide ((ex_donors.threads e).wait_on_lock ≠ some 1)) :=
  ⟨by decide, by decide, by decide, by decide,
    lock_release_removal_loop ex_donors 1 ex_donors_mem [3, 4, 5, 6] (by decide) 5 (by decide)⟩

/-! ## Theorems: the priority of the caller of thread_create -/

theorem list_sort_nil {α : Type} (less : α → α → Bool) : list_sort less ([] : List α) = some [] := by
  simp [list_sort, list_sort_loop, list_sort_pass, is_sorted]

/-- The preemption check completes outside interrupt context and changes no
priority. -/
theorem change_list_priority (k : List frame) (s : kernel)
    (hr : (s.threads s.running).status = .THREAD_RUNNING) (hi : s.intr_context = false) :
    ∃ s1, change_list k s = some s1 ∧ (∀ x, (s1.threads x).priority = (s.threads x).priority)
      ∧ (s1.running = s.running → s1 = s) := by
  obtain ⟨s1, h1, h2, h3⟩ := change_list_spec k s hr hi
  refine ⟨s1, h1, ?_, ?_⟩
  · intro x
    rw [change_list_fields k s s1 h1 x]
  · intro he
    by_cases hy : ∃ f rest, s.ready_list = f :: rest
        ∧ (s.threads s.running).priority < (s.threads f).priority
    · exact absurd he (h2 hy).1
    · exact h3 hy

/-- The function lock_acquire on a free lock whose semaphore has a positive value:
the caller returns as the holder; priorities, the other fields of the caller
and the other threads are as before. -/
theorem lock_acquire_free (l : Nat) (k : List frame) (s : kernel)
    (hr : (s.threads s.running).status = .THREAD_RUNNING) (hi : s.intr_context = false)
    (hh : (s.locks l).holder = none) (hv : (s.locks l).semaphore.value ≠ 0) :
    ∃ s1, lock_acquire l k s = some s1 ∧ s1.running = s.running
      ∧ s1.intr_context = false ∧ s1.ready_list = s.ready_list
      ∧ s1.threads = (fun i => if i = s.running then
          { s.threads s.running with wait_on_lock := none } else s.threads i)
      ∧ s1.locks = (fun i => if i = l then
          { holder := some s.running,
            semaphore := { (s.locks l).semaphore with value := (s.locks l).semaphore.value - 1 } }
          else s.locks i) := by
  have hv1 : (get_sema (set_thread s s.running
      { s.threads s.running with wait_on_lock := some l }) (.lock_sema l)).value ≠ 0 := hv
  refine ⟨lock_acquire_tail l (set_sema
      (set_thread s s.running { s.threads s.running with wait_on_lock := some l })
      (.lock_sema l)
      { get_sema (set_thread s s.running { s.threads s.running with wait_on_lock := some l })
          (.lock_sema l) with
        value := (get_sema (set_thread s s.running
          { s.threads s.running with wait_on_lock := some l }) (.lock_sema l)).value - 1 }),
    ?_, ?_, ?_, ?_, ?_, ?_⟩
  · have hc : thread_current s = some s.running := thread_current_eq s hr
    have hi1 : (set_thread s s.running
        { s.threads s.running with wait_on_lock := some l }).intr_context = false := hi
    have e1 := sema_down_loop.eq_1 (.lock_sema l) (frame.lock_acquire_tail l :: k)
      (set_thread s s.running { s.threads s.running with wait_on_lock := some l })
    rw [if_neg hv1] at e1
    dsimp only at hi1 e1
    simp only [lock_acquire, hc, hi, hh, sema_down, hi1, e1, ne_eq, not_true_eq_false, if_false,
      Bool.false_eq_true, reduceCtorEq, set_sema_running, if_true]
    simp [set_thread]
  · rfl
  · exact hi
  · rfl
  · funext i
    by_cases h : i = s.running <;> simp [h, lock_acquire_tail, set_thread, set_sema, set_lock]
  · funext i
    by_cases h : i = l <;> simp [h, hh, lock_acquire_tail, set_thread, set_sema, set_lock, get_sema]

/-- The function lock_release by the holder of a lock without waiters, when the
donations list of the holder is an initialised empty list: it completes and the
priority of the holder is its initial_priority. -/
theorem lock_release_no_donors (l : Nat) (k : List frame) (s : kernel)
    (hr : (s.threads s.running).status = .THREAD_RUNNING) (hi : s.intr_context = false)
    (hh : (s.locks l).holder = some s.running)
    (hd : (s.threads s.running).donations = .mk [])
    (hw : (s.locks l).semaphore.waiters = []) :
    ∃ s1, lock_release l k s = some s1
      ∧ (s1.threads s.running).priority = (s.threads s.running).initial_priority
      ∧ (s1.running = s.running → s1.intr_context = false
          ∧ ∀ x, (s1.threads x).status = (s.threads x).status) := by
  have hc : thread_current s = some s.running := thread_current_eq s hr
  have e : lock_release l k s = change_list k
      (set_sema (set_lock (set_thread s s.running { s.threads s.running with
          donations := .mk [], priority := (s.threads s.running).initial_priority })
        l { s.locks l with holder := none }) (.lock_sema l)
        { value := ((s.locks l).semaphore.value + 1) % 2 ^ 32, waiters := [] }) := by
    simp only [lock_release, hc, hh, hd, remove_donors, ne_eq, not_true_eq_false, if_false]
    simp only [sema_up, get_sema, set_lock, if_true, hw, list_sort_nil]
  obtain ⟨X, hX⟩ : ∃ X, X = set_sema (set_lock (set_thread s s.running { s.threads s.running with
          donations := .mk [], priority := (s.threads s.running).initial_priority })
        l { s.locks l with holder := none }) (.lock_sema l)
        { value := ((s.locks l).semaphore.value + 1) % 2 ^ 32, waiters := [] } := ⟨_, rfl⟩
  rw [← hX] at e
  have x1 : X.running = s.running := by rw [hX]; rfl
  have x2 : X.intr_context = false := by rw [hX]; exact hi
  have x3 : X.threads = fun i => if i = s.running then { s.threads s.running with
      donations := .mk [], priority := (s.threads s.running).initial_priority }
      else s.threads i := by
    rw [hX]; simp [set_lock, set_thread]
  have x4 : (X.threads X.running).status = .THREAD_RUNNING := by
    rw [x1, x3]; simpa using hr
  rw [e]
  obtain ⟨s1, h1, h2, h3⟩ := change_list_priority k X x4 x2
  refine ⟨s1, h1, ?_, ?_⟩
  · rw [h2, x3]
    simp
  · intro he
    have := h3 (he.trans x1.symm)
    rw [this]
    refine ⟨x2, ?_⟩
    intro x
    rw [x3]
    by_cases hx : x = s.running
    · rw [hx]; simp
    · simp [hx]

theorem thread_create_zeroed_fails (s : kernel) (t : Nat) (prio : Int)
    (hr : (s.threads s.running).status = .THREAD_RUNNING)
    (hi : s.intr_context = false)
    (hl : s.locks tid_lock = { holder := none, semaphore := { value := 1, waiters := [] } })
    (ht : t ≠ s.running)
    (hz : (s.threads s.running).donations = .zeroed) :
    thread_create (some t) prio [] s = none := by
  have ht1 : s.running ≠ t := fun e => ht e.symm
  by_cases hp : PRI_MIN ≤ prio ∧ prio ≤ PRI_MAX
  · simp [thread_create, init_thread, hp, allocate_tid, lock_acquire, thread_current, set_thread,
      ht, ht1, hr, hi, hl, sema_down, sema_down_loop, get_sema, set_sema, set_lock,
      lock_acquire_tail, allocate_tid_tail, lock_release, hz]
  · simp [thread_create, init_thread, hp]

/-- The function thread_create with tid_lock free, called by a thread whose
donations list is an initialised empty list: the call completes, and the
priority of the caller is then its initial_priority. -/
theorem thread_create_resets (s : kernel) (t : Nat) (prio : Int)
    (hr : (s.threads s.running).status = .THREAD_RUNNING)
    (hi : s.intr_context = false)
    (hl : s.locks tid_lock = { holder := none, semaphore := { value := 1, waiters := [] } })
    (ht : t ≠ s.running)
    (hp : PRI_MIN ≤ prio ∧ prio ≤ PRI_MAX)
    (hz : (s.threads s.running).donations = .mk []) :
    ∃ s1, thread_create (some t) prio [] s = some s1
      ∧ (s1.threads s.running).priority = (s.threads s.running).initial_priority := by
  have ht1 : s.running ≠ t := fun e => ht e.symm
  -- init_thread
  obtain ⟨A, hA⟩ : ∃ A, A = set_thread s t
      { thread_zero with status := .THREAD_BLOCKED, priority := prio } := ⟨_, rfl⟩
  have eA : init_thread t prio s = some A := by rw [hA]; simp [init_thread, hp]
  have a1 : A.running = s.running := by rw [hA]; rfl
  have a2 : A.intr_context = false := by rw [hA]; exact hi
  have a3 : A.threads A.running = s.threads s.running := by
    rw [a1, hA]; simp [set_thread, ht1]
  have a4 : (A.threads t).status = .THREAD_BLOCKED := by rw [hA]; simp [set_thread]
  have a5 : A.locks = s.locks := by rw [hA]; rfl
  -- lock_acquire (&tid_lock)
  obtain ⟨B, eB, b1, b2, -, b4, b5⟩ := lock_acquire_free tid_lock
    [frame.allocate_tid_tail t, frame.thread_create_tail t] A
    (by rw [a3]; exact hr) a2 (by rw [a5, hl]) (by rw [a5, hl]; decide)
  have b6 : B.threads B.running = { s.threads s.running with wait_on_lock := none } := by
    rw [b4, b1]; simp [a3]
  have b7 : (B.threads t).status = .THREAD_BLOCKED := by
    rw [b4]; simp [a1, ht, a4]
  -- next_tid++ and lock_release (&tid_lock)
  obtain ⟨C, hC⟩ : ∃ C, C = set_thread { B with next_tid := B.next_tid + 1 } t
      { B.threads t with tid := B.next_tid } := ⟨_, rfl⟩
  have c1 : C.running = s.running := by rw [hC]; exact b1.trans a1
  have c2 : C.intr_context = false := by rw [hC]; exact b2
  have c3 : C.threads C.running = { s.threads s.running with wait_on_lock := none } := by
    rw [c1, hC]
    simp only [set_thread, if_neg ht1]
    rw [← b6, b1, a1]
  have c4 : (C.threads t).status = .THREAD_BLOCKED := by
    rw [hC]; simpa [set_thread] using b7
  have c5 : C.locks = B.locks := by rw [hC]; rfl
  obtain ⟨D, eD, d1, d2⟩ := lock_release_no_donors tid_lock [frame.thread_create_tail t] C
    (by rw [c3]; exact hr) c2 (by rw [c5, b5, c1]; simp [a1]) (by rw [c3]; exact hz)
    (by rw [c5, b5]; simp [a5, hl])
  have eAlloc : allocate_tid t [frame.thread_create_tail t] A = some D := by
    simp only [allocate_tid, eB, allocate_tid_tail]
    rw [if_pos b1]
    rw [hC] at eD
    exact eD
  rw [c3, c1] at d1
  have d1 : (D.threads s.running).priority = (s.threads s.running).initial_priority := d1
  by_cases hrun : D.running = s.running
  · obtain ⟨d3, d4⟩ := d2 (hrun.trans c1.symm)
    obtain ⟨E, hE⟩ : ∃ E, E = set_thread
        { D with ready_list := list_insert_ordered (sort_priority D) t D.ready_list }
        t { D.threads t with status := .THREAD_READY } := ⟨_, rfl⟩
    have eE : thread_unblock t D = some E := by
      rw [hE]
      simp [thread_unblock, d4 t, c4]
    have e1 : E.running = s.running := by rw [hE]; exact hrun
    have e2 : (E.threads E.running).status = .THREAD_RUNNING := by
      rw [e1, hE]
      simp only [set_thread, if_neg ht1]
      rw [d4, ← c1, c3]
      exact hr
    have e3 : E.intr_context = false := by rw [hE]; exact d3
    have e4 : (E.threads s.running).priority = (D.threads s.running).priority := by
      rw [hE]; simp [set_thread, ht1]
    obtain ⟨F, eF, f1, -⟩ := change_list_priority [] E e2 e3
    refine ⟨F, ?_, ?_⟩
    · simp only [thread_create, eA, eAlloc, hrun, if_true, thread_create_tail, eE]
      exact eF
    · rw [f1, e4, d1]
  · refine ⟨D, ?_, d1⟩
    simp only [thread_create, eA, eAlloc, hrun, if_false]

/-- C32: the code of thread_create and thread_init against the claim that the
priority of the caller is unchanged.  The caller runs outside interrupt context
with tid_lock free and creates a thread on another page `t`.  (1) When the
donations list of the caller is zero-filled, as init_thread leaves it,
thread_create does not complete: lock_release (&tid_lock) inside allocate_tid
walks that list.  (2) When the donations list of the caller is an initialised
empty list, thread_create completes and the priority of the caller is then its
initial_priority, whatever priority it had before: lock_release stores
initial_priority, a field that init_thread leaves at 0 and no code writes.
(3) The function thread_init does not complete, in any state. -/
theorem thread_create_resets_creator_priority (s : kernel) (t : Nat) (prio : Int)
    (hr : (s.threads s.running).status = .THREAD_RUNNING)
    (hi : s.intr_context = false)
    (hl : s.locks tid_lock = { holder := none, semaphore := { value := 1, waiters := [] } })
    (ht : t ≠ s.running)
    (hp : PRI_MIN ≤ prio ∧ prio ≤ PRI_MAX) :
    ((s.threads s.running).donations = .zeroed → thread_create (some t) prio [] s = none)
    ∧ ((s.threads s.running).donations = .mk [] →
        ∃ s1, thread_create (some t) prio [] s = some s1
          ∧ (s1.threads s.running).priority = (s.threads s.running).initial_priority)
    ∧ (∀ s0 : kernel, thread_init s0 = none) :=
  ⟨thread_create_zeroed_fails s t prio hr hi hl ht,
    thread_create_resets s t prio hr hi hl ht hp, thread_init_fails⟩

/-- C32 at concrete states.  In ex_main thread 1 runs at priority 31 with a thread
structure as init_thread leaves it: thread_create does not complete.  With the
donations lists initialised (init_lists ex_main) thread_create completes and
leaves thread 1 at priority 0, its initial_priority.  In ex_fifo, where thread 1
also has initial_priority = 31, thread_create leaves thread 1 at priority 31. -/
theorem thread_create_resets_creator_priority_witness :
    (ex_main.threads 1).priority = 31 ∧ (ex_main.threads 1).initial_priority = 0
    ∧ thread_create (some 2) 31 [] ex_main = none
    ∧ (thread_create (some 2) 31 [] (init_lists ex_main)).map
        (fun s => (s.threads 1).priority) = some 0
    ∧ (thread_create (some 2) 31 [] ex_fifo).map (fun s => (s.threads 1).priority) = some 31
    ∧ ((((init_lists ex_main).threads (init_lists ex_main).running).donations = .zeroed →
          thread_create (some 2) 31 [] (init_lists ex_main) = none)
      ∧ (((init_lists ex_main).threads (init_lists ex_main).running).donations = .mk [] →
          ∃ s1, thread_create (some 2) 31 [] (init_lists ex_main) = some s1
            ∧ (s1.threads (init_lists ex_main).running).priority
              = ((init_lists ex_main).threads (init_lists ex_main).running).initial_priority)
      ∧ (∀ s0 : kernel, thread_init s0 = none)) :=
  ⟨by decide, by decide, rfl, by decide, by decide,
    thread_create_resets_creator_priority (init_lists ex_main) 2 31 (by decide) (by decide)
      (by decide) (by decide) (by decide)⟩

/-! ## Theorems: the semaphore of a lock is binary -/

theorem saves_refl (k : List frame) (s : kernel) : saves k s s :=
  ⟨rfl, fun _ => Or.inl rfl⟩

theorem saves_congr (k : List frame) (s s0 s1 : kernel) (h : saves k s0 s1)
    (hl : s0.locks = s.locks) (hc : ∀ t, (s0.threads t).cont = (s.threads t).cont) :
    saves k s s1 :=
  ⟨h.1.trans hl, fun t => by rw [← hc t]; exact h.2 t⟩

theorem lock_inv_of_saves (l : Nat) (k : List frame) (s s1 : kernel)
    (h : lock_inv l s) (hk : lock_frames l false k) (hs : saves k s s1) : lock_inv l s1 := by
  refine ⟨?_, ?_⟩
  · unfold lock_ok
    rw [hs.1]
    exact h.1
  · intro t
    rcases hs.2 t with e | e
    · rw [e]; exact h.2 t
    · rw [e]; exact hk

theorem schedule_saves (k : List frame) (s s1 : kernel) (h : schedule k s = some s1) :
    saves k s s1 := by
  refine ⟨(schedule_globals k s s1 h).1, ?_⟩
  obtain ⟨next, dq, -, e⟩ := schedule_shape k s s1 h
  intro t
  rw [e]
  by_cases hn : s.running = next
  · rw [if_neg (not_not.mpr hn)]
    left
    by_cases ht : t = next <;> simp [set_thread, ht]
  · rw [if_pos hn]
    by_cases ht : t = s.running
    · right
      simp [thread_launch, set_thread, ht]
    · left
      by_cases ht2 : t = next
      · subst ht2
        simp [thread_launch, set_thread, ht, hn]
      · simp [thread_launch, set_thread, ht, ht2]

theorem thread_block_saves (k : List frame) (s s1 : kernel) (h : thread_block k s = some s1) :
    saves k s s1 := by
  unfold thread_block at h
  split_ifs at h
  cases hc : thread_current s with
  | none => simp [hc] at h
  | some cur =>
    simp only [hc] at h
    refine saves_congr k s _ s1 (schedule_saves k _ s1 h) rfl ?_
    intro t
    by_cases ht : t = cur <;> simp [set_thread, ht]

theorem do_schedule_saves (st : thread_status) (k : List frame) (s s1 : kernel)
    (h : do_schedule st k s = some s1) : saves k s s1 := by
  unfold do_schedule at h
  cases hc : thread_current s with
  | none => simp [hc] at h
  | some cur =>
    simp only [hc] at h
    refine saves_congr k s _ s1 (schedule_saves k _ s1 h) rfl ?_
    intro t
    by_cases ht : t = cur <;> simp [set_thread, ht]

theorem thread_yield_saves (k : List frame) (s s1 : kernel) (h : thread_yield k s = some s1) :
    saves k s s1 := by
  unfold thread_yield at h
  cases hc : thread_current s with
  | none => simp [hc] at h
  | some cur =>
    simp only [hc] at h
    split_ifs at h
    · exact saves_congr k s _ s1 (do_schedule_saves _ k _ s1 h) rfl (fun _ => rfl)
    · exact do_schedule_saves _ k s s1 h

theorem change_list_saves (k : List frame) (s s1 : kernel) (h : change_list k s = some s1) :
    saves k s s1 := by
  unfold change_list at h
  cases hc : thread_current s with
  | none => simp [hc] at h
  | some cur =>
    simp only [hc] at h
    cases hl : s.ready_list with
    | nil =>
      simp only [hl, Option.some.injEq] at h
      rw [← h]
      exact saves_refl k s
    | cons f rest =>
      simp only [hl] at h
      split_ifs at h
      · exact thread_yield_saves k s s1 h
      · simp only [Option.some.injEq] at h
        rw [← h]
        exact saves_refl k s

theorem thread_unblock_saves (k : List frame) (t : Nat) (s s1 : kernel)
    (h : thread_unblock t s = some s1) : saves k s s1 := by
  unfold thread_unblock at h
  split_ifs at h
  simp only [Option.some.injEq] at h
  rw [← h]
  refine ⟨rfl, fun x => Or.inl ?_⟩
  by_cases hx : x = t <;> simp [set_thread, hx]

theorem set_sema_locks (s : kernel) (r : sema_ref) (v : semaphore) (l : Nat) :
    (set_sema s r v).locks l
      = if r = .lock_sema l then { s.locks l with semaphore := v } else s.locks l := by
  cases r with
  | sema i => simp [set_sema]
  | lock_sema l1 =>
    by_cases h : l = l1
    · subst h; simp [set_sema, set_lock]
    · have h2 : ¬ l1 = l := fun e => h e.symm
      simp [set_sema, set_lock, h, h2]

theorem lock_inv_set_sema (l : Nat) (s : kernel) (r : sema_ref) (v : semaphore)
    (h : lock_inv l s)
    (hv : r = .lock_sema l → v.value ≤ 1 ∧ ((s.locks l).holder ≠ none → v.value = 0)) :
    lock_inv l (set_sema s r v) := by
  refine ⟨?_, ?_⟩
  · unfold lock_ok
    rw [set_sema_locks]
    by_cases hr : r = .lock_sema l
    · rw [if_pos hr]
      exact hv hr
    · rw [if_neg hr]
      exact h.1
  · intro t
    rw [set_sema_threads]
    exact h.2 t

theorem lock_inv_set_thread (l : Nat) (s : kernel) (t : Nat) (v : thread)
    (h : lock_inv l s) (hv : v.cont = (s.threads t).cont) : lock_inv l (set_thread s t v) := by
  refine ⟨h.1, ?_⟩
  intro x
  by_cases hx : x = t
  · subst hx
    simp only [set_thread, if_true]
    rw [hv]
    exact h.2 x
  · simp only [set_thread, if_neg hx]
    exact h.2 x

theorem lock_inv_congr (l : Nat) (s s1 : kernel) (h : lock_inv l s)
    (hl : s1.locks = s.locks) (hc : ∀ t, (s1.threads t).cont = (s.threads t).cont) :
    lock_inv l s1 :=
  lock_inv_of_saves l [] s s1 h trivial ⟨hl, fun t => Or.inl (hc t)⟩

theorem lock_frames_mono (l : Nat) (k : List frame) (g : Bool) (h : lock_frames l false k) :
    lock_frames l g k := by
  cases k with
  | nil => trivial
  | cons f k =>
    cases f with
    | sema_down_loop r => exact h
    | lock_acquire_tail l1 =>
      refine ⟨fun e => ?_, h.2⟩
      have := h.1 e
      cases this
    | _ => exact h

/-- The loop of sema_down keeps the invariant of lock `l`; when it returns in the
caller after taking the semaphore of `l`, the value of that semaphore is 0. -/
theorem sema_down_loop_lock (l : Nat) (r : sema_ref) (k : List frame) (s s1 : kernel)
    (h : lock_inv l s) (hk : lock_frames l (decide (r = .lock_sema l)) k)
    (hs : sema_down_loop r k s = some s1) :
    lock_inv l s1
      ∧ (s1.running = s.running → r = .lock_sema l → (s1.locks l).semaphore.value = 0) := by
  unfold sema_down_loop at hs
  by_cases hv : (get_sema s r).value = 0
  · rw [if_pos hv] at hs
    cases hc : thread_current s with
    | none => simp [hc] at hs
    | some cur =>
      simp only [hc] at hs
      have hcur : cur = s.running := by
        unfold thread_current at hc
        split_ifs at hc
        cases hc
        rfl
      cases hb : thread_block (frame.sema_down_loop r :: k)
          (set_sema s r { get_sema s r with
            waiters := list_insert_ordered (sort_priority s) cur (get_sema s r).waiters }) with
      | none => simp [hb] at hs
      | some s2 =>
        simp only [hb] at hs
        split_ifs at hs with hrun
        cases hs
        refine ⟨?_, fun e => absurd (e.trans hcur.symm) hrun⟩
        have hk1 : lock_frames l false (frame.sema_down_loop r :: k) := hk
        refine lock_inv_of_saves l _ _ s1 ?_ hk1 (thread_block_saves _ _ _ hb)
        apply lock_inv_set_sema l s r _ h
        intro hr
        subst hr
        exact h.1
  · rw [if_neg hv] at hs
    cases hs
    refine ⟨?_, ?_⟩
    · apply lock_inv_set_sema l s r _ h
      intro hr
      subst hr
      have h1 := h.1.1
      simp only [get_sema] at hv ⊢
      refine ⟨by omega, fun _ => by omega⟩
    · intro _ hr
      subst hr
      have h1 := h.1.1
      rw [set_sema_locks, if_pos rfl]
      simp only [get_sema] at hv ⊢
      omega

theorem sema_down_lock (l : Nat) (r : sema_ref) (k : List frame) (s s1 : kernel)
    (h : lock_inv l s) (hk : lock_frames l (decide (r = .lock_sema l)) k)
    (hs : sema_down r k s = some s1) :
    lock_inv l s1
      ∧ (s1.running = s.running → r = .lock_sema l → (s1.locks l).semaphore.value = 0) := by
  unfold sema_down at hs
  split_ifs at hs
  exact sema_down_loop_lock l r k s s1 h hk hs

/-- The function sema_up keeps the invariant of lock `l`, provided that a sema_up
on the semaphore of `l` itself starts with value 0 and without a holder, as in
lock_release. -/
theorem sema_up_lock (l : Nat) (r : sema_ref) (k : List frame) (s s1 : kernel)
    (h : lock_inv l s) (hk : lock_frames l false k)
    (hp : r = .lock_sema l → (s.locks l).holder = none ∧ (s.locks l).semaphore.value = 0)
    (hs : sema_up r k s = some s1) : lock_inv l s1 := by
  unfold sema_up at hs
  cases hl : list_sort (sort_priority s) (get_sema s r).waiters with
  | none => simp [hl] at hs
  | some ys =>
    cases ys with
    | nil =>
      simp only [hl] at hs
      refine lock_inv_of_saves l k _ s1 ?_ hk (change_list_saves k _ s1 hs)
      apply lock_inv_set_sema l s r _ h
      intro hr
      subst hr
      obtain ⟨p1, p2⟩ := hp rfl
      simp only [get_sema]
      rw [p2]
      exact ⟨by omega, fun hne => absurd p1 hne⟩
    | cons t rest =>
      simp only [hl] at hs
      cases hu : thread_unblock t (set_sema s r { get_sema s r with waiters := rest }) with
      | none => simp [hu] at hs
      | some s2 =>
        simp only [hu] at hs
        have i1 : lock_inv l (set_sema s r { get_sema s r with waiters := rest }) := by
          apply lock_inv_set_sema l s r _ h
          intro hr
          subst hr
          exact h.1
        have hsv := thread_unblock_saves k t _ s2 hu
        have i2 : lock_inv l s2 := lock_inv_of_saves l k _ s2 i1 hk hsv
        refine lock_inv_of_saves l k _ s1 ?_ hk (change_list_saves k _ s1 hs)
        apply lock_inv_set_sema l s2 r _ i2
        intro hr
        subst hr
        obtain ⟨p1, p2⟩ := hp rfl
        have e1 : s2.locks l = (set_sema s (.lock_sema l)
            { get_sema s (.lock_sema l) with waiters := rest }).locks l := by rw [hsv.1]
        rw [set_sema_locks, if_pos rfl] at e1
        simp only [get_sema]
        rw [e1]
        simp only [get_sema]
        rw [p2]
        exact ⟨by omega, fun hne => absurd p1 hne⟩

theorem donate_priority_loop_lock (l : Nat) (n : Nat) (w : Option Nat) (t : Nat) (s : kernel)
    (h : lock_inv l s) :
    lock_inv l (donate_priority_loop n w t s)
      ∧ (donate_priority_loop n w t s).running = s.running := by
  induction n generalizing w s with
  | zero => exact ⟨h, rfl⟩
  | succ n ih =>
    cases w with
    | none => exact ⟨h, rfl⟩
    | some l0 =>
      simp only [donate_priority_loop]
      cases hh : (s.locks l0).holder with
      | none => exact ⟨h, rfl⟩
      | some x =>
        simp only
        split_ifs
        · exact ih _ _ (lock_inv_set_thread l s x _ h rfl)
        · exact ih _ s h

theorem lock_acquire_tail_lock (l l1 : Nat) (s : kernel) (h : lock_inv l s)
    (hv : l1 = l → (s.locks l).semaphore.value = 0) :
    lock_inv l (lock_acquire_tail l1 s) := by
  unfold lock_acquire_tail
  refine lock_inv_set_thread l (set_lock s l1 { s.locks l1 with holder := some s.running })
    s.running _ ?_ rfl
  refine ⟨?_, h.2⟩
  unfold lock_ok
  by_cases e : l = l1
  · subst e
    simp only [set_lock, if_true]
    rw [hv rfl]
    exact ⟨by omega, fun _ => rfl⟩
  · simp only [set_lock, if_neg e]
    exact h.1

/-- The function lock_acquire keeps the invariant of lock `l`. -/
theorem lock_acquire_lock (l l1 : Nat) (k : List frame) (s s1 : kernel)
    (h : lock_inv l s) (hk : lock_frames l false k)
    (hs : lock_acquire l1 k s = some s1) : lock_inv l s1 := by
  unfold lock_acquire at hs
  cases hc : thread_current s with
  | none => simp [hc] at hs
  | some cur =>
    simp only [hc] at hs
    split_ifs at hs with hi hh hd
    · -- the lock has a holder: donate_priority
      have i1 : lock_inv l (set_thread s cur { s.threads cur with wait_on_lock := some l1 }) :=
        lock_inv_set_thread l s cur _ h rfl
      cases hdon : donate_priority
          (set_thread s cur { s.threads cur with wait_on_lock := some l1 }) with
      | none => simp [hdon] at hs
      | some s2 =>
        simp only [hdon] at hs
        have i2 : lock_inv l s2 := by
          unfold donate_priority at hdon
          cases hc2 : thread_current
              (set_thread s cur { s.threads cur with wait_on_lock := some l1 }) with
          | none => simp [hc2] at hdon
          | some t =>
            simp only [hc2, Option.some.injEq] at hdon
            rw [← hdon]
            exact (donate_priority_loop_lock l _ _ _ _ i1).1
        cases hsd : sema_down (.lock_sema l1) (frame.lock_acquire_tail l1 :: k) s2 with
        | none => simp [hsd] at hs
        | some s3 =>
          simp only [hsd] at hs
          have hk1 : lock_frames l (decide (sema_ref.lock_sema l1 = sema_ref.lock_sema l))
              (frame.lock_acquire_tail l1 :: k) := by
            refine ⟨fun e => ?_, hk⟩
            simp [e]
          obtain ⟨i3, v3⟩ := sema_down_lock l _ _ s2 s3 i2 hk1 hsd
          have hr2 : s2.running = cur := by
            unfold donate_priority at hdon
            cases hc2 : thread_current
                (set_thread s cur { s.threads cur with wait_on_lock := some l1 }) with
            | none => simp [hc2] at hdon
            | some t =>
              simp only [hc2, Option.some.injEq] at hdon
              rw [← hdon, (donate_priority_loop_lock l _ _ _ _ i1).2]
              unfold thread_current at hc
              split_ifs at hc
              cases hc
              rfl
          split_ifs at hs with hrun
          · cases hs
            exact lock_acquire_tail_lock l l1 s3 i3
              (fun e => v3 (hrun.trans hr2.symm) (by rw [e]))
          · cases hs
            exact i3
    · -- the lock is free
      have i2 : lock_inv l (set_thread s cur { s.threads cur with wait_on_lock := some l1 }) :=
        lock_inv_set_thread l s cur _ h rfl
      simp only at hs
      cases hsd : sema_down (.lock_sema l1) (frame.lock_acquire_tail l1 :: k)
          (set_thread s cur { s.threads cur with wait_on_lock := some l1 }) with
      | none => simp [hsd] at hs
      | some s3 =>
        simp only [hsd] at hs
        have hk1 : lock_frames l (decide (sema_ref.lock_sema l1 = sema_ref.lock_sema l))
            (frame.lock_acquire_tail l1 :: k) := by
          refine ⟨fun e => ?_, hk⟩
          simp [e]
        obtain ⟨i3, v3⟩ := sema_down_lock l _ _ _ s3 i2 hk1 hsd
        have hr2 : s.running = cur := by
          unfold thread_current at hc
          split_ifs at hc
          cases hc
          rfl
        split_ifs at hs with hrun
        · cases hs
          exact lock_acquire_tail_lock l l1 s3 i3
            (fun e => v3 (hrun.trans hr2.symm) (by rw [e]))
        · cases hs
          exact i3

/-- The function lock_try_acquire keeps the invariant of lock `l`. -/
theorem lock_try_acquire_lock (l l1 : Nat) (s : kernel) (r : kernel × Bool)
    (h : lock_inv l s) (hs : lock_try_acquire l1 s = some r) : lock_inv l r.1 := by
  unfold lock_try_acquire at hs
  cases hc : thread_current s with
  | none => simp [hc] at hs
  | some cur =>
    simp only [hc] at hs
    split_ifs at hs with hh hv
    · cases hs
      simp only [sema_try_down] at hv ⊢
      by_cases hp : (get_sema s (.lock_sema l1)).value > 0
      · simp only [hp, if_true]
        have i1 : lock_inv l (set_sema s (.lock_sema l1) { get_sema s (.lock_sema l1) with
            value := (get_sema s (.lock_sema l1)).value - 1 }) := by
          apply lock_inv_set_sema l s _ _ h
          intro e
          cases e
          have := h.1.1
          simp only [get_sema] at hp ⊢
          exact ⟨by omega, fun _ => by omega⟩
        refine ⟨?_, i1.2⟩
        unfold lock_ok
        by_cases e : l = l1
        · subst e
          have h0 := h.1.1
          simp only [get_sema] at hp
          have hval : ((set_sema s (.lock_sema l) { get_sema s (.lock_sema l) with
              value := (get_sema s (.lock_sema l)).value - 1 }).locks l).semaphore.value
              = (s.locks l).semaphore.value - 1 := by
            rw [set_sema_locks, if_pos rfl]
            rfl
          simp only [set_lock, if_true]
          rw [hval]
          exact ⟨by omega, fun _ => by omega⟩
        · simp only [set_lock, if_neg e]
          exact i1.1
      · simp [hp] at hv
    · cases hs
      simp only [sema_try_down] at hv ⊢
      by_cases hp : (get_sema s (.lock_sema l1)).value > 0
      · simp [hp] at hv
      · simp only [hp, if_false]
        exact h

/-- The function lock_release keeps the invariant of lock `l`. -/
theorem lock_release_lock (l l1 : Nat) (k : List frame) (s s1 : kernel)
    (h : lock_inv l s) (hk : lock_frames l false k)
    (hs : lock_release l1 k s = some s1) : lock_inv l s1 := by
  unfold lock_release at hs
  cases hc : thread_current s with
  | none => simp [hc] at hs
  | some cur =>
    simp only [hc] at hs
    split_ifs at hs with hh
    have hh1 : (s.locks l1).holder = some cur := not_not.mp hh
    have key : ∀ v : thread, v.cont = (s.threads cur).cont →
        sema_up (.lock_sema l1) k (set_lock (set_thread s cur v) l1
          { s.locks l1 with holder := none }) = some s1 → lock_inv l s1 := by
      intro v hv hup
      have i1 : lock_inv l (set_thread s cur v) := lock_inv_set_thread l s cur v h hv
      have i2 : lock_inv l (set_lock (set_thread s cur v) l1
          { s.locks l1 with holder := none }) := by
        refine ⟨?_, i1.2⟩
        unfold lock_ok
        by_cases e : l = l1
        · subst e
          simp only [set_lock, if_true]
          exact ⟨h.1.1, fun hne => absurd rfl hne⟩
        · simp only [set_lock, if_neg e]
          exact h.1
      refine sema_up_lock l _ k _ s1 i2 hk ?_ hup
      intro e
      cases e
      simp only [set_lock, if_true]
      exact ⟨trivial, h.1.2 (by rw [hh1]; simp)⟩
    cases hd : (s.threads cur).donations with
    | zeroed => simp [hd] at hs
    | mk ds =>
      simp only [hd] at hs
      cases hrd : remove_donors s l1 ds with
      | nil =>
        simp only [hrd] at hs
        exact key { s.threads cur with
          donations := .mk [], priority := (s.threads cur).initial_priority } rfl hs
      | cons d ds1 =>
        simp only [hrd] at hs
        cases hl : list_sort (sort_donate_priority s) (d :: ds1) with
        | none => simp [hl] at hs
        | some ys =>
          cases ys with
          | nil => simp [hl] at hs
          | cons f fs =>
            simp only [hl] at hs
            exact key { s.threads cur with
              donations := .mk (f :: fs), priority := (s.threads f).priority } rfl hs

theorem lock_init_lock (l l1 : Nat) (s : kernel) (h : lock_inv l s) :
    lock_inv l (lock_init l1 s) := by
  refine ⟨?_, h.2⟩
  unfold lock_ok lock_init
  by_cases e : l = l1
  · subst e
    simp only [set_lock, if_true]
    exact ⟨by omega, fun hne => absurd rfl hne⟩
  · simp only [set_lock, if_neg e]
    exact h.1

theorem sema_try_down_lock (l : Nat) (r : sema_ref) (s : kernel) (h : lock_inv l s) :
    lock_inv l (sema_try_down r s).1 := by
  unfold sema_try_down
  split_ifs with hp
  · refine lock_inv_set_sema l s r _ h (fun e => ?_)
    subst e
    have := h.1.1
    simp only [get_sema] at hp ⊢
    exact ⟨by omega, fun _ => by omega⟩
  · exact h

theorem allocate_tid_tail_lock (l dst : Nat) (k : List frame) (s s1 : kernel)
    (h : lock_inv l s) (hk : lock_frames l false k)
    (hs : allocate_tid_tail dst k s = some s1) : lock_inv l s1 := by
  unfold allocate_tid_tail at hs
  refine lock_release_lock l tid_lock k _ s1 ?_ hk hs
  exact lock_inv_set_thread l { s with next_tid := s.next_tid + 1 } dst
    { s.threads dst with tid := s.next_tid } (lock_inv_congr l s _ h rfl (fun _ => rfl)) rfl

theorem allocate_tid_lock (l dst : Nat) (k : List frame) (s s1 : kernel)
    (h : lock_inv l s) (hk : lock_frames l false k)
    (hs : allocate_tid dst k s = some s1) : lock_inv l s1 := by
  unfold allocate_tid at hs
  cases ha : lock_acquire tid_lock (frame.allocate_tid_tail dst :: k) s with
  | none => simp [ha] at hs
  | some s2 =>
    simp only [ha] at hs
    have hk1 : lock_frames l false (frame.allocate_tid_tail dst :: k) := hk
    have i2 := lock_acquire_lock l tid_lock (frame.allocate_tid_tail dst :: k) s s2 h hk1 ha
    split_ifs at hs
    · exact allocate_tid_tail_lock l dst k s2 s1 i2 hk hs
    · cases hs
      exact i2

theorem thread_create_tail_lock (l t : Nat) (k : List frame) (s s1 : kernel)
    (h : lock_inv l s) (hk : lock_frames l false k)
    (hs : thread_create_tail t k s = some s1) : lock_inv l s1 := by
  unfold thread_create_tail at hs
  cases hu : thread_unblock t s with
  | none => simp [hu] at hs
  | some s2 =>
    simp only [hu] at hs
    exact lock_inv_of_saves l k s2 s1
      (lock_inv_of_saves l k s s2 h hk (thread_unblock_saves k t s s2 hu)) hk
      (change_list_saves k s2 s1 hs)

theorem thread_create_lock (l : Nat) (page : Option Nat) (p : Int) (k : List frame)
    (s s1 : kernel) (h : lock_inv l s) (hk : lock_frames l false k)
    (hs : thread_create page p k s = some s1) : lock_inv l s1 := by
  unfold thread_create at hs
  cases page with
  | none =>
    simp only [Option.some.injEq] at hs
    rw [← hs]
    exact h
  | some t =>
    simp only at hs
    cases hi : init_thread t p s with
    | none => simp [hi] at hs
    | some s2 =>
      simp only [hi] at hs
      have i2 : lock_inv l s2 := by
        unfold init_thread at hi
        split_ifs at hi
        simp only [Option.some.injEq] at hi
        rw [← hi]
        refine ⟨h.1, ?_⟩
        intro x
        by_cases hx : x = t
        · simp only [set_thread, hx, if_true]
          exact (trivial : lock_frames l false [])
        · simp only [set_thread, if_neg hx]
          exact h.2 x
      cases ha : allocate_tid t (frame.thread_create_tail t :: k) s2 with
      | none => simp [ha] at hs
      | some s3 =>
        simp only [ha] at hs
        have hk1 : lock_frames l false (frame.thread_create_tail t :: k) := hk
        have i3 := allocate_tid_lock l t (frame.thread_create_tail t :: k) s2 s3 i2 hk1 ha
        split_ifs at hs
        · exact thread_create_tail_lock l t k s3 s1 i3 hk hs
        · cases hs
          exact i3

theorem cond_wait_down_lock (l w l1 : Nat) (k : List frame) (s s1 : kernel)
    (h : lock_inv l s) (hk : lock_frames l false k)
    (hs : cond_wait_down w l1 k s = some s1) : lock_inv l s1 := by
  unfold cond_wait_down at hs
  cases hd : sema_down (.sema w) (frame.cond_wait_acquire l1 :: k) s with
  | none => simp [hd] at hs
  | some s2 =>
    simp only [hd] at hs
    have hk1 : lock_frames l (decide (sema_ref.sema w = sema_ref.lock_sema l))
        (frame.cond_wait_acquire l1 :: k) := hk
    have i2 := (sema_down_lock l (.sema w) (frame.cond_wait_acquire l1 :: k) s s2 h hk1 hd).1
    split_ifs at hs
    · exact lock_acquire_lock l l1 k s2 s1 i2 hk hs
    · cases hs
      exact i2

theorem cond_wait_lock (l c l1 w : Nat) (k : List frame) (s s1 : kernel)
    (h : lock_inv l s) (hk : lock_frames l false k)
    (hs : cond_wait c l1 w k s = some s1) : lock_inv l s1 := by
  unfold cond_wait at hs
  split_ifs at hs with hi
  cases hc : thread_current s with
  | none => simp [hc] at hs
  | some cur =>
    simp only [hc] at hs
    split_ifs at hs with hh
    have i1 : lock_inv l (sema_init (.sema w) 0 s) :=
      lock_inv_set_sema l s (.sema w) _ h (fun e => by cases e)
    cases hr : lock_release l1 (frame.cond_wait_down w l1 :: k)
        (set_cond (sema_init (.sema w) 0 s) c
          (list_insert_ordered (sort_donate_priority_sema (sema_init (.sema w) 0 s))
            { semaphore := w, thread := cur } ((sema_init (.sema w) 0 s).conds c))) with
    | none => simp [hr] at hs
    | some s3 =>
      simp only [hr] at hs
      have hk1 : lock_frames l false (frame.cond_wait_down w l1 :: k) := hk
      have i3 := lock_release_lock l l1 (frame.cond_wait_down w l1 :: k)
        (set_cond (sema_init (.sema w) 0 s) c
          (list_insert_ordered (sort_donate_priority_sema (sema_init (.sema w) 0 s))
            { semaphore := w, thread := cur } ((sema_init (.sema w) 0 s).conds c))) s3
        (lock_inv_congr l (sema_init (.sema w) 0 s) _ i1 rfl (fun _ => rfl)) hk1 hr
      split_ifs at hs
      · exact cond_wait_down_lock l w l1 k s3 s1 i3 hk hs
      · cases hs
        exact i3

theorem cond_signal_lock (l c l1 : Nat) (k : List frame) (s s1 : kernel)
    (h : lock_inv l s) (hk : lock_frames l false k)
    (hs : cond_signal c l1 k s = some s1) : lock_inv l s1 := by
  unfold cond_signal at hs
  split_ifs at hs with hi
  cases hc : thread_current s with
  | none => simp [hc] at hs
  | some cur =>
    simp only [hc] at hs
    split_ifs at hs with hh
    cases hw : s.conds c with
    | nil =>
      simp only [hw, Option.some.injEq] at hs
      rw [← hs]
      exact h
    | cons e es =>
      simp only [hw] at hs
      cases hl : list_sort (sort_donate_priority_sema s) (e :: es) with
      | none => simp [hl] at hs
      | some ys =>
        cases ys with
        | nil => simp [hl] at hs
        | cons f fs =>
          simp only [hl] at hs
          exact sema_up_lock l (.sema f.semaphore) k _ s1
            (lock_inv_congr l s (set_cond s c fs) h rfl (fun _ => rfl)) hk
            (fun e => by cases e) hs

theorem cond_broadcast_loop_lock (l c l1 : Nat) (k : List frame) (n : Nat) :
    ∀ (s s1 : kernel), lock_inv l s → lock_frames l false k →
      cond_broadcast_loop c l1 k n s = some s1 → lock_inv l s1 := by
  induction n with
  | zero =>
    intro s s1 _ _ hs
    simp [cond_broadcast_loop] at hs
  | succ n ih =>
    intro s s1 h hk hs
    simp only [cond_broadcast_loop] at hs
    cases hw : s.conds c with
    | nil =>
      simp only [hw, Option.some.injEq] at hs
      rw [← hs]
      exact h
    | cons e es =>
      simp only [hw] at hs
      cases hg : cond_signal c l1 (frame.cond_broadcast_loop c l1 :: k) s with
      | none => simp [hg] at hs
      | some s2 =>
        simp only [hg] at hs
        have hk1 : lock_frames l false (frame.cond_broadcast_loop c l1 :: k) := hk
        have i2 := cond_signal_lock l c l1 (frame.cond_broadcast_loop c l1 :: k) s s2 h hk1 hg
        split_ifs at hs
        · exact ih s2 s1 i2 hk hs
        · cases hs
          exact i2

theorem cond_broadcast_lock (l c l1 : Nat) (k : List frame) (s s1 : kernel)
    (h : lock_inv l s) (hk : lock_frames l false k)
    (hs : cond_broadcast c l1 k s = some s1) : lock_inv l s1 :=
  cond_broadcast_loop_lock l c l1 k _ s s1 h hk hs

theorem thread_exit_lock (l : Nat) (k : List frame) (s s1 : kernel)
    (h : lock_inv l s) (hk : lock_frames l false k)
    (hs : thread_exit k s = some s1) : lock_inv l s1 := by
  unfold thread_exit at hs
  split_ifs at hs with hi
  cases hd : do_schedule .THREAD_DYING k s with
  | none => simp [hd] at hs
  | some s2 =>
    simp only [hd] at hs
    split_ifs at hs
    cases hs
    exact lock_inv_of_saves l k s s1 h hk (do_schedule_saves _ k s s1 hd)

theorem timer_sleep_lock (l : Nat) (ticks : Int) (k : List frame) (s s1 : kernel)
    (h : lock_inv l s) (hk : lock_frames l false k)
    (hs : timer_sleep ticks k s = some s1) : lock_inv l s1 := by
  unfold timer_sleep at hs
  split_ifs at hs with hi ho
  unfold thread_sleep at hs
  cases hc : thread_current s with
  | none => simp [hc] at hs
  | some cur =>
    simp only [hc] at hs
    split_ifs at hs with hidle
    · refine lock_inv_of_saves l k _ s1 ?_ hk (thread_block_saves k _ s1 hs)
      refine lock_inv_congr l (set_thread s cur
        { s.threads cur with wake_up_time := timer_ticks s + ticks }) _ ?_ rfl (fun _ => rfl)
      exact lock_inv_set_thread l s cur _ h rfl
    · cases hs
      exact h

theorem thread_wakeup_loop_lock (l : Nat) (tick : Int) (sl : List Nat) :
    ∀ (s s1 : kernel), lock_inv l s → thread_wakeup_loop tick sl s = some s1 →
      lock_inv l s1 := by
  induction sl with
  | nil =>
    intro s s1 h hs
    simp only [thread_wakeup_loop, Option.some.injEq] at hs
    rw [← hs]
    exact lock_inv_congr l s _ h rfl (fun _ => rfl)
  | cons t rest ih =>
    intro s s1 h hs
    simp only [thread_wakeup_loop] at hs
    split_ifs at hs
    · cases hu : thread_unblock t { s with sleep_list := rest } with
      | none => simp [hu] at hs
      | some s2 =>
        simp only [hu] at hs
        refine ih s2 s1 ?_ hs
        exact lock_inv_of_saves l [] _ s2
          (lock_inv_congr l s { s with sleep_list := rest } h rfl (fun _ => rfl)) trivial
          (thread_unblock_saves [] t _ s2 hu)
    · cases hs
      exact lock_inv_congr l s _ h rfl (fun _ => rfl)

theorem timer_interrupt_lock (l : Nat) (k : List frame) (s s1 : kernel)
    (h : lock_inv l s) (hk : lock_frames l false k)
    (hs : intr_handler timer_interrupt k s = some s1) : lock_inv l s1 := by
  unfold intr_handler at hs
  split_ifs at hs with hi
  cases ht : timer_interrupt { s with intr_context := true, yield_on_return := false } with
  | none => simp [ht] at hs
  | some s2 =>
    simp only [ht] at hs
    have i2 : lock_inv l s2 := by
      unfold timer_interrupt at ht
      split_ifs at ht
      cases hk2 : thread_tick { { s with intr_context := true, yield_on_return := false } with
          ticks := s.ticks + 1 } with
      | none => simp [hk2] at ht
      | some s3 =>
        simp only [hk2] at ht
        have i3 : lock_inv l s3 := by
          unfold thread_tick at hk2
          cases hc : thread_current { { s with intr_context := true, yield_on_return := false }
              with ticks := s.ticks + 1 } with
          | none => simp [hc] at hk2
          | some t =>
            simp only [hc] at hk2
            split_ifs at hk2 <;> (
              simp only [Option.some.injEq] at hk2
              rw [← hk2]
              exact lock_inv_congr l s _ h rfl (fun _ => rfl))
        exact thread_wakeup_loop_lock l _ _ s3 s2 i3 ht
    split_ifs at hs
    · exact lock_inv_of_saves l k _ s1
        (lock_inv_congr l s2 { s2 with intr_context := false } i2 rfl (fun _ => rfl)) hk
        (thread_yield_saves k _ s1 hs)
    · cases hs
      exact lock_inv_congr l s2 _ i2 rfl (fun _ => rfl)

/-- Running saved frames keeps the invariant of lock `l`.  The flag `g` is set when
the caller has just come back from sema_down on the semaphore of `l`, which
then has value 0. -/
theorem run_frames_lock (l : Nat) (k : List frame) :
    ∀ (g : Bool) (s s1 : kernel), lock_inv l s → lock_frames l g k →
      (g = true → (s.locks l).semaphore.value = 0) →
      run_frames k s = some s1 → lock_inv l s1 := by
  induction k with
  | nil =>
    intro g s s1 h _ _ hs
    simp only [run_frames, Option.some.injEq] at hs
    rw [← hs]
    exact h
  | cons f k ih =>
    intro g s s1 h hk hv hs
    simp only [run_frames] at hs
    cases hf : run_frame f k s with
    | none => simp [hf] at hs
    | some s2 =>
      simp only [hf] at hs
      cases f with
      | sema_down_loop r =>
        have hk1 : lock_frames l (decide (r = .lock_sema l)) k := hk
        obtain ⟨i2, v2⟩ := sema_down_loop_lock l r k s s2 h hk1 hf
        split_ifs at hs with hrun
        · exact ih _ s2 s1 i2 hk1 (fun hg => v2 hrun (of_decide_eq_true hg)) hs
        · cases hs
          exact i2
      | lock_acquire_tail l1 =>
        have hk1 : (l1 = l → g = true) ∧ lock_frames l false k := hk
        simp only [run_frame, Option.some.injEq] at hf
        have i2 : lock_inv l s2 := by
          rw [← hf]
          exact lock_acquire_tail_lock l l1 s h (fun e => hv (hk1.1 e))
        split_ifs at hs with hrun
        · exact ih false s2 s1 i2 hk1.2 (fun hg => by cases hg) hs
        · cases hs
          exact i2
      | allocate_tid_tail dst =>
        have hk1 : lock_frames l false k := hk
        have i2 := allocate_tid_tail_lock l dst k s s2 h hk1 hf
        split_ifs at hs with hrun
        · exact ih false s2 s1 i2 hk1 (fun hg => by cases hg) hs
        · cases hs
          exact i2
      | thread_create_tail t =>
        have hk1 : lock_frames l false k := hk
        have i2 := thread_create_tail_lock l t k s s2 h hk1 hf
        split_ifs at hs with hrun
        · exact ih false s2 s1 i2 hk1 (fun hg => by cases hg) hs
        · cases hs
          exact i2
      | cond_wait_down w l1 =>
        have hk1 : lock_frames l false k := hk
        have i2 := cond_wait_down_lock l w l1 k s s2 h hk1 hf
        split_ifs at hs with hrun
        · exact ih false s2 s1 i2 hk1 (fun hg => by cases hg) hs
        · cases hs
          exact i2
      | cond_wait_acquire l1 =>
        have hk1 : lock_frames l false k := hk
        have i2 := lock_acquire_lock l l1 k s s2 h hk1 hf
        split_ifs at hs with hrun
        · exact ih false s2 s1 i2 hk1 (fun hg => by cases hg) hs
        · cases hs
          exact i2
      | cond_broadcast_loop c l1 =>
        have hk1 : lock_frames l false k := hk
        have i2 := cond_broadcast_lock l c l1 k s s2 h hk1 hf
        split_ifs at hs with hrun
        · exact ih false s2 s1 i2 hk1 (fun hg => by cases hg) hs
        · cases hs
          exact i2

theorem resume_lock (l : Nat) (s s1 : kernel) (h : lock_inv l s) (hs : resume s = some s1) :
    lock_inv l s1 := by
  unfold resume at hs
  refine run_frames_lock l _ false _ s1 ?_ (h.2 s.running) (fun hg => by cases hg) hs
  refine ⟨h.1, ?_⟩
  intro t
  by_cases ht : t = s.running
  · simp only [set_thread, ht, if_true]
    trivial
  · simp only [set_thread, if_neg ht]
    exact h.2 t

theorem do_call_lock (l : Nat) (c : call) (s s1 : kernel) (h : lock_inv l s)
    (hc : lock_call l c) (hs : do_call c s = some s1) : lock_inv l s1 := by
  cases c with
  | lock_init l1 =>
    simp only [do_call, Option.some.injEq] at hs
    rw [← hs]
    exact lock_init_lock l l1 s h
  | lock_acquire l1 => exact lock_acquire_lock l l1 [] s s1 h trivial hs
  | lock_try_acquire l1 =>
    simp only [do_call] at hs
    cases hr : lock_try_acquire l1 s with
    | none => simp [hr] at hs
    | some r =>
      simp only [hr, Option.some.injEq] at hs
      rw [← hs]
      exact lock_try_acquire_lock l l1 s r h hr
  | lock_release l1 => exact lock_release_lock l l1 [] s s1 h trivial hs
  | thread_yield => exact lock_inv_of_saves l [] s s1 h trivial (thread_yield_saves [] s s1 hs)
  | thread_set_priority p =>
    simp only [do_call, thread_set_priority] at hs
    cases hcur : thread_current s with
    | none => simp [hcur] at hs
    | some cur =>
      simp only [hcur] at hs
      exact lock_inv_of_saves l []
        (set_thread s cur { s.threads cur with priority := p }) s1
        (lock_inv_set_thread l s cur { s.threads cur with priority := p } h rfl) trivial
        (change_list_saves [] _ s1 hs)
  | sema_down r => exact (sema_down_lock l r [] s s1 h trivial hs).1
  | sema_try_down r =>
    simp only [do_call, Option.some.injEq] at hs
    rw [← hs]
    exact sema_try_down_lock l r s h
  | sema_up r =>
    refine sema_up_lock l r [] s s1 h trivial (fun e => ?_) hs
    subst e
    exact absurd rfl hc
  | sema_init r v =>
    simp only [do_call, Option.some.injEq] at hs
    rw [← hs]
    refine lock_inv_set_sema l s r _ h (fun e => ?_)
    subst e
    exact absurd rfl hc
  | thread_create page p => exact thread_create_lock l page p [] s s1 h trivial hs
  | cond_init c =>
    simp only [do_call, Option.some.injEq] at hs
    rw [← hs]
    exact lock_inv_congr l s _ h rfl (fun _ => rfl)
  | cond_wait c l1 w => exact cond_wait_lock l c l1 w [] s s1 h trivial hs
  | cond_signal c l1 => exact cond_signal_lock l c l1 [] s s1 h trivial hs
  | cond_broadcast c l1 => exact cond_broadcast_lock l c l1 [] s s1 h trivial hs
  | timer_sleep t => exact timer_sleep_lock l t [] s s1 h trivial hs
  | timer_interrupt => exact timer_interrupt_lock l [] s s1 h trivial hs
  | thread_exit => exact thread_exit_lock l [] s s1 h trivial hs

theorem exec_lock (l : Nat) (c : call) (s s1 : kernel) (h : lock_inv l s)
    (hc : lock_call l c) (hs : exec c s = some s1) : lock_inv l s1 := by
  unfold exec at hs
  cases hr : resume s with
  | none => simp [hr] at hs
  | some s2 =>
    simp only [hr] at hs
    have i2 := resume_lock l s s2 h hr
    split_ifs at hs
    · exact do_call_lock l c s2 s1 i2 hc hs
    · cases hs
      exact i2

theorem run_calls_lock (l : Nat) (cs : List call) :
    ∀ (s s1 : kernel), lock_inv l s → (∀ c ∈ cs, lock_call l c) →
      run_calls cs s = some s1 → lock_inv l s1 := by
  induction cs with
  | nil =>
    intro s s1 h _ hs
    simp only [run_calls, Option.some.injEq] at hs
    rw [← hs]
    exact h
  | cons c cs ih =>
    intro s s1 h hc hs
    simp only [run_calls] at hs
    cases he : exec c s with
    | none => simp [he] at hs
    | some s2 =>
      simp only [he] at hs
      exact ih s2 s1 (exec_lock l c s s2 h (hc c (List.mem_cons_self _ _)) he)
        (fun c1 h1 => hc c1 (List.mem_cons_of_mem _ h1)) hs

theorem donate_priority_loop_locks (n : Nat) (w : Option Nat) (t : Nat) (s : kernel) :
    (donate_priority_loop n w t s).locks = s.locks
      ∧ (donate_priority_loop n w t s).running = s.running
      ∧ (donate_priority_loop n w t s).intr_context = s.intr_context := by
  induction n generalizing w s with
  | zero => exact ⟨rfl, rfl, rfl⟩
  | succ n ih =>
    cases w with
    | none => exact ⟨rfl, rfl, rfl⟩
    | some l0 =>
      simp only [donate_priority_loop]
      cases hh : (s.locks l0).holder with
      | none => exact ⟨rfl, rfl, rfl⟩
      | some x =>
        simp only
        split_ifs
        · exact ih _ _
        · exact ih _ s

/-- While the semaphore of lock `l` has value 0, lock_try_acquire fails and
changes nothing. -/
theorem lock_try_acquire_held (l : Nat) (s : kernel) (r : kernel × Bool)
    (hv : (s.locks l).semaphore.value = 0) (hs : lock_try_acquire l s = some r) :
    r.2 = false ∧ r.1.locks = s.locks := by
  unfold lock_try_acquire at hs
  cases hc : thread_current s with
  | none => simp [hc] at hs
  | some cur =>
    simp only [hc] at hs
    have e : sema_try_down (.lock_sema l) s = (s, false) := by
      simp [sema_try_down, get_sema, hv]
    rw [e] at hs
    by_cases hh : (s.locks l).holder = some cur
    · simp [hh] at hs
    · simp only [hh, if_false, Bool.false_eq_true, Option.some.injEq] at hs
      rw [← hs]
      exact ⟨rfl, rfl⟩

/-- While the semaphore of lock `l` has value 0, a caller of lock_acquire does not
come back from it: it is switched out, and holder and value are as before. -/
theorem lock_acquire_held (l : Nat) (k : List frame) (s s1 : kernel)
    (hv : (s.locks l).semaphore.value = 0) (hs : lock_acquire l k s = some s1) :
    s1.running ≠ s.running ∧ (s1.locks l).holder = (s.locks l).holder
      ∧ (s1.locks l).semaphore.value = 0 := by
  unfold lock_acquire at hs
  cases hc : thread_current s with
  | none => simp [hc] at hs
  | some cur =>
    simp only [hc] at hs
    have hcur : cur = s.running := by
      unfold thread_current at hc
      split_ifs at hc
      cases hc
      rfl
    have key : ∀ s2 : kernel, s2.locks = s.locks → s2.running = s.running →
        (match sema_down (.lock_sema l) (frame.lock_acquire_tail l :: k) s2 with
          | none => none
          | some s3 => if s3.running = cur then some (lock_acquire_tail l s3) else some s3)
          = some s1 →
        s1.running ≠ s.running ∧ (s1.locks l).holder = (s.locks l).holder
          ∧ (s1.locks l).semaphore.value = 0 := by
      intro s2 h1 h2 hm
      cases hd : sema_down (.lock_sema l) (frame.lock_acquire_tail l :: k) s2 with
      | none => simp [hd] at hm
      | some s3 =>
        simp only [hd] at hm
        unfold sema_down at hd
        split_ifs at hd
        unfold sema_down_loop at hd
        have hv2 : (get_sema s2 (.lock_sema l)).value = 0 := by
          simp only [get_sema]; rw [h1]; exact hv
        rw [if_pos hv2] at hd
        cases hc2 : thread_current s2 with
        | none => simp [hc2] at hd
        | some cur2 =>
          simp only [hc2] at hd
          have hcur2 : cur2 = s2.running := by
            unfold thread_current at hc2
            split_ifs at hc2
            cases hc2
            rfl
          cases hb : thread_block
              (frame.sema_down_loop (.lock_sema l) :: frame.lock_acquire_tail l :: k)
              (set_sema s2 (.lock_sema l) { get_sema s2 (.lock_sema l) with
                waiters := list_insert_ordered (sort_priority s2) cur2
                  (get_sema s2 (.lock_sema l)).waiters }) with
          | none => simp [hb] at hd
          | some s4 =>
            simp only [hb] at hd
            split_ifs at hd with hrun
            cases hd
            have hne : ¬ s3.running = cur := by
              rw [hcur, ← h2, ← hcur2]
              exact hrun
            rw [if_neg hne] at hm
            cases hm
            have hl := (thread_block_globals _ _ _ hb).1
            have e : s1.locks l = { s.locks l with semaphore := { (s.locks l).semaphore with
                waiters := list_insert_ordered (sort_priority s2) cur2
                  (s.locks l).semaphore.waiters } } := by
              rw [hl, set_sema_locks, if_pos rfl]
              simp only [get_sema]
              rw [h1]
            refine ⟨?_, ?_, ?_⟩
            · rw [← hcur]; exact hne
            · rw [e]
            · rw [e]; exact hv
    split_ifs at hs with hi hh hd
    · cases hdon : donate_priority
          (set_thread s cur { s.threads cur with wait_on_lock := some l }) with
      | none => simp [hdon] at hs
      | some s2 =>
        simp only [hdon] at hs
        unfold donate_priority at hdon
        cases hc2 : thread_current
            (set_thread s cur { s.threads cur with wait_on_lock := some l }) with
        | none => simp [hc2] at hdon
        | some t =>
          simp only [hc2, Option.some.injEq] at hdon
          obtain ⟨d1, d2, -⟩ := donate_priority_loop_locks MAX_DEPTH
            ((set_thread s cur { s.threads cur with wait_on_lock := some l }).threads t).wait_on_lock
            t (set_thread s cur { s.threads cur with wait_on_lock := some l })
          rw [hdon] at d1 d2
          exact key s2 d1 d2 hs
    · simp only at hs
      exact key (set_thread s cur { s.threads cur with wait_on_lock := some l }) rfl rfl hs

/-- C33: the semaphore embedded in a lock is binary and agrees with the holder.
The run starts with lock_init on lock `l`, in a state in which no thread was
switched out between the sema_down of a lock_acquire on `l` and the rest of
that lock_acquire; it continues with any public operations, each called by
the thread that is running (after it finished the kernel work it was switched
out in) and each completing, so that its ASSERTs held; the only operations
left out are sema_up and sema_init applied directly to the semaphore of `l`.
In the state after the run the value of that semaphore is 0 or 1, and it is 0
when the lock has a holder.  So while a thread holds the lock no second thread
gets it: lock_try_acquire returns false, a caller of lock_acquire is switched
out, and the holder stays the same (the holder is one field of the lock). -/
theorem lock_semaphore_binary (l : Nat) (s : kernel) (cs : List call) (s1 : kernel)
    (hk : ∀ t, lock_frames l false (s.threads t).cont)
    (hc : ∀ c ∈ cs, lock_call l c)
    (h : run_calls cs (lock_init l s) = some s1) :
    (s1.locks l).semaphore.value ≤ 1
    ∧ ((s1.locks l).holder ≠ none → (s1.locks l).semaphore.value = 0)
    ∧ (∀ h0, (s1.locks l).holder = some h0 →
        (∀ r, lock_try_acquire l s1 = some r →
          r.2 = false ∧ (r.1.locks l).holder = some h0)
        ∧ (∀ k s2, lock_acquire l k s1 = some s2 →
          s2.running ≠ s1.running ∧ (s2.locks l).holder = some h0)) := by
  have i0 : lock_inv l (lock_init l s) := by
    refine ⟨?_, hk⟩
    unfold lock_ok lock_init
    simp only [set_lock, if_true]
    exact ⟨Nat.le_refl 1, fun hne => absurd rfl hne⟩
  have i1 := run_calls_lock l cs (lock_init l s) s1 i0 hc h
  refine ⟨i1.1.1, i1.1.2, ?_⟩
  intro h0 hh
  have hv : (s1.locks l).semaphore.value = 0 := i1.1.2 (by rw [hh]; simp)
  refine ⟨?_, ?_⟩
  · intro r hr
    obtain ⟨r1, r2⟩ := lock_try_acquire_held l s1 r hv hr
    exact ⟨r1, by rw [r2]; exact hh⟩
  · intro k s2 hs
    obtain ⟨a1, a2, -⟩ := lock_acquire_held l k s1 s2 hv hs
    exact ⟨a1, by rw [a2]; exact hh⟩

/-- C33 at a concrete run from ex_start with initialised donations lists: thread 1
takes lock 7 and lowers its priority to 10; threads 2 and 4 block on the lock;
thread 1 releases it (value 1, no holder, thread 2 woken); thread 2 then
finishes its lock_acquire (value 0, holder 2). -/
theorem lock_semaphore_binary_witness :
    (∀ t, lock_frames 7 false (((init_lists ex_start).threads t).cont))
    ∧ (∀ c ∈ [call.lock_acquire 7, .thread_set_priority 10, .lock_acquire 7,
        .sema_down (.sema 9), .lock_acquire 7, .lock_release 7, .thread_yield], lock_call 7 c)
    ∧ (run_calls [.lock_acquire 7, .thread_set_priority 10, .lock_acquire 7,
        .sema_down (.sema 9), .lock_acquire 7, .lock_release 7]
          (lock_init 7 (init_lists ex_start))).map
        (fun s => ((s.locks 7).holder, (s.locks 7).semaphore.value, s.running))
      = some (none, 1, 2)
    ∧ ∃ s1, run_calls [.lock_acquire 7, .thread_set_priority 10, .lock_acquire 7,
          .sema_down (.sema 9), .lock_acquire 7, .lock_release 7, .thread_yield]
          (lock_init 7 (init_lists ex_start)) = some s1
      ∧ (s1.locks 7).holder = some 2
      ∧ ((s1.locks 7).semaphore.value ≤ 1
        ∧ ((s1.locks 7).holder ≠ none → (s1.locks 7).semaphore.value = 0)
        ∧ (∀ h0, (s1.locks 7).holder = some h0 →
            (∀ r, lock_try_acquire 7 s1 = some r →
              r.2 = false ∧ (r.1.locks 7).holder = some h0)
            ∧ (∀ k s2, lock_acquire 7 k s1 = some s2 →
              s2.running ≠ s1.running ∧ (s2.locks 7).holder = some h0))) := by
  have hk : ∀ t, lock_frames 7 false (((init_lists ex_start).threads t).cont) := by
    intro t
    have e : ((init_lists ex_start).threads t).cont = [] := by
      simp only [init_lists, ex_start]
      split <;> rfl
    rw [e]
    trivial
  have hc : ∀ c ∈ [call.lock_acquire 7, .thread_set_priority 10, .lock_acquire 7,
      .sema_down (.sema 9), .lock_acquire 7, .lock_release 7, .thread_yield],
      lock_call 7 c := by
    intro c hm
    simp only [List.mem_cons, List.mem_singleton, List.not_mem_nil, or_false] at hm
    rcases hm with e | e | e | e | e | e | e <;> (rw [e]; trivial)
  have h2 : (run_calls [.lock_acquire 7, .thread_set_priority 10, .lock_acquire 7,
      .sema_down (.sema 9), .lock_acquire 7, .lock_release 7, .thread_yield]
      (lock_init 7 (init_lists ex_start))).map (fun s => (s.locks 7).holder)
      = some (some 2) := by decide
  refine ⟨hk, hc, by decide, ?_⟩
  cases he : run_calls [.lock_acquire 7, .thread_set_priority 10, .lock_acquire 7,
      .sema_down (.sema 9), .lock_acquire 7, .lock_release 7, .thread_yield]
      (lock_init 7 (init_lists ex_start)) with
  | none => rw [he] at h2; cases h2
  | some s1 =>
    rw [he] at h2
    exact ⟨s1, rfl, Option.some.inj h2,
      lock_semaphore_binary 7 (init_lists ex_start) _ s1 hk hc he⟩

end Pintos
